import Mathlib

/-!
# FSVS, `waa.c`: the working copy administrative area

A shallow embedding of the functions of `src/waa.c` and theorems about them.

Conventions of the embedding.

* A byte is a `Nat`, a C string is the list of its bytes before the
  terminating NUL (`CStr`); reading a string at its length yields `0`.
* `struct estat` lives in a heap `Nat → estat`; a pointer to an entry is the
  `Nat` naming it, `Option Nat` where the pointer may be `NULL`.
* A system call's outcome is given by an environment record (an oracle); the
  functions are deterministic in it.
* The error macros of `global.h` are used in `waa.c` as follows, and are
  embedded like that: `STOPIF(code, ...)` assigns `status = code` and jumps to
  the label `ex` if it is non-zero; `STOPIF_CODE_ERR(cond, code, ...)` assigns
  `status = code` and jumps to `ex` if `cond` holds; `BUG_ON(cond)` aborts the
  process if `cond` holds.
-/

namespace Fsvs

/-! ## Definitions -/

/-- A C string: its bytes without the terminating NUL. -/
abbrev CStr := List Nat

/-- The path separator `/`. -/
def PATH_SEPARATOR : Nat := 47

/-- Error numbers of `errno.h` that `waa.c` names. -/
def ENOENT : Int := 2

/-- Out of memory. -/
def ENOMEM : Int := 12

/-- Invalid argument; the code of the damaged-tree error. -/
def EINVAL : Int := 22

/-- How a run of an embedded function ends. -/
inductive Run (α : Type) where
  /-- The function returned. -/
  | ret (a : α)
  /-- A `BUG_ON` fired, or a wild pointer was used: the process aborts. -/
  | bug
  /-- The iteration bound given to the model was too small. -/
  | fuel
deriving Repr, DecidableEq

/-- The outcome of one system call: `none` for success (return value `0`),
`some e` for the return value `-1` with `errno = e`. -/
abbrev SysRet := Option Int

/-- The byte at index `i` of a C string; the terminating NUL at its end. -/
def CStr.at (s : CStr) (i : Nat) : Nat := s.getD i 0

/-- `strrchr(s, c)` as an index: the last position of `c` in `s`. -/
def strrchr (s : CStr) (c : Nat) : Option Nat :=
  match s with
  | [] => none
  | x :: xs =>
    match strrchr xs c with
    | some i => some (i + 1)
    | none => if x = c then some 0 else none

/-! ### `waa__close` -/

/-- The pair of names kept per written file handle in `target_name_array`. -/
structure waa___temp_names_t where
  temp_name : CStr
  dest_name : CStr
deriving Repr, DecidableEq

/-- The files by name, with their contents; `none` where no file exists. -/
abbrev Files := CStr → Option (List Nat)

/-- The system calls `waa__close` issues, in the order issued. -/
inductive SysCall where
  | close (fd : Int)
  | mkdir (dir : CStr)
  | rename (src dst : CStr)
  | unlink (name : CStr)
deriving Repr, DecidableEq

/-- Whether a call is an `unlink`. -/
def SysCall.isUnlink : SysCall → Bool
  | SysCall.unlink _ => true
  | _ => false

/-- What the system answers to the calls of one `waa__close`. `mkdir_status`
is the status `waa__mkdir` returns for the directory of the destination. -/
structure CloseEnv where
  close_ret : SysRet
  mkdir_status : Int
  rename_ret : SysRet
  unlink_ret : SysRet
deriving Repr, DecidableEq

/-- The status `waa__close` returns, the files afterwards and the calls made. -/
structure CloseResult where
  status : Int
  files : Files
  calls : List SysCall

/-- A successful `rename(src, dst)`: `dst` gets the file, `src` is gone. -/
def Files.rename (f : Files) (src dst : CStr) : Files :=
  Function.update (Function.update f dst (f src)) src none

/-- A successful `unlink(name)`. -/
def Files.unlink (f : Files) (name : CStr) : Files :=
  Function.update f name none

/-- The code of `waa__close` from the label `ex` on: unlink the temporary
file if `do_unlink` is still set, then return `status`. -/
def waa__close_ex (env : CloseEnv) (files : Files) (target : waa___temp_names_t)
    (status : Int) (do_unlink : Bool) (calls : List SysCall) : CloseResult :=
  if do_unlink then
    match env.unlink_ret with
    | some e => ⟨e, files, calls ++ [SysCall.unlink target.temp_name]⟩
    | none => ⟨status, files.unlink target.temp_name,
        calls ++ [SysCall.unlink target.temp_name]⟩
  else ⟨status, files, calls⟩

/-- The function `waa__close(filehandle, has_failed)`; `target` is
`target_name_array[filehandle]`. -/
def waa__close (env : CloseEnv) (files : Files) (filehandle : Int)
    (target : waa___temp_names_t) (has_failed : Int) : Run CloseResult :=
  let calls := [SysCall.close filehandle]
  if has_failed = 0 then
    match env.close_ret with
    | some e => Run.ret (waa__close_ex env files target e true calls)
    | none =>
      match strrchr target.dest_name PATH_SEPARATOR with
      | none => Run.bug
      | some cp =>
        let calls := calls ++ [SysCall.mkdir (target.dest_name.take cp)]
        if env.mkdir_status ≠ 0 then
          Run.ret (waa__close_ex env files target env.mkdir_status true calls)
        else
          let calls := calls ++ [SysCall.rename target.temp_name target.dest_name]
          match env.rename_ret with
          | some e => Run.ret (waa__close_ex env files target e true calls)
          | none =>
            Run.ret (waa__close_ex env
              (files.rename target.temp_name target.dest_name) target 0 false calls)
  else
    Run.ret (waa__close_ex env files target 0 true calls)

/-! ### Entries and the heap -/

/-- Unsigned 32 bit arithmetic (`unsigned`): the value modulo `2^32`. -/
def u32 (n : Nat) : Nat := n % 4294967296

/-- The part of `struct sstat_t` the dir-file keeps. -/
structure sstat_t where
  dev : Nat
  ino : Nat
  mode : Nat
  size : Nat
  mtime : Nat
deriving Repr, DecidableEq, Inhabited

/-- `S_ISDIR(mode)`: `(mode & S_IFMT) == S_IFDIR`, with `S_IFMT = 0170000` and
`S_IFDIR = 0040000`. -/
def S_ISDIR (mode : Nat) : Bool := mode / 4096 % 16 == 4

/-- Modelled from the spec: the values of `entry_type` of section 3.1
(`global.h`, which defines them, is not among the sources). -/
inductive entry_type_t where
  | FT_IGNORE
  | FT_FILE
  | FT_DIR
  | FT_SYMLINK
  | FT_DEVICE
deriving Repr, DecidableEq, Inhabited

/-- The fields of `struct estat` that `waa.c` uses. `by_inode` is the array of
child pointers with its terminating `NULL` (`none`) as last element; the empty
list stands for a `NULL` array pointer. -/
structure estat where
  name : CStr
  parent : Option Nat
  st : sstat_t
  entry_type : entry_type_t
  entry_status : Nat
  flags : Nat
  entry_count : Nat
  by_inode : List (Option Nat)
  by_name : List (Option Nat)
  child_index : Nat
  path_level : Nat
  file_index : Nat
  repos_rev : Nat
  other_revs : Bool
  path_len : Nat
  to_be_sorted : Bool
  do_full : Bool
  do_full_child : Bool
  do_a_child : Bool
  url : Option Nat
deriving Repr, DecidableEq, Inhabited

/-- The memory holding the entries: the entry each pointer points to. -/
abbrev Heap := Nat → estat

/-- Store `e` at pointer `p`. -/
def Heap.set (h : Heap) (p : Nat) (e : estat) : Heap := Function.update h p e

/-- A pointer into the `by_inode` array of a directory, as kept in the array
`directory` of `waa__output_tree`: the directory and the index in its array. -/
structure Cursor where
  dir : Nat
  pos : Nat
deriving Repr, DecidableEq, Inhabited

/-- The value `*c` of a cursor `c`: `some none` is the `NULL` at the end of
the array, `none` a read outside of the array. -/
def Cursor.deref (h : Heap) (c : Cursor) : Option (Option Nat) :=
  (h c.dir).by_inode.get? c.pos

/-- The entry `**c` that the comparison function reads through a cursor. On
the arrays of a well-formed tree the cursors that are compared never stand at
a `NULL`; the default entry stands for what a wild read yields. -/
def Cursor.head (h : Heap) (c : Cursor) : estat :=
  match c.deref h with
  | some (some p) => h p
  | _ => default

/-! ### `waa___find_position` -/

/-- The `while (1)` loop of `waa___find_position`; `cmpAt i` is
`dir___f_sort_by_inode(new, array[i])`. One unit of fuel is one iteration. -/
def waa___find_position_loop (cmpAt : Nat → Int) : Nat → Nat → Nat → Run Nat
  | 0, _, _ => Run.fuel
  | fuel + 1, smaller, bigger_eq =>
    let middle := (bigger_eq + smaller) / 2
    let status := cmpAt middle
    if status > 0 then
      if bigger_eq ≤ middle + 1 then Run.ret bigger_eq
      else waa___find_position_loop cmpAt fuel (middle + 1) bigger_eq
    else if status < 0 then
      if middle ≤ smaller then Run.ret middle
      else waa___find_position_loop cmpAt fuel smaller middle
    else Run.ret middle

/-- The function `waa___find_position(new, array, count)`; `cmpAt i` is
`dir___f_sort_by_inode(new, array[i])`. -/
def waa___find_position (cmpAt : Nat → Int) (count : Nat) : Run Nat :=
  if count = 0 then Run.ret 0
  else if cmpAt 0 < 0 then Run.ret 0
  else if count = 1 then Run.ret 1
  else if cmpAt (count - 1) ≥ 0 then Run.ret count
  else waa___find_position_loop cmpAt count 1 (count - 1)

/-- The call `waa___find_position(new, array, count)` on cursors, with the
comparison `cmp` standing for `dir___f_sort_by_inode` (of `direnum.c`). -/
def find_position_cursors (cmp : estat → estat → Int) (h : Heap) (new : Cursor)
    (array : List Cursor) : Run Nat :=
  waa___find_position (fun i => cmp (new.head h) ((array.getD i default).head h))
    array.length

/-! ### The header line of the dir-file -/

/-- The constants of `waa.h` that `waa.c` uses; the header is not among the
sources, so they are parameters. -/
structure Consts where
  HEADER_LEN : Nat
  WAA_VERSION : Nat
deriving Repr, DecidableEq, Inhabited

/-- Digits of `n`, most significant first, in front of `acc`; the fuel bounds
the number of digits. -/
def fmt_u_aux : Nat → Nat → List Nat → List Nat
  | 0, _, acc => acc
  | fuel + 1, n, acc =>
    if n / 10 = 0 then (n % 10 + 48) :: acc
    else fmt_u_aux fuel (n / 10) ((n % 10 + 48) :: acc)

/-- What `printf` writes for `%u` and `%lu`: the decimal digits of `n`. -/
def fmt_u (n : Nat) : List Nat := fmt_u_aux (n + 1) n []

/-- The text `snprintf` produces for `waa__header_line`, that is
`"%u %lu %u %u %u %u"`, from the six values. -/
def fmt_header (a b c d e f : Nat) : List Nat :=
  fmt_u a ++ [32] ++ fmt_u b ++ [32] ++ fmt_u c ++ [32] ++ fmt_u d ++ [32] ++
    fmt_u e ++ [32] ++ fmt_u f

/-- Overwrite the bytes of `buf` from offset `off` on with `data`. -/
def buf_write (buf : List Nat) (off : Nat) (data : List Nat) : List Nat :=
  buf.take off ++ data ++ buf.drop (off + data.length)

/-- The string `"UNFINISHED"`. -/
def str_UNFINISHED : List Nat := [85, 78, 70, 73, 78, 73, 83, 72, 69, 68]

/-- The placeholder header written first: `char header[HEADER_LEN] =
"UNFINISHED"` with the rest set to newlines by `memset`. -/
def header_placeholder (k : Consts) : List Nat :=
  buf_write (str_UNFINISHED ++ List.replicate (k.HEADER_LEN - 10) 0)
    str_UNFINISHED.length
    (List.replicate (k.HEADER_LEN - str_UNFINISHED.length) 10)

/-- The header buffer after `snprintf` of `text` (with its NUL), the `memset`
with spaces up to the last byte, and the `$` at `HEADER_LEN-2`. -/
def header_final (k : Consts) (text : List Nat) : List Nat :=
  let h1 := buf_write (header_placeholder k) 0 (text ++ [0])
  let h2 := buf_write h1 text.length
    (List.replicate (k.HEADER_LEN - 1 - text.length) 32)
  buf_write h2 (k.HEADER_LEN - 2) [36]

/-! ### `waa__output_tree` -/

/-- The functions of other source files that `waa__output_tree` calls:
the comparison of `direnum.c`, the bytes `ops__save_1entry` writes for an
entry and a parent index, the in-place sort `dir__sortbyinode`, and the path
length `ops__calc_path_len` stores in `path_len`. -/
structure OutputExt where
  dir___f_sort_by_inode : estat → estat → Int
  ops__save_1entry : estat → Nat → List Nat
  dir__sortbyinode : Heap → Nat → Heap
  ops__calc_path_len : Heap → Nat → Nat

/-- What the system answers during one `waa__output_tree`: the status of
`waa__open_dir` with the handle and names it registers, the two `write`s of
the header, the status of the `n`-th `ops__save_1entry`, `lseek`, and the
calls of `waa__close`. -/
structure OutputEnv where
  open_status : Int
  fd : Int
  target : waa___temp_names_t
  write_placeholder : SysRet
  save_status : Nat → Int
  lseek_ret : SysRet
  write_header : SysRet
  close_env : CloseEnv

/-- The local variables of `waa__output_tree` (`max_dir` is the length of
`directory`), the heap, the bytes written after the header so far, and the
calls of `ops__save_1entry` so far: the entry and the parent index given. -/
structure OutState where
  heap : Heap
  directory : List Cursor
  alloc_dir : Nat
  complete_count : Nat
  string_space : Nat
  max_path_len : Nat
  body : List Nat
  saved : List (Nat × Nat)

/-- Insert `c` at index `i`, moving the elements from `i` on one further
(the `memmove` and the store of `waa__output_tree`). -/
def insert_cursor (dir : List Cursor) (i : Nat) (c : Cursor) : List Cursor :=
  dir.take i ++ c :: dir.drop i

/-- The first part of a loop iteration: take `sts = *directory[0]`, advance
`directory[0]`, and drop the cursor (at the end of its array) or move it to
its place. Yields `sts` and the new array. -/
def output_advance (x : OutputExt) (h : Heap) (c : Cursor) (rest : List Cursor) :
    Run (Nat × List Cursor) :=
  match c.deref h with
  | some (some sts) =>
    let c1 : Cursor := ⟨c.dir, c.pos + 1⟩
    match c1.deref h with
    | none => Run.bug
    | some none => Run.ret (sts, rest)
    | some (some _) =>
      if rest.length + 1 > 1 then
        match find_position_cursors x.dir___f_sort_by_inode h c1 rest with
        | Run.ret i =>
          if i ≠ 0 then Run.ret (sts, insert_cursor rest i c1)
          else Run.ret (sts, c1 :: rest)
        | Run.bug => Run.bug
        | Run.fuel => Run.fuel
      else Run.ret (sts, c1 :: rest)
  | _ => Run.bug

/-- The second part of a loop iteration, for an entry that is not ignored
and was written: count it, and enqueue it if it is a non-empty directory. -/
def output_count (x : OutputExt) (s : OutState) (sts : Nat) (dir1 : List Cursor)
    (pidx : Nat) : Run OutState :=
  let e := s.heap sts
  let complete_count := u32 (s.complete_count + 1)
  let h1 := s.heap.set sts { e with file_index := complete_count }
  let this_len := u32 (e.name.length + 1)
  let string_space := u32 (s.string_space + this_len)
  let h2 := if (h1 sts).path_len = 0 then
      h1.set sts { h1 sts with path_len := x.ops__calc_path_len h1 sts }
    else h1
  let max_path_len := if (h2 sts).path_len > s.max_path_len then (h2 sts).path_len
    else s.max_path_len
  let s1 : OutState := { s with
    heap := h2, directory := dir1, complete_count := complete_count,
    string_space := string_space, max_path_len := max_path_len,
    body := s.body ++ x.ops__save_1entry e pidx,
    saved := s.saved ++ [(sts, pidx)] }
  if S_ISDIR (h2 sts).st.mode && decide ((h2 sts).entry_count > 0) then
    let alloc_dir := if dir1.length ≥ s.alloc_dir then s.alloc_dir * 2 else s.alloc_dir
    let h3 := if (h2 sts).to_be_sorted then x.dir__sortbyinode h2 sts else h2
    let new : Cursor := ⟨sts, 0⟩
    match find_position_cursors x.dir___f_sort_by_inode h3 new dir1 with
    | Run.ret i =>
      Run.ret { s1 with heap := h3, alloc_dir := alloc_dir,
                        directory := insert_cursor dir1 i new }
    | Run.bug => Run.bug
    | Run.fuel => Run.fuel
  else Run.ret s1

/-- One iteration of the loop `while (max_dir)` of `waa__output_tree`, entered
with `directory = c :: rest`. The status is non-zero when the iteration left
the loop by `goto ex`. -/
def output_step (x : OutputExt) (env : OutputEnv) (s : OutState) (c : Cursor)
    (rest : List Cursor) : Run (Int × OutState) :=
  match output_advance x s.heap c rest with
  | Run.ret (sts, dir1) =>
    if (s.heap sts).entry_type = entry_type_t.FT_IGNORE then
      Run.ret (0, { s with directory := dir1 })
    else
      match (s.heap sts).parent with
      | none => Run.bug
      | some par =>
        let pidx := (s.heap par).file_index
        if env.save_status s.saved.length ≠ 0 then
          Run.ret (env.save_status s.saved.length, { s with directory := dir1 })
        else
          match output_count x s sts dir1 pidx with
          | Run.ret s2 => Run.ret (0, s2)
          | Run.bug => Run.bug
          | Run.fuel => Run.fuel
  | Run.bug => Run.bug
  | Run.fuel => Run.fuel

/-- The loop `while (max_dir) ...` of `waa__output_tree`; one unit of fuel is
one iteration. -/
def output_loop (x : OutputExt) (env : OutputEnv) : Nat → OutState → Run (Int × OutState)
  | fuel, s =>
    match s.directory with
    | [] => Run.ret (0, s)
    | c :: rest =>
      match fuel with
      | 0 => Run.fuel
      | fuel + 1 =>
        match output_step x env s c rest with
        | Run.ret (status, s1) =>
          if status = 0 then output_loop x env fuel s1 else Run.ret (status, s1)
        | Run.bug => Run.bug
        | Run.fuel => Run.fuel

/-- What `waa__output_tree` leaves behind: the status returned, the heap, the
files, the calls of `ops__save_1entry` (entry and parent index), the text of
the header line, `max_path_len`, and the system calls of `waa__close`. -/
structure OutResult where
  status : Int
  heap : Heap
  files : Files
  saved : List (Nat × Nat)
  header : List Nat
  max_path_len : Nat
  calls : List SysCall

/-- The code of `waa__output_tree` from the label `ex` on, for an open
handle: `i = waa__close(hdl, status)`, then `STOPIF(i, ...)`, which assigns
`status = i`. `content` is what has been written to the temporary file. -/
def output_ex (env : OutputEnv) (files : Files) (status : Int) (content : List Nat)
    (s : OutState) (header : List Nat) : Run OutResult :=
  let files1 : Files := Function.update files env.target.temp_name (some content)
  match waa__close env.close_env files1 env.fd env.target status with
  | Run.ret r =>
    Run.ret ⟨r.status, s.heap, r.files, s.saved, header, s.max_path_len, r.calls⟩
  | Run.bug => Run.bug
  | Run.fuel => Run.fuel

/-- The code of `waa__output_tree` from the label `save_header` on. -/
def output_save_header (k : Consts) (env : OutputEnv) (files : Files) (s : OutState) :
    Run OutResult :=
  let text := fmt_header k.WAA_VERSION k.HEADER_LEN s.complete_count s.alloc_dir
    (u32 (s.string_space + 4)) (u32 (s.max_path_len + 4))
  if text.length ≥ k.HEADER_LEN - 1 then Run.bug
  else
    let header := header_final k text
    match env.lseek_ret with
    | some e => output_ex env files e (header_placeholder k ++ s.body) s header
    | none =>
      match env.write_header with
      | some e => output_ex env files e (header_placeholder k ++ s.body) s header
      | none => output_ex env files 0 (header ++ s.body) s header

/-- The function `waa__output_tree(root)`. `fuel` bounds the iterations of
its loop. Memory allocation is taken to succeed. -/
def waa__output_tree (k : Consts) (x : OutputExt) (env : OutputEnv) (fuel : Nat)
    (files : Files) (h : Heap) (max_path_len : Nat) (root : Nat) : Run OutResult :=
  let s0 : OutState := ⟨h, [], 0, 0, 0, max_path_len, [], []⟩
  if env.open_status ≠ 0 then
    Run.ret ⟨env.open_status, h, files, [], [], max_path_len, []⟩
  else
    match env.write_placeholder with
    | some e => output_ex env files e [] s0 []
    | none =>
      let alloc_dir := 1024
      let h1 := h.set root { h root with url := none }
      if env.save_status 0 ≠ 0 then
        output_ex env files (env.save_status 0) (header_placeholder k)
          { s0 with heap := h1 } []
      else
        let body := x.ops__save_1entry (h1 root) 0
        let h2 := h1.set root { h1 root with file_index := 1 }
        let string_space := u32 (h2 root).name.length
        let h3 := h2.set root { h2 root with path_len := string_space }
        let s1 : OutState := ⟨h3, [], alloc_dir, 1, string_space, (h3 root).path_len,
          body, [(root, 0)]⟩
        if (h3 root).entry_count = 0 then output_save_header k env files s1
        else
          let h4 := if (h3 root).to_be_sorted then x.dir__sortbyinode h3 root else h3
          match output_loop x env fuel { s1 with heap := h4, directory := [⟨root, 0⟩] } with
          | Run.ret (status, s2) =>
            if status = 0 then output_save_header k env files s2
            else output_ex env files status (header_placeholder k ++ s2.body) s2 []
          | Run.bug => Run.bug
          | Run.fuel => Run.fuel

/-! ### `waa__input_tree` -/

/-- The function `isspace` of the C locale. -/
def isspace (c : Nat) : Bool := c == 32 || (decide (9 ≤ c) && decide (c ≤ 13))

/-- The function `isdigit`. -/
def isdigit (c : Nat) : Bool := decide (48 ≤ c) && decide (c ≤ 57)

/-- Read decimal digits: the number read, continuing `acc`, and the rest. -/
def scan_digits (acc : Nat) : List Nat → Nat × List Nat
  | [] => (acc, [])
  | c :: cs => if isdigit c then scan_digits (acc * 10 + (c - 48)) cs else (acc, c :: cs)

/-- One conversion `%u` (`w = 32`) or `%lu` (`w = 64`) of `sscanf`, as glibc
does it with an `unsigned long` of 64 bits: white space is skipped, a sign is
accepted, then at least one digit is needed. The digits are converted as by
`strtoul`: a number of `2^64` or more gives `ULONG_MAX`, whatever the sign,
and a minus sign negates a smaller number modulo `2^64`; the result is stored
in the variable of `w` bits. -/
def scan_u (w : Nat) (s : List Nat) : Option (Nat × List Nat) :=
  let s1 := s.dropWhile isspace
  let neg := s1.head? == some 45
  let s2 := if s1.head? == some 43 || s1.head? == some 45 then s1.tail else s1
  match s2 with
  | c :: _ =>
    if isdigit c then
      let r := scan_digits 0 s2
      let ul := if r.1 ≥ 2 ^ 64 then 2 ^ 64 - 1
        else if neg then (2 ^ 64 - r.1) % 2 ^ 64 else r.1
      some (ul % 2 ^ w, r.2)
    else none
  | [] => none

/-- The conversions of a format of `%u`/`%lu` separated by blanks, of the
given widths: the values converted until the first failure. -/
def sscanf_fields : List Nat → List Nat → List Nat
  | [], _ => []
  | w :: ws, s =>
    match scan_u w s with
    | some (v, rest) => v :: sscanf_fields ws rest
    | none => []

/-- The call `sscanf(header, waa__header_line, ...)`: its return value (the
number of fields converted, `EOF` if the input ends before the first) and the
values converted. -/
def sscanf_header (header : List Nat) : Int × List Nat :=
  let vals := sscanf_fields [32, 64, 32, 32, 32, 32] header
  (if vals = [] ∧ header.dropWhile isspace = [] then -1 else (vals.length : Int), vals)

/-- The `int` a 32 bit value is when read through an `int*`. -/
def to_int32 (n : Nat) : Int := if n % 4294967296 < 2147483648 then (n % 4294967296 : Nat)
  else ((n % 4294967296 : Nat) : Int) - 4294967296

/-- The condition of the third `TREE_DAMAGED` of `waa__input_tree`:
`(parent && first) || (!parent && !first) || (parent && parent-1>cur)`. -/
def parent_invalid (parent : Nat) (first : Bool) (cur : Nat) : Bool :=
  (parent != 0 && first) || (parent == 0 && !first) || (parent != 0 && decide (parent - 1 > cur))

/-- The functions of other source files that `waa__input_tree` calls:
`ops__load_1entry(&dir_curr, sts, &filename, &parent)`, given the bytes from
`dir_curr` on and the old `*sts`, yields its status, the new `*sts`, the file
name, the parent index and the bytes left; `callback` is the optional action,
yielding its status and the heap it leaves. -/
structure InputExt where
  ops__load_1entry : List Nat → estat → Int × estat × CStr × Nat × List Nat
  callback : Option (Heap → Nat → Int × Heap)

/-- What the system answers during one `waa__input_tree`: the status of
`waa__open_dir`, the results of `lseek`, `mmap` (`some e`: it returned `NULL`),
`close` and `munmap`; the address of the block `ops__allocate` hands out, and
the value an uninitialised pointer slot of `malloc`ed memory holds. -/
structure InputEnv where
  open_status : Int
  lseek_ret : SysRet
  mmap_ret : SysRet
  close_ret : SysRet
  munmap_ret : SysRet
  stat_mem : Nat
  junk : Option Nat

/-- Modelled from the spec: `ops__allocate(n, ...)` of section 4.4 "obtains a
contiguous array of n zero-initialized entries" (`est_ops.c` is not among the
sources); the array starts at `base`. -/
def ops__allocate (h : Heap) (base n : Nat) : Heap :=
  fun p => if base ≤ p ∧ p < base + n then default else h p

/-- The list of entry blocks, each with `first` and `count`, in list order. -/
abbrev Blocks := List (Nat × Nat)

/-- The function `waa__new_entry_block(entry, count, previous)` on the list
of blocks, `previous` being the block at index `i`. -/
def waa__new_entry_block (blocks : Blocks) (entry count i : Nat) : Blocks :=
  blocks.take (i + 1) ++ (entry, count) :: blocks.drop (i + 1)

/-- The loop that sets `other_revs` on the ancestors, in `waa__input_tree`:
`while (sts_tmp && !sts_tmp->other_revs) ...`. -/
def mark_other_revs : Nat → Heap → Option Nat → Run Heap
  | _, h, none => Run.ret h
  | 0, _, some _ => Run.fuel
  | fuel + 1, h, some p =>
    if (h p).other_revs then Run.ret h
    else mark_other_revs fuel (h.set p { h p with other_revs := true }) (h p).parent

/-- The local variables of the loop of `waa__input_tree`, the heap, the
bytes from `dir_curr` to `dir_end`, the number of bytes used in the string
buffer, the block list, and the number of calls of `ops__load_1entry`. -/
structure InState where
  status : Int
  heap : Heap
  cur : Nat
  first : Bool
  sts_free : Nat
  stat_mem : Nat
  dir_curr : List Nat
  used : Nat
  blocks : Blocks
  nloaded : Nat

/-- The parent pointer for a non-zero parent index, with the `BUG_ON(i >=
cur)` in front of `stat_mem+i`; `cur` is the value after `cur++`. -/
def resolve_parent (root stat_mem parent cur : Nat) : Run Nat :=
  if parent = 1 then Run.ret root
  else if parent - 2 ≥ cur then Run.bug
  else Run.ret (stat_mem + (parent - 2))

/-- The block `if (parent) ...` of `waa__input_tree` for a non-zero parent
index: parent pointer, `path_level`, the store into the `by_inode` of the
parent, and the walk that sets `other_revs`. -/
def input_attach (fuel : Nat) (root : Nat) (s : InState) (h1 : Heap) (cur sts parent : Nat) :
    Run Heap :=
  match resolve_parent root s.stat_mem parent cur with
  | Run.ret par =>
    let h2 := h1.set sts { h1 sts with parent := some par }
    let h3 := h2.set sts { h2 sts with path_level := (h2 par).path_level + 1 }
    let p := h3 par
    if p.child_index ≥ p.by_inode.length then Run.bug
    else
      let h4 := h3.set par { p with by_inode := p.by_inode.set p.child_index (some sts),
                                    child_index := p.child_index + 1 }
      if (h4 par).child_index > (h4 par).entry_count then Run.bug
      else if (h4 sts).repos_rev ≠ (h4 par).repos_rev then
        mark_other_revs fuel h4 (h4 sts).parent
      else Run.ret h4
  | Run.bug => Run.bug
  | Run.fuel => Run.fuel

/-- The part of a loop iteration of `waa__input_tree` after the parent index
was checked: name, parent link, `by_inode` of the parent and of a directory,
the callback. -/
def input_link (x : InputExt) (env : InputEnv) (fuel : Nat) (root string_space : Nat)
    (s : InState) (sts : Nat) (filename : CStr) (parent : Nat) : Run InState :=
  let cur := if s.first then s.cur else s.cur + 1
  let h1 := s.heap.set sts { s.heap sts with name := filename }
  let used := s.used + (filename.length + 1)
  if used > string_space then Run.bug
  else
    let linked : Run Heap :=
      if parent ≠ 0 then input_attach fuel root s h1 cur sts parent else Run.ret h1
    match linked with
    | Run.ret h5 =>
      let e := h5 sts
      let h6 := if S_ISDIR e.st.mode && decide (e.entry_count ≠ 0) then
          h5.set sts { e with by_inode := List.replicate e.entry_count env.junk ++ [none],
                              child_index := 0 }
        else h5
      let s1 : InState := { s with heap := h6, cur := cur, first := false, used := used }
      match x.callback with
      | some cb => Run.ret { s1 with status := (cb h6 sts).1, heap := (cb h6 sts).2 }
      | none => Run.ret s1
    | Run.bug => Run.bug
    | Run.fuel => Run.fuel

/-- The entry `sts` of a loop iteration: `first ? root : stat_mem+cur`. -/
def input_sts (root : Nat) (s : InState) : Nat :=
  if s.first then root else s.stat_mem + s.cur

/-- The state of the loop of `waa__input_tree` before `ops__load_1entry` is
called, with `count` records to go: the block is allocated if `sts_free` is
zero, and `sts_free` is decremented. -/
def input_alloc (env : InputEnv) (count : Nat) (s : InState) : InState :=
  let s1 : InState :=
    if s.sts_free = 0 then
      { s with heap := ops__allocate s.heap env.stat_mem count,
               stat_mem := env.stat_mem, sts_free := count,
               blocks := waa__new_entry_block s.blocks env.stat_mem count 0 }
    else s
  { s1 with sts_free := s1.sts_free - 1 }

/-- One iteration of the loop `while (count > 0)` of `waa__input_tree`,
entered with `count` records to go. The flag tells whether the loop goes on;
it does not after a `goto ex`. -/
def input_step (x : InputExt) (env : InputEnv) (fuel : Nat) (root string_space : Nat)
    (count : Nat) (s : InState) : Run (Bool × InState) :=
  match s.dir_curr with
  | [] => Run.ret (false, { s with status := EINVAL })
  | _ :: _ =>
    let s2 := input_alloc env count s
    let sts := input_sts root s2
    let r := x.ops__load_1entry s2.dir_curr (s2.heap sts)
    let s3 := { s2 with status := r.1, heap := s2.heap.set sts r.2.1,
                        dir_curr := r.2.2.2.2, nloaded := s2.nloaded + 1 }
    if r.1 ≠ 0 then Run.ret (false, s3)
    else if parent_invalid r.2.2.2.1 s3.first s3.cur then
      Run.ret (false, { s3 with status := EINVAL })
    else
      match input_link x env fuel root string_space s3 sts r.2.2.1 r.2.2.2.1 with
      | Run.ret s4 => Run.ret (decide (s4.status = 0), s4)
      | Run.bug => Run.bug
      | Run.fuel => Run.fuel

/-- The loop `while (count > 0)` of `waa__input_tree`. -/
def input_loop (x : InputExt) (env : InputEnv) (fuel : Nat) (root string_space : Nat) :
    Nat → InState → Run InState
  | 0, s => Run.ret s
  | count + 1, s =>
    match input_step x env fuel root string_space (count + 1) s with
    | Run.ret (true, s1) => input_loop x env fuel root string_space count s1
    | Run.ret (false, s1) => Run.ret s1
    | Run.bug => Run.bug
    | Run.fuel => Run.fuel

/-- What the header checks of `waa__input_tree` yield: the status (`EINVAL`
for a damaged header, else the `6` of `sscanf`), the globals
`approx_entry_count` and `max_path_len`, and the locals `count` and
`string_space`. -/
structure HeaderInfo where
  status : Int
  approx_entry_count : Nat
  max_path_len : Nat
  count : Nat
  string_space : Nat
deriving Repr, DecidableEq

/-- The header of a dir-file as the C string `sscanf` reads: the first
`HEADER_LEN-2` bytes, up to a NUL. -/
def header_string (k : Consts) (dir : List Nat) : List Nat :=
  (dir.take (k.HEADER_LEN - 2)).takeWhile (fun c => c ≠ 0)

/-- The checks of `waa__input_tree` on the mapped dir-file `dir` in front of
its loop: the four `TREE_DAMAGED` on header and file end. -/
def input_header (k : Consts) (dir : List Nat) (approx_entry_count max_path_len : Nat) :
    HeaderInfo :=
  let length := dir.length
  if length < k.HEADER_LEN + 5 ∨ dir.getD (k.HEADER_LEN - 1) 0 ≠ 10 ∨
      dir.getD (k.HEADER_LEN - 2) 0 ≠ 36 then
    ⟨EINVAL, approx_entry_count, max_path_len, 0, 0⟩
  else
    let sc := sscanf_header (header_string k dir)
    if sc.1 ≠ 6 then ⟨EINVAL, approx_entry_count, max_path_len, 0, 0⟩
    else
      let i := to_int32 (sc.2.getD 0 0)
      let header_len := sc.2.getD 1 0
      let count := sc.2.getD 2 0
      let string_space := sc.2.getD 4 0
      let mpl := sc.2.getD 5 0
      if i ≠ (k.WAA_VERSION : Int) ∨ header_len ≠ k.HEADER_LEN then
        ⟨EINVAL, approx_entry_count, mpl, count, string_space⟩
      else if dir.getD (length - 2) 0 ≠ 0 ∨ dir.getD (length - 1) 0 ≠ 10 then
        ⟨EINVAL, count, u32 (mpl + 1024), count, string_space⟩
      else ⟨sc.1, count, u32 (mpl + 1024), count, string_space⟩

/-- The state in which `waa__input_tree` enters its loop: `cur=0`,
`sts_free=1`, `first=1`, `dir_curr` behind the header, the block of the root
as only block. -/
def input_init (k : Consts) (status : Int) (dir : List Nat) (h : Heap) (root : Nat) :
    InState :=
  ⟨status, h, 0, true, 1, 0, dir.drop k.HEADER_LEN, 0, [(root, 1)], 0⟩

/-- The loop counters of `waa__input_tree` in front of the record number
`nloaded + 1`: `first` is set exactly in front of the first record, and from
the second record on `cur` is the record number minus two. -/
def CounterInv (s : InState) : Prop :=
  (s.first = true ∧ s.cur = 0 ∧ s.nloaded = 0) ∨ (s.first = false ∧ s.nloaded = s.cur + 1)

/-- The parent indices the claim allows for the record number `k` (counted
from one): none for the first record, an earlier record for the others. -/
def ParentOK (k p : Nat) : Prop := (k = 1 ∧ p = 0) ∨ (2 ≤ k ∧ 1 ≤ p ∧ p < k)

/-- What `waa__input_tree` leaves behind: the status returned, the heap, the
block list, the globals `approx_entry_count` and `max_path_len`, the number
of calls of `ops__load_1entry`, and the bytes used in the string buffer. -/
structure InResult where
  status : Int
  heap : Heap
  blocks : Blocks
  approx_entry_count : Nat
  max_path_len : Nat
  nloaded : Nat
  used : Nat

/-- The function `waa__input_tree(root, blocks, callback)` on a dir-file with
the bytes `dir`. `fuel` bounds the walks up the ancestors. -/
def waa__input_tree (k : Consts) (x : InputExt) (env : InputEnv) (fuel : Nat)
    (dir : List Nat) (h : Heap) (approx_entry_count max_path_len : Nat) (root : Nat) :
    Run InResult :=
  let blocks0 : Blocks := [(root, 1)]
  let fail (status : Int) : Run InResult :=
    Run.ret ⟨status, h, blocks0, approx_entry_count, max_path_len, 0, 0⟩
  if env.open_status = ENOENT then fail (-ENOENT)
  else if env.open_status ≠ 0 then fail env.open_status
  else
    match env.lseek_ret, env.mmap_ret, env.close_ret with
    | some e, _, _ => fail e
    | none, some e, _ => fail e
    | none, none, some e => fail e
    | none, none, none =>
      let hd := input_header k dir approx_entry_count max_path_len
      if hd.status = EINVAL then
        Run.ret ⟨EINVAL, h, blocks0, hd.approx_entry_count, hd.max_path_len, 0, 0⟩
      else
        match input_loop x env fuel root hd.string_space hd.count
            (input_init k hd.status dir h root) with
        | Run.ret s =>
          let status := if s.status = 0 then
              (match env.munmap_ret with
               | some e => e
               | none => s.status)
            else s.status
          Run.ret ⟨status, s.heap, s.blocks, hd.approx_entry_count, hd.max_path_len,
            s.nloaded, s.used⟩
        | Run.bug => Run.bug
        | Run.fuel => Run.fuel

/-- The state after `n` iterations of the loop of `waa__input_tree` that all
go on to the next one, entered with `count` records to go; `none` if one of
them leaves the loop or does not return. -/
def input_iter (x : InputExt) (env : InputEnv) (fuel : Nat) (root string_space : Nat) :
    Nat → Nat → InState → Option InState
  | 0, _, s => some s
  | n + 1, count, s =>
    match input_step x env fuel root string_space count s with
    | Run.ret (true, s1) => input_iter x env fuel root string_space n (count - 1) s1
    | _ => none

/-! ### Status bits, flags and the comparison by name -/

/-- Modelled from the spec: the bits of `entry_status` of section 3.1
(`global.h`, which defines them, is not among the sources); the positions are
chosen, the code only needs them distinct. New entry. -/
def FS_NEW : Nat := 1

/-- Modelled from the spec: the entry is gone (DELETED in section 3.1). -/
def FS_REMOVED : Nat := 2

/-- Modelled from the spec: the entry has changed. -/
def FS_CHANGED : Nat := 4

/-- Modelled from the spec: the entry has likely changed. -/
def FS_LIKELY : Nat := 8

/-- Modelled from the spec: a child of the entry has changed. -/
def FS_CHILD_CHANGED : Nat := 16

/-- Modelled from the spec: "DELETED|REPLACED jointly encode was replaced";
`waa.c` tests `(entry_status & FS_REPLACED) == FS_REMOVED` for "exactly
removed (not replaced)", so the mask is both bits. -/
def FS_REPLACED : Nat := FS_NEW ||| FS_REMOVED

/-- Modelled from the spec: the flag ADD of `flags` (section 3.1). -/
def RF_ADD : Nat := 1

/-- Modelled from the spec: the flag CHECK of `flags` (section 3.1). -/
def RF_CHECK : Nat := 4

/-- The operation `s & ~m` on a status word. -/
def bit_clear (s m : Nat) : Nat := s ^^^ (s &&& m)

/-- The function `strcmp` on C strings, as `-1`, `0` or `1`. -/
def strcmp : CStr → CStr → Int
  | [], [] => 0
  | [], _ :: _ => -1
  | _ :: _, [] => 1
  | a :: as, b :: bs => if a < b then -1 else if b < a then 1 else strcmp as bs

/-- Modelled from the spec: "`by_name` is sorted lexicographically" (section
3.1); the comparison function `dir___f_sort_by_name` of `direnum.c`, which is
not among the sources, compares the names. -/
def dir___f_sort_by_name (a b : estat) : Int := strcmp a.name b.name

/-! ### The tree updater: `waa__build_tree`, `waa__update_dir`,
`waa___check_dir_for_update`, `waa__update_tree` -/

/-- The program state the updater works on: the heap, the first pointer not
yet handed out by the allocator, the global `approx_entry_count`, and the
entries given to `ac__dispatch`, in the order of the calls. -/
structure Sys where
  heap : Heap
  next : Nat
  approx_entry_count : Nat
  dispatched : List Nat

/-- The functions of other source files, the options and the system calls the
updater uses. `ign__is_ignore` yields its status and the value stored in
`*is_ignored`; `ac__dispatch` its status (what the callback of the action does
to the entry is not part of the model); `ops__set_to_handle_bits` its status
and the bits `do_full`, `do_full_child`, `do_a_child` it leaves in the entry;
`dir__enumerator` its status and the entries found in the directory, in the
order asked for; `ops__update_single_entry` its status and the new `*sts`;
`dir__sortbyname` its status and the heap it leaves. -/
structure UpdateExt where
  ign__is_ignore : estat → Int × Int
  ac__dispatch : Heap → Nat → Int
  ops__set_to_handle_bits : Heap → estat → Int × Bool × Bool × Bool
  dir__enumerator : Nat → Bool → Int × List estat
  is_waa : Nat → Bool
  ops___filetype : sstat_t → entry_type_t
  ops__build_path : Heap → Nat → Int
  ops__update_single_entry : Heap → Nat → Int × estat
  dir__sortbyname : Heap → Nat → Int × Heap
  chdir : Heap → Nat → SysRet
  chdir_up : SysRet
  open_dot : SysRet
  fchdir : SysRet
  close_dot : SysRet
  opt_recursive : Int
  opt_checksum : Bool
  only_check_status : Bool
  keep_children : Bool

/-- Store the entries `es` at the pointers `p`, `p+1`, ... -/
def Heap.store (h : Heap) (p : Nat) : List estat → Heap
  | [] => h
  | e :: es => (h.set p e).store (p + 1) es

/-- Modelled from the spec: the filesystem enumerator "produces a directory's
immediate children with stat metadata" (section 1; `direnum.c` is not among the
sources). The entries found are allocated, get `this` as parent and no
children yet, and `this` gets their pointers as `by_name` (if asked for by
name) or `by_inode` array and their number as `entry_count`. `dir` names the
directory listed. -/
def dir__enumerator (x : UpdateExt) (w : Sys) (dir this : Nat) (by_name : Bool) : Int × Sys :=
  let r := x.dir__enumerator dir by_name
  if r.1 ≠ 0 then (r.1, w)
  else
    let es := r.2.map (fun e =>
      { e with parent := some this, entry_count := 0, by_inode := [], by_name := [] })
    let ptrs := (List.range es.length).map (fun i => some (w.next + i))
    let h1 := w.heap.store w.next es
    let t := h1 this
    let t1 := if by_name then { t with by_name := ptrs ++ [none], entry_count := es.length }
      else { t with by_inode := ptrs ++ [none], entry_count := es.length }
    (0, { w with heap := h1.set this t1, next := w.next + es.length })

/-- The function `waa__dir_enum(this, est_count, by_name)`: nothing is listed
if the current directory is the WAA itself. -/
def waa__dir_enum (x : UpdateExt) (w : Sys) (dir this : Nat) (by_name : Bool) : Int × Sys :=
  if x.is_waa dir then (0, w) else dir__enumerator x w dir this by_name

/-- Modelled from the spec: "is not written to the dir-file" (section 8, item
8) for ignored entries; `ops__free_marked` of `est_ops.c`, which is not among
the sources, drops the entries marked `FT_IGNORE` from the child array. -/
def ops__free_marked (h : Heap) (root : Nat) : Heap :=
  let kept := (h root).by_inode.reduceOption.filter
    (fun c => decide ((h c).entry_type ≠ entry_type_t.FT_IGNORE))
  h.set root { h root with by_inode := kept.map some ++ [none], entry_count := kept.length }

/-- The part `if (S_ISDIR(sts->st.mode)) ... else ...` of the loop of
`waa__build_tree`: a directory gets the type `FT_DIR` and is read in by the
recursive call `rec` if `opt_recursive > 0`, another entry gets its type. -/
def build_tree_descend (x : UpdateExt) (rec : Sys → Nat → Run (Int × Sys)) (w : Sys)
    (sts : Nat) : Run (Int × Sys) :=
  let e := w.heap sts
  if S_ISDIR e.st.mode then
    let w2 : Sys := { w with heap := w.heap.set sts { e with entry_type := entry_type_t.FT_DIR } }
    if x.opt_recursive > 0 then
      match x.chdir w2.heap sts with
      | some err => Run.ret (err, w2)
      | none =>
        match rec w2 sts with
        | Run.ret (st, w3) =>
          if st ≠ 0 then Run.ret (st, w3)
          else
            match x.chdir_up with
            | some err => Run.ret (err, w3)
            | none => Run.ret (0, w3)
        | Run.bug => Run.bug
        | Run.fuel => Run.fuel
    else Run.ret (0, w2)
  else
    Run.ret (0, { w with
      heap := (w.heap.set sts { e with entry_type := x.ops___filetype e.st }) })

/-- The body of the loop of `waa__build_tree` for the child `sts`, without
the test of the ignore pattern; `rec` is the recursive call. -/
def build_tree_entry (x : UpdateExt) (rec : Sys → Nat → Run (Int × Sys)) (w : Sys)
    (sts : Nat) : Run (Int × Sys) :=
  match (w.heap sts).parent with
  | none => Run.bug
  | some par =>
    let e := w.heap sts
    let e1 := { e with path_level := (w.heap par).path_level + 1, entry_status := FS_NEW }
    let w1 : Sys := { w with heap := w.heap.set sts e1,
                             approx_entry_count := w.approx_entry_count + 1 }
    match build_tree_descend x rec w1 sts with
    | Run.ret (st, w4) =>
      if st ≠ 0 then Run.ret (st, w4)
      else Run.ret (x.ac__dispatch w4.heap sts, { w4 with dispatched := w4.dispatched ++ [sts] })
    | Run.bug => Run.bug
    | Run.fuel => Run.fuel

/-- The loop `for(i=0; i<root->entry_count; i++)` of `waa__build_tree`, with
`n` iterations to go; yields the status and the flags `have_ignored` and
`have_found`. -/
def build_tree_loop (x : UpdateExt) (rec : Sys → Nat → Run (Int × Sys)) (root : Nat) :
    Nat → Nat → Sys → Bool → Nat → Run (Int × Sys × Bool × Nat)
  | 0, _, w, hi, hf => Run.ret (0, w, hi, hf)
  | n + 1, i, w, hi, hf =>
    match (w.heap root).by_inode.get? i with
    | some (some sts) =>
      let ig := x.ign__is_ignore (w.heap sts)
      if ig.1 ≠ 0 then Run.ret (ig.1, w, hi, hf)
      else if ig.2 > 0 then
        build_tree_loop x rec root n (i + 1)
          { w with
            heap := (w.heap.set sts { w.heap sts with entry_type := entry_type_t.FT_IGNORE }) }
          true hf
      else
        match build_tree_entry x rec w sts with
        | Run.ret (st, w1) =>
          if st ≠ 0 then Run.ret (st, w1, hi, hf + 1)
          else build_tree_loop x rec root n (i + 1) w1 hi (hf + 1)
        | Run.bug => Run.bug
        | Run.fuel => Run.fuel
    | _ => Run.bug

/-- The function `waa__build_tree(root)`; the fuel bounds the depth of the
recursion. -/
def waa__build_tree (x : UpdateExt) : Nat → Sys → Nat → Run (Int × Sys)
  | 0, _, _ => Run.fuel
  | fuel + 1, w, root =>
    let en := waa__dir_enum x w root root false
    if en.1 ≠ 0 then Run.ret en
    else
      match build_tree_loop x (waa__build_tree x fuel) root (en.2.heap root).entry_count 0
          en.2 false 0 with
      | Run.ret (st, w1, hi, hf) =>
        if st ≠ 0 then Run.ret (st, w1)
        else
          let h1 := if hi then ops__free_marked w1.heap root else w1.heap
          let h2 := if hf ≠ 0 then
              h1.set root { h1 root with
                entry_status := (h1 root).entry_status ||| FS_CHANGED ||| FS_CHILD_CHANGED }
            else h1
          Run.ret (0, { w1 with heap := h2 })
      | Run.bug => Run.bug
      | Run.fuel => Run.fuel

/-- The local variables of the merge loop of `waa__update_dir`, with the
program state. The array `current.by_name` is in the heap, in the entry
`current`. -/
structure MergeState where
  w : Sys
  i_cur : Nat
  i_old : Nat
  nr_cur : Nat

/-- The exchange `if (nr_cur != i_cur) { by_name[i_cur] = by_name[nr_cur];
by_name[nr_cur] = sts; }` in the merge loop of `waa__update_dir`. -/
def merge_swap (arr : List (Option Nat)) (nr_cur i_cur sts : Nat) : List (Option Nat) :=
  if nr_cur ≠ i_cur then (arr.set i_cur (arr.getD nr_cur none)).set nr_cur (some sts) else arr

/-- The assignments for a new entry `sts` in the merge loop of
`waa__update_dir`: `sts->parent=old`, the exchange in `current.by_name`
(`c` is the address of `current`), and `sts->entry_status=FS_NEW`. -/
def update_dir_mark (h0 : Heap) (old c sts nr_cur i_cur : Nat) : Heap :=
  let h1 := h0.set sts { h0 sts with parent := some old }
  let h2 := h1.set c { h1 c with by_name := merge_swap (h1 c).by_name nr_cur i_cur sts }
  h2.set sts { h2 sts with entry_status := FS_NEW }

/-- The bits `do_full`, `do_full_child`, `do_a_child` that
`ops__set_to_handle_bits(sts)` stores in `sts`; `b` is the result of the oracle. -/
def store_to_handle_bits (h : Heap) (sts : Nat) (b : Int × Bool × Bool × Bool) : Heap :=
  h.set sts { h sts with
    do_full := b.2.1
    do_full_child := b.2.2.1
    do_a_child := b.2.2.2 }

/-- The branch of the merge loop of `waa__update_dir` for an entry `sts`
that is not in `old` and not ignored: the new entry is linked to `old`, moved
to the front of `current.by_name`, marked `FS_NEW`, dispatched, and, if it is a
directory to be handled, read in by `waa__build_tree` (`bt`). `c` is the
address of `current`. The status is non-zero after a `goto ex`. -/
def update_dir_new (x : UpdateExt) (bt : Sys → Nat → Run (Int × Sys)) (old c : Nat)
    (m : MergeState) (sts : Nat) : Run (Int × MergeState) :=
  let h3 := update_dir_mark m.w.heap old c sts m.nr_cur m.i_cur
  let m1 : MergeState := { m with
    w := { m.w with heap := h3, dispatched := m.w.dispatched ++ [sts] }
    nr_cur := m.nr_cur + 1 }
  if x.ac__dispatch h3 sts ≠ 0 then Run.ret (x.ac__dispatch h3 sts, m1)
  else
    let m2 : MergeState := { m1 with
      w := { m1.w with approx_entry_count := m1.w.approx_entry_count + 1 } }
    let b := x.ops__set_to_handle_bits h3 (h3 sts)
    let h4 := store_to_handle_bits h3 sts b
    let m3 : MergeState := { m2 with w := { m2.w with heap := h4 } }
    if b.1 ≠ 0 then Run.ret (b.1, m3)
    else
      let tmp : estat := { (default : estat) with parent := some sts }
      let bt_bits := x.ops__set_to_handle_bits h4 tmp
      if bt_bits.1 ≠ 0 then Run.ret (bt_bits.1, m3)
      else if S_ISDIR (h4 sts).st.mode && bt_bits.2.2.1 then
        match x.chdir h4 sts with
        | some err => Run.ret (err, m3)
        | none =>
          match bt m3.w sts with
          | Run.ret (st, w1) =>
            if st ≠ 0 then Run.ret (st, { m3 with w := w1 })
            else
              match x.chdir_up with
              | some err => Run.ret (err, { m3 with w := w1 })
              | none => Run.ret (0, { m3 with w := w1 })
          | Run.bug => Run.bug
          | Run.fuel => Run.fuel
      else Run.ret (0, m3)

/-- The comparison in the merge loop of `waa__update_dir`: `status=+1` if
`i_old >= old->entry_count`, else
`dir___f_sort_by_name(old->by_name+i_old, &sts)`. -/
def update_dir_cmp (h : Heap) (old sts i_old : Nat) : Run Int :=
  if i_old ≥ (h old).entry_count then Run.ret 1
  else
    match (h old).by_name.get? i_old with
    | some (some o) => Run.ret (dir___f_sort_by_name (h o) (h sts))
    | _ => Run.bug

/-- The merge loop `while (1)` of `waa__update_dir`; one unit of fuel is one
iteration. The result is `none` when the loop was left by `break`, and the
status after a `goto ex`. -/
def update_dir_loop (x : UpdateExt) (bt : Sys → Nat → Run (Int × Sys)) (old c : Nat) :
    Nat → MergeState → Run (Option Int × MergeState)
  | 0, _ => Run.fuel
  | n + 1, m =>
    if m.i_cur ≥ (m.w.heap c).entry_count then Run.ret (none, m)
    else
      match (m.w.heap c).by_name.get? m.i_cur with
      | some (some sts) =>
        match update_dir_cmp m.w.heap old sts m.i_old with
        | Run.ret status =>
          if status = 0 then
            update_dir_loop x bt old c n { m with i_cur := m.i_cur + 1, i_old := m.i_old + 1 }
          else if status > 0 then
            let ig := x.ign__is_ignore (m.w.heap sts)
            if ig.1 ≠ 0 then Run.ret (some ig.1, m)
            else if ig.2 > 0 then
              update_dir_loop x bt old c n { m with i_cur := m.i_cur + 1 }
            else
              match update_dir_new x bt old c m sts with
              | Run.ret (st, m1) =>
                if st ≠ 0 then Run.ret (some st, m1)
                else update_dir_loop x bt old c n { m1 with i_cur := m1.i_cur + 1 }
              | Run.bug => Run.bug
              | Run.fuel => Run.fuel
          else update_dir_loop x bt old c n { m with i_old := m.i_old + 1 }
        | Run.bug => Run.bug
        | Run.fuel => Run.fuel
      | _ => Run.bug

/-- Modelled from the spec: "`ops_new_entries(dir, new_count,
prefix_of_live_by_name)` appends them to `dir`'s child arrays" (section 4.7;
`est_ops.c` is not among the sources). -/
def ops__new_entries (h : Heap) (old : Nat) (new : List (Option Nat)) : Heap :=
  let o := h old
  h.set old { o with
    by_inode := (o.by_inode.reduceOption ++ new.reduceOption).map some ++ [none]
    entry_count := o.entry_count + new.length
    to_be_sorted := true }

/-- The code of `waa__update_dir` from the label `ex` on. -/
def update_dir_ex (x : UpdateExt) (w : Sys) (old : Nat) (status : Int) (nr_cur : Nat)
    (dir_hdl : Bool) : Int × Sys :=
  let h1 := w.heap.set old { w.heap old with
    entry_status := bit_clear (w.heap old).entry_status FS_LIKELY }
  let h2 := if nr_cur ≠ 0 then
      h1.set old { h1 old with
        entry_status := (h1 old).entry_status ||| FS_CHANGED ||| FS_CHILD_CHANGED }
    else h1
  let status1 : Int :=
    if dir_hdl ∧ status = 0 then
      match x.fchdir, x.close_dot with
      | some e, _ => e
      | none, some e => e
      | none, none => status
    else status
  (status1, { w with heap := h2 })

/-- The function `waa__update_dir(old, path)`; `has_path` tells whether
`path` is given. The fuel bounds the depth of `waa__build_tree`. -/
def waa__update_dir (x : UpdateExt) (fuel : Nat) (w : Sys) (old : Nat) (has_path : Bool) :
    Run (Int × Sys) :=
  let c := w.next
  let w0 : Sys := { w with
    heap := (w.heap.set c { w.heap old with by_inode := [], by_name := [], entry_count := 0 })
    next := w.next + 1 }
  if ¬ has_path ∧ x.ops__build_path w0.heap old ≠ 0 then
    Run.ret (update_dir_ex x w0 old (x.ops__build_path w0.heap old) 0 false)
  else
    match x.open_dot with
    | some e => Run.ret (update_dir_ex x w0 old e 0 false)
    | none =>
      match x.chdir w0.heap old with
      | some e => Run.ret (update_dir_ex x w0 old e 0 true)
      | none =>
        let en := waa__dir_enum x w0 old c true
        if en.1 ≠ 0 then Run.ret (update_dir_ex x en.2 old en.1 0 true)
        else if (en.2.heap c).entry_count = 0 then Run.ret (update_dir_ex x en.2 old 0 0 true)
        else
          let so := x.dir__sortbyname en.2.heap old
          let w1 : Sys := { en.2 with heap := so.2 }
          if so.1 ≠ 0 then Run.ret (update_dir_ex x w1 old so.1 0 true)
          else
            match update_dir_loop x (waa__build_tree x fuel) old c
                ((w1.heap c).entry_count + (w1.heap old).entry_count + 1) ⟨w1, 0, 0, 0⟩ with
            | Run.ret (some st, m) => Run.ret (update_dir_ex x m.w old st m.nr_cur true)
            | Run.ret (none, m) =>
              let h2 := if m.nr_cur ≠ 0 then
                  ops__new_entries m.w.heap old ((m.w.heap c).by_name.take m.nr_cur)
                else m.w.heap
              Run.ret (update_dir_ex x { m.w with heap := h2 } old 0 m.nr_cur true)
            | Run.bug => Run.bug
            | Run.fuel => Run.fuel

/-- The function `waa___check_dir_for_update(sts, fullpath)`. -/
def waa___check_dir_for_update (x : UpdateExt) (fuel : Nat) (w : Sys) (sts : Nat)
    (has_path : Bool) : Run (Int × Sys) :=
  let e := w.heap sts
  if ¬ e.do_full_child then Run.ret (0, w)
  else
    let upd : Run (Int × Sys) :=
      if x.opt_recursive ≥ 0 ∧ (e.entry_status ≠ 0 ∨ x.opt_checksum ∨
          e.flags &&& RF_ADD ≠ 0 ∨ e.flags &&& RF_CHECK ≠ 0) then
        if x.only_check_status then Run.ret (0, w)
        else waa__update_dir x fuel w sts has_path
      else Run.ret (0, w)
    match upd with
    | Run.ret (st, w1) =>
      if st ≠ 0 then Run.ret (st, w1)
      else Run.ret (x.ac__dispatch w1.heap sts, { w1 with dispatched := w1.dispatched ++ [sts] })
    | Run.bug => Run.bug
    | Run.fuel => Run.fuel

/-- The code of the loop of `waa__update_tree` from the label `next_noparent`
on: the entry is dispatched if it is removed, or to be handled and not a
directory. -/
def update_tree_noparent (x : UpdateExt) (w : Sys) (sts : Nat) : Int × Sys :=
  let e := w.heap sts
  if e.entry_status &&& FS_REMOVED ≠ 0 ∨ (e.do_full_child ∧ ¬ S_ISDIR e.st.mode) then
    (x.ac__dispatch w.heap sts, { w with dispatched := w.dispatched ++ [sts] })
  else (0, w)

/-- The code of the loop of `waa__update_tree` from the label `next` on. -/
def update_tree_next (x : UpdateExt) (fuel : Nat) (w : Sys) (sts : Nat) : Run (Int × Sys) :=
  match (w.heap sts).parent with
  | some par =>
    let p := w.heap par
    let w1 := { w with heap := w.heap.set par { p with child_index := p.child_index + 1 } }
    if (w1.heap par).child_index ≥ (w1.heap par).entry_count ∧ (w1.heap par).do_full_child then
      match waa___check_dir_for_update x fuel w1 par false with
      | Run.ret (st, w2) =>
        if st ≠ 0 then Run.ret (st, w2) else Run.ret (update_tree_noparent x w2 sts)
      | Run.bug => Run.bug
      | Run.fuel => Run.fuel
    else Run.ret (update_tree_noparent x w1 sts)
  | none => Run.ret (update_tree_noparent x w sts)

/-- The part of a loop iteration of `waa__update_tree` for an entry whose
parent is not removed and which is to be looked at: it is re-stat'ed, and a
directory without known children is checked for new entries. -/
def update_tree_entry (x : UpdateExt) (fuel : Nat) (w : Sys) (sts : Nat) : Run (Int × Sys) :=
  if x.ops__build_path w.heap sts ≠ 0 then Run.ret (x.ops__build_path w.heap sts, w)
  else
    let up := x.ops__update_single_entry w.heap sts
    let w1 : Sys := if (w.heap sts).do_full_child then { w with heap := w.heap.set sts up.2 }
      else w
    if (w.heap sts).do_full_child ∧ up.1 ≠ 0 then Run.ret (up.1, w1)
    else
      let e := w1.heap sts
      let h2 := match e.parent with
        | some par =>
          if e.entry_status &&& FS_REMOVED ≠ 0 then
            w1.heap.set par { w1.heap par with
              entry_status := FS_CHANGED ||| bit_clear (w1.heap par).entry_status FS_LIKELY }
          else w1.heap
        | none => w1.heap
      let h3 := if S_ISDIR (h2 sts).st.mode ∧ (h2 sts).entry_status &&& FS_REMOVED ≠ 0 ∧
          ¬ x.keep_children then h2.set sts { h2 sts with entry_count := 0 }
        else h2
      if (h3 sts).entry_status &&& FS_REPLACED = FS_REMOVED then
        update_tree_next x fuel { w1 with heap := h3 } sts
      else
        let h4 := if S_ISDIR (h3 sts).st.mode ∧ (h3 sts).entry_status &&& FS_REPLACED ≠ 0 then
            h3.set sts { h3 sts with entry_count := 0, by_inode := [], by_name := [] }
          else h3
        let w4 : Sys := { w1 with heap := h4 }
        if S_ISDIR (h4 sts).st.mode ∧ (h4 sts).entry_count = 0 then
          match waa___check_dir_for_update x fuel w4 sts true with
          | Run.ret (st, w5) =>
            if st ≠ 0 then Run.ret (st, w5) else update_tree_next x fuel w5 sts
          | Run.bug => Run.bug
          | Run.fuel => Run.fuel
        else update_tree_next x fuel w4 sts

/-- One iteration of the loop `while (cur_block)` of `waa__update_tree`, for
the entry `sts = cur_block->first`. -/
def update_tree_step (x : UpdateExt) (fuel : Nat) (w : Sys) (sts : Nat) : Run (Int × Sys) :=
  let e := w.heap sts
  let w1 : Sys := if S_ISDIR e.st.mode then
      { w with heap := w.heap.set sts { e with child_index := 0 } }
    else w
  match (w1.heap sts).parent with
  | some par =>
    let b := x.ops__set_to_handle_bits w1.heap (w1.heap sts)
    let w2 : Sys := { w1 with heap := w1.heap.set sts { w1.heap sts with
      do_full := b.2.1
      do_full_child := b.2.2.1
      do_a_child := b.2.2.2 } }
    if b.1 ≠ 0 then Run.ret (b.1, w2)
    else if (w2.heap par).entry_status &&& FS_REMOVED ≠ 0 then
      Run.ret (update_tree_noparent x
        { w2 with heap := w2.heap.set sts { w2.heap sts with entry_status := FS_REMOVED } } sts)
    else if ¬ ((w2.heap sts).do_full_child ∨ (w2.heap sts).do_a_child) then
      update_tree_next x fuel w2 sts
    else update_tree_entry x fuel w2 sts
  | none =>
    if ¬ ((w1.heap sts).do_full_child ∨ (w1.heap sts).do_a_child) then
      update_tree_next x fuel w1 sts
    else update_tree_entry x fuel w1 sts

/-- The loop `while (cur_block)` of `waa__update_tree` over the list of
blocks; one unit of `n` is one iteration. -/
def update_tree_loop (x : UpdateExt) (fuel : Nat) : Nat → Sys → Blocks → Run (Int × Sys)
  | 0, w, blocks => if blocks = [] then Run.ret (0, w) else Run.fuel
  | n + 1, w, blocks =>
    match blocks with
    | [] => Run.ret (0, w)
    | (first, count) :: rest =>
      match update_tree_step x fuel w first with
      | Run.ret (st, w1) =>
        if st ≠ 0 then Run.ret (st, w1)
        else if count ≤ 1 then update_tree_loop x fuel n w1 rest
        else update_tree_loop x fuel n w1 ((first + 1, count - 1) :: rest)
      | Run.bug => Run.bug
      | Run.fuel => Run.fuel

/-- The function `waa__update_tree(root, cur_block)`. `n` bounds the
iterations of its loop, `fuel` the depth of `waa__build_tree`. -/
def waa__update_tree (x : UpdateExt) (fuel n : Nat) (w : Sys) (root : Nat) (blocks : Blocks) :
    Run (Int × Sys) :=
  let r := w.heap root
  let w1 : Sys := if ¬ (r.do_full ∨ r.do_a_child) then
      { w with heap := w.heap.set root { r with do_full := true, do_full_child := true } }
    else w
  update_tree_loop x fuel n w1 blocks

/-! ### `waa__find_common_base` -/

/-- The functions of other source files, the system calls and the globals
`waa__find_common_base` uses: `hlp__pathcopy` (makes a path absolute and
normalizes its separators), the existence check `waa__open(base, NULL, 0, 0)`,
`chdir`, the loading of the configuration of the working copy (steps 6), and
`start_path`. -/
structure BaseExt where
  hlp__pathcopy : CStr → CStr
  probe : CStr → Int
  chdir : CStr → SysRet
  load_conf : CStr → Int
  start_path : CStr

/-- What `waa__find_common_base` leaves: its status, the globals `wc_path`
and `wc_path_len` (set only when a base was found), and the strings
`normalized[i]`; `none` when the array is freed, or handed back with its
elements never assigned. -/
structure BaseResult where
  status : Int
  wc_path : Option CStr
  wc_path_len : Nat
  normalized : Option (List CStr)
deriving Repr, DecidableEq

/-- The loop `while (len>1 && space[len-1] == PATH_SEPARATOR) len--` of step
2, from the length `len` on. -/
def strip_len (s : CStr) : Nat → Nat
  | 0 => 0
  | len + 1 => if len + 1 > 1 ∧ s.at len = PATH_SEPARATOR then strip_len s len else len + 1

/-- Step 2 for one argument: the full path without separators at its end. -/
def full_path (x : BaseExt) (arg : CStr) : CStr :=
  let space := x.hlp__pathcopy arg
  space.take (strip_len space space.length)

/-- The inner loop of step 3: `for(j=0; j<len; j++) if (paths[i][j] !=
paths[0][j]) len=j;`. -/
def common_len (p0 : CStr) (len : Nat) (pi : CStr) : Nat :=
  ((List.range len).find? (fun j => pi.at j ≠ p0.at j)).getD len

/-- The loop `while (paths[0][len] != PATH_SEPARATOR && len >0) len--` of
step 3. -/
def back_to_sep (p0 : CStr) : Nat → Nat
  | 0 => 0
  | len + 1 => if p0.at (len + 1) ≠ PATH_SEPARATOR then back_to_sep p0 len else len + 1

/-- The loop `while (1)` of step 4: the base is probed, and shortened by its
last component while no working copy is found. Yields the status, the string
in `base_copy`, `len`, and the bases given to `waa__open` so far, in the order
of the calls (`log`). -/
def find_base_loop (x : BaseExt) : Nat → CStr → Nat → List CStr →
    Run (Int × CStr × Nat × List CStr)
  | 0, _, _, _ => Run.fuel
  | fuel + 1, base, len, log =>
    if x.probe base = 0 then Run.ret (0, base, len, log ++ [base])
    else if len ≤ 1 then Run.ret (x.probe base, base, len, log ++ [base])
    else
      match strrchr (base.take len) PATH_SEPARATOR with
      | some cp =>
        if cp = 0 then find_base_loop x fuel ((base.take len).take 1) 0 (log ++ [base])
        else find_base_loop x fuel ((base.take len).take cp) cp (log ++ [base])
      | none => Run.bug

/-- Step 5 for one path: `normalized[i]`. -/
def normalize_path (len : Nat) (path : CStr) : CStr :=
  if path.at len = 0 then [46]
  else if len = 1 then path.drop 1
  else path.drop (len + 1)

/-- The function `waa__find_common_base(argc, args, normalized)`. -/
def waa__find_common_base (x : BaseExt) (args : List CStr) : Run BaseResult :=
  let args := if args = [] then [x.start_path] else args
  let paths := args.map (full_path x)
  let p0 := paths.headD []
  let len := paths.tail.foldl (common_len p0) p0.length
  let cut : Run Nat :=
    if p0.at len = PATH_SEPARATOR ∨ p0.at len = 0 then Run.ret len
    else if len = 0 then Run.bug
    else Run.ret (back_to_sep p0 (len - 1))
  match cut with
  | Run.ret len1 =>
    let len2 := if len1 = 0 then 1 else len1
    match find_base_loop x (len2 + 1) (p0.take len2) len2 [] with
    | Run.ret (status, base, len3, _) =>
      if status ≠ 0 then
        Run.ret ⟨status, none, 0, none⟩
      else
        match x.chdir base with
        | some e => Run.ret ⟨e, some base, len3, none⟩
        | none =>
          let norm := paths.map (normalize_path len3)
          if x.load_conf base ≠ 0 then
            Run.ret ⟨x.load_conf base, some base, len3,
              if x.load_conf base = ENOENT then some norm else none⟩
          else Run.ret ⟨0, some base, len3, some norm⟩
    | Run.bug => Run.bug
    | Run.fuel => Run.fuel
  | Run.bug => Run.bug
  | Run.fuel => Run.fuel

/-! ### `waa___init_path`, `waa__get_waa_directory`, `waa__open` -/

/-- The test `strncmp(a, b, n) == 0` on strings without a NUL inside. -/
def strncmp_eq (a b : CStr) (n : Nat) : Bool := decide (a.take n = b.take n)

/-- The options `OPT__SOFTROOT` as `waa.c` reads them: `opt__get_string` (no
soft-root: `NULL`) and `opt__get_int`. -/
structure SoftRoot where
  str : Option CStr
  int : Nat
deriving Repr, DecidableEq

/-- The function `waa___init_path(dest, src, len, eos)`: the string left in
`dest`; `*eos` points at its end and `*len` is its length. A soft-root that is
`NULL` compares as the empty string (`opt__get_int` is `0` then). -/
def waa___init_path (sr : SoftRoot) (src : CStr) : CStr :=
  let d0 : CStr :=
    if strncmp_eq (sr.str.getD []) src sr.int = false then
      (sr.str.getD []).take sr.int ++ [PATH_SEPARATOR]
    else []
  let d1 := d0 ++ src
  if d1.at (d1.length - 1) ≠ PATH_SEPARATOR then d1 ++ [PATH_SEPARATOR] else d1

/-- Modelled from the spec: "`<root>/<hex[0..2]>/<hex[2..4]>/<hex[4..32]>/`"
(section 4.1); a hexadecimal digit as `Mbin2hex` of `helper.h`, which is not
among the sources, writes it (lower case is chosen). -/
def hex_digit (n : Nat) : Nat := if n < 10 then 48 + n else 87 + n

/-- Modelled from the spec: "hex" (section 4.1); the macro
`Mbin2hex(bin, hex, len)` writes two digits for each of `len` bytes and moves
both pointers on. -/
def Mbin2hex (bin : List Nat) : CStr :=
  match bin with
  | [] => []
  | b :: bs => hex_digit (b / 16 % 16) :: hex_digit (b % 16) :: Mbin2hex bs

/-- The size `APR_MD5_DIGESTSIZE` of an MD5 digest. -/
def APR_MD5_DIGESTSIZE : Nat := 16

/-- The bits of the parameter `flags` of `waa__get_waa_directory` (`waa.h`,
which defines `GWD_WAA`, `GWD_CONF` and `GWD_MKDIR`, is not among the
sources). -/
structure GwdFlags where
  waa : Bool
  conf : Bool
  mkdir : Bool
deriving Repr, DecidableEq

/-- What `waa__get_waa_directory` uses of the program and the system: the
strings in the buffers `waa_tmp_path` and `conf_tmp_path` up to `waa_tmp_fn`
and `conf_tmp_fn` (as `waa__init` left them), the soft-root, `apr_md5`,
`waa__save_cwd` (status and directory), `hlp__pathcopy` of the three parts,
and `waa__mkdir`. -/
structure WaaDirEnv where
  waa_tmp_path : CStr
  conf_tmp_path : CStr
  softroot : SoftRoot
  apr_md5 : List Nat → List Nat
  waa__save_cwd : Int × CStr
  hlp__pathcopy : CStr → CStr → CStr → CStr
  waa__mkdir : CStr → Int

/-- What `waa__get_waa_directory` hands back: its status, the string `*erg`,
`*start_of_spec` and `*eos` as offsets into it, and the bytes given to
`apr_md5`. -/
structure WaaDir where
  status : Int
  erg : CStr
  start_of_spec : Nat
  eos : Nat
  hashed : List Nat
deriving Repr, DecidableEq

/-- The loop `while (plen>1 && path[plen-1] == PATH_SEPARATOR) plen--` of
`waa__get_waa_directory`. -/
def strip_plen (path : CStr) : Nat → Nat
  | 0 => 0
  | plen + 1 =>
    if plen + 1 > 1 ∧ path.at plen = PATH_SEPARATOR then strip_plen path plen else plen + 1

/-- The first part of `waa__get_waa_directory`: the bytes that are given to
`apr_md5`, for a path that is absolute already (or was made so). -/
def hashed_bytes (sr : SoftRoot) (path : CStr) : List Nat :=
  let plen := strip_plen path path.length
  match sr.str with
  | some s =>
    let path1 := if strncmp_eq s path sr.int then path.drop sr.int else path
    path1.take path1.length
  | none => path.take plen

/-- The function `waa__get_waa_directory(path, erg, eos, start_of_spec,
flags)`. Memory allocation is taken to succeed. -/
def waa__get_waa_directory (env : WaaDirEnv) (path : CStr) (flags : GwdFlags) : Run WaaDir :=
  let abs : Int × CStr :=
    if path.at 0 ≠ PATH_SEPARATOR then
      if env.waa__save_cwd.1 ≠ 0 then (env.waa__save_cwd.1, path)
      else (0, env.hlp__pathcopy env.waa__save_cwd.2 [PATH_SEPARATOR] path)
    else (0, path)
  if abs.1 ≠ 0 then Run.ret ⟨abs.1, [], 0, 0, []⟩
  else
    let data := hashed_bytes env.softroot abs.2
    let digest := env.apr_md5 data
    let start : Option (CStr × CStr × List Nat) :=
      if flags.waa then
        some (env.waa_tmp_path,
          Mbin2hex (digest.take 1) ++ [PATH_SEPARATOR] ++
            Mbin2hex ((digest.drop 1).take 1) ++ [PATH_SEPARATOR],
          (digest.drop 2).take (APR_MD5_DIGESTSIZE - 2))
      else if flags.conf then some (env.conf_tmp_path, [], digest.take APR_MD5_DIGESTSIZE)
      else none
    match start with
    | none => Run.bug
    | some (root, spec, bin) =>
      let erg := root ++ spec ++ Mbin2hex bin
      if flags.mkdir && decide (env.waa__mkdir erg ≠ 0) then
        Run.ret ⟨env.waa__mkdir erg, erg, root.length, erg.length, data⟩
      else
        Run.ret ⟨0, erg ++ [PATH_SEPARATOR], root.length, erg.length + 1, data⟩

/-- The string `ext_tmp`: `".tmp"`. -/
def ext_tmp : CStr := [46, 116, 109, 112]

/-- The loop of `waa__open` that replaces every `PATH_SEPARATOR` by `_`, from
`start_spec` to the end of the string. -/
def flatten_seps : CStr → CStr
  | [] => []
  | c :: cs => (if c = PATH_SEPARATOR then 95 else c) :: flatten_seps cs

/-- What `waa__open` uses besides `waa__get_waa_directory`: the flag that
`waa__get_gwd_flag` (not among the sources) chooses for an extension,
`hlp__lstat` on a name, and `open` on a name with flags: the handle, or
`errno`. -/
structure OpenEnv where
  dir : WaaDirEnv
  waa__get_gwd_flag : Option CStr → GwdFlags
  hlp__lstat : CStr → Int
  sys_open : CStr → Nat → Except Int Nat

/-- What `waa__open` leaves: its status, `*filehandle`, the name given to
`open`, and the names stored in `target_name_array[fh]` for a file that is
written to. -/
structure OpenResult where
  status : Int
  filehandle : Option Nat
  opened : Option CStr
  target : Option waa___temp_names_t
deriving Repr, DecidableEq

/-- The flags `O_WRONLY | O_RDWR | O_CREAT` of `fcntl.h` (Linux values). -/
def O_WRITE_MASK : Nat := 1 ||| 2 ||| 64

/-- The function `waa__open(path, extension, flags, filehandle)`. Memory
allocation is taken to succeed; a failed `open` that leaves `errno` zero goes
on to index `target_name_array` with `-1`. -/
def waa__open (env : OpenEnv) (path : CStr) (extension : Option CStr) (flags : Nat) :
    Run OpenResult :=
  let to_be_written_to := flags &&& O_WRITE_MASK
  match waa__get_waa_directory env.dir path (env.waa__get_gwd_flag extension) with
  | Run.ret d =>
    if d.status ≠ 0 then Run.ret ⟨d.status, none, none, none⟩
    else
      match extension with
      | none =>
        if d.eos = 0 then Run.bug
        else Run.ret ⟨env.hlp__lstat (d.erg.take (d.eos - 1)), none, none, none⟩
      | some ext =>
        let orig := d.erg.take d.eos ++ ext
        let dest :=
          if to_be_written_to ≠ 0 then
            (orig ++ ext_tmp).take d.start_of_spec ++
              flatten_seps ((orig ++ ext_tmp).drop d.start_of_spec)
          else orig
        match env.sys_open dest flags with
        | Except.error e =>
          if e = 0 then Run.bug else Run.ret ⟨e, none, some dest, none⟩
        | Except.ok fh =>
          Run.ret ⟨0, some fh, some dest,
            if to_be_written_to ≠ 0 then some ⟨dest, orig⟩ else none⟩
  | Run.bug => Run.bug
  | Run.fuel => Run.fuel

/-! ### A small working copy, for the examples

The tree `/wc/{a, b/c}` of the scenario S1 of the specification: the root at
pointer `0`, the file `a` at `1`, the directory `b` at `2` and the file `c`
at `3`. -/

/-- Modelled from the spec: "`by_inode` is sorted by (device, inode)" (section
3.5); the comparison function `dir___f_sort_by_inode` of `direnum.c`, which is
not among the sources: the device is compared first, then the inode. -/
def dir___f_sort_by_inode (a b : estat) : Int :=
  if a.st.dev > b.st.dev then 2
  else if a.st.dev < b.st.dev then -2
  else if a.st.ino > b.st.ino then 1
  else if a.st.ino < b.st.ino then -1
  else 0

/-- The constants used in the examples. -/
def demo_consts : Consts := ⟨64, 1⟩

/-- An entry with the given name, parent, inode, mode and children. -/
def demo_entry (name : CStr) (parent : Option Nat) (ino mode : Nat) (kids : List Nat) :
    estat :=
  { (default : estat) with
    name := name
    parent := parent
    st := ⟨1, ino, mode, 0, 0⟩
    entry_type := (if S_ISDIR mode then entry_type_t.FT_DIR else entry_type_t.FT_FILE)
    entry_count := kids.length
    by_inode := (if kids = [] then [] else kids.map some ++ [none]) }

/-- The tree `/wc/{a, b/c}`. -/
def demo_heap : Heap := fun p =>
  match p with
  | 0 => demo_entry [46] none 100 16877 [1, 2]
  | 1 => demo_entry [97] (some 0) 101 33188 []
  | 2 => demo_entry [98] (some 0) 102 16877 [3]
  | 3 => demo_entry [99] (some 2) 103 33188 []
  | _ => default

/-- A record format for the examples: inode, mode, parent index and child
count in decimal, the name, NUL and newline. -/
def demo_save (e : estat) (parent : Nat) : List Nat :=
  fmt_u e.st.ino ++ [32] ++ fmt_u e.st.mode ++ [32] ++ fmt_u parent ++ [32] ++
    fmt_u e.entry_count ++ [32] ++ e.name ++ [0, 10]

/-- The parser for the record format of the examples. -/
def demo_load (s : List Nat) (old : estat) : Int × estat × CStr × Nat × List Nat :=
  match scan_u 64 s with
  | some (ino, r1) =>
    match scan_u 32 r1 with
    | some (mode, r2) =>
      match scan_u 64 r2 with
      | some (par, r3) =>
        match scan_u 32 r3 with
        | some (cnt, r4) =>
          let nm := (r4.drop 1).takeWhile (fun c => c ≠ 0)
          (0, { old with
                st := ⟨1, ino, mode, 0, 0⟩
                entry_count := cnt
                entry_type := (if S_ISDIR mode then entry_type_t.FT_DIR
                  else entry_type_t.FT_FILE) },
            nm, par, r4.drop (1 + nm.length + 2))
        | none => (EINVAL, old, [], 0, s)
      | none => (EINVAL, old, [], 0, s)
    | none => (EINVAL, old, [], 0, s)
  | none => (EINVAL, old, [], 0, s)

/-- The external functions for writing, in the examples. -/
def demo_out : OutputExt :=
  ⟨dir___f_sort_by_inode, demo_save, fun h _ => h, fun h p => (h p).name.length + 1⟩

/-- The external functions for reading, in the examples: no callback. -/
def demo_in : InputExt := ⟨demo_load, none⟩

/-- The names of a written dir-file: `/W/dir.tmp` and `/W/dir`. -/
def demo_target : waa___temp_names_t :=
  ⟨[47, 87, 47, 100, 105, 114, 46, 116, 109, 112], [47, 87, 47, 100, 105, 114]⟩

/-- A system in which every call of `waa__close` succeeds. -/
def demo_close_env : CloseEnv := ⟨none, 0, none, none⟩

/-- A system in which every call of `waa__output_tree` succeeds. -/
def demo_out_env : OutputEnv :=
  ⟨0, 3, demo_target, none, fun _ => 0, none, none, demo_close_env⟩

/-- The system of `demo_out_env`, but the first `write` fails with `ENOSPC`. -/
def demo_out_env_enospc : OutputEnv := { demo_out_env with write_placeholder := some 28 }

/-- A system in which every call of `waa__input_tree` succeeds; the entries
are allocated at pointer `1000`. -/
def demo_in_env : InputEnv := ⟨0, none, none, none, none, 1000, none⟩

/-- No file exists. -/
def demo_files : Files := fun _ => none

/-- The dir-file `waa__output_tree` writes for the tree of the examples. -/
def demo_dir_file : List Nat :=
  match waa__output_tree demo_consts demo_out demo_out_env 4 demo_files demo_heap 0 0 with
  | Run.ret r => (r.files demo_target.dest_name).getD []
  | _ => []

/-- The state in which `waa__input_tree` enters its loop for `demo_dir_file`,
with a zeroed root entry at pointer `500`. -/
def demo_in_state : InState := input_init demo_consts 6 demo_dir_file (fun _ => default) 500

/-- The counters of `waa__output_tree` after the tree of the examples. -/
def demo_out_state : OutState := ⟨demo_heap, [], 1024, 4, 7, 2, [], []⟩

/-- The entries the filesystem holds in the examples of the updater: the
directory at pointer `1` is empty, the one at `11` holds the file `f`, the
working copy root (pointer `0`) holds the directory `a`. -/
def demo_ls (dir : Nat) (_by_name : Bool) : Int × List estat :=
  match dir with
  | 0 => (0, [demo_entry [97] none 101 16877 []])
  | 11 => (0, [demo_entry [102] none 200 33188 []])
  | _ => (0, [])

/-- The re-stat of the examples: the entry at pointer `1` (`a`, a file when
the dir-file was written) is found to be a directory now, so it is reported as
replaced; every other entry is unchanged. -/
def demo_restat (h : Heap) (sts : Nat) : Int × estat :=
  if sts = 1 then
    (0, { h sts with st := ⟨1, 300, 16877, 0, 0⟩, entry_status := FS_REPLACED })
  else (0, h sts)

/-- The external functions of the updater in the examples: nothing is ignored,
every entry is to be handled fully (a full, recursive update), every call
succeeds; `dir__sortbyname` sorts the children by name into `by_name`. -/
def demo_upd : UpdateExt where
  ign__is_ignore := fun _ => (0, 0)
  ac__dispatch := fun _ _ => 0
  ops__set_to_handle_bits := fun _ _ => (0, true, true, false)
  dir__enumerator := demo_ls
  is_waa := fun _ => false
  ops___filetype := fun _ => entry_type_t.FT_FILE
  ops__build_path := fun _ _ => 0
  ops__update_single_entry := demo_restat
  dir__sortbyname := fun h p => (0, h.set p { h p with
    by_name := (((h p).by_inode.reduceOption.insertionSort
      (fun a b => dir___f_sort_by_name (h a) (h b) ≤ 0)).map some ++ [none]) })
  chdir := fun _ _ => none
  chdir_up := none
  open_dot := none
  fchdir := none
  close_dot := none
  opt_recursive := 1
  opt_checksum := false
  only_check_status := false
  keep_children := false

/-- The loaded tree `/wc/{a}` with the file `a`: the root at pointer `0`, `a`
at pointer `1`; the allocator has handed out the pointers below `2`. -/
def demo_upd_sys : Sys :=
  ⟨fun p =>
      match p with
      | 0 => demo_entry [46] none 100 16877 [1]
      | 1 => demo_entry [97] (some 0) 101 33188 []
      | _ => default,
    2, 2, []⟩

/-- The state in front of the merge loop of `waa__update_dir` for an empty
old directory (pointer `0`) in which the new directory `d` (pointer `11`) was
found: `current` is at pointer `10`. -/
def demo_merge_sys : Sys :=
  ⟨fun p =>
      match p with
      | 0 => { demo_entry [46] none 100 16877 [] with by_name := [none] }
      | 10 => { demo_entry [46] none 100 16877 [] with
                by_name := [some 11, none]
                entry_count := 1 }
      | 11 => demo_entry [100] (some 10) 150 16877 []
      | _ => default,
    12, 1, []⟩

/-- The external functions of the examples with directories that are all
found empty. -/
def demo_flat : UpdateExt := { demo_upd with dir__enumerator := fun _ _ => (0, []) }

/-- The state in front of the merge loop of `waa__update_dir` for the example
in the comment of the loop: `old` (pointer `0`) has the entries `b c e g h`
(pointers `1` to `5`), the enumeration `current` (pointer `10`) has found
`a b c d e f g h` (pointers `11` to `18`), `d` being a directory. -/
def demo_abc_sys : Sys :=
  ⟨fun p =>
      match p with
      | 0 => { demo_entry [46] none 100 16877 [] with
               by_name := [some 1, some 2, some 3, some 4, some 5, none]
               entry_count := 5 }
      | 1 => demo_entry [98] (some 0) 102 33188 []
      | 2 => demo_entry [99] (some 0) 103 33188 []
      | 3 => demo_entry [101] (some 0) 105 33188 []
      | 4 => demo_entry [103] (some 0) 107 33188 []
      | 5 => demo_entry [104] (some 0) 108 33188 []
      | 10 => { demo_entry [46] none 100 16877 [] with
                by_name := [some 11, some 12, some 13, some 14, some 15, some 16, some 17,
                  some 18, none]
                entry_count := 8 }
      | 11 => demo_entry [97] (some 10) 101 33188 []
      | 12 => demo_entry [98] (some 10) 102 33188 []
      | 13 => demo_entry [99] (some 10) 103 33188 []
      | 14 => demo_entry [100] (some 10) 104 16877 []
      | 15 => demo_entry [101] (some 10) 105 33188 []
      | 16 => demo_entry [102] (some 10) 106 33188 []
      | 17 => demo_entry [103] (some 10) 107 33188 []
      | 18 => demo_entry [104] (some 10) 108 33188 []
      | _ => default,
    19, 8, []⟩

/-- The directory part of a file name: what is in front of its last
separator. -/
def dirname (s : CStr) : CStr :=
  match strrchr s PATH_SEPARATOR with
  | some i => s.take i
  | none => []

/-- The path `/wc`. -/
def path_wc : CStr := [47, 119, 99]

/-- A system for `waa__get_waa_directory` in the examples: the WAA is `/W`, the
configuration area `/C`, no soft-root is set, the current directory is `/wc`,
every call succeeds; a function with 16 bytes stands for MD5. -/
def demo_waa : WaaDirEnv where
  waa_tmp_path := [47, 87, 47]
  conf_tmp_path := [47, 67, 47]
  softroot := ⟨none, 0⟩
  apr_md5 := fun data => (List.range 16).map (fun i => (data.sum + 17 * i) % 256)
  waa__save_cwd := (0, [47, 119, 99])
  hlp__pathcopy := fun a b c => a ++ b ++ c
  waa__mkdir := fun _ => 0

/-- The system `demo_waa` with the soft-root `/mnt`. -/
def demo_waa_softroot : WaaDirEnv :=
  { demo_waa with softroot := ⟨some [47, 109, 110, 116], 4⟩ }

/-- A system for `waa__open` in the examples: every extension is kept in the
WAA, every file can be opened and gets the handle `3`. -/
def demo_open : OpenEnv where
  dir := demo_waa
  waa__get_gwd_flag := fun _ => ⟨true, false, false⟩
  hlp__lstat := fun _ => 0
  sys_open := fun _ _ => Except.ok 3

/-- The dir-file of the examples with another entry count in its header: the
four records are kept. -/
def demo_dir_file_count (count : Nat) : List Nat :=
  header_final demo_consts (fmt_header 1 64 count 1024 11 6) ++ demo_dir_file.drop 64

/-- What is left of the dir-file and the number of records read, after `n`
iterations of the loop of `waa__input_tree` that go on. -/
def iter_summary (s : Option InState) : Option (Nat × List Nat) :=
  s.map (fun s1 => (s1.nloaded, s1.dir_curr))

/-- What `waa__input_tree` says about a dir-file, for the examples: the
status and the number of records read. -/
def in_summary : Run InResult → Option (Int × Nat)
  | Run.ret r => some (r.status, r.nloaded)
  | _ => none

/-- A dir-file with the records of `/wc`, `b` (inode 102) and `a` (inode
101), the children in this order. -/
def demo_dir_unsorted : List Nat :=
  header_final demo_consts (fmt_header 1 64 3 1024 11 6) ++
    demo_save (demo_entry [46] none 100 16877 [1, 2]) 0 ++
    demo_save (demo_entry [98] (some 0) 102 33188 []) 1 ++
    demo_save (demo_entry [97] (some 0) 101 33188 []) 1

/-- What `waa__input_tree` leaves for the entry `D`, for the examples: the
status, `entry_count` of `D`, its array `by_inode`, and the inode numbers of
the entries the array points to. -/
def by_inode_summary (D : Nat) :
    Run InResult → Option (Int × Nat × List (Option Nat) × List (Option Nat))
  | Run.ret r => some (r.status, (r.heap D).entry_count, (r.heap D).by_inode,
      (r.heap D).by_inode.map (fun c => c.map (fun p => (r.heap p).st.ino)))
  | _ => none

/-- The status and the list of dispatched entries of a run of the updater. -/
def dispatched_of : Run (Int × Sys) → Option (Int × List Nat)
  | Run.ret (st, w) => some (st, w.dispatched)
  | _ => none

/-- What the merge loop of `waa__update_dir` leaves, for the examples: how
the loop ended, `nr_cur`, the array `current.by_name` (with `current` at
`c`), and the `entry_status` of the entry in its first slot. -/
def merge_summary (c : Nat) :
    Run (Option Int × MergeState) → Option (Option Int × Nat × List (Option Nat) × Option Nat)
  | Run.ret (st, m) =>
    some (st, m.nr_cur, (m.w.heap c).by_name,
      ((m.w.heap c).by_name.headD none).map (fun p => (m.w.heap p).entry_status))
  | _ => none

/-- The path `/wc/a`. -/
def path_wc_a : CStr := [47, 119, 99, 47, 97]

/-- The path `/wc/ab`. -/
def path_wc_ab : CStr := [47, 119, 99, 47, 97, 98]

/-- A system in which `/wc/a` is the only registered working copy, every
other call succeeds, and the arguments are absolute and normalized already. -/
def demo_base : BaseExt where
  hlp__pathcopy := fun p => p
  probe := fun p => if p = path_wc_a then 0 else ENOENT
  chdir := fun _ => none
  load_conf := fun _ => 0
  start_path := [47]

/-- The relation of the claim C5 between an argument path `P`, the base `B`
and the normalized path `N`: `N` is `.` and `P` is `B`, or `P` is `B`, a
separator and `N` (for the base `/`: a separator and `N`). -/
def relative_to (B P N : CStr) : Prop :=
  (N = [46] ∧ P = B) ∨ (if B = [PATH_SEPARATOR] then P = PATH_SEPARATOR :: N
    else P = B ++ PATH_SEPARATOR :: N)

/-- The relation `relative_to` is decidable. -/
instance (B P N : CStr) : Decidable (relative_to B P N) := by
  unfold relative_to
  infer_instance

/-! ### Predicates of the statements -/

/-- What a call `waa__build_tree(p)` that starts in `w` and ends in `w1` may
have changed: it allocates, it leaves every other entry that existed before
as it was, and it leaves name, parent and stat data of `p`, and its status up
to the bits `FS_CHANGED | FS_CHILD_CHANGED`. -/
def BTFrame (w w1 : Sys) (p : Nat) : Prop :=
  w.next ≤ w1.next ∧
  (∀ q, q < w.next → q ≠ p → w1.heap q = w.heap q) ∧
  (w1.heap p).name = (w.heap p).name ∧ (w1.heap p).parent = (w.heap p).parent ∧
  (w1.heap p).st = (w.heap p).st ∧
  ((w1.heap p).entry_status = (w.heap p).entry_status ∨
    (w1.heap p).entry_status = (w.heap p).entry_status ||| FS_CHANGED ||| FS_CHILD_CHANGED)

/-- The frame `BTFrame` for every returning call of `rec` on an allocated
entry without children (or in a directory that is listed). -/
def BTSpec (x : UpdateExt) (rec : Sys → Nat → Run (Int × Sys)) : Prop :=
  ∀ w p st w1, rec w p = Run.ret (st, w1) → p < w.next →
    ((w.heap p).entry_count = 0 ∨ x.is_waa p = false) → BTFrame w w1 p

/-- The status values a new entry can have after the merge loop: `FS_NEW`,
with `FS_CHANGED | FS_CHILD_CHANGED` added by `waa__build_tree` if it found
entries in the new directory. -/
def new_status (s : Nat) : Prop :=
  s = FS_NEW ∨ s = FS_NEW ||| FS_CHANGED ||| FS_CHILD_CHANGED

/-- The entries of the enumeration that the merge loop of `waa__update_dir`
takes as new: the name does not occur in `old` (the entries `O`), and
`ign__is_ignore` does not set `is_ignored` to a positive value. -/
def is_new_entry (x : UpdateExt) (h : Heap) (O : List Nat) (e : Nat) : Bool :=
  O.all (fun o => decide ((h o).name ≠ (h e).name)) &&
    decide ((x.ign__is_ignore (h e)).2 ≤ 0)

/-- The state in which the merge loop of `waa__update_dir` starts: the array
`by_name` of `current` (at `c`) lists the entries `E`, that of `old` the
entries `O`, both with the NULL at the end and sorted by name with unique
names; the entries are allocated and different from `c`, `old` and each other,
and the enumerated ones have no children yet. -/
structure MergeSetup (w0 : Sys) (old c : Nat) (E O : List Nat) : Prop where
  cur_arr : (w0.heap c).by_name = E.map some ++ [none]
  cur_cnt : (w0.heap c).entry_count = E.length
  old_arr : (w0.heap old).by_name = O.map some ++ [none]
  old_cnt : (w0.heap old).entry_count = O.length
  sortedE : E.Pairwise (fun a b => strcmp (w0.heap a).name (w0.heap b).name < 0)
  sortedO : O.Pairwise (fun a b => strcmp (w0.heap a).name (w0.heap b).name < 0)
  c_old : c ≠ old
  cE : c ∉ E
  cO : c ∉ O
  oldE : old ∉ E
  disj : ∀ e ∈ E, e ∉ O
  alloc_c : c < w0.next
  alloc_old : old < w0.next
  allocE : ∀ e ∈ E, e < w0.next
  allocO : ∀ o ∈ O, o < w0.next
  leaf : ∀ e ∈ E, (w0.heap e).entry_count = 0

/-- The invariant of the merge loop of `waa__update_dir`; `A` is the content
of `current.by_name`. -/
structure MergeInv (x : UpdateExt) (w0 : Sys) (old c : Nat) (E O A : List Nat)
    (m : MergeState) : Prop where
  arr : (m.w.heap c).by_name = A.map some ++ [none]
  perm : A.Perm E
  dropeq : A.drop m.i_cur = E.drop m.i_cur
  takeeq : A.take m.nr_cur = (E.take m.i_cur).filter (is_new_entry x w0.heap O)
  newp : ∀ e ∈ A.take m.nr_cur,
    (m.w.heap e).parent = some old ∧ new_status (m.w.heap e).entry_status
  cnt : (m.w.heap c).entry_count = E.length
  le_cur : m.nr_cur ≤ m.i_cur
  le_E : m.i_cur ≤ E.length
  le_O : m.i_old ≤ O.length
  olds : m.w.heap old = w0.heap old
  oldkeep : ∀ o ∈ O, m.w.heap o = w0.heap o
  rest : ∀ e ∈ E.drop m.i_cur, m.w.heap e = w0.heap e
  next : w0.next ≤ m.w.next
  names : ∀ e ∈ E, (m.w.heap e).name = (w0.heap e).name
  order : ∀ o ∈ O.take m.i_old, ∀ e ∈ E.drop m.i_cur,
    strcmp (w0.heap o).name (w0.heap e).name < 0

/-- What the branch `update_dir_new` for the entry `sts` does to the state. -/
def NewRel (old c sts : Nat) (m m1 : MergeState) : Prop :=
  m1.i_cur = m.i_cur ∧ m1.i_old = m.i_old ∧ m1.nr_cur = m.nr_cur + 1 ∧
  m.w.next ≤ m1.w.next ∧
  (m1.w.heap c).by_name = merge_swap (m.w.heap c).by_name m.nr_cur m.i_cur sts ∧
  (m1.w.heap c).entry_count = (m.w.heap c).entry_count ∧
  (m1.w.heap sts).parent = some old ∧ new_status (m1.w.heap sts).entry_status ∧
  (m1.w.heap sts).name = (m.w.heap sts).name ∧
  ∀ q, q < m.w.next → q ≠ c → q ≠ sts → m1.w.heap q = m.w.heap q

/-- A list that does not start with a digit: decimal scanning stops there. -/
def no_digit_ahead (rest : List Nat) : Prop := ∀ c, rest.head? = some c → isdigit c = false

/-- The absolute path with the components `cs`: `/` for no component, else
each component after a separator. -/
def path_of (cs : List CStr) : CStr :=
  if cs = [] then [PATH_SEPARATOR] else cs.flatMap (fun c => PATH_SEPARATOR :: c)

/-- The path with the components `cs` and its parent directories up to `/`,
the deepest first. -/
def ancestors (cs : List CStr) : List CStr :=
  (List.range (cs.length + 1)).map (fun i => path_of (cs.take (cs.length - i)))

/-- The components of a normalized path: not empty, without a separator. -/
def components_ok (cs : List CStr) : Prop := ∀ c ∈ cs, c ≠ [] ∧ PATH_SEPARATOR ∉ c

/-- What the search for a working copy base has to yield on the candidates
`A` (the deepest first): the candidates are probed in their order up to the
first that is registered (`probe` yields `0`), or all of them; `base` is the
last one probed and `status` what the probe said about it. -/
def SearchSpec (probe : CStr → Int) (A : List CStr) (status : Int) (base : CStr)
    (log : List CStr) : Prop :=
  ∃ k, k < A.length ∧ log = A.take (k + 1) ∧ A.get? k = some base ∧ status = probe base ∧
    (∀ p ∈ A.take k, probe p ≠ 0) ∧ (status ≠ 0 → k + 1 = A.length)

/-- Two entries that differ at most in `other_revs`. -/
def same_but_revs (e e1 : estat) : Prop := e1 = { e with other_revs := e1.other_revs }

/-- The array of a directory that was just read: `by_inode` of `entry_count+1`
slots with the NULL in the last one, and `child_index=0`. -/
def dir_array (env : InputEnv) (e : estat) : estat :=
  if S_ISDIR e.st.mode && decide (e.entry_count ≠ 0) then
    { e with by_inode := List.replicate e.entry_count env.junk ++ [none], child_index := 0 }
  else e

/-- The entry that holds the record number `i` (counted from zero) of a
dir-file after `waa__input_tree`: `root` for the first record, the element
`i-1` of the block at `stat_mem` for the others. -/
def rec_ptr (root stat_mem i : Nat) : Nat := if i = 0 then root else stat_mem + (i - 1)

/-- The entries of the records that name the record number `j` (counted from
zero) as their parent, in the order of the records; `ps` lists the parent
indices of the records read. -/
def rec_kids (root stat_mem : Nat) (ps : List Nat) (j : Nat) : List Nat :=
  ((List.range ps.length).filter (fun i => decide (ps.getD i 0 = j + 1))).map
    (rec_ptr root stat_mem)

/-- What the loop of `waa__input_tree` has built after the records with the
parent indices `ps` (at least one) were read, with `count` records to go:
the counters, the parent pointers, and for every directory read with a
non-zero `entry_count` the array `by_inode`: the children read so far, the
slots not yet assigned (holding `junk`), and the NULL. -/
structure LoadInv (env : InputEnv) (root : Nat) (ps : List Nat) (count : Nat) (s : InState) :
    Prop where
  pos : ps ≠ []
  nl : s.nloaded = ps.length
  first : s.first = false
  cur : s.cur + 1 = ps.length
  free : (ps.length = 1 ∧ s.sts_free = 0) ∨
    (2 ≤ ps.length ∧ s.sts_free = count ∧ s.stat_mem = env.stat_mem)
  pidx : ∀ i, i < ps.length →
    (i = 0 ∧ ps.getD i 0 = 0) ∨ (1 ≤ i ∧ 1 ≤ ps.getD i 0 ∧ ps.getD i 0 ≤ i)
  par : ∀ i, 1 ≤ i → i < ps.length →
    (s.heap (rec_ptr root env.stat_mem i)).parent
      = some (rec_ptr root env.stat_mem (ps.getD i 0 - 1))
  dirs : ∀ j, j < ps.length →
    S_ISDIR (s.heap (rec_ptr root env.stat_mem j)).st.mode = true →
    (s.heap (rec_ptr root env.stat_mem j)).entry_count ≠ 0 →
    (s.heap (rec_ptr root env.stat_mem j)).by_inode
      = (rec_kids root env.stat_mem ps j).map some ++
        List.replicate ((s.heap (rec_ptr root env.stat_mem j)).entry_count
          - (rec_kids root env.stat_mem ps j).length) env.junk ++ [none] ∧
    (s.heap (rec_ptr root env.stat_mem j)).child_index
      = (rec_kids root env.stat_mem ps j).length ∧
    (rec_kids root env.stat_mem ps j).length
      ≤ (s.heap (rec_ptr root env.stat_mem j)).entry_count

/-- The children a directory lists: the pointers in its array `by_inode`. -/
def kids (h : Heap) (d : Nat) : List Nat := (h d).by_inode.reduceOption

/-- The test `S_ISDIR(sts->st.mode) && sts->entry_count>0` of
`waa__output_tree`: the entry is a directory with children. -/
def is_dir (h : Heap) (d : Nat) : Bool :=
  S_ISDIR (h d).st.mode && decide ((h d).entry_count > 0)

/-- The entry is not marked `FT_IGNORE`. -/
def not_ignored (h : Heap) (e : Nat) : Bool :=
  decide ((h e).entry_type ≠ entry_type_t.FT_IGNORE)

/-- A well-formed entry tree with the entries `nodes`: the root is a
directory without parent; the array `by_inode` of every directory with
children is NULL-terminated and lists its `entry_count` children, each once,
and the `parent` of each child points back to the directory. -/
structure WellFormed (h : Heap) (root : Nat) (nodes : List Nat) : Prop where
  nodup : nodes.Nodup
  root_mem : root ∈ nodes
  root_parent : (h root).parent = none
  root_dir : S_ISDIR (h root).st.mode = true
  arr : ∀ d ∈ nodes, is_dir h d = true →
    (h d).by_inode = (kids h d).map some ++ [none] ∧
    (kids h d).length = (h d).entry_count ∧ (kids h d).Nodup ∧
    ∀ c ∈ kids h d, c ∈ nodes ∧ (h c).parent = some d

/-- The entries `waa__output_tree` has to write: the root, and every child
that is not ignored of a directory that is written. -/
inductive Reach (h : Heap) (root : Nat) : Nat → Prop
  | root : Reach h root root
  | child (d c : Nat) : Reach h root d → is_dir h d = true → c ∈ kids h d →
      not_ignored h c = true → Reach h root c

/-- What `dir__sortbyinode` (of `direnum.c`, not among the sources) is taken
to do: it reorders the children in `by_inode` of the directory and may clear
`to_be_sorted`; nothing else changes. -/
def SortSpec (sort : Heap → Nat → Heap) : Prop :=
  ∀ h d, (∀ q, q ≠ d → sort h d q = h q) ∧
    ((h d).by_inode = (kids h d).map some ++ [none] →
      ∃ ks : List Nat, ks.Perm (kids h d) ∧
        sort h d d = { h d with
          by_inode := ks.map some ++ [none]
          to_be_sorted := (sort h d d).to_be_sorted })

/-- The bytes of the records of `saved` (the entry and the parent index given
to `ops__save_1entry`), for the entries as `h1` holds them. -/
def out_records (x : OutputExt) (h1 : Heap) (saved : List (Nat × Nat)) : List Nat :=
  saved.flatMap (fun p => x.ops__save_1entry (h1 p.1) p.2)

/-- The fields of an entry that `waa__output_tree` does not change. -/
def StaticEq (e e1 : estat) : Prop :=
  e1.st = e.st ∧ e1.entry_count = e.entry_count ∧ e1.parent = e.parent ∧
  e1.entry_type = e.entry_type ∧ e1.name = e.name

/-- The `parent` of the entry `e` is `d`. -/
def kid_of (h0 : Heap) (d : Nat) (e : Nat) : Bool := decide ((h0 e).parent = some d)

/-- The total of `strlen(name)+1` over the entries of `saved`. -/
def out_strings (h1 : Heap) (saved : List (Nat × Nat)) : Nat :=
  (saved.map (fun p => (h1 p.1).name.length + 1)).sum

/-- The largest `path_len` that the heap `h1` has for an entry of `saved`. -/
def out_max_path (h1 : Heap) (saved : List (Nat × Nat)) : Nat :=
  (saved.map (fun p => (h1 p.1).path_len)).foldr max 0

/-- The invariant of the loop of `waa__output_tree` on the tree `h0`; `done`
lists the entries taken from the arrays so far, in this order. -/
structure OutInv (h0 : Heap) (root : Nat) (nodes : List Nat) (done : List Nat)
    (s : OutState) : Prop where
  wf : WellFormed s.heap root nodes
  static : ∀ q, StaticEq (h0 q) (s.heap q)
  kperm : ∀ q, (kids s.heap q).Perm (kids h0 q)
  frame : ∀ q, q ∉ s.saved.map Prod.fst → s.heap q = h0 q
  done_nodup : done.Nodup
  done_nodes : ∀ e ∈ done, e ∈ nodes
  saved_eq : s.saved.map Prod.fst = root :: done.filter (not_ignored h0)
  done_kid : ∀ e ∈ done, ∃ d, d ∈ s.saved.map Prod.fst ∧ is_dir s.heap d = true ∧
    e ∈ kids s.heap d
  cur_dir : (s.directory.map Cursor.dir).Nodup
  cur : ∀ c ∈ s.directory, c.dir ∈ s.saved.map Prod.fst ∧ is_dir s.heap c.dir = true ∧
    c.pos < (kids s.heap c.dir).length ∧
    (∀ e ∈ (kids s.heap c.dir).take c.pos, e ∈ done) ∧
    (∀ e ∈ (kids s.heap c.dir).drop c.pos, e ∉ done)
  fin : ∀ d ∈ s.saved.map Prod.fst, is_dir s.heap d = true →
    d ∉ s.directory.map Cursor.dir → ∀ e ∈ kids s.heap d, e ∈ done
  fidx : ∀ i, i < s.saved.length → (s.heap (s.saved.getD i default).1).file_index = i + 1
  pidx : s.saved.head? = some (root, 0) ∧
    ∀ i, 0 < i → i < s.saved.length → ∃ j, j < i ∧
      (s.heap (s.saved.getD i default).1).parent = some (s.saved.getD j default).1 ∧
      (s.saved.getD i default).2 = j + 1
  cc : s.complete_count = s.saved.length
  ord : ∀ c ∈ s.directory, done.filter (kid_of h0 c.dir) = (kids s.heap c.dir).take c.pos
  ordfin : ∀ d ∈ s.saved.map Prod.fst, is_dir s.heap d = true →
    d ∉ s.directory.map Cursor.dir → done.filter (kid_of h0 d) = kids s.heap d
  unsorted : ∀ q, (h0 q).to_be_sorted = false → (s.heap q).by_inode = (h0 q).by_inode

/-- The status, the calls of `ops__save_1entry` and the values of
`file_index` at the pointers `ps` that a run of `waa__output_tree` leaves. -/
def out_summary (run : Run OutResult) (ps : List Nat) :
    Option (Int × List (Nat × Nat) × List Nat) :=
  match run with
  | Run.ret r => some (r.status, r.saved, ps.map (fun p => (r.heap p).file_index))
  | _ => none

/-- The entry `e` is `a` or lies below `a`: following `parent` from `e` leads
to `a`. -/
inductive Under (h : Heap) (a : Nat) : Nat → Prop
  | self : Under h a a
  | child (c d : Nat) : Under h a d → (h c).parent = some d → Under h a c

/-- The external functions of the examples, with an ignore pattern that
matches the name `a`. -/
def demo_ign : UpdateExt :=
  { demo_upd with ign__is_ignore := fun e => (0, if e.name = [97] then 1 else 0) }

/-- The tree `/wc/{a, b/c}` with the directory `b` marked `FT_IGNORE`. -/
def demo_heap_b_ignored : Heap :=
  demo_heap.set 2 { demo_heap 2 with entry_type := entry_type_t.FT_IGNORE }

/-- The tree `/wc/{a, b/c}` with the root marked `FT_IGNORE`. -/
def demo_heap_root_ignored : Heap :=
  demo_heap.set 0 { demo_heap 0 with entry_type := entry_type_t.FT_IGNORE }

/-- The flag `O_TRUNC` of `fcntl.h` (Linux value, octal `01000`). -/
def O_TRUNC : Nat := 512

/-- The system calls `waa__delete_byext` issues, in the order issued. -/
inductive FsCall where
  | unlink (name : CStr)
  | rmdir (name : CStr)
deriving Repr, DecidableEq

/-- What `waa__delete_byext` uses besides `waa__get_waa_directory`: the flag
that `waa__get_gwd_flag` chooses for the extension, the result of `unlink` on
a name (`none`: success, else `errno`), and whether `rmdir` on a name returns
`0`. -/
structure DeleteEnv where
  dir : WaaDirEnv
  waa__get_gwd_flag : Option CStr → GwdFlags
  unlink : CStr → SysRet
  rmdir : CStr → Bool

/-- What `waa__delete_byext` leaves: its status and the system calls. -/
structure DeleteResult where
  status : Int
  calls : List FsCall
deriving Repr, DecidableEq

/-- The function `waa__delete_byext(path, extension, ignore_not_exist)`. The
string `cp` is `*erg` up to `eos` with the extension copied there; `*eos=0`
cuts it at `eos` again, and the second cut is at `strrchr(cp,
PATH_SEPARATOR)`. -/
def waa__delete_byext (env : DeleteEnv) (path extension : CStr) (ignore_not_exist : Bool) :
    Run DeleteResult :=
  match waa__get_waa_directory env.dir path (env.waa__get_gwd_flag (some extension)) with
  | Run.ret d =>
    if d.status ≠ 0 then Run.ret ⟨d.status, []⟩
    else
      let cp := d.erg.take d.eos ++ extension
      let status : Int :=
        match env.unlink cp with
        | none => 0
        | some e => if e = ENOENT ∧ ignore_not_exist then 0 else e
      if status ≠ 0 then Run.ret ⟨status, [FsCall.unlink cp]⟩
      else
        let cp1 := d.erg.take d.eos
        if env.rmdir cp1 then
          match strrchr cp1 PATH_SEPARATOR with
          | some i =>
            Run.ret ⟨status, [FsCall.unlink cp, FsCall.rmdir cp1, FsCall.rmdir (cp1.take i)]⟩
          | none => Run.ret ⟨status, [FsCall.unlink cp, FsCall.rmdir cp1]⟩
        else Run.ret ⟨status, [FsCall.unlink cp, FsCall.rmdir cp1]⟩
  | Run.bug => Run.bug
  | Run.fuel => Run.fuel

/-- The string `*erg` of a run of `waa__get_waa_directory`. -/
def erg_of (run : Run WaaDir) : CStr :=
  match run with
  | Run.ret d => d.erg
  | _ => []

/-- A system for `waa__delete_byext` in the examples: every extension is kept
in the WAA, `unlink` and `rmdir` succeed. -/
def demo_delete : DeleteEnv := ⟨demo_waa, fun _ => ⟨true, false, false⟩, fun _ => none,
  fun _ => true⟩

/-- What `waa__make_info_link` uses besides `waa__get_waa_directory`: whether
`access(path, F_OK)` returns `0`, and the result of `symlink(dest, path)`. -/
structure LinkEnv where
  dir : WaaDirEnv
  access : CStr → Bool
  symlink : CStr → CStr → SysRet

/-- What `waa__make_info_link` leaves: its status, the string `path` after
`strcpy(eos, name)`, and the arguments of `symlink` if it was called. -/
structure LinkResult where
  status : Int
  path : Option CStr
  made : Option (CStr × CStr)
deriving Repr, DecidableEq

/-- The function `waa__make_info_link(directory, name, dest)`; the flags given
to `waa__get_waa_directory` are `GWD_CONF | GWD_MKDIR`. -/
def waa__make_info_link (env : LinkEnv) (directory name dest : CStr) : Run LinkResult :=
  match waa__get_waa_directory env.dir directory ⟨false, true, true⟩ with
  | Run.ret d =>
    if d.status ≠ 0 then Run.ret ⟨d.status, none, none⟩
    else
      let path := d.erg.take d.eos ++ name
      if env.access path then Run.ret ⟨0, some path, none⟩
      else
        match env.symlink dest path with
        | some e => Run.ret ⟨e, some path, some (dest, path)⟩
        | none => Run.ret ⟨0, some path, some (dest, path)⟩
  | Run.bug => Run.bug
  | Run.fuel => Run.fuel

/-- The string `"_base"`. -/
def str_base : CStr := [95, 98, 97, 115, 101]

/-- A system for `waa__make_info_link` in the examples: no link exists yet,
`symlink` succeeds. -/
def demo_link : LinkEnv := ⟨demo_waa, fun _ => false, fun _ _ => none⟩

/-- The path of the link of a run of `waa__make_info_link`. -/
def link_path_of (run : Run LinkResult) : CStr :=
  match run with
  | Run.ret r => r.path.getD []
  | _ => []

/-- What `dir__sortbyname` (of `direnum.c`, not among the sources) is taken
to do: it fills `by_name` of the directory and changes nothing else. -/
def SortNameSpec (x : UpdateExt) : Prop :=
  ∀ h d, (∀ q, q ≠ d → (x.dir__sortbyname h d).2 q = h q) ∧
    (x.dir__sortbyname h d).2 d = { h d with by_name := ((x.dir__sortbyname h d).2 d).by_name }

/-- The entries dispatched before a call are still the first ones dispatched
after every call of `rec` that returns. -/
def DispSpec (rec : Sys → Nat → Run (Int × Sys)) : Prop :=
  ∀ w p st w1, rec w p = Run.ret (st, w1) → w.dispatched <+: w1.dispatched

/-- The state in which the merge loop of `waa__update_dir` starts, as far as
the memory is concerned: `current` (at `c`) lists the enumerated entries `E`
in `by_name`; they were allocated behind `c`, each once, and have no children
yet; `old` was allocated before. -/
structure UDSetup (w0 : Sys) (old c : Nat) (E : List Nat) : Prop where
  cur_arr : (w0.heap c).by_name = E.map some ++ [none]
  cur_cnt : (w0.heap c).entry_count = E.length
  nodup : E.Nodup
  c_lt : c < w0.next
  old_lt : old < c
  fresh : ∀ e ∈ E, c < e ∧ e < w0.next
  leaf : ∀ e ∈ E, (w0.heap e).entry_count = 0

/-- What the merge loop of `waa__update_dir` leaves untouched: the entries
allocated before `current`; and no entry is dispatched unless a new one was
found. -/
structure UDPost (w0 : Sys) (c : Nat) (m : MergeState) : Prop where
  keep : ∀ q, q < c → m.w.heap q = w0.heap q
  next : w0.next ≤ m.w.next
  pre : w0.dispatched <+: m.w.dispatched
  none : m.nr_cur = 0 → m.w.dispatched = w0.dispatched
  some : m.nr_cur ≠ 0 → w0.dispatched.length < m.w.dispatched.length

/-- The invariant of the merge loop of `waa__update_dir` for the frame: the
array of `current` is a permutation of the enumeration, the entries from
`i_cur` on are as enumerated. -/
structure UDInv (w0 : Sys) (c : Nat) (E : List Nat) (m : MergeState) : Prop where
  arr : ∃ A : List Nat, (m.w.heap c).by_name = A.map some ++ [none] ∧ A.Perm E ∧
    A.drop m.i_cur = E.drop m.i_cur
  cnt : (m.w.heap c).entry_count = E.length
  le_cur : m.nr_cur ≤ m.i_cur
  le_E : m.i_cur ≤ E.length
  rest : ∀ e ∈ E.drop m.i_cur, m.w.heap e = w0.heap e
  post : UDPost w0 c m

/-- What a returning call `waa__update_dir(old)` does to the entries that
existed before: `old` gets its status without `FS_LIKELY`, and with
`FS_CHANGED | FS_CHILD_CHANGED` if a new entry was found (and so dispatched);
apart from the status only the child arrays of `old` change; every other
entry is as before. -/
structure UpdDirFrame (w : Sys) (old : Nat) (w1 : Sys) : Prop where
  status : ((w1.heap old).entry_status = bit_clear (w.heap old).entry_status FS_LIKELY ∧
      w1.dispatched = w.dispatched) ∨
    ((w1.heap old).entry_status =
        bit_clear (w.heap old).entry_status FS_LIKELY ||| FS_CHANGED ||| FS_CHILD_CHANGED ∧
      w.dispatched.length < w1.dispatched.length)
  fields : w1.heap old = { w.heap old with
    entry_status := (w1.heap old).entry_status
    by_name := (w1.heap old).by_name
    by_inode := (w1.heap old).by_inode
    entry_count := (w1.heap old).entry_count
    to_be_sorted := (w1.heap old).to_be_sorted }
  next : w.next < w1.next
  others : ∀ q, q < w.next → q ≠ old → w1.heap q = w.heap q
  pre : w.dispatched <+: w1.dispatched

/-- A working copy root (pointer `0`) without known entries whose status is
`FS_LIKELY | FS_NEW`; the allocator has handed out the pointers below `1`. -/
def demo_likely_sys : Sys :=
  ⟨fun p =>
      match p with
      | 0 => { demo_entry [46] none 100 16877 [] with entry_status := FS_LIKELY ||| FS_NEW }
      | _ => default,
    1, 1, []⟩

/-- The status of a run of the updater, the `entry_status` it leaves in the
entry `p`, the children of `p`, and the list of dispatched entries. -/
def status_of (p : Nat) : Run (Int × Sys) → Option (Int × Nat × List (Option Nat) × List Nat)
  | Run.ret (st, w) => some (st, (w.heap p).entry_status, (w.heap p).by_inode, w.dispatched)
  | _ => none

/-- The condition under which `waa___check_dir_for_update` calls
`waa__update_dir` for a directory `e` with `do_full_child`: the test
`opt_recursive >=0 && (sts->entry_status || opt_checksum || (sts->flags &
RF_ADD) || (sts->flags & RF_CHECK))`, and `only_check_status` not set. -/
def check_dir_wants_update (x : UpdateExt) (e : estat) : Prop :=
  x.opt_recursive ≥ 0 ∧
  (e.entry_status ≠ 0 ∨ x.opt_checksum = true ∨ e.flags &&& RF_ADD ≠ 0 ∨
    e.flags &&& RF_CHECK ≠ 0) ∧
  x.only_check_status = false

instance (x : UpdateExt) (e : estat) : Decidable (check_dir_wants_update x e) := by
  unfold check_dir_wants_update
  infer_instance

/-- The call `ac__dispatch(sts, fullpath)` at the end of
`waa___check_dir_for_update`, in the state `w`. -/
def check_dir_dispatch (x : UpdateExt) (w : Sys) (sts : Nat) : Int × Sys :=
  (x.ac__dispatch w.heap sts, { w with dispatched := w.dispatched ++ [sts] })

/-- The external functions of the examples with `opt_recursive = -1`. -/
def demo_nonrec : UpdateExt := { demo_upd with opt_recursive := -1 }

/-- A working copy root (pointer `0`) without known entries, to be handled
fully, whose status is `FS_LIKELY | FS_NEW`. -/
def demo_full_sys : Sys :=
  ⟨fun p =>
      match p with
      | 0 => { demo_entry [46] none 100 16877 [] with
               entry_status := FS_LIKELY ||| FS_NEW
               do_full_child := true }
      | _ => default,
    1, 1, []⟩

/-- The state in which `waa__output_tree(root)` enters its loop `while
(max_dir)`, after the root has been written: `alloc_dir=1024`, the counters of
the root, and `directory[0]=root->by_inode`, `max_dir=1`. -/
def output_loop_start (x : OutputExt) (h : Heap) (root : Nat) : OutState :=
  let h1 := h.set root { h root with url := none }
  let body := x.ops__save_1entry (h1 root) 0
  let h2 := h1.set root { h1 root with file_index := 1 }
  let string_space := u32 (h2 root).name.length
  let h3 := h2.set root { h2 root with path_len := string_space }
  let h4 := if (h3 root).to_be_sorted then x.dir__sortbyinode h3 root else h3
  ⟨h4, [⟨root, 0⟩], 1024, 1, string_space, (h3 root).path_len, body, [(root, 0)]⟩

/-- Modelled from the spec: the "directory cursor high-water mark", the
largest value `max_dir` (the length of `directory`) has at the start or the
end of an iteration of the loop of `waa__output_tree` that starts in the state
`s`. Inside an iteration `max_dir` is first decremented or kept and then kept
or incremented, so no larger value occurs in between. -/
def output_max_dir (x : OutputExt) (env : OutputEnv) : Nat → OutState → Nat
  | fuel, s =>
    match s.directory with
    | [] => 0
    | c :: rest =>
      match fuel with
      | 0 => s.directory.length
      | fuel + 1 =>
        match output_step x env s c rest with
        | Run.ret (status, s1) =>
          if status = 0 then max s.directory.length (output_max_dir x env fuel s1)
          else s.directory.length
        | _ => s.directory.length

/-- The fields that `sscanf` with `waa__header_line` reads from the header a
run of `waa__output_tree` has written. -/
def header_fields : Run OutResult → Option (Int × List Nat)
  | Run.ret r => some (sscanf_header r.header)
  | _ => none

/-- The status and the global `approx_entry_count` after `waa__input_tree`. -/
def approx_of : Run InResult → Option (Int × Nat)
  | Run.ret r => some (r.status, r.approx_entry_count)
  | _ => none

/-- The external functions of the examples for a working copy `/wc/{a, b/c}`
in which `a` has been deleted: the re-stat of `a` (pointer `1`) reports it as
removed, the root holds the directory `b`, and `b` holds the file `c`. -/
def demo_missing : UpdateExt :=
  { demo_upd with
    ops__update_single_entry := fun h sts =>
      if sts = 1 then (0, { h sts with entry_status := FS_REMOVED }) else (0, h sts)
    dir__enumerator := fun dir _ =>
      match dir with
      | 0 => (0, [demo_entry [98] none 102 16877 []])
      | 2 => (0, [demo_entry [99] none 103 33188 []])
      | _ => (0, []) }

/-- The loaded tree `/wc/{a, b/c}` of `demo_heap`; the allocator has handed
out the pointers below `4`. -/
def demo_tree_sys : Sys := ⟨demo_heap, 4, 4, []⟩

/-- The tree `/wc/{a, b/c}` with `a` marked `FS_REMOVED` and the root marked
`FS_CHANGED`. -/
def demo_heap_a_removed : Heap :=
  (demo_heap.set 1 { demo_heap 1 with entry_status := FS_REMOVED }).set 0
    { demo_heap 0 with entry_status := FS_CHANGED }

/-- The value of `f` for the status and the state that a run of the updater
returns. -/
def after_run {α : Type} (f : Int → Sys → α) : Run (Int × Sys) → Option α
  | Run.ret (st, w) => some (f st w)
  | _ => none

/-- The entry `a` is a proper ancestor of the entry `e`: it is reached from
`e` by following `parent` at least once. -/
inductive Ancestor (h : Heap) : Nat → Nat → Prop
  | parent (e a : Nat) : (h e).parent = some a → Ancestor h e a
  | up (e p a : Nat) : (h e).parent = some p → Ancestor h p a → Ancestor h e a

/-- What the loop of `waa__input_tree` has done to the flags `other_revs`
after the records with the parent indices `ps` were read: no entry but those
read has the flag; the root has no parent; an entry read that has the flag has
a parent with the flag; and the parent of an entry read whose `repos_rev`
differs from that of the parent has the flag. -/
structure RevInv (env : InputEnv) (root : Nat) (ps : List Nat) (s : InState) : Prop where
  out : ∀ q, (∀ i, i < ps.length → q ≠ rec_ptr root env.stat_mem i) →
    (s.heap q).other_revs = false
  rootpar : (s.heap root).parent = none
  up : ∀ i, 1 ≤ i → i < ps.length →
    (s.heap (rec_ptr root env.stat_mem i)).other_revs = true →
    (s.heap (rec_ptr root env.stat_mem (ps.getD i 0 - 1))).other_revs = true
  diff : ∀ i, 1 ≤ i → i < ps.length →
    (s.heap (rec_ptr root env.stat_mem i)).repos_rev
      ≠ (s.heap (rec_ptr root env.stat_mem (ps.getD i 0 - 1))).repos_rev →
    (s.heap (rec_ptr root env.stat_mem (ps.getD i 0 - 1))).other_revs = true

/-- What `ops__load_1entry` (of `est_ops.c`, not among the sources) is taken
to leave alone in the entry it fills from the record: the flag `other_revs`
and the pointer `parent`, which `waa__input_tree` sets itself. -/
def LoadKeeps (x : InputExt) : Prop :=
  ∀ s old, ((x.ops__load_1entry s old).2.1).other_revs = old.other_revs ∧
    ((x.ops__load_1entry s old).2.1).parent = old.parent

/-- The external functions for reading, in the examples on `other_revs`: the
record format of `demo_load`, with the inode number taken as `repos_rev`, so
that no two entries have the same revision; no callback. -/
def demo_in_rev : InputExt :=
  ⟨fun s old =>
      ((demo_load s old).1,
        { (demo_load s old).2.1 with repos_rev := (demo_load s old).2.1.st.ino },
        (demo_load s old).2.2),
    none⟩

/-- The status of a run of `waa__input_tree`, the number of records read, and
`repos_rev` and `other_revs` of the entries at the pointers `ps`. -/
def revs_summary (ps : List Nat) : Run InResult → Option (Int × Nat × List (Nat × Bool))
  | Run.ret r => some (r.status, r.nloaded,
      ps.map (fun p => ((r.heap p).repos_rev, (r.heap p).other_revs)))
  | _ => none

/-- The bit `FS_REMOVED` of a status word. -/
def removed_bit (s : Nat) : Nat := s &&& FS_REMOVED

/-- What a part of an iteration of the loop of `waa__update_tree` for the
entry `t` with the parent `q` leaves as it was: the entries allocated and other
than `t` and the parent; in the parent the bit `FS_REMOVED` and `parent`; in
`t` the pointer `parent`. -/
structure Fr (t : Nat) (q : Option Nat) (w w1 : Sys) : Prop where
  next : w.next ≤ w1.next
  others : ∀ e, e < w.next → e ≠ t → q ≠ some e → w1.heap e = w.heap e
  par : ∀ p, q = some p →
    removed_bit (w1.heap p).entry_status = removed_bit (w.heap p).entry_status ∧
    (w1.heap p).parent = (w.heap p).parent
  self : (w1.heap t).parent = (w.heap t).parent

/-- The relation `Fr` on the heaps alone. -/
def HF (t : Nat) (q : Option Nat) (h0 H : Heap) : Prop :=
  (∀ e, e ≠ t → q ≠ some e → H e = h0 e) ∧
  (∀ p, q = some p →
    removed_bit (H p).entry_status = removed_bit (h0 p).entry_status ∧
    (H p).parent = (h0 p).parent) ∧
  (H t).parent = (h0 t).parent

/-- The re-stat in an iteration of the loop of `waa__update_tree`: `if
(sts->do_full_child) STOPIF( ops__update_single_entry(sts, fullpath), NULL)`,
as far as the state is concerned. -/
def update_tree_restat (x : UpdateExt) (w : Sys) (sts : Nat) : Sys :=
  if (w.heap sts).do_full_child then
    { w with heap := w.heap.set sts (x.ops__update_single_entry w.heap sts).2 }
  else w

/-- The statement `if ((sts->entry_status & FS_REMOVED) && sts->parent)
sts->parent->entry_status = FS_CHANGED | (sts->parent->entry_status &
(~FS_LIKELY))` of `waa__update_tree`. -/
def update_tree_mark_parent (h : Heap) (sts : Nat) : Heap :=
  match (h sts).parent with
  | some par =>
    if (h sts).entry_status &&& FS_REMOVED ≠ 0 then
      h.set par { h par with
        entry_status := FS_CHANGED ||| bit_clear (h par).entry_status FS_LIKELY }
    else h
  | none => h

/-- The statement `if (S_ISDIR(sts->st.mode) && (sts->entry_status &
FS_REMOVED) && !action->keep_children) sts->entry_count=0` of
`waa__update_tree`. -/
def update_tree_drop_children (x : UpdateExt) (h : Heap) (sts : Nat) : Heap :=
  if S_ISDIR (h sts).st.mode ∧ (h sts).entry_status &&& FS_REMOVED ≠ 0 ∧
      ¬ x.keep_children then h.set sts { h sts with entry_count := 0 }
  else h

/-- The statement of `waa__update_tree` for a replaced entry that is a
directory now: `entry_count=0` and no arrays. -/
def update_tree_reset_replaced (h : Heap) (sts : Nat) : Heap :=
  if S_ISDIR (h sts).st.mode ∧ (h sts).entry_status &&& FS_REPLACED ≠ 0 then
    h.set sts { h sts with entry_count := 0, by_inode := [], by_name := [] }
  else h

/-- The start of an iteration of the loop of `waa__update_tree`: `if
(S_ISDIR(sts->st.mode)) sts->child_index=0`. -/
def update_tree_init (w : Sys) (sts : Nat) : Sys :=
  if S_ISDIR (w.heap sts).st.mode then
    { w with heap := w.heap.set sts { w.heap sts with child_index := 0 } }
  else w

/-- The bits that `ops__set_to_handle_bits(sts)` stores in `sts`, in an
iteration of the loop of `waa__update_tree` for an entry with a parent. -/
def update_tree_bits (x : UpdateExt) (w : Sys) (sts : Nat) : Sys :=
  { w with heap := w.heap.set sts { w.heap sts with
      do_full := (x.ops__set_to_handle_bits w.heap (w.heap sts)).2.1
      do_full_child := (x.ops__set_to_handle_bits w.heap (w.heap sts)).2.2.1
      do_a_child := (x.ops__set_to_handle_bits w.heap (w.heap sts)).2.2.2 } }

/-- The statement `sts->entry_status=FS_REMOVED` of `waa__update_tree` for an
entry whose parent is removed. -/
def update_tree_set_removed (w : Sys) (sts : Nat) : Sys :=
  { w with heap := w.heap.set sts { w.heap sts with entry_status := FS_REMOVED } }

/-- The entries that the loop of `waa__update_tree` visits for a list of
blocks, in this order: `first`, `first+1`, ... for each block; a block with
the count `0` is visited once as well (`count` is tested after the entry). -/
def block_entries : Blocks → List Nat
  | [] => []
  | b :: rest => List.range' b.1 (max b.2 1) ++ block_entries rest

/-- The visiting order `V` is parent-first for the tree `h0`: no entry occurs
twice, all are allocated (below `next`), and the parent of an entry occurs
before it. -/
structure ParentFirst (h0 : Heap) (next : Nat) (V : List Nat) : Prop where
  nodup : V.Nodup
  alloc : ∀ e ∈ V, e < next
  first : ∀ i, i < V.length → ∀ p ∈ (h0 (V.getD i 0)).parent, p ∈ V.take i

/-- The invariant of the loop of `waa__update_tree` after the entries `P`:
the pointers `parent` of the entries of the tree `w0` are as they were, and an
entry of `P` whose parent has the bit `FS_REMOVED` has the status
`FS_REMOVED`. -/
structure RemInv (w0 : Sys) (P : List Nat) (w : Sys) : Prop where
  next : w0.next ≤ w.next
  parents : ∀ e, e < w0.next → (w.heap e).parent = (w0.heap e).parent
  closed : ∀ e ∈ P, ∀ p, (w0.heap e).parent = some p →
    removed_bit (w.heap p).entry_status ≠ 0 → (w.heap e).entry_status = FS_REMOVED

/-- The external functions of the examples for a working copy `/wc/{a, b/c}`
in which the directory `b` has been deleted: the re-stat of `b` (pointer `2`)
reports it as removed, and the root only holds `a`. -/
def demo_b_missing : UpdateExt :=
  { demo_upd with
    ops__update_single_entry := fun h sts =>
      if sts = 2 then (0, { h sts with entry_status := FS_REMOVED }) else (0, h sts)
    dir__enumerator := fun dir _ =>
      match dir with
      | 0 => (0, [demo_entry [97] none 101 33188 []])
      | _ => (0, []) }

/-- The loop of `waa___find_position` with every read of the array checked:
`cmpAt i` is `none` for an index `i` outside of the array, and such a read is
`Run.bug`. -/
def find_position_loop_checked (cmpAt : Nat → Option Int) : Nat → Nat → Nat → Run Nat
  | 0, _, _ => Run.fuel
  | fuel + 1, smaller, bigger_eq =>
    let middle := (bigger_eq + smaller) / 2
    match cmpAt middle with
    | none => Run.bug
    | some status =>
      if status > 0 then
        if bigger_eq ≤ middle + 1 then Run.ret bigger_eq
        else find_position_loop_checked cmpAt fuel (middle + 1) bigger_eq
      else if status < 0 then
        if middle ≤ smaller then Run.ret middle
        else find_position_loop_checked cmpAt fuel smaller middle
      else Run.ret middle

/-- The function `waa___find_position` with every read of the array checked:
`cmpAt i` is `none` for an index `i` outside of the array, and such a read is
`Run.bug`. -/
def find_position_checked (cmpAt : Nat → Option Int) (count : Nat) : Run Nat :=
  if count = 0 then Run.ret 0
  else
    match cmpAt 0 with
    | none => Run.bug
    | some first =>
      if first < 0 then Run.ret 0
      else if count = 1 then Run.ret 1
      else
        match cmpAt (count - 1) with
        | none => Run.bug
        | some last =>
          if last ≥ 0 then Run.ret count
          else find_position_loop_checked cmpAt count 1 (count - 1)

/-- The condition of the `BUG_ON` that `waa___find_position` has behind its
loop when compiled with `DEBUG`. -/
def find_position_bug_on (cmpAt : Nat → Int) (count bigger_eq : Nat) : Bool :=
  (decide (bigger_eq + 1 < count) && decide (cmpAt bigger_eq > 0)) ||
    (decide (bigger_eq > 0) && decide (cmpAt (bigger_eq - 1) < 0))

/-- The function `waa___find_position` as compiled with `DEBUG`: the
`BUG_ON` behind the loop is `Run.bug`. -/
def waa___find_position_debug (cmpAt : Nat → Int) (count : Nat) : Run Nat :=
  if count = 0 then Run.ret 0
  else if cmpAt 0 < 0 then Run.ret 0
  else if count = 1 then Run.ret 1
  else if cmpAt (count - 1) ≥ 0 then Run.ret count
  else
    match waa___find_position_loop cmpAt count 1 (count - 1) with
    | Run.ret bigger_eq =>
      if find_position_bug_on cmpAt count bigger_eq then Run.bug else Run.ret bigger_eq
    | Run.bug => Run.bug
    | Run.fuel => Run.fuel

/-- The comparison of two integers, as `dir___f_sort_by_inode` compares the
inodes on one device. -/
def cmp_int (a b : Int) : Int := if a > b then 1 else if a < b then -1 else 0

/-- A three-way comparison that describes a total preorder: `cmp a b ≤ 0`
stands for `a ≤ b`. -/
structure TotalPreorderCmp (cmp : estat → estat → Int) : Prop where
  swap : ∀ a b, cmp a b < 0 ↔ 0 < cmp b a
  trans : ∀ a b c, cmp a b ≤ 0 → cmp b c ≤ 0 → cmp a c ≤ 0

/-- The array of cursors is sorted non-decreasingly by the entries at the
cursors. -/
def SortedCursors (cmp : estat → estat → Int) (h : Heap) (array : List Cursor) : Prop :=
  array.Pairwise (fun a b => cmp (a.head h) (b.head h) ≤ 0)

/-- The comparisons of the new element with the elements of a sorted array:
behind an element that is bigger than the new one all are bigger, in front of
an element that is smaller all are smaller. -/
def SignSorted (cmpAt : Nat → Int) (count : Nat) : Prop :=
  ∀ i j, i ≤ j → j < count → (cmpAt i < 0 → cmpAt j < 0) ∧ (0 < cmpAt j → 0 < cmpAt i)

/-- A heap for the examples of `waa___find_position`: the directories `0`
(with the entries `1` and `2`, inodes 5 and 7) and `3` (with the entry `4`,
a hard link to inode 5). -/
def demo_links_heap : Heap := fun p =>
  match p with
  | 0 => demo_entry [119, 99] none 1 16877 [1, 2]
  | 1 => demo_entry [97] (some 0) 5 33188 []
  | 2 => demo_entry [98] (some 0) 7 33188 []
  | 3 => demo_entry [100] (some 0) 9 16877 [4]
  | 4 => demo_entry [101] (some 3) 5 33188 []
  | _ => default

/-- The structure `struct waa__entry_blocks_t`: a block of `count` entries
starting at `first`, and its neighbours in the list of blocks. -/
structure waa__entry_blocks_t where
  first : Nat
  count : Nat
  next : Option Nat
  prev : Option Nat
deriving Repr, DecidableEq, Inhabited

/-- The memory that holds the blocks. -/
abbrev BlockHeap := Nat → waa__entry_blocks_t

/-- The function `waa__new_entry_block(entry, count, previous)` on the linked
blocks. `malloc` is what the allocation returns, `none` for `NULL`. Yields the
status and the memory. -/
def waa__new_entry_block_links (bh : BlockHeap) (malloc : Option Nat)
    (entry count previous : Nat) : Int × BlockHeap :=
  match malloc with
  | none => (ENOMEM, bh)
  | some eblock =>
    let b1 : BlockHeap := Function.update bh eblock { bh eblock with first := entry }
    let b2 : BlockHeap := Function.update b1 eblock { b1 eblock with count := count }
    let b3 : BlockHeap := Function.update b2 eblock { b2 eblock with next := (b2 previous).next }
    let b4 : BlockHeap := Function.update b3 eblock { b3 eblock with prev := some previous }
    let b5 : BlockHeap := Function.update b4 previous { b4 previous with next := some eblock }
    match (b5 eblock).next with
    | some n => (0, Function.update b5 n { b5 n with prev := some eblock })
    | none => (0, b5)

/-- The blocks of `S` are doubly linked: following `next` and then `prev`, or
`prev` and then `next`, leads back, and the links stay inside `S`. -/
structure DoublyLinked (bh : BlockHeap) (S : List Nat) : Prop where
  fwd : ∀ a ∈ S, ∀ b, (bh a).next = some b → b ∈ S ∧ (bh b).prev = some a
  bwd : ∀ b ∈ S, ∀ a, (bh b).prev = some a → a ∈ S ∧ (bh a).next = some b

/-- The list `L` is what following `next` from its first block reads, up to
the `NULL` in its last block. -/
def is_chain (bh : BlockHeap) : List Nat → Prop
  | [] => True
  | [a] => (bh a).next = none
  | a :: b :: L => (bh a).next = some b ∧ is_chain bh (b :: L)

/-- The blocks at the pointers `L`, as the list of `first` and `count`. -/
def blocks_of (bh : BlockHeap) (L : List Nat) : Blocks :=
  L.map (fun p => ((bh p).first, (bh p).count))

/-- Three linked blocks `10`, `11`, `12`, for the examples. -/
def demo_blocks : BlockHeap := fun p =>
  match p with
  | 10 => ⟨0, 1, some 11, none⟩
  | 11 => ⟨100, 3, some 12, some 10⟩
  | 12 => ⟨200, 2, none, some 11⟩
  | _ => default

/-- The links of a few blocks, for the examples. -/
def links_of (r : Int × BlockHeap) (ps : List Nat) : Int × List (Nat × Option Nat × Option Nat) :=
  (r.1, ps.map (fun p => (p, (r.2 p).next, (r.2 p).prev)))

/-- A system in which `/` is the only registered working copy, every other
call succeeds, and the arguments are absolute and normalized already. -/
def demo_root_base : BaseExt := { demo_base with probe := fun p => if p = [47] then 0 else ENOENT }

/-- The shape of the hashed directories behind the root of an area, as far
as the temporary names need it: there is no `_` in them, and their third
character is a separator in the WAA (two hex digits come first) and a hex
digit in the configuration area; 35 and 33 characters. -/
def SpecShape (spec : CStr) (waa : Bool) : Prop :=
  95 ∉ spec ∧ spec.length = (if waa then 35 else 33) ∧
    (spec.at 2 = PATH_SEPARATOR ↔ waa = true)

/-- A dir-file with three records: the directory `/wc` with one child, the
file `a` below it, and the file `c` whose parent index 2 names the file `a`. -/
def demo_dir_file_parent : List Nat :=
  header_final demo_consts (fmt_header 1 64 3 1024 11 6) ++
    demo_save (demo_entry [46] none 100 16877 [1]) 0 ++
    demo_save (demo_entry [97] (some 0) 101 33188 []) 1 ++
    demo_save (demo_entry [99] (some 1) 103 33188 []) 2

/-- The run does not return: a `BUG_ON` fired, or memory outside of an
allocated array was written. -/
def Run.isBug {α : Type} : Run α → Bool
  | Run.bug => true
  | _ => false

/-- What the loop of `waa__input_tree` has loaded after `n` records, for the
examples: the index `cur`, and mode, `entry_count`, `child_index` and the
array `by_inode` of the entry at `p`. -/
def loaded_summary (p : Nat) : Option InState → Option (Nat × Nat × Nat × Nat × List (Option Nat))
  | some s => some (s.cur, (s.heap p).st.mode, (s.heap p).entry_count, (s.heap p).child_index,
      (s.heap p).by_inode)
  | none => none

/-- The condition of the check at the end of the loop body of
`waa__output_tree` as compiled with `DEBUG`:
`dir___f_sort_by_inode(directory[i-1], directory[i]) > 0` for an `i` with
`1 ≤ i < max_dir`. -/
def output_bug_on (cmp : estat → estat → Int) (h : Heap) (dir : List Cursor) : Bool :=
  (List.range (dir.length - 1)).any (fun i =>
    decide (cmp ((dir.getD i default).head h) ((dir.getD (i + 1) default).head h) > 0))

/-- One iteration of the loop of `waa__output_tree` as compiled with `DEBUG`:
the `BUG_ON` at the end of the loop body is `Run.bug`. The `continue` for an
ignored entry does not reach it. -/
def output_step_debug (x : OutputExt) (env : OutputEnv) (s : OutState) (c : Cursor)
    (rest : List Cursor) : Run (Int × OutState) :=
  match output_advance x s.heap c rest with
  | Run.ret (sts, dir1) =>
    if (s.heap sts).entry_type = entry_type_t.FT_IGNORE then
      Run.ret (0, { s with directory := dir1 })
    else
      match (s.heap sts).parent with
      | none => Run.bug
      | some par =>
        let pidx := (s.heap par).file_index
        if env.save_status s.saved.length ≠ 0 then
          Run.ret (env.save_status s.saved.length, { s with directory := dir1 })
        else
          match output_count x s sts dir1 pidx with
          | Run.ret s2 =>
            if output_bug_on x.dir___f_sort_by_inode s2.heap s2.directory then Run.bug
            else Run.ret (0, s2)
          | Run.bug => Run.bug
          | Run.fuel => Run.fuel
  | Run.bug => Run.bug
  | Run.fuel => Run.fuel

/-- The loop of `waa__output_tree` as compiled with `DEBUG`. -/
def output_loop_debug (x : OutputExt) (env : OutputEnv) :
    Nat → OutState → Run (Int × OutState)
  | fuel, s =>
    match s.directory with
    | [] => Run.ret (0, s)
    | c :: rest =>
      match fuel with
      | 0 => Run.fuel
      | fuel + 1 =>
        match output_step_debug x env s c rest with
        | Run.ret (status, s1) =>
          if status = 0 then output_loop_debug x env fuel s1 else Run.ret (status, s1)
        | Run.bug => Run.bug
        | Run.fuel => Run.fuel

/-- The function `waa__output_tree(root)` as compiled with `DEBUG`. -/
def waa__output_tree_debug (k : Consts) (x : OutputExt) (env : OutputEnv) (fuel : Nat)
    (files : Files) (h : Heap) (max_path_len : Nat) (root : Nat) : Run OutResult :=
  let s0 : OutState := ⟨h, [], 0, 0, 0, max_path_len, [], []⟩
  if env.open_status ≠ 0 then
    Run.ret ⟨env.open_status, h, files, [], [], max_path_len, []⟩
  else
    match env.write_placeholder with
    | some e => output_ex env files e [] s0 []
    | none =>
      let alloc_dir := 1024
      let h1 := h.set root { h root with url := none }
      if env.save_status 0 ≠ 0 then
        output_ex env files (env.save_status 0) (header_placeholder k)
          { s0 with heap := h1 } []
      else
        let body := x.ops__save_1entry (h1 root) 0
        let h2 := h1.set root { h1 root with file_index := 1 }
        let string_space := u32 (h2 root).name.length
        let h3 := h2.set root { h2 root with path_len := string_space }
        let s1 : OutState := ⟨h3, [], alloc_dir, 1, string_space, (h3 root).path_len,
          body, [(root, 0)]⟩
        if (h3 root).entry_count = 0 then output_save_header k env files s1
        else
          let h4 := if (h3 root).to_be_sorted then x.dir__sortbyinode h3 root else h3
          match output_loop_debug x env fuel
              { s1 with heap := h4, directory := [⟨root, 0⟩] } with
          | Run.ret (status, s2) =>
            if status = 0 then output_save_header k env files s2
            else output_ex env files status (header_placeholder k ++ s2.body) s2 []
          | Run.bug => Run.bug
          | Run.fuel => Run.fuel

/-- The states of the loop of `waa__output_tree` that starts in the state
`s`: the state at the start of the loop, and the state at the end of every
iteration after which the loop goes on. -/
def output_states (x : OutputExt) (env : OutputEnv) : Nat → OutState → List OutState
  | fuel, s =>
    match s.directory with
    | [] => [s]
    | c :: rest =>
      match fuel with
      | 0 => [s]
      | fuel + 1 =>
        match output_step x env s c rest with
        | Run.ret (status, s1) =>
          if status = 0 then s :: output_states x env fuel s1 else [s]
        | _ => [s]

/-- The comparison reads only the `struct stat` of the two entries. -/
def CmpOfStat (cmp : estat → estat → Int) : Prop :=
  ∀ a b a1 b1 : estat, a.st = a1.st → b.st = b1.st → cmp a b = cmp a1 b1

/-- The tree `/wc/{a/c, b}` with the inodes 100 (`/wc`), 101 (`a`), 103 (`c`)
and 105 (`b`): while `c` waits to be written, the cursors of `a` and of the
root are both open. -/
def demo_two_dirs : Heap := fun p =>
  match p with
  | 0 => demo_entry [46] none 100 16877 [1, 2]
  | 1 => demo_entry [97] (some 0) 101 16877 [3]
  | 2 => demo_entry [98] (some 0) 105 33188 []
  | 3 => demo_entry [99] (some 1) 103 33188 []
  | _ => default

/-- Modelled from the spec: "absolute, separator-normalized copies of every
argument" (step 1 of the base discovery). What `hlp__pathcopy` (of `helper.c`,
which is not among the sources) yields for an argument with normalized
separators when the current directory is `cwd`: an absolute path is kept,
`.` and the empty path are the current directory, and any other relative
path is appended to the current directory. -/
def pathcopy_cwd (cwd : CStr) (p : CStr) : CStr :=
  if p.at 0 = PATH_SEPARATOR then p
  else if p = [46] ∨ p = [] then cwd
  else if cwd = [PATH_SEPARATOR] then PATH_SEPARATOR :: p
  else cwd ++ PATH_SEPARATOR :: p

/-- The system `demo_base` (`/wc/a` is the only registered working copy) with
the current directory `cwd`. -/
def demo_base_cwd (cwd : CStr) : BaseExt :=
  { demo_base with hlp__pathcopy := pathcopy_cwd cwd, start_path := cwd }

/-- The system `demo_base_cwd` with `/wc` the only registered working copy. -/
def demo_wc_cwd (cwd : CStr) : BaseExt :=
  { demo_base_cwd cwd with probe := fun p => if p = [47, 119, 99] then 0 else ENOENT }

/-- The dir-file of the examples with the version field `v` in its header. -/
def demo_dir_file_version (v : Nat) : List Nat :=
  header_final demo_consts (fmt_header v 64 4 1024 11 6) ++ demo_dir_file.drop 64

/-- The parent pointer for a non-zero parent index as `waa__input_tree`
computes it when the `BUG_ON(i >= cur)` is left out. -/
def resolve_parent_unchecked (root stat_mem parent : Nat) : Nat :=
  if parent = 1 then root else stat_mem + (parent - 2)

/-- The block `if (parent) ...` of `waa__input_tree` without the
`BUG_ON(i >= cur)`. -/
def input_attach_unchecked (fuel : Nat) (root : Nat) (s : InState) (h1 : Heap)
    (sts parent : Nat) : Run Heap :=
  let par := resolve_parent_unchecked root s.stat_mem parent
  let h2 := h1.set sts { h1 sts with parent := some par }
  let h3 := h2.set sts { h2 sts with path_level := (h2 par).path_level + 1 }
  let p := h3 par
  if p.child_index ≥ p.by_inode.length then Run.bug
  else
    let h4 := h3.set par { p with by_inode := p.by_inode.set p.child_index (some sts),
                                  child_index := p.child_index + 1 }
    if (h4 par).child_index > (h4 par).entry_count then Run.bug
    else if (h4 sts).repos_rev ≠ (h4 par).repos_rev then
      mark_other_revs fuel h4 (h4 sts).parent
    else Run.ret h4

/-- The part of a loop iteration of `waa__input_tree` after the parent index
was checked, without the `BUG_ON(i >= cur)`. -/
def input_link_unchecked (x : InputExt) (env : InputEnv) (fuel : Nat)
    (root string_space : Nat) (s : InState) (sts : Nat) (filename : CStr) (parent : Nat) :
    Run InState :=
  let cur := if s.first then s.cur else s.cur + 1
  let h1 := s.heap.set sts { s.heap sts with name := filename }
  let used := s.used + (filename.length + 1)
  if used > string_space then Run.bug
  else
    let linked : Run Heap :=
      if parent ≠ 0 then input_attach_unchecked fuel root s h1 sts parent else Run.ret h1
    match linked with
    | Run.ret h5 =>
      let e := h5 sts
      let h6 := if S_ISDIR e.st.mode && decide (e.entry_count ≠ 0) then
          h5.set sts { e with by_inode := List.replicate e.entry_count env.junk ++ [none],
                              child_index := 0 }
        else h5
      let s1 : InState := { s with heap := h6, cur := cur, first := false, used := used }
      match x.callback with
      | some cb => Run.ret { s1 with status := (cb h6 sts).1, heap := (cb h6 sts).2 }
      | none => Run.ret s1
    | Run.bug => Run.bug
    | Run.fuel => Run.fuel

/-- One iteration of the loop of `waa__input_tree` without the
`BUG_ON(i >= cur)`. -/
def input_step_unchecked (x : InputExt) (env : InputEnv) (fuel : Nat)
    (root string_space : Nat) (count : Nat) (s : InState) : Run (Bool × InState) :=
  match s.dir_curr with
  | [] => Run.ret (false, { s with status := EINVAL })
  | _ :: _ =>
    let s2 := input_alloc env count s
    let sts := input_sts root s2
    let r := x.ops__load_1entry s2.dir_curr (s2.heap sts)
    let s3 := { s2 with status := r.1, heap := s2.heap.set sts r.2.1,
                        dir_curr := r.2.2.2.2, nloaded := s2.nloaded + 1 }
    if r.1 ≠ 0 then Run.ret (false, s3)
    else if parent_invalid r.2.2.2.1 s3.first s3.cur then
      Run.ret (false, { s3 with status := EINVAL })
    else
      match input_link_unchecked x env fuel root string_space s3 sts r.2.2.1 r.2.2.2.1 with
      | Run.ret s4 => Run.ret (decide (s4.status = 0), s4)
      | Run.bug => Run.bug
      | Run.fuel => Run.fuel

/-- The loop of `waa__input_tree` without the `BUG_ON(i >= cur)`. -/
def input_loop_unchecked (x : InputExt) (env : InputEnv) (fuel : Nat)
    (root string_space : Nat) : Nat → InState → Run InState
  | 0, s => Run.ret s
  | count + 1, s =>
    match input_step_unchecked x env fuel root string_space (count + 1) s with
    | Run.ret (true, s1) => input_loop_unchecked x env fuel root string_space count s1
    | Run.ret (false, s1) => Run.ret s1
    | Run.bug => Run.bug
    | Run.fuel => Run.fuel

/-- The function `waa__input_tree` without the `BUG_ON(i >= cur)` in front
of `sts->parent=stat_mem+i`. -/
def waa__input_tree_unchecked (k : Consts) (x : InputExt) (env : InputEnv) (fuel : Nat)
    (dir : List Nat) (h : Heap) (approx_entry_count max_path_len : Nat) (root : Nat) :
    Run InResult :=
  let blocks0 : Blocks := [(root, 1)]
  let fail (status : Int) : Run InResult :=
    Run.ret ⟨status, h, blocks0, approx_entry_count, max_path_len, 0, 0⟩
  if env.open_status = ENOENT then fail (-ENOENT)
  else if env.open_status ≠ 0 then fail env.open_status
  else
    match env.lseek_ret, env.mmap_ret, env.close_ret with
    | some e, _, _ => fail e
    | none, some e, _ => fail e
    | none, none, some e => fail e
    | none, none, none =>
      let hd := input_header k dir approx_entry_count max_path_len
      if hd.status = EINVAL then
        Run.ret ⟨EINVAL, h, blocks0, hd.approx_entry_count, hd.max_path_len, 0, 0⟩
      else
        match input_loop_unchecked x env fuel root hd.string_space hd.count
            (input_init k hd.status dir h root) with
        | Run.ret s =>
          let status := if s.status = 0 then
              (match env.munmap_ret with
               | some e => e
               | none => s.status)
            else s.status
          Run.ret ⟨status, s.heap, s.blocks, hd.approx_entry_count, hd.max_path_len,
            s.nloaded, s.used⟩
        | Run.bug => Run.bug
        | Run.fuel => Run.fuel

/-- A dir-file with two records: the root, a directory with one entry, and
an entry whose parent index is `2`, its own record number. -/
def demo_dir_file_selfref : List Nat :=
  header_final demo_consts (fmt_header 1 64 2 1024 11 6) ++
    demo_save (demo_entry [46] none 100 16877 [1]) 0 ++
    demo_save (demo_entry [97] (some 0) 101 33188 []) 2

/-- The path `waa__get_waa_directory` works on after its first block, when
`waa__save_cwd` succeeded: a path that does not start with a separator is
replaced by `hlp__pathcopy(cp, NULL, cp, "/", path, NULL)`, with `cp` the
current directory. -/
def absolute_path (env : WaaDirEnv) (path : CStr) : CStr :=
  if path.at 0 ≠ PATH_SEPARATOR then
    env.hlp__pathcopy env.waa__save_cwd.2 [PATH_SEPARATOR] path
  else path

/-- Modelled from the spec: "Collapse trailing separators" (section 4.1): the
separators at the end of a path are dropped, but its first character stays. -/
def strip_trailing_seps : CStr → CStr
  | [] => []
  | c :: cs => c :: (cs.reverse.dropWhile (fun b => b == PATH_SEPARATOR)).reverse

/-- Modelled from the spec: "If a soft-root prefix is configured and `path`
begins with it, strip it before hashing. Collapse trailing separators."
(section 4.1): the normalized form of an absolute path, of which the MD5 is
taken. -/
def normalized_path (sr : SoftRoot) (path : CStr) : CStr :=
  match sr.str with
  | some R =>
    strip_trailing_seps (if R.isPrefixOf path then path.drop R.length else path)
  | none => strip_trailing_seps path

/-- The system `demo_waa` with the soft-root `/mnt` and the WAA `/mnt/W`. -/
def demo_waa_mnt : WaaDirEnv :=
  { demo_waa with softroot := ⟨some [47, 109, 110, 116], 4⟩
                  waa_tmp_path := [47, 109, 110, 116, 47, 87, 47] }

/-- Steps 0 to 3 of `waa__find_common_base`: the common base with which the
search of step 4 starts (the string in `base_copy`), and `len`. -/
def find_base_start (x : BaseExt) (args : List CStr) : Run (CStr × Nat) :=
  let args := if args = [] then [x.start_path] else args
  let paths := args.map (full_path x)
  let p0 := paths.headD []
  let len := paths.tail.foldl (common_len p0) p0.length
  let cut : Run Nat :=
    if p0.at len = PATH_SEPARATOR ∨ p0.at len = 0 then Run.ret len
    else if len = 0 then Run.bug
    else Run.ret (back_to_sep p0 (len - 1))
  match cut with
  | Run.ret len1 =>
    let len2 := if len1 = 0 then 1 else len1
    Run.ret (p0.take len2, len2)
  | Run.bug => Run.bug
  | Run.fuel => Run.fuel

/-- The error `EACCES` of `errno.h` (Linux value). -/
def EACCES : Int := 13

theorem strrchr_isSome_of_mem (s : CStr) (c : Nat) (h : c ∈ s) :
    ∃ i, strrchr s c = some i := by
  induction s with
  | nil => simp at h
  | cons x xs ih =>
    unfold strrchr
    rcases hx : strrchr xs c with _ | i
    · by_cases hxc : x = c
      · exact ⟨0, by simp [hxc]⟩
      · have : c ∈ xs := by
          rcases List.mem_cons.mp h with h1 | h1
          · exact absurd h1.symm hxc
          · exact h1
        obtain ⟨i, hi⟩ := ih this
        rw [hx] at hi
        cases hi
    · exact ⟨i + 1, rfl⟩

/-- C3: atomic abort of `waa__close`. For a handle whose temporary name
differs from its destination name (as `waa__open` makes them) and whose
destination name contains a separator, `waa__close` returns, and: if
`has_failed` is non-zero, or `close()`, the `waa__mkdir` of the parent or
`rename()` fails, then no rename succeeded, the destination file keeps its
contents, and the temporary file is unlinked (one `unlink` of the temporary
name is issued, after which the file is gone if the call succeeds); if
`has_failed` is zero and all three steps succeed, the destination receives the
temporary file and no `unlink` is attempted. -/
theorem waa__close_atomic (env : CloseEnv) (files : Files) (fd : Int)
    (target : waa___temp_names_t) (has_failed : Int)
    (hne : target.temp_name ≠ target.dest_name)
    (hsep : PATH_SEPARATOR ∈ target.dest_name) :
    ∃ r, waa__close env files fd target has_failed = Run.ret r ∧
      ((has_failed ≠ 0 ∨ env.close_ret ≠ none ∨ env.mkdir_status ≠ 0 ∨
          env.rename_ret ≠ none) →
        (∀ s d, SysCall.rename s d ∈ r.calls → env.rename_ret ≠ none) ∧
        r.files target.dest_name = files target.dest_name ∧
        r.calls.filter SysCall.isUnlink
          = [SysCall.unlink target.temp_name] ∧
        (env.unlink_ret = none → r.files target.temp_name = none)) ∧
      ((has_failed = 0 ∧ env.close_ret = none ∧ env.mkdir_status = 0 ∧
          env.rename_ret = none) →
        r.status = 0 ∧
        r.files target.dest_name = files target.temp_name ∧
        r.files target.temp_name = none ∧
        SysCall.rename target.temp_name target.dest_name ∈ r.calls ∧
        ∀ n, SysCall.unlink n ∉ r.calls) := by
  obtain ⟨cp, hcp⟩ := strrchr_isSome_of_mem _ _ hsep
  have hne2 : target.dest_name ≠ target.temp_name := fun h => hne h.symm
  by_cases hf : has_failed = 0
  · rcases hc : env.close_ret with _ | e
    · by_cases hm : env.mkdir_status = 0
      · rcases hr : env.rename_ret with _ | e
        · refine ⟨_, by simp [waa__close, hf, hc, hcp, hm, hr]; rfl, ?_, ?_⟩
          · intro h
            simp [hf, hm] at h
          · intro _
            simp [waa__close_ex, Files.rename, Function.update, hne2, SysCall.isUnlink]
        · refine ⟨_, by simp [waa__close, hf, hc, hcp, hm, hr]; rfl, ?_, ?_⟩
          · intro _
            rcases hu : env.unlink_ret with _ | e2 <;>
              simp [waa__close_ex, hu, Files.unlink, Function.update, hne2,
                SysCall.isUnlink]
          · intro h
            simp at h
      · refine ⟨_, by simp [waa__close, hf, hc, hcp, hm]; rfl, ?_, ?_⟩
        · intro _
          rcases hu : env.unlink_ret with _ | e2 <;>
            simp [waa__close_ex, hu, Files.unlink, Function.update, hne2,
              SysCall.isUnlink]
        · intro h
          exact absurd h.2.2.1 hm
    · refine ⟨_, by simp [waa__close, hf, hc]; rfl, ?_, ?_⟩
      · intro _
        rcases hu : env.unlink_ret with _ | e2 <;>
          simp [waa__close_ex, hu, Files.unlink, Function.update, hne2,
            SysCall.isUnlink]
      · intro h
        simp at h
  · refine ⟨_, by simp [waa__close, hf]; rfl, ?_, ?_⟩
    · intro _
      rcases hu : env.unlink_ret with _ | e2 <;>
        simp [waa__close_ex, hu, Files.unlink, Function.update, hne2,
          SysCall.isUnlink]
    · intro h
      exact absurd h.1 hf

/-! ### The parent index check of `waa__input_tree` -/

theorem input_alloc_counters (env : InputEnv) (count : Nat) (s : InState) :
    (input_alloc env count s).first = s.first ∧ (input_alloc env count s).cur = s.cur ∧
    (input_alloc env count s).nloaded = s.nloaded ∧
    (input_alloc env count s).dir_curr = s.dir_curr := by
  unfold input_alloc
  by_cases h : s.sts_free = 0 <;> simp [h]

theorem parent_invalid_iff (s : InState) (p : Nat) (hinv : CounterInv s) :
    parent_invalid p s.first s.cur = false ↔ ParentOK (s.nloaded + 1) p := by
  unfold parent_invalid ParentOK
  rcases hinv with ⟨hf, hc, hn⟩ | ⟨hf, hn⟩
  · rw [hf, hc, hn]
    by_cases hp : p = 0
    · simp [hp]
    · simp [hp]
  · rw [hf, hn]
    by_cases hp : p = 0
    · simp [hp]
    · simp [hp]
      omega

theorem input_link_counters (x : InputExt) (env : InputEnv) (fuel root ss : Nat)
    (s : InState) (sts : Nat) (fn : CStr) (p : Nat) (s1 : InState)
    (h : input_link x env fuel root ss s sts fn p = Run.ret s1) :
    s1.first = false ∧ s1.cur = (if s.first then s.cur else s.cur + 1) ∧
    s1.nloaded = s.nloaded := by
  unfold input_link at h
  simp only at h
  split at h
  · cases h
  · split at h
    · rcases hcb : x.callback with _ | cb
      · simp only [hcb] at h
        cases h
        simp
      · simp only [hcb] at h
        cases h
        simp
    · cases h
    · cases h

/-- The parent index check in one iteration of the loop of
`waa__input_tree`. In front of the record
number `k = nloaded + 1`, for which `ops__load_1entry` succeeds and yields the
parent index `p`: if `p` is not allowed for `k` (allowed are `p = 0` for
`k = 1` and `1 <= p < k` for `k >= 2`), the iteration ends the loop with the
status `EINVAL`; if it is allowed, the check passes and the iteration goes on
with the linking, where the `BUG_ON(i >= cur)` does not fire (the parent
pointer is `root` for `p = 1` and `stat_mem + (p-2)` otherwise), and every
state the iteration returns keeps the counters in step. The loop is entered
with the counters in step. -/
theorem input_step_parent_check (k : Consts) (x : InputExt) (env : InputEnv)
    (fuel root ss count : Nat) (s : InState) (e : estat) (fn : CStr) (p : Nat)
    (rest : List Nat)
    (hinv : CounterInv s) (hcur : s.dir_curr ≠ [])
    (hload : x.ops__load_1entry (input_alloc env count s).dir_curr
      ((input_alloc env count s).heap (input_sts root (input_alloc env count s)))
      = (0, e, fn, p, rest)) :
    (∀ status dir h, CounterInv (input_init k status dir h root)) ∧
    (¬ ParentOK (s.nloaded + 1) p →
      ∃ s1, input_step x env fuel root ss count s = Run.ret (false, s1) ∧
        s1.status = EINVAL ∧ s1.nloaded = s.nloaded + 1) ∧
    (ParentOK (s.nloaded + 1) p →
      (p ≠ 0 → ∀ stat_mem,
        resolve_parent root stat_mem p (if s.first then s.cur else s.cur + 1)
          = Run.ret (if p = 1 then root else stat_mem + (p - 2))) ∧
      input_step x env fuel root ss count s =
        (match input_link x env fuel root ss
            { input_alloc env count s with
              status := 0
              heap := (input_alloc env count s).heap.set
                (input_sts root (input_alloc env count s)) e
              dir_curr := rest
              nloaded := s.nloaded + 1 }
            (input_sts root (input_alloc env count s)) fn p with
          | Run.ret s4 => Run.ret (decide (s4.status = 0), s4)
          | Run.bug => Run.bug
          | Run.fuel => Run.fuel) ∧
      ∀ b s1, input_step x env fuel root ss count s = Run.ret (b, s1) →
        CounterInv s1 ∧ s1.nloaded = s.nloaded + 1) := by
  obtain ⟨ha1, ha2, ha3, ha4⟩ := input_alloc_counters env count s
  obtain ⟨c, cs, hcs⟩ : ∃ c cs, s.dir_curr = c :: cs := by
    cases hd : s.dir_curr with
    | nil => exact absurd hd hcur
    | cons c cs => exact ⟨c, cs, rfl⟩
  have hiff := parent_invalid_iff s p hinv
  refine ⟨?_, ?_, ?_⟩
  · intro status dir h
    exact Or.inl ⟨rfl, rfl, rfl⟩
  · intro hbad
    have hpi : parent_invalid p s.first s.cur = true := by
      cases hv : parent_invalid p s.first s.cur
      · exact absurd (hiff.mp hv) hbad
      · rfl
    have hstep : input_step x env fuel root ss count s = Run.ret (false,
        { input_alloc env count s with
          status := EINVAL
          heap := (input_alloc env count s).heap.set
            (input_sts root (input_alloc env count s)) e
          dir_curr := rest
          nloaded := s.nloaded + 1 }) := by
      unfold input_step
      simp only [hcs, hload, ha1, ha2, ha3, hpi]
      simp
    exact ⟨_, hstep, rfl, rfl⟩
  · intro hok
    have hpi : parent_invalid p s.first s.cur = false := hiff.mpr hok
    have hstep : input_step x env fuel root ss count s =
        (match input_link x env fuel root ss
            { input_alloc env count s with
              status := 0
              heap := (input_alloc env count s).heap.set
                (input_sts root (input_alloc env count s)) e
              dir_curr := rest
              nloaded := s.nloaded + 1 }
            (input_sts root (input_alloc env count s)) fn p with
          | Run.ret s4 => Run.ret (decide (s4.status = 0), s4)
          | Run.bug => Run.bug
          | Run.fuel => Run.fuel) := by
      unfold input_step
      simp only [hcs, hload, ha1, ha2, ha3, hpi]
      simp
    refine ⟨?_, hstep, ?_⟩
    · intro hp0 stat_mem
      unfold resolve_parent
      by_cases hp1 : p = 1
      · simp [hp1]
      · have hlt : ¬ (p - 2 ≥ if s.first = true then s.cur else s.cur + 1) := by
          rcases hinv with ⟨hf, hc, hn⟩ | ⟨hf, hn⟩
          · rcases hok with ⟨_, h0⟩ | ⟨h2, _, _⟩
            · exact absurd h0 hp0
            · omega
          · rcases hok with ⟨h1, _⟩ | ⟨_, h1, h2⟩
            · omega
            · simp [hf]
              omega
        simp [hp1, hlt]
    · intro b s1 hs1
      rw [hstep] at hs1
      split at hs1
      · rename_i s4 hl
        cases hs1
        obtain ⟨hf, hc, hn⟩ := input_link_counters _ _ _ _ _ _ _ _ _ _ hl
        simp only [ha1, ha2] at hc
        simp only at hn
        refine ⟨Or.inr ⟨hf, ?_⟩, hn⟩
        rw [hn, hc]
        rcases hinv with ⟨hf0, hc0, hn0⟩ | ⟨hf0, hn0⟩
        · simp [hf0, hc0, hn0]
        · simp [hf0, hn0]
      · cases hs1
      · cases hs1

/-! ### The header checks of `waa__input_tree` -/

theorem input_step_nloaded (x : InputExt) (env : InputEnv) (fuel root ss count : Nat)
    (s : InState) (b : Bool) (s1 : InState)
    (h : input_step x env fuel root ss count s = Run.ret (b, s1)) :
    (s.dir_curr = [] ∧ s1.nloaded = s.nloaded) ∨ s1.nloaded = s.nloaded + 1 := by
  obtain ⟨_, _, ha3, _⟩ := input_alloc_counters env count s
  unfold input_step at h
  split at h
  · rename_i hnil
    cases h
    exact Or.inl ⟨hnil, rfl⟩
  · right
    simp only at h
    split at h
    · cases h
      simp [ha3]
    · split at h
      · cases h
        simp [ha3]
      · split at h
        · rename_i s4 hl
          cases h
          obtain ⟨_, _, hn⟩ := input_link_counters _ _ _ _ _ _ _ _ _ _ hl
          rw [hn]
          simp [ha3]
        · cases h
        · cases h

theorem input_loop_nloaded (x : InputExt) (env : InputEnv) (fuel root ss : Nat)
    (count : Nat) (s r : InState)
    (h : input_loop x env fuel root ss count s = Run.ret r) :
    s.nloaded ≤ r.nloaded ∧ (0 < count → s.dir_curr ≠ [] → s.nloaded + 1 ≤ r.nloaded) := by
  induction count generalizing s with
  | zero =>
    unfold input_loop at h
    cases h
    exact ⟨le_refl _, fun h0 => absurd h0 (lt_irrefl 0)⟩
  | succ n ih =>
    unfold input_loop at h
    split at h
    · rename_i s1 hs
      have h1 := input_step_nloaded _ _ _ _ _ _ _ _ _ hs
      have h2 := (ih s1 h).1
      constructor
      · rcases h1 with ⟨_, h1⟩ | h1 <;> omega
      · intro _ hne
        rcases h1 with ⟨h0, _⟩ | h1
        · exact absurd h0 hne
        · omega
    · rename_i s1 hs
      cases h
      have h1 := input_step_nloaded _ _ _ _ _ _ _ _ _ hs
      constructor
      · rcases h1 with ⟨_, h1⟩ | h1 <;> omega
      · intro _ hne
        rcases h1 with ⟨h0, _⟩ | h1
        · exact absurd h0 hne
        · omega
    · cases h
    · cases h

/-- The header checks report `EINVAL` exactly for the listed defects. -/
theorem input_header_status (k : Consts) (dir : List Nat) (a m : Nat) :
    ((input_header k dir a m).status = EINVAL ↔
      (dir.length < k.HEADER_LEN + 5 ∨ dir.getD (k.HEADER_LEN - 2) 0 ≠ 36 ∨
        dir.getD (k.HEADER_LEN - 1) 0 ≠ 10 ∨
        (sscanf_header (header_string k dir)).1 ≠ 6 ∨
        to_int32 ((sscanf_header (header_string k dir)).2.getD 0 0) ≠ (k.WAA_VERSION : Int) ∨
        (sscanf_header (header_string k dir)).2.getD 1 0 ≠ k.HEADER_LEN ∨
        dir.getD (dir.length - 2) 0 ≠ 0 ∨ dir.getD (dir.length - 1) 0 ≠ 10)) ∧
    ((input_header k dir a m).status ≠ EINVAL → (input_header k dir a m).status = 6) := by
  unfold input_header
  simp only
  by_cases h1 : dir.length < k.HEADER_LEN + 5 ∨ dir.getD (k.HEADER_LEN - 1) 0 ≠ 10 ∨
      dir.getD (k.HEADER_LEN - 2) 0 ≠ 36
  · rw [if_pos h1]
    simp only [ne_eq, true_iff, not_true_eq_false, false_implies, and_true]
    tauto
  · rw [if_neg h1]
    by_cases h2 : (sscanf_header (header_string k dir)).1 ≠ 6
    · rw [if_pos h2]
      simp only [ne_eq, true_iff, not_true_eq_false, false_implies, and_true]
      tauto
    · rw [if_neg h2]
      by_cases h3 : to_int32 ((sscanf_header (header_string k dir)).2.getD 0 0)
          ≠ (k.WAA_VERSION : Int) ∨
          (sscanf_header (header_string k dir)).2.getD 1 0 ≠ k.HEADER_LEN
      · rw [if_pos h3]
        simp only [ne_eq, true_iff, not_true_eq_false, false_implies, and_true]
        tauto
      · rw [if_neg h3]
        by_cases h4 : dir.getD (dir.length - 2) 0 ≠ 0 ∨ dir.getD (dir.length - 1) 0 ≠ 10
        · rw [if_pos h4]
          simp only [ne_eq, true_iff, not_true_eq_false, false_implies, and_true]
          tauto
        · rw [if_neg h4]
          have h6 : (sscanf_header (header_string k dir)).1 = 6 := not_not.mp h2
          simp only [h6]
          constructor
          · constructor
            · intro h
              simp [EINVAL] at h
            · intro h
              exfalso
              tauto
          · intro _
            trivial

/-- C9: with the dir-file opened and mapped, `waa__input_tree` returns the
damaged-tree error `EINVAL` without having parsed an entry record if and only
if the file is shorter than `HEADER_LEN+5`, or byte `HEADER_LEN-2` is not `$`,
or byte `HEADER_LEN-1` is not a newline, or `sscanf` does not convert six
header fields, or the version differs from `WAA_VERSION`, or the header length
differs from `HEADER_LEN`, or the last two bytes are not NUL and newline. The
version and the header length are the values `sscanf` stores for the first two
fields, in an `int` and an `unsigned long`. -/
theorem input_tree_header_damaged (k : Consts) (x : InputExt) (env : InputEnv)
    (fuel : Nat) (dir : List Nat) (h : Heap) (a m root : Nat)
    (hopen : env.open_status = 0) (hseek : env.lseek_ret = none)
    (hmap : env.mmap_ret = none) (hclose : env.close_ret = none) :
    (∃ r, waa__input_tree k x env fuel dir h a m root = Run.ret r ∧
        r.status = EINVAL ∧ r.nloaded = 0) ↔
      (dir.length < k.HEADER_LEN + 5 ∨ dir.getD (k.HEADER_LEN - 2) 0 ≠ 36 ∨
        dir.getD (k.HEADER_LEN - 1) 0 ≠ 10 ∨
        (sscanf_header (header_string k dir)).1 ≠ 6 ∨
        to_int32 ((sscanf_header (header_string k dir)).2.getD 0 0) ≠ (k.WAA_VERSION : Int) ∨
        (sscanf_header (header_string k dir)).2.getD 1 0 ≠ k.HEADER_LEN ∨
        dir.getD (dir.length - 2) 0 ≠ 0 ∨ dir.getD (dir.length - 1) 0 ≠ 10) := by
  obtain ⟨hiff, hsix⟩ := input_header_status k dir a m
  rw [← hiff]
  have hne : ((0 : Int) = ENOENT) = False := by
    simp [ENOENT]
  unfold waa__input_tree
  simp only [hne, hopen, hseek, hmap, hclose, if_false, ne_eq, not_true_eq_false]
  by_cases hst : (input_header k dir a m).status = EINVAL
  · simp only [hst, if_true]
    simp
  · simp only [hst, if_false, iff_false]
    rintro ⟨r, hr, hrs, hrn⟩
    have h6 := hsix hst
    have hlen : ¬ dir.length < k.HEADER_LEN + 5 := by
      intro hlt
      exact hst (hiff.mpr (Or.inl hlt))
    split at hr
    · rename_i sfin hloop
      cases hr
      simp only at hrs hrn
      obtain ⟨_, hmono⟩ := input_loop_nloaded _ _ _ _ _ _ _ _ hloop
      by_cases hcount : 0 < (input_header k dir a m).count
      · have hdc : (input_init k (input_header k dir a m).status dir h root).dir_curr ≠ [] := by
          simp only [input_init]
          intro hnil
          have := congrArg List.length hnil
          simp at this
          omega
        have := hmono hcount hdc
        simp only [input_init] at this
        omega
      · have hc0 : (input_header k dir a m).count = 0 := by omega
        rw [hc0] at hloop
        unfold input_loop at hloop
        cases hloop
        simp only [input_init, h6] at hrs
        simp [EINVAL] at hrs
    · cases hr
    · cases hr

/-! ### The header line: formatting and parsing -/

theorem fmt_u_aux_append (f n : Nat) (acc : List Nat) :
    fmt_u_aux f n acc = fmt_u_aux f n [] ++ acc := by
  induction f generalizing n acc with
  | zero => simp [fmt_u_aux]
  | succ f ih =>
    unfold fmt_u_aux
    by_cases h : n / 10 = 0
    · simp [h]
    · simp only [h, if_false]
      rw [ih (n / 10) ((n % 10 + 48) :: acc), ih (n / 10) [n % 10 + 48]]
      simp

theorem scan_digits_fmt_u_aux (f n : Nat) (acc : List Nat) (hn : n < f) :
    ∃ m, 0 < m ∧ (fmt_u_aux f n []).length = m ∧
      (∀ c ∈ fmt_u_aux f n [], isdigit c = true) ∧
      ∀ a, scan_digits a (fmt_u_aux f n [] ++ acc) = scan_digits (a * 10 ^ m + n) acc := by
  induction f generalizing n acc with
  | zero => omega
  | succ f ih =>
    unfold fmt_u_aux
    by_cases h : n / 10 = 0
    · have hlt : n < 10 := by omega
      refine ⟨1, Nat.one_pos, by simp [h], ?_, ?_⟩
      · intro c hc
        simp only [h, if_true, List.mem_singleton] at hc
        subst hc
        simp [isdigit]
        omega
      · intro a
        have hd : isdigit (n % 10 + 48) = true := by
          simp [isdigit]
          omega
        simp only [h, if_true, List.singleton_append, scan_digits, hd]
        have : n % 10 + 48 - 48 = n := by omega
        rw [this]
        simp
    · have hlt : n / 10 < f := by omega
      obtain ⟨m, hm0, hlen, hdig, hscan⟩ := ih (n / 10) ((n % 10 + 48) :: acc) hlt
      have hd : isdigit (n % 10 + 48) = true := by
        simp [isdigit]
        omega
      refine ⟨m + 1, Nat.succ_pos _, ?_, ?_, ?_⟩
      · simp only [h, if_false]
        rw [fmt_u_aux_append]
        simp [hlen]
      · intro c hc
        simp only [h, if_false] at hc
        rw [fmt_u_aux_append] at hc
        rcases List.mem_append.mp hc with hc | hc
        · exact hdig c hc
        · simp only [List.mem_singleton] at hc
          subst hc
          exact hd
      · intro a
        simp only [h, if_false]
        rw [fmt_u_aux_append f (n / 10) [n % 10 + 48], List.append_assoc,
          List.singleton_append, hscan a]
        simp only [scan_digits, hd, if_true]
        have : (a * 10 ^ m + n / 10) * 10 + (n % 10 + 48 - 48) = a * 10 ^ (m + 1) + n := by
          have h1 := Nat.div_add_mod n 10
          have h2 : n % 10 + 48 - 48 = n % 10 := by omega
          rw [h2, pow_succ]
          nlinarith
        rw [this]

theorem fmt_u_digits (n : Nat) :
    0 < (fmt_u n).length ∧ (∀ c ∈ fmt_u n, isdigit c = true) ∧
    ∀ rest, scan_digits 0 (fmt_u n ++ rest) = scan_digits n rest := by
  obtain ⟨m, hm, hlen, hdig, _⟩ := scan_digits_fmt_u_aux (n + 1) n [] (Nat.lt_succ_self n)
  refine ⟨by unfold fmt_u; omega, hdig, ?_⟩
  intro rest
  obtain ⟨m2, _, _, _, hscan⟩ := scan_digits_fmt_u_aux (n + 1) n rest (Nat.lt_succ_self n)
  unfold fmt_u
  rw [hscan 0]
  simp

theorem scan_digits_stop (n : Nat) (rest : List Nat) (h : no_digit_ahead rest) :
    scan_digits n rest = (n, rest) := by
  cases rest with
  | nil => rfl
  | cons c cs =>
    have := h c rfl
    simp [scan_digits, this]

theorem isdigit_not_space (c : Nat) (h : isdigit c = true) :
    isspace c = false ∧ c ≠ 43 ∧ c ≠ 45 ∧ c ≠ 0 := by
  simp only [isdigit, Bool.and_eq_true, decide_eq_true_eq] at h
  refine ⟨?_, by omega, by omega, by omega⟩
  simp only [isspace, Bool.or_eq_false_iff, beq_eq_false_iff_ne, ne_eq, Bool.and_eq_false_iff,
    decide_eq_false_iff_not]
  constructor
  · omega
  · right
    omega

theorem scan_u_fmt_u (w n : Nat) (rest : List Nat) (hn : n < 2 ^ w) (hw : w ≤ 64)
    (h : no_digit_ahead rest) : scan_u w (fmt_u n ++ rest) = some (n, rest) := by
  obtain ⟨hlen, hdig, hscan⟩ := fmt_u_digits n
  obtain ⟨c, cs, hc⟩ : ∃ c cs, fmt_u n = c :: cs := by
    cases hf : fmt_u n with
    | nil => simp [hf] at hlen
    | cons c cs => exact ⟨c, cs, rfl⟩
  have hcd : isdigit c = true := hdig c (by simp [hc])
  obtain ⟨hsp, h43, h45, _⟩ := isdigit_not_space c hcd
  have hs := hscan rest
  rw [scan_digits_stop n rest h] at hs
  unfold scan_u
  simp only [hc, List.cons_append, List.dropWhile_cons, hsp, Bool.false_eq_true, if_false,
    List.head?_cons]
  have e1 : (some c == some 43) = false := by simp [h43]
  have e2 : (some c == some 45) = false := by simp [h45]
  simp only [e1, e2, Bool.or_false, Bool.false_eq_true, if_false, hcd, if_true]
  rw [hc] at hs
  simp only [List.cons_append] at hs
  rw [hs]
  have h64 : n < 2 ^ 64 := lt_of_lt_of_le hn (Nat.pow_le_pow_right (by norm_num) hw)
  simp only [ge_iff_le, Bool.false_eq_true, if_false]
  rw [if_neg (by omega), Nat.mod_eq_of_lt hn]

theorem scan_u_space_fmt_u (w n : Nat) (rest : List Nat) (hn : n < 2 ^ w) (hw : w ≤ 64)
    (h : no_digit_ahead rest) : scan_u w (32 :: (fmt_u n ++ rest)) = some (n, rest) := by
  have h1 := scan_u_fmt_u w n rest hn hw h
  unfold scan_u at h1 ⊢
  have hsp : isspace 32 = true := by decide
  simp only [List.dropWhile_cons, hsp, if_true]
  exact h1

theorem no_digit_ahead_space (l : List Nat) : no_digit_ahead (32 :: l) := by
  intro c hc
  simp only [List.head?_cons, Option.some.injEq] at hc
  subst hc
  decide

theorem no_digit_ahead_replicate (n : Nat) : no_digit_ahead (List.replicate n 32) := by
  cases n with
  | zero =>
    intro c hc
    simp at hc
  | succ n =>
    rw [List.replicate_succ]
    exact no_digit_ahead_space _

/-- Parsing the formatted header line, followed by blanks, yields the six
values again. -/
theorem sscanf_fmt_header (a b c d e f n : Nat) (ha : a < 2 ^ 32) (hb : b < 2 ^ 64)
    (hc : c < 2 ^ 32) (hd : d < 2 ^ 32) (he : e < 2 ^ 32) (hf : f < 2 ^ 32) :
    sscanf_header (fmt_header a b c d e f ++ List.replicate n 32)
      = (6, [a, b, c, d, e, f]) := by
  have key : sscanf_fields [32, 64, 32, 32, 32, 32]
      (fmt_header a b c d e f ++ List.replicate n 32) = [a, b, c, d, e, f] := by
    unfold fmt_header
    simp only [List.append_assoc, List.singleton_append, List.cons_append, List.nil_append,
      sscanf_fields]
    rw [scan_u_fmt_u 32 a _ ha (by norm_num) (no_digit_ahead_space _)]
    simp only
    rw [scan_u_space_fmt_u 64 b _ hb (by norm_num) (no_digit_ahead_space _)]
    simp only
    rw [scan_u_space_fmt_u 32 c _ hc (by norm_num) (no_digit_ahead_space _)]
    simp only
    rw [scan_u_space_fmt_u 32 d _ hd (by norm_num) (no_digit_ahead_space _)]
    simp only
    rw [scan_u_space_fmt_u 32 e _ he (by norm_num) (no_digit_ahead_space _)]
    simp only
    rw [scan_u_space_fmt_u 32 f _ hf (by norm_num) (no_digit_ahead_replicate n)]
  unfold sscanf_header
  simp only [key]
  simp

theorem fmt_u_ne_zero (n : Nat) : ∀ c ∈ fmt_u n, c ≠ 0 := by
  intro c hc
  exact (isdigit_not_space c ((fmt_u_digits n).2.1 c hc)).2.2.2

theorem fmt_header_ne_zero (a b c d e f : Nat) : ∀ x ∈ fmt_header a b c d e f, x ≠ 0 := by
  intro x hx
  unfold fmt_header at hx
  simp only [List.mem_append, List.mem_singleton] at hx
  rcases hx with ((((((((((h | h) | h) | h) | h) | h) | h) | h) | h) | h) | h)
  all_goals first
    | exact fmt_u_ne_zero _ x h
    | (subst h; decide)

theorem fmt_header_length_ge (a b c d e f : Nat) : 11 ≤ (fmt_header a b c d e f).length := by
  unfold fmt_header
  have h1 := (fmt_u_digits a).1
  have h2 := (fmt_u_digits b).1
  have h3 := (fmt_u_digits c).1
  have h4 := (fmt_u_digits d).1
  have h5 := (fmt_u_digits e).1
  have h6 := (fmt_u_digits f).1
  simp only [List.length_append, List.length_singleton]
  omega

theorem buf_write_getElem? (buf data : List Nat) (off i : Nat) (h : off ≤ buf.length) :
    (buf_write buf off data)[i]? =
      if i < off then buf[i]? else if i < off + data.length then data[i - off]?
      else buf[i]? := by
  unfold buf_write
  by_cases h1 : i < off
  · simp only [h1, if_true]
    rw [List.append_assoc, List.getElem?_append_left (by simp; omega)]
    rw [List.getElem?_take_of_lt h1]
  · simp only [h1, if_false]
    have hl : (List.take off buf).length = off := by simp [h]
    rw [List.append_assoc, List.getElem?_append_right (by omega), hl]
    by_cases h2 : i < off + data.length
    · simp only [h2, if_true]
      rw [List.getElem?_append_left (by omega)]
    · simp only [h2, if_false]
      rw [List.getElem?_append_right (by omega), List.getElem?_drop]
      congr 1
      omega

theorem buf_write_length (buf data : List Nat) (off : Nat)
    (h : off + data.length ≤ buf.length) :
    (buf_write buf off data).length = buf.length := by
  unfold buf_write
  simp
  omega

theorem header_placeholder_eq (k : Consts) :
    header_placeholder k = str_UNFINISHED ++ List.replicate (k.HEADER_LEN - 10) 10 := by
  unfold header_placeholder buf_write
  have hl : str_UNFINISHED.length = 10 := rfl
  rw [List.take_left, hl]
  rw [List.drop_eq_nil_of_le]
  · simp
  · simp [hl]

theorem header_final_eq (k : Consts) (text : List Nat) (h11 : 11 ≤ text.length)
    (hfit : text.length < k.HEADER_LEN - 1) :
    header_final k text
      = text ++ List.replicate (k.HEADER_LEN - 2 - text.length) 32 ++ [36, 10] := by
  have hp := header_placeholder_eq k
  have hpl : (header_placeholder k).length = k.HEADER_LEN := by
    rw [hp]
    simp [str_UNFINISHED]
    omega
  have hlast : (header_placeholder k)[k.HEADER_LEN - 1]? = some 10 := by
    rw [hp, List.getElem?_append_right (by simp [str_UNFINISHED]; omega),
      List.getElem?_replicate]
    simp [str_UNFINISHED]
    omega
  have hl1 : (buf_write (header_placeholder k) 0 (text ++ [0])).length = k.HEADER_LEN := by
    rw [buf_write_length _ _ _ (by simp; omega), hpl]
  have hl2 : (buf_write (buf_write (header_placeholder k) 0 (text ++ [0])) text.length
      (List.replicate (k.HEADER_LEN - 1 - text.length) 32)).length = k.HEADER_LEN := by
    rw [buf_write_length _ _ _ (by simp; omega), hl1]
  apply List.ext_getElem?
  intro i
  unfold header_final
  simp only
  rw [buf_write_getElem? _ _ _ _ (by omega), buf_write_getElem? _ _ _ _ (by omega),
    buf_write_getElem? _ _ _ _ (by omega)]
  simp only [List.length_append, List.length_singleton, List.length_replicate]
  by_cases c1 : i < text.length
  · have e1 : i < k.HEADER_LEN - 2 := by omega
    have e2 : i < 0 + (text.length + 1) := by omega
    simp only [e1, c1, e2, if_true, Nat.not_lt_zero, if_false, Nat.sub_zero]
    rw [List.append_assoc, List.getElem?_append_left c1, List.getElem?_append_left c1]
  · by_cases c2 : i < k.HEADER_LEN - 2
    · have e1 : i < text.length + (k.HEADER_LEN - 1 - text.length) := by omega
      simp only [c2, c1, e1, if_true, if_false]
      rw [List.append_assoc, List.getElem?_append_right (by omega),
        List.getElem?_append_left (by simp; omega), List.getElem?_replicate,
        List.getElem?_replicate]
      have e2 : i - text.length < k.HEADER_LEN - 1 - text.length := by omega
      have e3 : i - text.length < k.HEADER_LEN - 2 - text.length := by omega
      simp [e2, e3]
    · by_cases c3 : i = k.HEADER_LEN - 2
      · have e1 : i < k.HEADER_LEN - 2 + 1 := by omega
        simp only [c2, e1, if_true, if_false]
        rw [List.getElem?_append_right (by simp; omega)]
        have e2 : i - (k.HEADER_LEN - 2) = 0 := by omega
        have e3 : i - (text ++ List.replicate (k.HEADER_LEN - 2 - text.length) 32).length = 0 := by
          simp
          omega
        rw [e2, e3]
        rfl
      · have e1 : ¬ i < k.HEADER_LEN - 2 + 1 := by omega
        have e2 : ¬ i < text.length + (k.HEADER_LEN - 1 - text.length) := by omega
        have e3 : ¬ i < 0 + (text.length + 1) := by omega
        simp only [c2, e1, c1, e2, e3, if_false, Nat.not_lt_zero]
        rw [List.getElem?_append_right (by simp; omega)]
        by_cases c4 : i = k.HEADER_LEN - 1
        · have e4 : i - (text ++ List.replicate (k.HEADER_LEN - 2 - text.length) 32).length
              = 1 := by
            simp
            omega
          rw [e4, c4, hlast]
          rfl
        · have e4 : 2 ≤ i - (text ++ List.replicate (k.HEADER_LEN - 2 - text.length) 32).length := by
            simp
            omega
          rw [List.getElem?_eq_none (by omega), List.getElem?_eq_none (by simp; omega)]

/-- The header that the code at `save_header` writes, and what the header
checks of `waa__input_tree` read back from a dir-file that starts with it. -/
theorem output_header_read_back (k : Consts) (env : OutputEnv) (files : Files)
    (s : OutState)
    (hv : k.WAA_VERSION < 2 ^ 31) (hl : k.HEADER_LEN < 2 ^ 64)
    (hc : s.complete_count < 2 ^ 32) (hd : s.alloc_dir < 2 ^ 32)
    (hseek : env.lseek_ret = none) (hwrite : env.write_header = none)
    (hfit : (fmt_header k.WAA_VERSION k.HEADER_LEN s.complete_count s.alloc_dir
      (u32 (s.string_space + 4)) (u32 (s.max_path_len + 4))).length < k.HEADER_LEN - 1) :
    ∃ hdr : List Nat,
      output_save_header k env files s = output_ex env files 0 (hdr ++ s.body) s hdr ∧
      hdr.length = k.HEADER_LEN ∧
      hdr = fmt_header k.WAA_VERSION k.HEADER_LEN s.complete_count s.alloc_dir
          (u32 (s.string_space + 4)) (u32 (s.max_path_len + 4)) ++
        List.replicate (k.HEADER_LEN - 2 - (fmt_header k.WAA_VERSION k.HEADER_LEN
          s.complete_count s.alloc_dir (u32 (s.string_space + 4))
          (u32 (s.max_path_len + 4))).length) 32 ++ [36, 10] ∧
      ∀ (body : List Nat) (a m : Nat), 5 ≤ body.length →
        body.getD (body.length - 2) 0 = 0 → body.getD (body.length - 1) 0 = 10 →
        input_header k (hdr ++ body) a m =
          ⟨6, s.complete_count, u32 (u32 (s.max_path_len + 4) + 1024), s.complete_count,
            u32 (s.string_space + 4)⟩ := by
  have hu1 : u32 (s.string_space + 4) < 2 ^ 32 := Nat.mod_lt _ (by norm_num)
  have hu2 : u32 (s.max_path_len + 4) < 2 ^ 32 := Nat.mod_lt _ (by norm_num)
  have h11 := fmt_header_length_ge k.WAA_VERSION k.HEADER_LEN s.complete_count s.alloc_dir
    (u32 (s.string_space + 4)) (u32 (s.max_path_len + 4))
  have hfe := header_final_eq k _ h11 hfit
  have hnz := fmt_header_ne_zero k.WAA_VERSION k.HEADER_LEN s.complete_count s.alloc_dir
    (u32 (s.string_space + 4)) (u32 (s.max_path_len + 4))
  have hsc := sscanf_fmt_header k.WAA_VERSION k.HEADER_LEN s.complete_count s.alloc_dir
    (u32 (s.string_space + 4)) (u32 (s.max_path_len + 4))
    (k.HEADER_LEN - 2 - (fmt_header k.WAA_VERSION k.HEADER_LEN s.complete_count s.alloc_dir
      (u32 (s.string_space + 4)) (u32 (s.max_path_len + 4))).length)
    (by omega) hl hc hd hu1 hu2
  generalize htext : fmt_header k.WAA_VERSION k.HEADER_LEN s.complete_count s.alloc_dir
    (u32 (s.string_space + 4)) (u32 (s.max_path_len + 4)) = text at *
  refine ⟨header_final k text, ?_, ?_, hfe, ?_⟩
  · unfold output_save_header
    have : ¬ (text.length ≥ k.HEADER_LEN - 1) := by omega
    simp only [htext, this, if_false, hseek, hwrite]
  · rw [hfe]
    simp
    omega
  · intro body a m hb5 hb2 hb1
    have hlen : (header_final k text).length = k.HEADER_LEN := by
      rw [hfe]
      simp
      omega
    have g1 : (header_final k text ++ body).getD (k.HEADER_LEN - 1) 0 = 10 := by
      rw [List.getD_append _ _ _ _ (by omega), hfe,
        List.getD_append_right _ _ _ _ (by simp; omega)]
      have : k.HEADER_LEN - 1 - (text ++ List.replicate (k.HEADER_LEN - 2 - text.length) 32).length
          = 1 := by
        simp
        omega
      rw [this]
      rfl
    have g2 : (header_final k text ++ body).getD (k.HEADER_LEN - 2) 0 = 36 := by
      rw [List.getD_append _ _ _ _ (by omega), hfe,
        List.getD_append_right _ _ _ _ (by simp; omega)]
      have : k.HEADER_LEN - 2 - (text ++ List.replicate (k.HEADER_LEN - 2 - text.length) 32).length
          = 0 := by
        simp
        omega
      rw [this]
      rfl
    have g3 : header_string k (header_final k text ++ body)
        = text ++ List.replicate (k.HEADER_LEN - 2 - text.length) 32 := by
      unfold header_string
      rw [List.take_append_of_le_length (by omega), hfe,
        List.take_append_of_le_length (by simp; omega)]
      have : k.HEADER_LEN - 2 = (text ++ List.replicate (k.HEADER_LEN - 2 - text.length) 32).length := by
        simp
        omega
      rw [List.take_of_length_le (by omega)]
      rw [List.takeWhile_eq_self_iff]
      intro c hcm
      rcases List.mem_append.mp hcm with hcm | hcm
      · simpa using hnz c hcm
      · have := List.eq_of_mem_replicate hcm
        subst this
        decide
    have g4 : (header_final k text ++ body).length = k.HEADER_LEN + body.length := by
      simp [hlen]
    have g5 : (header_final k text ++ body).getD (k.HEADER_LEN + body.length - 2) 0 = 0 := by
      rw [List.getD_append_right _ _ _ _ (by omega), hlen]
      have : k.HEADER_LEN + body.length - 2 - k.HEADER_LEN = body.length - 2 := by omega
      rw [this, hb2]
    have g6 : (header_final k text ++ body).getD (k.HEADER_LEN + body.length - 1) 0 = 10 := by
      rw [List.getD_append_right _ _ _ _ (by omega), hlen]
      have : k.HEADER_LEN + body.length - 1 - k.HEADER_LEN = body.length - 1 := by omega
      rw [this, hb1]
    have g7 : to_int32 k.WAA_VERSION = (k.WAA_VERSION : Int) := by
      unfold to_int32
      have : k.WAA_VERSION % 4294967296 = k.WAA_VERSION := Nat.mod_eq_of_lt (by omega)
      rw [this]
      have : k.WAA_VERSION < 2147483648 := by omega
      simp [this]
    unfold input_header
    simp only [g1, g2, g3, g4, g5, g6, hsc]
    have : ¬ (k.HEADER_LEN + body.length < k.HEADER_LEN + 5) := by omega
    simp [this, g7]

/-- C10: the header line `waa__output_tree` writes and `waa__input_tree`
reads. For all values of the counters for which the formatted text is shorter
than `HEADER_LEN-1`, the code at `save_header` writes, when `lseek` and `write`
succeed, a header of exactly `HEADER_LEN` bytes: the six formatted fields,
blanks, `$` at `HEADER_LEN-2` and a newline at `HEADER_LEN-1`; and in every
dir-file that starts with this header and ends in NUL and newline, the header
checks of `waa__input_tree` pass and yield the entry count, the string space
and the maximum path length that were written. -/
theorem output_header_roundtrip (k : Consts) (env : OutputEnv) (files : Files)
    (s : OutState)
    (hv : k.WAA_VERSION < 2 ^ 31) (hl : k.HEADER_LEN < 2 ^ 64)
    (hc : s.complete_count < 2 ^ 32) (hd : s.alloc_dir < 2 ^ 32)
    (hseek : env.lseek_ret = none) (hwrite : env.write_header = none)
    (hfit : (fmt_header k.WAA_VERSION k.HEADER_LEN s.complete_count s.alloc_dir
      (u32 (s.string_space + 4)) (u32 (s.max_path_len + 4))).length < k.HEADER_LEN - 1) :
    ∃ hdr : List Nat,
      output_save_header k env files s = output_ex env files 0 (hdr ++ s.body) s hdr ∧
      hdr.length = k.HEADER_LEN ∧
      hdr = fmt_header k.WAA_VERSION k.HEADER_LEN s.complete_count s.alloc_dir
          (u32 (s.string_space + 4)) (u32 (s.max_path_len + 4)) ++
        List.replicate (k.HEADER_LEN - 2 - (fmt_header k.WAA_VERSION k.HEADER_LEN
          s.complete_count s.alloc_dir (u32 (s.string_space + 4))
          (u32 (s.max_path_len + 4))).length) 32 ++ [36, 10] ∧
      ∀ (body : List Nat) (a m : Nat), 5 ≤ body.length →
        body.getD (body.length - 2) 0 = 0 → body.getD (body.length - 1) 0 = 10 →
        input_header k (hdr ++ body) a m =
          ⟨6, s.complete_count, u32 (u32 (s.max_path_len + 4) + 1024), s.complete_count,
            u32 (s.string_space + 4)⟩ :=
  output_header_read_back k env files s hv hl hc hd hseek hwrite hfit

/-! ### Examples for the claims above -/

/-- Example for C3: closing after a failed write leaves the destination as it
was and removes the temporary file. -/
theorem waa__close_atomic_witness :
    ∃ r, waa__close demo_close_env demo_files 3 demo_target 1 = Run.ret r ∧
      r.files demo_target.dest_name = demo_files demo_target.dest_name ∧
      r.calls.filter SysCall.isUnlink = [SysCall.unlink demo_target.temp_name] := by
  obtain ⟨r, h1, h2, _⟩ := waa__close_atomic demo_close_env demo_files 3 demo_target 1
    (by decide) (by decide)
  exact ⟨r, h1, (h2 (Or.inl (by decide))).2.1, (h2 (Or.inl (by decide))).2.2.1⟩

/-- Example for C10: the header for 4 entries, 7 bytes of names and a longest
path of 2 bytes has 64 bytes and is read back. -/
theorem output_header_roundtrip_witness :
    ∃ hdr : List Nat, hdr.length = 64 ∧
      input_header demo_consts (hdr ++ [46, 0, 10, 0, 10]) 0 0 = ⟨6, 4, 1030, 4, 11⟩ := by
  obtain ⟨hdr, _, h2, _, h4⟩ := output_header_roundtrip demo_consts demo_out_env demo_files
    demo_out_state (by decide) (by decide) (by decide) (by decide) rfl rfl (by decide)
  exact ⟨hdr, h2, h4 [46, 0, 10, 0, 10] 0 0 (by decide) (by decide) (by decide)⟩

/-! ### Error propagation of `waa__output_tree` -/

/-- C4: the status of `waa__output_tree` after a failed write. If the handle
is open and the first `write` of the header fails with a non-zero `errno`,
`waa__close` is called with the failure flag and unlinks the temporary file;
when that `unlink` succeeds, `waa__close` returns `0`, the `STOPIF(i, ...)`
at the label `ex` assigns it to `status`, and `waa__output_tree` returns `0`:
the error is not propagated. -/
theorem output_tree_write_error_lost (k : Consts) (x : OutputExt) (env : OutputEnv)
    (fuel : Nat) (files : Files) (h : Heap) (mpl root : Nat) (e : Int)
    (hopen : env.open_status = 0) (hw : env.write_placeholder = some e) (he : e ≠ 0)
    (hu : env.close_env.unlink_ret = none) :
    ∃ r, waa__output_tree k x env fuel files h mpl root = Run.ret r ∧ r.status = 0 ∧
      r.calls = [SysCall.close env.fd, SysCall.unlink env.target.temp_name] := by
  unfold waa__output_tree
  simp only [hopen, hw, ne_eq, not_true_eq_false, if_false]
  unfold output_ex waa__close
  simp only [he, if_false, waa__close_ex, hu, if_true]
  exact ⟨_, rfl, rfl, rfl⟩

/-- Example for C4: with the tree of the examples and the first `write`
failing with `ENOSPC`, `waa__output_tree` returns `0`. -/
theorem output_tree_write_error_lost_witness :
    ∃ r, waa__output_tree demo_consts demo_out demo_out_env_enospc 4 demo_files demo_heap 0 0
        = Run.ret r ∧ r.status = 0 ∧
      r.calls = [SysCall.close 3, SysCall.unlink demo_target.temp_name] :=
  output_tree_write_error_lost demo_consts demo_out demo_out_env_enospc 4 demo_files
    demo_heap 0 0 28 rfl rfl (by decide) rfl

/-! ### Dispatching in `waa__update_tree` -/

/-- C7: a replaced entry that is a directory now is dispatched twice. In the
tree `/wc/{a}`, with `a` recorded as a file and found to be a (now empty)
directory by the re-stat of a full update, `waa__update_tree` returns `0` and
has called `ac__dispatch` for `a` (pointer `1`) from
`waa___check_dir_for_update`, then for the root (pointer `0`), then for `a`
again at the label `next_noparent`, where the test on `FS_REMOVED` also holds
for a replaced entry. -/
theorem update_tree_replaced_dir_dispatched_twice :
    ∃ w, waa__update_tree demo_upd 3 4 demo_upd_sys 0 [(0, 1), (1, 1)] = Run.ret (0, w) ∧
      w.dispatched = [1, 0, 1] ∧ w.dispatched.count 1 = 2 := by
  have h : dispatched_of (waa__update_tree demo_upd 3 4 demo_upd_sys 0 [(0, 1), (1, 1)])
      = some (0, [1, 0, 1]) := by decide!
  rcases hrun : waa__update_tree demo_upd 3 4 demo_upd_sys 0 [(0, 1), (1, 1)] with ⟨st, w⟩ | _ | _
  · rw [hrun] at h
    simp only [dispatched_of, Option.some.injEq, Prod.mk.injEq] at h
    obtain ⟨h1, h2⟩ := h
    subst h1
    exact ⟨w, rfl, h2, by rw [h2]; decide⟩
  · rw [hrun] at h
    simp [dispatched_of] at h
  · rw [hrun] at h
    simp [dispatched_of] at h

/-! ### The normalized paths of `waa__find_common_base` -/

/-- C5: a normalized path that is not the argument relative to the base. For
the arguments `/wc/a` and `/wc/ab`, with `/wc/a` a registered working copy,
`waa__find_common_base` succeeds with the base `/wc/a` (step 3 only looks at
`paths[0][len]`, which is the end of the first path) and returns the
normalized paths `.` and the empty string; `/wc/ab` is not `/wc/a`, a
separator and the empty string. -/
theorem find_common_base_not_relative :
    waa__find_common_base demo_base [path_wc_a, path_wc_ab]
      = Run.ret ⟨0, some path_wc_a, 5, some [[46], []]⟩ ∧
    ¬ relative_to path_wc_a path_wc_ab [] := by
  constructor
  · decide
  · decide

/-! ### The merge loop of `waa__update_dir` -/

theorem strcmp_eq_zero (a b : CStr) : strcmp a b = 0 ↔ a = b := by
  induction a generalizing b with
  | nil => cases b <;> simp [strcmp]
  | cons x xs ih =>
    cases b with
    | nil => simp [strcmp]
    | cons y ys =>
      simp only [strcmp]
      by_cases h1 : x < y
      · simp [h1]
        omega
      · by_cases h2 : y < x
        · simp [h1, h2]
          omega
        · have : x = y := by omega
          simp [h1, h2, this, ih]

theorem strcmp_swap (a b : CStr) : strcmp a b < 0 ↔ 0 < strcmp b a := by
  induction a generalizing b with
  | nil => cases b <;> simp [strcmp]
  | cons x xs ih =>
    cases b with
    | nil => simp [strcmp]
    | cons y ys =>
      simp only [strcmp]
      by_cases h1 : x < y
      · have h2 : ¬ y < x := by omega
        simp [h1, h2]
      · by_cases h2 : y < x
        · simp [h1, h2]
        · simp [h1, h2, ih]

theorem strcmp_trans (a b c : CStr) (h1 : strcmp a b < 0) (h2 : strcmp b c < 0) :
    strcmp a c < 0 := by
  induction a generalizing b c with
  | nil =>
    cases c with
    | nil =>
      cases b <;> simp [strcmp] at h1 h2
    | cons z zs => simp [strcmp]
  | cons x xs ih =>
    cases b with
    | nil => simp [strcmp] at h1
    | cons y ys =>
      cases c with
      | nil => simp [strcmp] at h2
      | cons z zs =>
        simp only [strcmp] at h1 h2 ⊢
        by_cases a1 : x < y
        · by_cases b1 : y < z
          · have : x < z := by omega
            simp [this]
          · by_cases b2 : z < y
            · simp [b1, b2] at h2
            · have : x < z := by omega
              simp [this]
        · by_cases a2 : y < x
          · simp [a1, a2] at h1
          · simp only [a1, a2, if_false] at h1
            by_cases b1 : y < z
            · have : x < z := by omega
              simp [this]
            · by_cases b2 : z < y
              · simp [b1, b2] at h2
              · simp only [b1, b2, if_false] at h2
                have e1 : ¬ x < z := by omega
                have e2 : ¬ z < x := by omega
                simp only [e1, e2, if_false]
                exact ih ys zs h1 h2

theorem Heap.set_same (h : Heap) (p : Nat) (e : estat) : (h.set p e) p = e := by
  simp [Heap.set]

theorem Heap.set_other (h : Heap) (p q : Nat) (e : estat) (hne : q ≠ p) :
    (h.set p e) q = h q := by
  simp [Heap.set, Function.update, hne]

theorem Heap.store_get (h : Heap) (base : Nat) (es : List estat) (q : Nat) :
    (h.store base es) q =
      if base ≤ q ∧ q < base + es.length then es.getD (q - base) default else h q := by
  induction es generalizing h base with
  | nil =>
    have : ¬ (base ≤ q ∧ q < base + ([] : List estat).length) := by
      simp
    simp only [Heap.store, this, if_false]
  | cons e es ih =>
    simp only [Heap.store]
    rw [ih]
    by_cases h1 : base + 1 ≤ q ∧ q < base + 1 + es.length
    · have h2 : base ≤ q ∧ q < base + (e :: es).length := by
        simp
        omega
      simp only [h1, h2, if_true, and_self]
      have : q - base = (q - (base + 1)) + 1 := by omega
      rw [this, List.getD_cons_succ]
    · simp only [h1, if_false]
      by_cases h3 : q = base
      · subst h3
        simp [Heap.set_same]
      · have h2 : ¬ (base ≤ q ∧ q < base + (e :: es).length) := by
          simp
          simp at h1
          omega
        simp only [h2, if_false]
        exact Heap.set_other _ _ _ _ h3

theorem build_tree_descend_frame (x : UpdateExt) (rec : Sys → Nat → Run (Int × Sys))
    (hrec : BTSpec x rec) (w : Sys) (sts : Nat) (st : Int) (w1 : Sys)
    (h : build_tree_descend x rec w sts = Run.ret (st, w1))
    (hlt : sts < w.next) (hcnt : (w.heap sts).entry_count = 0) :
    w.next ≤ w1.next ∧ (∀ q, q < w.next → q ≠ sts → w1.heap q = w.heap q) ∧
    (w1.heap sts).name = (w.heap sts).name ∧ (w1.heap sts).parent = (w.heap sts).parent := by
  unfold build_tree_descend at h
  simp only at h
  split at h
  · split at h
    · split at h
      · cases h
        refine ⟨le_refl _, fun q _ hq => Heap.set_other _ _ _ _ hq, ?_, ?_⟩ <;>
          simp [Heap.set_same]
      · split at h
        · rename_i st3 w3 hr
          have hf := hrec _ _ _ _ hr (by simpa using hlt)
            (Or.inl (by simp [Heap.set_same, hcnt]))
          obtain ⟨f1, f2, f3, f4, _, _⟩ := hf
          have key : w.next ≤ w3.next ∧ (∀ q, q < w.next → q ≠ sts → w3.heap q = w.heap q) ∧
              (w3.heap sts).name = (w.heap sts).name ∧
              (w3.heap sts).parent = (w.heap sts).parent := by
            refine ⟨by simpa using f1, ?_, ?_, ?_⟩
            · intro q hq hne
              rw [f2 q (by simpa using hq) hne]
              exact Heap.set_other _ _ _ _ hne
            · rw [f3]
              simp [Heap.set_same]
            · rw [f4]
              simp [Heap.set_same]
          split at h
          · cases h
            exact key
          · split at h
            · cases h
              exact key
            · cases h
              exact key
        · cases h
        · cases h
    · cases h
      refine ⟨le_refl _, fun q _ hq => Heap.set_other _ _ _ _ hq, ?_, ?_⟩ <;>
        simp [Heap.set_same]
  · cases h
    refine ⟨le_refl _, fun q _ hq => Heap.set_other _ _ _ _ hq, ?_, ?_⟩ <;>
      simp [Heap.set_same]

theorem build_tree_entry_frame (x : UpdateExt) (rec : Sys → Nat → Run (Int × Sys))
    (hrec : BTSpec x rec) (w : Sys) (sts : Nat) (st : Int) (w1 : Sys)
    (h : build_tree_entry x rec w sts = Run.ret (st, w1))
    (hlt : sts < w.next) (hcnt : (w.heap sts).entry_count = 0) :
    w.next ≤ w1.next ∧ (∀ q, q < w.next → q ≠ sts → w1.heap q = w.heap q) := by
  unfold build_tree_entry at h
  split at h
  · cases h
  · simp only at h
    split at h
    · rename_i st4 w4 hd
      obtain ⟨f1, f2, _, _⟩ := build_tree_descend_frame x rec hrec _ sts st4 w4 hd
        (by simpa using hlt) (by simp [Heap.set_same, hcnt])
      have key : w.next ≤ w4.next ∧ (∀ q, q < w.next → q ≠ sts → w4.heap q = w.heap q) := by
        refine ⟨by simpa using f1, ?_⟩
        intro q hq hne
        rw [f2 q (by simpa using hq) hne]
        exact Heap.set_other _ _ _ _ hne
      split at h
      · cases h
        exact key
      · cases h
        exact key
    · cases h
    · cases h

theorem range_ptrs_get? (base len i : Nat) (hi : i < len) :
    (((List.range len).map (fun j => some (base + j))) ++ [none]).get? i
      = some (some (base + i)) := by
  rw [List.get?_eq_getElem?, List.getElem?_append_left (by simpa using hi)]
  simp [hi]

theorem build_tree_loop_frame (x : UpdateExt) (rec : Sys → Nat → Run (Int × Sys))
    (hrec : BTSpec x rec) (root base len : Nat) (hroot : root < base) :
    ∀ (n i : Nat) (w : Sys) (hi : Bool) (hf : Nat) (st : Int) (w1 : Sys) (hi1 : Bool)
      (hf1 : Nat),
      build_tree_loop x rec root n i w hi hf = Run.ret (st, w1, hi1, hf1) →
      base + len ≤ w.next → i + n ≤ len →
      (w.heap root).by_inode = ((List.range len).map (fun j => some (base + j))) ++ [none] →
      (∀ j, i ≤ j → j < len → (w.heap (base + j)).entry_count = 0) →
      w.next ≤ w1.next ∧ (∀ q, q < base → w1.heap q = w.heap q) := by
  intro n
  induction n with
  | zero =>
    intro i w hi hf st w1 hi1 hf1 h _ _ _ _
    unfold build_tree_loop at h
    cases h
    exact ⟨le_refl _, fun _ _ => rfl⟩
  | succ n ih =>
    intro i w hi hf st w1 hi1 hf1 h hnext hin hby hfresh
    unfold build_tree_loop at h
    have hget := range_ptrs_get? base len i (by omega)
    rw [hby, hget] at h
    simp only at h
    split at h
    · cases h
      exact ⟨le_refl _, fun _ _ => rfl⟩
    · split at h
      · have hne : root ≠ base + i := by omega
        obtain ⟨g1, g2⟩ := ih (i + 1) _ _ _ st w1 hi1 hf1 h (by simpa using hnext) (by omega)
          (by
            simp only
            rw [Heap.set_other _ _ _ _ hne]
            exact hby)
          (by
            intro j hj1 hj2
            simp only
            rw [Heap.set_other _ _ _ _ (by omega)]
            exact hfresh j (by omega) hj2)
        refine ⟨by simpa using g1, ?_⟩
        intro q hq
        rw [g2 q hq]
        exact Heap.set_other _ _ _ _ (by omega)
      · split at h
        · rename_i st2 w2 he
          obtain ⟨f1, f2⟩ := build_tree_entry_frame x rec hrec w (base + i) st2 w2 he
            (by omega) (hfresh i (le_refl _) (by omega))
          split at h
          · cases h
            exact ⟨f1, fun q hq => f2 q (by omega) (by omega)⟩
          · obtain ⟨g1, g2⟩ := ih (i + 1) w2 hi (hf + 1) st w1 hi1 hf1 h (by omega) (by omega)
              (by
                rw [f2 root (by omega) (by omega)]
                exact hby)
              (by
                intro j hj1 hj2
                rw [f2 (base + j) (by omega) (by omega)]
                exact hfresh j (by omega) hj2)
            refine ⟨by omega, ?_⟩
            intro q hq
            rw [g2 q hq]
            exact f2 q (by omega) (by omega)
        · cases h
        · cases h

theorem dir__enumerator_err (x : UpdateExt) (w : Sys) (dir this : Nat) (by_name : Bool)
    (hr : (x.dir__enumerator dir by_name).1 ≠ 0) :
    dir__enumerator x w dir this by_name = ((x.dir__enumerator dir by_name).1, w) := by
  unfold dir__enumerator
  exact if_pos hr

theorem dir__enumerator_ok (x : UpdateExt) (w : Sys) (dir this : Nat) (by_name : Bool)
    (hr : ¬ (x.dir__enumerator dir by_name).1 ≠ 0) :
    (dir__enumerator x w dir this by_name).1 = 0 := by
  unfold dir__enumerator
  exact congrArg Prod.fst (if_neg hr)

theorem dir_enum_unchanged (x : UpdateExt) (w : Sys) (dir this : Nat) (by_name : Bool)
    (h : (waa__dir_enum x w dir this by_name).1 ≠ 0 ∨ x.is_waa dir = true) :
    (waa__dir_enum x w dir this by_name).2 = w := by
  unfold waa__dir_enum at h ⊢
  cases hw : x.is_waa dir
  · rw [hw] at h
    simp only [Bool.false_eq_true, if_false, or_false] at h ⊢
    by_cases hr : (x.dir__enumerator dir by_name).1 ≠ 0
    · rw [dir__enumerator_err x w dir this by_name hr]
    · exact absurd (dir__enumerator_ok x w dir this by_name hr) h
  · simp

theorem dir_enum_listed (x : UpdateExt) (w : Sys) (dir this : Nat) (by_name : Bool)
    (hthis : this < w.next) (hw : x.is_waa dir = false)
    (h0 : (waa__dir_enum x w dir this by_name).1 = 0) :
    ∃ len, (waa__dir_enum x w dir this by_name).2.next = w.next + len ∧
      (∀ q, q < w.next → q ≠ this →
        (waa__dir_enum x w dir this by_name).2.heap q = w.heap q) ∧
      (waa__dir_enum x w dir this by_name).2.heap this =
        (if by_name = true then { w.heap this with
            by_name := ((List.range len).map (fun j => some (w.next + j))) ++ [none]
            entry_count := len }
          else { w.heap this with
            by_inode := ((List.range len).map (fun j => some (w.next + j))) ++ [none]
            entry_count := len }) ∧
      ∀ j, j < len →
        ((waa__dir_enum x w dir this by_name).2.heap (w.next + j)).entry_count = 0 ∧
        ((waa__dir_enum x w dir this by_name).2.heap (w.next + j)).parent = some this := by
  unfold waa__dir_enum at h0 ⊢
  simp only [hw, Bool.false_eq_true, if_false] at h0 ⊢
  by_cases hr : (x.dir__enumerator dir by_name).1 ≠ 0
  · rw [dir__enumerator_err x w dir this by_name hr] at h0
    exact absurd h0 hr
  · unfold dir__enumerator
    simp only [if_neg hr, List.length_map]
    have hps : ∀ q, q < w.next →
        (w.heap.store w.next ((x.dir__enumerator dir by_name).2.map (fun e =>
          { e with parent := some this, entry_count := 0, by_inode := [],
                   by_name := [] }))) q = w.heap q := by
      intro q hq
      rw [Heap.store_get]
      have : ¬ (w.next ≤ q ∧ q < w.next + (List.map (fun e =>
          { e with parent := some this, entry_count := 0, by_inode := [],
                   by_name := [] }) (x.dir__enumerator dir by_name).2).length) := by
        omega
      simp only [this, if_false]
    refine ⟨(x.dir__enumerator dir by_name).2.length, rfl, ?_, ?_, ?_⟩
    · intro q hq hne
      rw [Heap.set_other _ _ _ _ hne]
      exact hps q hq
    · rw [Heap.set_same, hps this hthis]
    · intro j hj
      rw [Heap.set_other _ _ _ _ (by omega), Heap.store_get]
      have hin : w.next ≤ w.next + j ∧ w.next + j < w.next + (List.map (fun e =>
          { e with parent := some this, entry_count := 0, by_inode := [],
                   by_name := [] }) (x.dir__enumerator dir by_name).2).length := by
        simp
        exact hj
      simp only [hin, if_true, and_self]
      have hsub : w.next + j - w.next = j := by omega
      rw [hsub, List.getD_eq_getElem?_getD, List.getElem?_map,
        List.getElem?_eq_getElem hj]
      simp

theorem free_marked_frame (hh : Heap) (p : Nat) :
    (ops__free_marked hh p p).name = (hh p).name ∧
    (ops__free_marked hh p p).parent = (hh p).parent ∧
    (ops__free_marked hh p p).st = (hh p).st ∧
    (ops__free_marked hh p p).entry_status = (hh p).entry_status ∧
    ∀ q, q ≠ p → ops__free_marked hh p q = hh q := by
  unfold ops__free_marked
  simp only
  refine ⟨?_, ?_, ?_, ?_, ?_⟩
  · rw [Heap.set_same]
  · rw [Heap.set_same]
  · rw [Heap.set_same]
  · rw [Heap.set_same]
  · intro q hq
    exact Heap.set_other _ _ _ _ hq

theorem lor_changed_idem (s : Nat) :
    (s ||| FS_CHANGED ||| FS_CHILD_CHANGED) ||| FS_CHANGED ||| FS_CHILD_CHANGED
      = s ||| FS_CHANGED ||| FS_CHILD_CHANGED := by
  apply Nat.eq_of_testBit_eq
  intro i
  simp only [Nat.testBit_lor]
  cases s.testBit i <;> cases FS_CHANGED.testBit i <;> cases FS_CHILD_CHANGED.testBit i <;> rfl

/-- The end of `waa__build_tree` after its loop, on the heap: the marked
entries are dropped, and the status of `root` is set if entries were found. -/
theorem build_tree_finish_frame (hh : Heap) (p : Nat) (hi : Bool) (hf : Nat) :
    let h1 := if hi = true then ops__free_marked hh p else hh
    let h2 := if hf ≠ 0 then
        h1.set p { h1 p with
          entry_status := (h1 p).entry_status ||| FS_CHANGED ||| FS_CHILD_CHANGED }
      else h1
    (h2 p).name = (hh p).name ∧ (h2 p).parent = (hh p).parent ∧ (h2 p).st = (hh p).st ∧
    ((h2 p).entry_status = (hh p).entry_status ∨
      (h2 p).entry_status = (hh p).entry_status ||| FS_CHANGED ||| FS_CHILD_CHANGED) ∧
    ∀ q, q ≠ p → h2 q = hh q := by
  intro h1 h2
  have m : (h1 p).name = (hh p).name ∧ (h1 p).parent = (hh p).parent ∧
      (h1 p).st = (hh p).st ∧ (h1 p).entry_status = (hh p).entry_status ∧
      ∀ q, q ≠ p → h1 q = hh q := by
    cases hi
    · exact ⟨rfl, rfl, rfl, rfl, fun _ _ => rfl⟩
    · exact free_marked_frame hh p
  obtain ⟨m1, m2, m3, m4, m5⟩ := m
  by_cases hfz : hf = 0
  · have e : h2 = h1 := by
      simp only [h2, hfz, ne_eq, not_true_eq_false, if_false]
    rw [e]
    exact ⟨m1, m2, m3, Or.inl m4, m5⟩
  · have e : h2 = h1.set p { h1 p with
        entry_status := (h1 p).entry_status ||| FS_CHANGED ||| FS_CHILD_CHANGED } := by
      simp only [h2, hfz, ne_eq, not_false_eq_true, if_true]
    rw [e]
    refine ⟨?_, ?_, ?_, ?_, ?_⟩
    · rw [Heap.set_same]
      exact m1
    · rw [Heap.set_same]
      exact m2
    · rw [Heap.set_same]
      exact m3
    · rw [Heap.set_same]
      right
      simp only
      rw [m4]
    · intro q hq
      rw [Heap.set_other _ _ _ _ hq]
      exact m5 q hq

theorem build_tree_frame (x : UpdateExt) (fuel : Nat) : BTSpec x (waa__build_tree x fuel) := by
  induction fuel with
  | zero =>
    intro w p st w1 h _ _
    unfold waa__build_tree at h
    cases h
  | succ fuel ih =>
    intro w p st w1 h hlt hcnt
    unfold waa__build_tree at h
    simp only at h
    by_cases hen : (waa__dir_enum x w p p false).1 ≠ 0
    · rw [if_pos hen] at h
      have hu := dir_enum_unchanged x w p p false (Or.inl hen)
      have h1 := Run.ret.inj h
      rw [h1] at hu
      have hu1 : w1 = w := hu
      rw [hu1]
      exact ⟨le_refl _, fun _ _ _ => rfl, rfl, rfl, rfl, Or.inl rfl⟩
    · rw [if_neg hen] at h
      have hen0 : (waa__dir_enum x w p p false).1 = 0 := not_not.mp hen
      -- the state after the enumeration and the loop
      have hloop : ∀ st2 w2 hi2 hf2,
          build_tree_loop x (waa__build_tree x fuel) p
            ((waa__dir_enum x w p p false).2.heap p).entry_count 0
            (waa__dir_enum x w p p false).2 false 0 = Run.ret (st2, w2, hi2, hf2) →
          BTFrame w w2 p := by
        intro st2 w2 hi2 hf2 hl
        by_cases hw : x.is_waa p = true
        · have hu := dir_enum_unchanged x w p p false (Or.inr hw)
          rw [hu] at hl
          have hc0 : (w.heap p).entry_count = 0 := by
            rcases hcnt with hc | hc
            · exact hc
            · rw [hw] at hc
              cases hc
          rw [hc0] at hl
          unfold build_tree_loop at hl
          cases hl
          exact ⟨le_refl _, fun _ _ _ => rfl, rfl, rfl, rfl, Or.inl rfl⟩
        · have hwf : x.is_waa p = false := by
            cases hv : x.is_waa p
            · rfl
            · exact absurd hv hw
          obtain ⟨len, e1, e2, e3, e4⟩ := dir_enum_listed x w p p false hlt hwf hen0
          simp only [Bool.false_eq_true, if_false] at e3
          generalize (waa__dir_enum x w p p false).2 = we at *
          rw [e3] at hl
          simp only at hl
          obtain ⟨l1, l2⟩ := build_tree_loop_frame x _ ih p w.next len hlt _ 0 we false 0 st2 w2
            hi2 hf2 hl (by omega) (by omega) (by rw [e3]) (fun j _ hj => (e4 j hj).1)
          refine ⟨by omega, ?_, ?_, ?_, ?_, ?_⟩
          · intro q hq hne
            rw [l2 q hq, e2 q hq hne]
          · rw [l2 p hlt, e3]
          · rw [l2 p hlt, e3]
          · rw [l2 p hlt, e3]
          · left
            rw [l2 p hlt, e3]
      split at h
      · rename_i st2 w2 hi2 hf2 hl
        obtain ⟨b1, b2, b3, b4, b5, b6⟩ := hloop st2 w2 hi2 hf2 hl
        split at h
        · cases h
          exact ⟨b1, b2, b3, b4, b5, b6⟩
        · cases h
          obtain ⟨m1, m2, m3, m4, m5⟩ := build_tree_finish_frame w2.heap p hi2 hf2
          refine ⟨b1, ?_, ?_, ?_, ?_, ?_⟩
          · intro q hq hne
            exact (m5 q hne).trans (b2 q hq hne)
          · exact m1.trans b3
          · exact m2.trans b4
          · exact m3.trans b5
          · rcases m4 with m4 | m4
            · rcases b6 with b6 | b6
              · exact Or.inl (m4.trans b6)
              · exact Or.inr (m4.trans b6)
            · rcases b6 with b6 | b6
              · exact Or.inr (m4.trans (by rw [b6]))
              · exact Or.inr (m4.trans (by rw [b6, lor_changed_idem]))
      · cases h
      · cases h

theorem map_some_set (A : List Nat) (i a : Nat) (hi : i < A.length) :
    (A.map some ++ [none]).set i (some a) = (A.set i a).map some ++ [none] := by
  rw [List.set_append_left _ _ (by simpa using hi), List.map_set]

theorem map_some_getD (A : List Nat) (i d : Nat) (hi : i < A.length) :
    (A.map some ++ [none]).getD i none = some (A.getD i d) := by
  rw [List.getD_eq_getElem?_getD, List.getD_eq_getElem?_getD,
    List.getElem?_append_left (by simpa using hi), List.getElem?_map,
    List.getElem?_eq_getElem hi]
  rfl

theorem swap_perm (A : List Nat) (nr i sts : Nat) (hnr : nr < i) (hi : i < A.length)
    (hsts : A[i]? = some sts) :
    ((A.set i (A.getD nr sts)).set nr sts).Perm A := by
  have hg : A[i] = sts := by
    rw [List.getElem?_eq_getElem hi] at hsts
    exact Option.some.inj hsts
  have hnl : nr < A.length := by omega
  have ha : A.getD nr sts = A[nr] := by
    rw [List.getD_eq_getElem?_getD, List.getElem?_eq_getElem hnl]
    rfl
  rw [List.perm_iff_count]
  intro b
  rw [List.count_set _ _ _ _ (by simpa using hnl), List.count_set _ _ _ _ hi,
    List.getElem_set]
  have hne : ¬ i = nr := by omega
  simp only [hne, if_false, ha, hg]
  have h1 : (sts == b) = true → 1 ≤ List.count b A := by
    intro h
    have : sts = b := by simpa using h
    rw [← this, ← hg]
    exact List.count_pos_iff.mpr (List.getElem_mem _)
  generalize (sts == b) = u at h1 ⊢
  generalize (A[nr] == b) = v
  cases u <;> cases v
  · simp
  · simp
  · have := h1 rfl
    simp only [if_true, Bool.false_eq_true, if_false]
    omega
  · have := h1 rfl
    simp only [if_true]
    omega

theorem swap_arr (A : List Nat) (nr i sts : Nat) (hnr : nr ≤ i) (hi : i < A.length)
    (hsts : A[i]? = some sts) :
    ∃ A1 : List Nat,
      (if nr ≠ i then
          ((A.map some ++ [none]).set i ((A.map some ++ [none]).getD nr none)).set nr (some sts)
        else A.map some ++ [none]) = A1.map some ++ [none] ∧
      A1.Perm A ∧ A1.drop (i + 1) = A.drop (i + 1) ∧ A1.take (nr + 1) = A.take nr ++ [sts] := by
  by_cases h : nr = i
  · refine ⟨A, ?_, List.Perm.refl _, rfl, ?_⟩
    · simp [h]
    · rw [h, List.take_succ, hsts]
      rfl
  · have hlt : nr < i := by omega
    refine ⟨(A.set i (A.getD nr sts)).set nr sts, ?_, swap_perm A nr i sts hlt hi hsts, ?_, ?_⟩
    · rw [if_pos h, map_some_getD A nr sts (by omega), map_some_set A i _ hi,
        map_some_set _ nr _ (by simpa using (by omega : nr < A.length))]
    · rw [List.drop_set_of_lt _ _ (by omega), List.drop_set_of_lt _ _ (by omega)]
    · rw [List.take_succ, List.getElem?_set]
      simp only [if_true, List.length_set]
      rw [if_pos (by omega : nr < A.length)]
      have e1 : List.take nr ((A.set i (A.getD nr sts)).set nr sts)
          = List.take nr (A.set i (A.getD nr sts)) := by
        apply List.ext_getElem?
        intro k
        rw [List.getElem?_take, List.getElem?_take, List.getElem?_set]
        by_cases hk : k < nr
        · rw [if_pos hk, if_pos hk, if_neg (by omega)]
        · rw [if_neg hk, if_neg hk]
      rw [e1, List.take_set_of_lt _ _ hlt]
      rfl

theorem newrel_bt (old c sts : Nat) (m m3 : MergeState) (w1 : Sys)
    (hc : c ≠ sts) (hcl : c < m.w.next)
    (h : NewRel old c sts m m3) (hn : m3.w.next = m.w.next)
    (hf : BTFrame m3.w w1 sts) (hst : (m3.w.heap sts).entry_status = FS_NEW) :
    NewRel old c sts m { m3 with w := w1 } := by
  obtain ⟨a1, a2, a3, a4, a5, a6, a7, a8, an, a9⟩ := h
  obtain ⟨b1, b2, b3, b4, b5, b6⟩ := hf
  have ec : w1.heap c = m3.w.heap c := b2 c (by omega) hc
  refine ⟨a1, a2, a3, ?_, ?_, ?_, ?_, ?_, b3.trans an, ?_⟩
  · show m.w.next ≤ w1.next
    omega
  · show (w1.heap c).by_name = _
    rw [ec]
    exact a5
  · show (w1.heap c).entry_count = _
    rw [ec]
    exact a6
  · show (w1.heap sts).parent = _
    rw [b4]
    exact a7
  · show new_status (w1.heap sts).entry_status
    rcases b6 with b6 | b6
    · rw [b6, hst]
      exact Or.inl rfl
    · rw [b6, hst]
      exact Or.inr rfl
  · intro q hq hqc hqs
    show w1.heap q = _
    rw [b2 q (by omega) hqs]
    exact a9 q hq hqc hqs

theorem update_dir_mark_spec (h0 : Heap) (old c sts nr_cur i_cur : Nat) (hc : c ≠ sts) :
    (update_dir_mark h0 old c sts nr_cur i_cur c).by_name
        = merge_swap (h0 c).by_name nr_cur i_cur sts ∧
    (update_dir_mark h0 old c sts nr_cur i_cur c).entry_count = (h0 c).entry_count ∧
    (update_dir_mark h0 old c sts nr_cur i_cur sts).parent = some old ∧
    (update_dir_mark h0 old c sts nr_cur i_cur sts).entry_status = FS_NEW ∧
    (update_dir_mark h0 old c sts nr_cur i_cur sts).entry_count = (h0 sts).entry_count ∧
    (update_dir_mark h0 old c sts nr_cur i_cur sts).name = (h0 sts).name ∧
    ∀ q, q ≠ c → q ≠ sts → update_dir_mark h0 old c sts nr_cur i_cur q = h0 q := by
  have hcs : sts ≠ c := Ne.symm hc
  unfold update_dir_mark
  refine ⟨?_, ?_, ?_, ?_, ?_, ?_, ?_⟩
  rotate_left 5
  · simp only [Heap.set_other _ _ _ _ hcs, Heap.set_same]
  rotate_right 5
  · simp only [Heap.set_other _ _ _ _ hc, Heap.set_same]
  · simp only [Heap.set_other _ _ _ _ hc, Heap.set_same]
  · simp only [Heap.set_other _ _ _ _ hcs, Heap.set_same]
  · simp only [Heap.set_same]
  · simp only [Heap.set_other _ _ _ _ hcs, Heap.set_same]
  · intro q hqc hqs
    simp only [Heap.set_other _ _ _ _ hqc, Heap.set_other _ _ _ _ hqs]

theorem store_to_handle_bits_spec (h : Heap) (sts : Nat) (b : Int × Bool × Bool × Bool) :
    (store_to_handle_bits h sts b sts).parent = (h sts).parent ∧
    (store_to_handle_bits h sts b sts).entry_status = (h sts).entry_status ∧
    (store_to_handle_bits h sts b sts).entry_count = (h sts).entry_count ∧
    (store_to_handle_bits h sts b sts).name = (h sts).name ∧
    ∀ q, q ≠ sts → store_to_handle_bits h sts b q = h q := by
  unfold store_to_handle_bits
  refine ⟨?_, ?_, ?_, ?_, ?_⟩
  rotate_left 3
  · simp only [Heap.set_same]
  rotate_right 3
  · simp only [Heap.set_same]
  · simp only [Heap.set_same]
  · simp only [Heap.set_same]
  · intro q hq
    simp only [Heap.set_other _ _ _ _ hq]

theorem update_dir_new_rel (x : UpdateExt) (bt : Sys → Nat → Run (Int × Sys)) (old c : Nat)
    (m : MergeState) (sts : Nat) (hbt : BTSpec x bt) (hret : ∀ w p, ∃ r, bt w p = Run.ret r)
    (hc : c ≠ sts) (hcl : c < m.w.next) (hsl : sts < m.w.next)
    (hleaf : (m.w.heap sts).entry_count = 0) :
    ∃ st m1, update_dir_new x bt old c m sts = Run.ret (st, m1) ∧ NewRel old c sts m m1 := by
  obtain ⟨k1, k2, k3, k4, k5, kn, k6⟩ := update_dir_mark_spec m.w.heap old c sts m.nr_cur m.i_cur hc
  unfold update_dir_new
  generalize update_dir_mark m.w.heap old c sts m.nr_cur m.i_cur = h3 at *
  obtain ⟨j1, j2, j3, jn, j4⟩ := store_to_handle_bits_spec h3 sts (x.ops__set_to_handle_bits h3 (h3 sts))
  simp only
  generalize store_to_handle_bits h3 sts (x.ops__set_to_handle_bits h3 (h3 sts)) = h4 at *
  have r1 : ∀ a d, NewRel old c sts m { m with
      w := { m.w with heap := h3, dispatched := d, approx_entry_count := a }
      nr_cur := m.nr_cur + 1 } :=
    fun a d => ⟨rfl, rfl, rfl, le_refl _, k1, k2, k3, Or.inl k4, kn,
      fun q _ hqc hqs => k6 q hqc hqs⟩
  have r3 : ∀ a d, NewRel old c sts m { m with
      w := { m.w with heap := h4, dispatched := d, approx_entry_count := a }
      nr_cur := m.nr_cur + 1 } := by
    intro a d
    refine ⟨rfl, rfl, rfl, le_refl _, ?_, ?_, ?_, ?_, jn.trans kn, ?_⟩
    · show (h4 c).by_name = _
      rw [j4 c hc]
      exact k1
    · show (h4 c).entry_count = _
      rw [j4 c hc]
      exact k2
    · show (h4 sts).parent = _
      rw [j1]
      exact k3
    · show new_status (h4 sts).entry_status
      rw [j2]
      exact Or.inl k4
    · intro q _ hqc hqs
      show h4 q = _
      rw [j4 q hqs]
      exact k6 q hqc hqs
  split_ifs with d2 d3 d4 d5
  · exact ⟨_, _, rfl, r1 _ _⟩
  · exact ⟨_, _, rfl, r3 _ _⟩
  · exact ⟨_, _, rfl, r3 _ _⟩
  · cases hch : x.chdir h4 sts with
    | some err => exact ⟨_, _, rfl, r3 _ _⟩
    | none =>
      simp only
      obtain ⟨⟨st, w1⟩, hr⟩ := hret (Sys.mk h4 m.w.next (m.w.approx_entry_count + 1)
        (m.w.dispatched ++ [sts])) sts
      have hf := hbt _ _ _ _ hr hsl (Or.inl (by
        show (h4 sts).entry_count = 0
        rw [j3, k5]
        exact hleaf))
      have r4 := newrel_bt old c sts m _ w1 hc hcl (r3 _ _) rfl hf (by
        show (h4 sts).entry_status = FS_NEW
        rw [j2]
        exact k4)
      rw [hr]
      simp only
      split_ifs with d6
      · exact ⟨_, _, rfl, r4⟩
      · cases x.chdir_up with
        | some err => exact ⟨_, _, rfl, r4⟩
        | none => exact ⟨_, _, rfl, r4⟩
  · exact ⟨_, _, rfl, r3 _ _⟩

theorem list_split_at (L : List Nat) (i a : Nat) (h : L[i]? = some a) :
    L = L.take i ++ a :: L.drop (i + 1) := by
  obtain ⟨hi, he⟩ := List.getElem?_eq_some_iff.mp h
  rw [← he, List.getElem_cons_drop, List.take_append_drop]

theorem pairwise_split_at (R : Nat → Nat → Prop) (L : List Nat) (i a : Nat)
    (h : L[i]? = some a) (hp : L.Pairwise R) :
    (∀ b ∈ L.take i, R b a) ∧ (∀ b ∈ L.drop (i + 1), R a b) := by
  rw [list_split_at L i a h, List.pairwise_append, List.pairwise_cons] at hp
  exact ⟨fun b hb => hp.2.2 b hb a (List.mem_cons_self _ _), hp.2.1.1⟩

theorem take_succ_of_get (L : List Nat) (i a : Nat) (h : L[i]? = some a) :
    L.take (i + 1) = L.take i ++ [a] := by
  rw [List.take_succ, h]
  rfl

theorem drop_of_get (L : List Nat) (i a : Nat) (h : L[i]? = some a) :
    L.drop i = a :: L.drop (i + 1) := by
  obtain ⟨hi, he⟩ := List.getElem?_eq_some_iff.mp h
  rw [← he, List.getElem_cons_drop]

theorem strcmp_lt_ne (a b : CStr) (h : strcmp a b < 0) : a ≠ b := by
  intro e
  have := (strcmp_eq_zero a b).mpr e
  omega

theorem sorted_nodup (h : Heap) (E : List Nat)
    (hs : E.Pairwise (fun a b => strcmp (h a).name (h b).name < 0)) : E.Nodup := by
  refine List.Pairwise.imp ?_ hs
  intro a b hab e
  rw [e] at hab
  exact strcmp_lt_ne _ _ hab rfl

theorem inv_skip (x : UpdateExt) (w0 : Sys) (old c : Nat) (E O A : List Nat) (m : MergeState)
    (hi : MergeInv x w0 old c E O A m) (sts : Nat) (hg : E[m.i_cur]? = some sts)
    (hn : is_new_entry x w0.heap O sts = false) (j : Nat) (hj : j ≤ O.length)
    (ho : ∀ o ∈ O.take j, ∀ e ∈ E.drop (m.i_cur + 1),
      strcmp (w0.heap o).name (w0.heap e).name < 0) :
    MergeInv x w0 old c E O A { m with i_cur := m.i_cur + 1, i_old := j } := by
  have hlt : m.i_cur < E.length := (List.getElem?_eq_some_iff.mp hg).1
  have hsub : ∀ e, e ∈ E.drop (m.i_cur + 1) → e ∈ E.drop m.i_cur := by
    intro e he
    rw [drop_of_get E _ sts hg]
    exact List.mem_cons_of_mem _ he
  refine ⟨hi.arr, hi.perm, ?_, ?_, hi.newp, hi.cnt, ?_, ?_, hj, hi.olds, hi.oldkeep, ?_,
    hi.next, hi.names, ho⟩
  · show A.drop (m.i_cur + 1) = E.drop (m.i_cur + 1)
    have := congrArg (List.drop 1) hi.dropeq
    rw [List.drop_drop, List.drop_drop] at this
    exact this
  · show A.take m.nr_cur = (E.take (m.i_cur + 1)).filter _
    rw [take_succ_of_get E _ sts hg, List.filter_append, hi.takeeq]
    simp [List.filter_cons, hn]
  · show m.nr_cur ≤ m.i_cur + 1
    have := hi.le_cur
    omega
  · show m.i_cur + 1 ≤ E.length
    omega
  · intro e he
    exact hi.rest e (hsub e he)

theorem inv_old (x : UpdateExt) (w0 : Sys) (old c : Nat) (E O A : List Nat) (m : MergeState)
    (hi : MergeInv x w0 old c E O A m) (j : Nat) (hj : j ≤ O.length)
    (ho : ∀ o ∈ O.take j, ∀ e ∈ E.drop m.i_cur,
      strcmp (w0.heap o).name (w0.heap e).name < 0) :
    MergeInv x w0 old c E O A { m with i_old := j } :=
  ⟨hi.arr, hi.perm, hi.dropeq, hi.takeeq, hi.newp, hi.cnt, hi.le_cur, hi.le_E, hj, hi.olds,
    hi.oldkeep, hi.rest, hi.next, hi.names, ho⟩

theorem inv_new (x : UpdateExt) (w0 : Sys) (old c : Nat) (E O A : List Nat) (m m1 : MergeState)
    (hs : MergeSetup w0 old c E O)
    (hi : MergeInv x w0 old c E O A m) (sts : Nat) (hg : E[m.i_cur]? = some sts)
    (hn : is_new_entry x w0.heap O sts = true) (hr : NewRel old c sts m m1) :
    ∃ A1, MergeInv x w0 old c E O A1 { m1 with i_cur := m1.i_cur + 1 } := by
  obtain ⟨a1, a2, a3, a4, a5, a6, a7, a8, an, a9⟩ := hr
  have hlt : m.i_cur < E.length := (List.getElem?_eq_some_iff.mp hg).1
  have hlen : A.length = E.length := hi.perm.length_eq
  have hgA : A[m.i_cur]? = some sts := by
    have h1 : (A.drop m.i_cur)[0]? = (E.drop m.i_cur)[0]? := by rw [hi.dropeq]
    rw [List.getElem?_drop, List.getElem?_drop] at h1
    rw [← hg]
    exact h1
  have hnd := sorted_nodup w0.heap E hs.sortedE
  have hsE : sts ∈ E := List.getElem?_mem hg
  have hns : sts ∉ E.take m.i_cur ∧ sts ∉ E.drop (m.i_cur + 1) := by
    have h2 := hnd
    rw [list_split_at E _ sts hg, List.nodup_append] at h2
    refine ⟨fun h => h2.2.2 h (List.mem_cons_self _ _), ?_⟩
    exact (List.nodup_cons.mp h2.2.1).1
  have hsub : ∀ e, e ∈ E.drop (m.i_cur + 1) → e ∈ E.drop m.i_cur := by
    intro e he
    rw [drop_of_get E _ sts hg]
    exact List.mem_cons_of_mem _ he
  have hkeep : ∀ e, e ∈ E → e ≠ sts → m1.w.heap e = m.w.heap e := by
    intro e he hne
    have h1 := hs.allocE e he
    have h2 := hi.next
    exact a9 e (by omega) (fun h => hs.cE (h ▸ he)) hne
  obtain ⟨A1, s1, s2, s3, s4⟩ := swap_arr A m.nr_cur m.i_cur sts hi.le_cur (by omega) hgA
  refine ⟨A1, ?_, s2.trans hi.perm, ?_, ?_, ?_, ?_, ?_, ?_, ?_, ?_, ?_, ?_, ?_, ?_, ?_⟩
  · show (m1.w.heap c).by_name = _
    rw [a5, hi.arr]
    exact s1
  · show A1.drop (m1.i_cur + 1) = E.drop (m1.i_cur + 1)
    rw [a1, s3]
    have := congrArg (List.drop 1) hi.dropeq
    rw [List.drop_drop, List.drop_drop] at this
    exact this
  · show A1.take m1.nr_cur = (E.take (m1.i_cur + 1)).filter _
    rw [a1, a3, s4, take_succ_of_get E _ sts hg, List.filter_append, hi.takeeq]
    simp [List.filter_cons, hn]
  · show ∀ e ∈ A1.take m1.nr_cur, _
    rw [a3, s4]
    intro e he
    rcases List.mem_append.mp he with he | he
    · have hef : e ∈ E.take m.i_cur := by
        rw [hi.takeeq] at he
        exact (List.mem_filter.mp he).1
      have hne : e ≠ sts := fun h => hns.1 (h ▸ hef)
      rw [hkeep e (List.mem_of_mem_take hef) hne]
      exact hi.newp e he
    · have : e = sts := by simpa using he
      rw [this]
      exact ⟨a7, a8⟩
  · show (m1.w.heap c).entry_count = _
    rw [a6]
    exact hi.cnt
  · show m1.nr_cur ≤ m1.i_cur + 1
    have := hi.le_cur
    omega
  · show m1.i_cur + 1 ≤ E.length
    omega
  · show m1.i_old ≤ O.length
    rw [a2]
    exact hi.le_O
  · show m1.w.heap old = _
    have h2 := hi.next
    have h1 := hs.alloc_old
    rw [a9 old (by omega) (Ne.symm hs.c_old) (fun h => hs.oldE (h ▸ hsE))]
    exact hi.olds
  · intro o ho
    show m1.w.heap o = _
    have h2 := hi.next
    have h1 := hs.allocO o ho
    rw [a9 o (by omega) (fun h => hs.cO (h ▸ ho)) (fun h => hs.disj sts hsE (h ▸ ho))]
    exact hi.oldkeep o ho
  · intro e he
    show m1.w.heap e = _
    change e ∈ E.drop (m1.i_cur + 1) at he
    rw [a1] at he
    have hne : e ≠ sts := fun h => hns.2 (h ▸ he)
    rw [hkeep e (List.mem_of_mem_drop he) hne]
    exact hi.rest e (hsub e he)
  · show w0.next ≤ m1.w.next
    have := hi.next
    omega
  · intro e he
    show (m1.w.heap e).name = _
    by_cases hes : e = sts
    · rw [hes, an]
      exact hi.names sts hsE
    · rw [hkeep e he hes]
      exact hi.names e he
  · intro o ho e he
    change o ∈ O.take m1.i_old at ho
    change e ∈ E.drop (m1.i_cur + 1) at he
    rw [a2] at ho
    rw [a1] at he
    exact hi.order o ho e (hsub e he)

theorem order_both (w0 : Sys) (E O : List Nat) (i j sts o : Nat)
    (hsE : E.Pairwise (fun a b => strcmp (w0.heap a).name (w0.heap b).name < 0))
    (hord : ∀ o1 ∈ O.take j, ∀ e ∈ E.drop i, strcmp (w0.heap o1).name (w0.heap e).name < 0)
    (hg : E[i]? = some sts) (ho : O[j]? = some o)
    (hcmp : strcmp (w0.heap o).name (w0.heap sts).name = 0) :
    ∀ o1 ∈ O.take (j + 1), ∀ e ∈ E.drop (i + 1),
      strcmp (w0.heap o1).name (w0.heap e).name < 0 := by
  intro o1 ho1 e he
  rw [take_succ_of_get O j o ho] at ho1
  rcases List.mem_append.mp ho1 with h | h
  · refine hord o1 h e ?_
    rw [drop_of_get E i sts hg]
    exact List.mem_cons_of_mem _ he
  · have e1 : o1 = o := by simpa using h
    rw [e1, (strcmp_eq_zero _ _).mp hcmp]
    exact (pairwise_split_at _ E i sts hg hsE).2 e he

theorem order_old (w0 : Sys) (E O : List Nat) (i j sts o : Nat)
    (hsE : E.Pairwise (fun a b => strcmp (w0.heap a).name (w0.heap b).name < 0))
    (hord : ∀ o1 ∈ O.take j, ∀ e ∈ E.drop i, strcmp (w0.heap o1).name (w0.heap e).name < 0)
    (hg : E[i]? = some sts) (ho : O[j]? = some o)
    (hcmp : strcmp (w0.heap o).name (w0.heap sts).name < 0) :
    ∀ o1 ∈ O.take (j + 1), ∀ e ∈ E.drop i,
      strcmp (w0.heap o1).name (w0.heap e).name < 0 := by
  intro o1 ho1 e he
  rw [take_succ_of_get O j o ho] at ho1
  rcases List.mem_append.mp ho1 with h | h
  · exact hord o1 h e he
  · have e1 : o1 = o := by simpa using h
    rw [e1]
    rw [drop_of_get E i sts hg] at he
    rcases List.mem_cons.mp he with h2 | h2
    · rw [h2]
      exact hcmp
    · exact strcmp_trans _ _ _ hcmp ((pairwise_split_at _ E i sts hg hsE).2 e h2)

theorem not_in_old (w0 : Sys) (E O : List Nat) (i j sts : Nat)
    (hsO : O.Pairwise (fun a b => strcmp (w0.heap a).name (w0.heap b).name < 0))
    (hord : ∀ o1 ∈ O.take j, ∀ e ∈ E.drop i, strcmp (w0.heap o1).name (w0.heap e).name < 0)
    (hg : E[i]? = some sts)
    (hj : O.length ≤ j ∨ ∃ o, O[j]? = some o ∧
      0 < strcmp (w0.heap o).name (w0.heap sts).name) :
    ∀ o1 ∈ O, (w0.heap o1).name ≠ (w0.heap sts).name := by
  intro o1 ho1
  have hsd : sts ∈ E.drop i := by
    rw [drop_of_get E i sts hg]
    exact List.mem_cons_self _ _
  rw [← List.take_append_drop j O] at ho1
  rcases List.mem_append.mp ho1 with h | h
  · exact strcmp_lt_ne _ _ (hord o1 h sts hsd)
  · rcases hj with hj | ⟨o, ho, hcmp⟩
    · rw [List.drop_eq_nil_of_le hj] at h
      cases h
    · have hso : strcmp (w0.heap sts).name (w0.heap o).name < 0 :=
        (strcmp_swap _ _).mpr hcmp
      rw [drop_of_get O j o ho] at h
      rcases List.mem_cons.mp h with h2 | h2
      · rw [h2]
        exact Ne.symm (strcmp_lt_ne _ _ hso)
      · exact Ne.symm (strcmp_lt_ne _ _
          (strcmp_trans _ _ _ hso ((pairwise_split_at _ O j o ho hsO).2 o1 h2)))

theorem update_dir_cmp_spec (x : UpdateExt) (w0 : Sys) (old c : Nat) (E O A : List Nat)
    (m : MergeState) (hs : MergeSetup w0 old c E O) (hi : MergeInv x w0 old c E O A m)
    (sts : Nat) (hg : E[m.i_cur]? = some sts) :
    ∃ status, update_dir_cmp m.w.heap old sts m.i_old = Run.ret status ∧
      ((status = 1 ∧ O.length ≤ m.i_old) ∨
       ∃ o, O[m.i_old]? = some o ∧
         status = strcmp (w0.heap o).name (w0.heap sts).name) := by
  unfold update_dir_cmp
  rw [hi.olds, hs.old_cnt, hs.old_arr]
  by_cases h : m.i_old ≥ O.length
  · rw [if_pos h]
    exact ⟨1, rfl, Or.inl ⟨rfl, h⟩⟩
  · rw [if_neg h]
    have hlt : m.i_old < O.length := by omega
    have ho : O[m.i_old]? = some O[m.i_old] := List.getElem?_eq_getElem hlt
    have hget : (O.map some ++ [none]).get? m.i_old = some (some O[m.i_old]) := by
      rw [List.get?_eq_getElem?, List.getElem?_append_left (by simpa using hlt),
        List.getElem?_map, ho]
      rfl
    rw [hget]
    refine ⟨_, rfl, Or.inr ⟨_, ho, ?_⟩⟩
    unfold dir___f_sort_by_name
    rw [hi.oldkeep _ (List.getElem_mem _), hi.rest sts (by
      rw [drop_of_get E _ sts hg]
      exact List.mem_cons_self _ _)]

theorem update_dir_loop_inv (x : UpdateExt) (bt : Sys → Nat → Run (Int × Sys))
    (w0 : Sys) (old c : Nat) (E O : List Nat)
    (hs : MergeSetup w0 old c E O) (hbt : BTSpec x bt)
    (hret : ∀ w p, ∃ r, bt w p = Run.ret r) :
    ∀ n m A, MergeInv x w0 old c E O A m →
      (E.length - m.i_cur) + (O.length - m.i_old) < n →
      ∃ st m1, update_dir_loop x bt old c n m = Run.ret (st, m1) ∧
        (st = none → ∃ A1, MergeInv x w0 old c E O A1 m1 ∧ m1.i_cur = E.length) := by
  intro n
  induction n with
  | zero =>
    intro m A _ hn
    omega
  | succ n ih =>
    intro m A hi hn
    unfold update_dir_loop
    by_cases h1 : m.i_cur ≥ (m.w.heap c).entry_count
    · rw [if_pos h1]
      refine ⟨none, m, rfl, fun _ => ⟨A, hi, ?_⟩⟩
      have := hi.cnt
      have := hi.le_E
      omega
    · rw [if_neg h1]
      have hlt : m.i_cur < E.length := by
        have := hi.cnt
        omega
      have hg : E[m.i_cur]? = some E[m.i_cur] := List.getElem?_eq_getElem hlt
      generalize E[m.i_cur] = sts at hg
      have hgA : A[m.i_cur]? = some sts := by
        have h2 : (A.drop m.i_cur)[0]? = (E.drop m.i_cur)[0]? := by rw [hi.dropeq]
        rw [List.getElem?_drop, List.getElem?_drop] at h2
        rw [← hg]
        exact h2
      have hlA : m.i_cur < A.length := (List.getElem?_eq_some_iff.mp hgA).1
      have hget : (m.w.heap c).by_name.get? m.i_cur = some (some sts) := by
        rw [hi.arr, List.get?_eq_getElem?, List.getElem?_append_left (by simpa using hlA),
          List.getElem?_map, hgA]
        rfl
      have hsE : sts ∈ E := List.getElem?_mem hg
      have hsd : sts ∈ E.drop m.i_cur := by
        rw [drop_of_get E _ sts hg]
        exact List.mem_cons_self _ _
      have hheap : m.w.heap sts = w0.heap sts := hi.rest sts hsd
      rw [hget]
      simp only
      obtain ⟨status, hcmp, hst⟩ := update_dir_cmp_spec x w0 old c E O A m hs hi sts hg
      rw [hcmp]
      simp only
      by_cases z : status = 0
      · rw [if_pos z]
        rcases hst with ⟨h2, _⟩ | ⟨o, ho, h2⟩
        · omega
        · have hlo : m.i_old < O.length := (List.getElem?_eq_some_iff.mp ho).1
          have hz : strcmp (w0.heap o).name (w0.heap sts).name = 0 := by
            rw [← h2]
            exact z
          have hn0 : is_new_entry x w0.heap O sts = false := by
            unfold is_new_entry
            have : (O.all fun o1 => decide ((w0.heap o1).name ≠ (w0.heap sts).name)) = false := by
              rw [List.all_eq_false]
              exact ⟨o, List.getElem?_mem ho, by simp [(strcmp_eq_zero _ _).mp hz]⟩
            rw [this]
            rfl
          have hi2 := inv_skip x w0 old c E O A m hi sts hg hn0 (m.i_old + 1) (by omega)
            (order_both w0 E O _ _ sts o hs.sortedE hi.order hg ho hz)
          exact ih _ A hi2 (by
            show E.length - (m.i_cur + 1) + (O.length - (m.i_old + 1)) < n
            omega)
      · rw [if_neg z]
        by_cases pz : status > 0
        · rw [if_pos pz]
          have hnot := not_in_old w0 E O m.i_cur m.i_old sts hs.sortedO hi.order hg (by
            rcases hst with ⟨_, h3⟩ | ⟨o, ho, h2⟩
            · exact Or.inl h3
            · exact Or.inr ⟨o, ho, by rw [← h2]; exact pz⟩)
          have hall : (O.all fun o1 => decide ((w0.heap o1).name ≠ (w0.heap sts).name))
              = true := by
            rw [List.all_eq_true]
            intro o1 ho1
            exact decide_eq_true (hnot o1 ho1)
          by_cases g1 : (x.ign__is_ignore (m.w.heap sts)).1 ≠ 0
          · rw [if_pos g1]
            exact ⟨_, _, rfl, fun h => by cases h⟩
          · rw [if_neg g1]
            by_cases g2 : (x.ign__is_ignore (m.w.heap sts)).2 > 0
            · rw [if_pos g2]
              have hn0 : is_new_entry x w0.heap O sts = false := by
                unfold is_new_entry
                rw [hall, ← hheap]
                simp only [Bool.true_and, decide_eq_false_iff_not]
                omega
              have hi2 := inv_skip x w0 old c E O A m hi sts hg hn0 m.i_old hi.le_O
                (fun o1 ho1 e he => hi.order o1 ho1 e (by
                  rw [drop_of_get E _ sts hg]
                  exact List.mem_cons_of_mem _ he))
              exact ih _ A hi2 (by
                show E.length - (m.i_cur + 1) + (O.length - m.i_old) < n
                omega)
            · rw [if_neg g2]
              have hn1 : is_new_entry x w0.heap O sts = true := by
                unfold is_new_entry
                rw [hall, ← hheap]
                simp only [Bool.true_and, decide_eq_true_eq]
                omega
              have hnx := hi.next
              obtain ⟨st, m1, hr, hrel⟩ := update_dir_new_rel x bt old c m sts hbt hret
                (fun h => hs.cE (h ▸ hsE)) (by have := hs.alloc_c; omega)
                (by have := hs.allocE sts hsE; omega)
                (by rw [hheap]; exact hs.leaf sts hsE)
              rw [hr]
              simp only
              by_cases g3 : st ≠ 0
              · rw [if_pos g3]
                exact ⟨_, _, rfl, fun h => by cases h⟩
              · rw [if_neg g3]
                obtain ⟨A1, hi2⟩ := inv_new x w0 old c E O A m m1 hs hi sts hg hn1 hrel
                exact ih _ A1 hi2 (by
                  show E.length - (m1.i_cur + 1) + (O.length - m1.i_old) < n
                  rw [hrel.1, hrel.2.1]
                  omega)
        · rw [if_neg pz]
          rcases hst with ⟨h2, _⟩ | ⟨o, ho, h2⟩
          · omega
          · have hlo : m.i_old < O.length := (List.getElem?_eq_some_iff.mp ho).1
            have hneg : strcmp (w0.heap o).name (w0.heap sts).name < 0 := by
              rw [← h2]
              omega
            have hi2 := inv_old x w0 old c E O A m hi (m.i_old + 1) (by omega)
              (order_old w0 E O _ _ sts o hs.sortedE hi.order hg ho hneg)
            exact ih _ A hi2 (by
              show E.length - m.i_cur + (O.length - (m.i_old + 1)) < n
              omega)

theorem merge_inv_init (x : UpdateExt) (w : Sys) (old c : Nat) (E O : List Nat)
    (hs : MergeSetup w old c E O) : MergeInv x w old c E O E ⟨w, 0, 0, 0⟩ :=
  ⟨hs.cur_arr, List.Perm.refl _, rfl, rfl, (fun _ h => by cases h), hs.cur_cnt, le_refl _,
    Nat.zero_le _, Nat.zero_le _, rfl, (fun _ _ => rfl), (fun _ _ => rfl), le_refl _,
    (fun _ _ => rfl), (fun _ h => by cases h)⟩

/-- C6 (amended): in `waa__update_dir`, with `old.by_name` (the entries `O`)
and the enumeration (the entries `E`) sorted by name with unique names, the
merge loop returns, and when it is left by `break`, `current.by_name` is a
permutation `A` of the enumeration, followed by NULL, whose first `nr_cur`
slots hold exactly the enumerated entries whose name is not in `old` and which
`ign__is_ignore` does not reject, in ascending name order, each with
`parent = old` and with the status `FS_NEW`, or
`FS_NEW | FS_CHANGED | FS_CHILD_CHANGED` (a new directory in which
`waa__build_tree` found entries). -/
theorem update_dir_merge_new_entries (x : UpdateExt) (fuel n : Nat) (w : Sys) (old c : Nat)
    (E O : List Nat) (hs : MergeSetup w old c E O)
    (hbt : ∀ w1 p, ∃ r, waa__build_tree x fuel w1 p = Run.ret r)
    (hn : E.length + O.length < n) :
    ∃ st m, update_dir_loop x (waa__build_tree x fuel) old c n ⟨w, 0, 0, 0⟩ = Run.ret (st, m) ∧
      (st = none → ∃ A : List Nat,
        (m.w.heap c).by_name = A.map some ++ [none] ∧ A.Perm E ∧
        A.take m.nr_cur = E.filter (is_new_entry x w.heap O) ∧
        (A.take m.nr_cur).Pairwise
          (fun a b => strcmp (m.w.heap a).name (m.w.heap b).name < 0) ∧
        ∀ e ∈ A.take m.nr_cur,
          (m.w.heap e).parent = some old ∧ new_status (m.w.heap e).entry_status) := by
  obtain ⟨st, m, hr, hfin⟩ := update_dir_loop_inv x (waa__build_tree x fuel) w old c E O hs
    (build_tree_frame x fuel) hbt n ⟨w, 0, 0, 0⟩ E (merge_inv_init x w old c E O hs) (by
      show E.length - 0 + (O.length - 0) < n
      omega)
  refine ⟨st, m, hr, fun hst => ?_⟩
  obtain ⟨A, hi, hcur⟩ := hfin hst
  have ht : A.take m.nr_cur = E.filter (is_new_entry x w.heap O) := by
    rw [hi.takeeq, hcur, List.take_length]
  refine ⟨A, hi.arr, hi.perm, ht, ?_, hi.newp⟩
  rw [ht]
  have hsub : (E.filter (is_new_entry x w.heap O)).Pairwise
      (fun a b => strcmp (w.heap a).name (w.heap b).name < 0) :=
    hs.sortedE.sublist (List.filter_sublist _)
  refine List.Pairwise.imp_of_mem ?_ hsub
  intro a b ha hb hab
  rw [hi.names a (List.mem_filter.mp ha).1, hi.names b (List.mem_filter.mp hb).1]
  exact hab

theorem demo_flat_build_tree (w : Sys) (p : Nat) :
    ∃ r, waa__build_tree demo_flat 1 w p = Run.ret r := by
  unfold waa__build_tree
  simp [waa__dir_enum, dir__enumerator, demo_flat, demo_upd, Heap.set_same, Heap.store,
    build_tree_loop]

theorem demo_abc_setup :
    MergeSetup demo_abc_sys 0 10 [11, 12, 13, 14, 15, 16, 17, 18] [1, 2, 3, 4, 5] := by
  constructor <;> decide!

theorem merge_summary_ret (c : Nat) (st : Option Int) (m : MergeState)
    (v : Option Int × Nat × List (Option Nat) × Option Nat)
    (h : merge_summary c (Run.ret (st, m)) = some v) : st = v.1 ∧ m.nr_cur = v.2.1 := by
  unfold merge_summary at h
  cases h
  exact ⟨rfl, rfl⟩

/-- Example for C6: the example of the comment in the merge loop, with the
names `a` to `h`, `old` holding `b c e g h`: the loop is left by `break` with
the new entries `a d f` in the first three slots. -/
theorem update_dir_merge_new_entries_witness :
    ∃ (m : MergeState) (A : List Nat), update_dir_loop demo_flat (waa__build_tree demo_flat 1) 0 10 14
        ⟨demo_abc_sys, 0, 0, 0⟩ = Run.ret (none, m) ∧
      (m.w.heap 10).by_name = A.map some ++ [none] ∧
      A.Perm [11, 12, 13, 14, 15, 16, 17, 18] ∧
      m.nr_cur = 3 ∧ A.take m.nr_cur = [11, 14, 16] := by
  obtain ⟨st, m, hr, hfin⟩ := update_dir_merge_new_entries demo_flat 1 14 demo_abc_sys 0 10
    [11, 12, 13, 14, 15, 16, 17, 18] [1, 2, 3, 4, 5] demo_abc_setup demo_flat_build_tree
    (by decide)
  have hsum : merge_summary 10 (update_dir_loop demo_flat (waa__build_tree demo_flat 1) 0 10 14
      ⟨demo_abc_sys, 0, 0, 0⟩) = some (none, 3, [some 11, some 14, some 16, some 12, some 15,
        some 13, some 17, some 18, none], some FS_NEW) := by
    decide!
  rw [hr] at hsum
  obtain ⟨h1, h2⟩ := merge_summary_ret _ _ _ _ hsum
  obtain ⟨A, a1, a2, a3, _, _⟩ := hfin h1
  have hf : [11, 12, 13, 14, 15, 16, 17, 18].filter
      (is_new_entry demo_flat demo_abc_sys.heap [1, 2, 3, 4, 5]) = [11, 14, 16] := by
    decide!
  rw [h1] at hr
  exact ⟨m, A, hr, a1, a2, h2, a3.trans hf⟩

/-- C6 (counterexample): `old` is empty and the enumeration has found the one
new directory `d`, in which `waa__build_tree` finds the file `f`. The
hypotheses of the claim hold, the loop is left by `break` with `nr_cur = 1`
and `d` in the first slot, but the `entry_status` of `d` is
`FS_NEW | FS_CHANGED | FS_CHILD_CHANGED`, not `FS_NEW`. -/
theorem update_dir_new_dir_status_not_new :
    MergeSetup demo_merge_sys 0 10 [11] [] ∧
    merge_summary 10 (update_dir_loop demo_upd (waa__build_tree demo_upd 3) 0 10 3
        ⟨demo_merge_sys, 0, 0, 0⟩)
      = some (none, 1, [some 11, none], some (FS_NEW ||| FS_CHANGED ||| FS_CHILD_CHANGED)) ∧
    FS_NEW ||| FS_CHANGED ||| FS_CHILD_CHANGED ≠ FS_NEW := by
  refine ⟨?_, ?_, ?_⟩
  · constructor <;> decide!
  · decide!
  · decide

/-! ### The storage directory: `waa__get_waa_directory` and `waa__open` -/

theorem Mbin2hex_length (bin : List Nat) : (Mbin2hex bin).length = 2 * bin.length := by
  induction bin with
  | nil => rfl
  | cons b bs ih =>
    unfold Mbin2hex
    simp only [List.length_cons, ih]
    omega

theorem at_last_eq (d : CStr) (c : Nat) (hc : c ≠ 0) (h : CStr.at d (d.length - 1) = c) :
    ∃ pre, d = pre ++ [c] := by
  rcases List.eq_nil_or_concat d with h0 | ⟨pre, b, hb⟩
  · rw [h0] at h
    exact absurd h.symm hc
  · refine ⟨pre, ?_⟩
    rw [hb] at h ⊢
    unfold CStr.at at h
    simp at h
    rw [h]
    simp

theorem waa___init_path_ends (sr : SoftRoot) (src : CStr) :
    ∃ pre, waa___init_path sr src = pre ++ [PATH_SEPARATOR] := by
  unfold waa___init_path
  simp only
  split_ifs with h1 h2 h2
  · exact ⟨_, rfl⟩
  · exact at_last_eq _ _ (by decide) (not_not.mp h2)
  · exact ⟨_, rfl⟩
  · exact at_last_eq _ _ (by decide) (not_not.mp h2)

theorem strip_plen_keep (path : CStr) (n : Nat)
    (h : n ≤ 1 ∨ path.at (n - 1) ≠ PATH_SEPARATOR) : strip_plen path n = n := by
  cases n with
  | zero => rfl
  | succ k =>
    unfold strip_plen
    rcases h with h | h
    · rw [if_neg (by omega)]
    · rw [if_neg (fun hh => h hh.2)]

/-- The string of `waa__get_waa_directory`: for the flag `GWD_WAA`,
`waa__get_waa_directory` returns; when its
status is zero, `*erg` is the WAA root (which `waa___init_path` ends in a
separator), two hex digits of `d[0]`, a separator, two hex digits of `d[1]`,
a separator, the 28 hex digits of `d[2..15]` and a separator, with `d` the
digest of the hashed bytes; `*start_of_spec` is the offset of the first hex
digit and `*eos` the end of the string. For an absolute path without
`GWD_MKDIR` the status is zero. -/
theorem get_waa_directory_erg (env : WaaDirEnv) (src path : CStr) (flags : GwdFlags)
    (hroot : env.waa_tmp_path = waa___init_path env.softroot src)
    (hmd5 : ∀ data, (env.apr_md5 data).length = APR_MD5_DIGESTSIZE)
    (hw : flags.waa = true) :
    ∃ r, waa__get_waa_directory env path flags = Run.ret r ∧
      (∃ pre, env.waa_tmp_path = pre ++ [PATH_SEPARATOR]) ∧
      (path.at 0 = PATH_SEPARATOR → flags.mkdir = false → r.status = 0) ∧
      (r.status = 0 → ∃ d0 d1 rest,
        env.apr_md5 r.hashed = d0 :: d1 :: rest ∧
        r.erg = env.waa_tmp_path ++ Mbin2hex [d0] ++ [PATH_SEPARATOR] ++ Mbin2hex [d1] ++
          [PATH_SEPARATOR] ++ Mbin2hex rest ++ [PATH_SEPARATOR] ∧
        (Mbin2hex [d0]).length = 2 ∧ (Mbin2hex [d1]).length = 2 ∧
        (Mbin2hex rest).length = 28 ∧
        r.start_of_spec = env.waa_tmp_path.length ∧ r.eos = r.erg.length) := by
  have hpre : ∃ pre, env.waa_tmp_path = pre ++ [PATH_SEPARATOR] := by
    rw [hroot]
    exact waa___init_path_ends _ _
  -- the digest has 16 bytes
  have hdig : ∀ data, ∃ d0 d1 rest, env.apr_md5 data = d0 :: d1 :: rest ∧ rest.length = 14 := by
    intro data
    have h := hmd5 data
    unfold APR_MD5_DIGESTSIZE at h
    match hm : env.apr_md5 data, h with
    | d0 :: d1 :: rest, h =>
      refine ⟨d0, d1, rest, rfl, ?_⟩
      simp only [List.length_cons] at h
      omega
  unfold waa__get_waa_directory
  simp only [hw, if_true]
  generalize habs : (if path.at 0 ≠ PATH_SEPARATOR then
      if env.waa__save_cwd.1 ≠ 0 then (env.waa__save_cwd.1, path)
      else (0, env.hlp__pathcopy env.waa__save_cwd.2 [PATH_SEPARATOR] path)
    else (0, path)) = abs
  have habs0 : path.at 0 = PATH_SEPARATOR → abs.1 = 0 := by
    intro ha
    rw [← habs, if_neg (not_not.mpr ha)]
  by_cases hs : abs.1 ≠ 0
  · rw [if_pos hs]
    exact ⟨_, rfl, hpre, fun ha _ => absurd (habs0 ha) hs, fun h => absurd h hs⟩
  · rw [if_neg hs]
    obtain ⟨d0, d1, rest, hd, hl⟩ := hdig (hashed_bytes env.softroot abs.2)
    have e1 : (env.apr_md5 (hashed_bytes env.softroot abs.2)).take 1 = [d0] := by
      rw [hd]
      rfl
    have e2 : ((env.apr_md5 (hashed_bytes env.softroot abs.2)).drop 1).take 1 = [d1] := by
      rw [hd]
      rfl
    have e3 : ((env.apr_md5 (hashed_bytes env.softroot abs.2)).drop 2).take
        (APR_MD5_DIGESTSIZE - 2) = rest := by
      rw [hd]
      show rest.take 14 = rest
      rw [← hl, List.take_length]
    rw [e1, e2, e3]
    have l0 : ∀ b, (Mbin2hex [b]).length = 2 := fun b => Mbin2hex_length [b]
    have l2 : (Mbin2hex rest).length = 28 := by
      rw [Mbin2hex_length, hl]
    by_cases hm : (flags.mkdir && decide (env.waa__mkdir (env.waa_tmp_path ++
        (Mbin2hex [d0] ++ [PATH_SEPARATOR] ++ Mbin2hex [d1] ++ [PATH_SEPARATOR]) ++
        Mbin2hex rest) ≠ 0)) = true
    · rw [if_pos hm]
      refine ⟨_, rfl, hpre, ?_, ?_⟩
      · intro _ hmk
        rw [hmk] at hm
        simp at hm
      · intro h0
        simp only [Bool.and_eq_true, decide_eq_true_eq] at hm
        exact absurd h0 hm.2
    · rw [if_neg hm]
      refine ⟨_, rfl, hpre, fun _ _ => rfl, fun _ => ⟨d0, d1, rest, hd, ?_, l0 d0, l0 d1, l2, rfl, ?_⟩⟩
      · simp only [List.append_assoc]
      · simp only [List.length_append, List.length_cons, List.length_nil]

theorem get_waa_directory_abs (env : WaaDirEnv) (path : CStr) (flags : GwdFlags)
    (ha : path.at 0 = PATH_SEPARATOR) (hf : flags.waa = true ∨ flags.conf = true) :
    ∃ r, waa__get_waa_directory env path flags = Run.ret r ∧
      r.hashed = hashed_bytes env.softroot path := by
  unfold waa__get_waa_directory
  simp only [if_neg (not_not.mpr ha), ne_eq, not_true_eq_false, if_false]
  rcases hf with hf | hf
  · simp only [hf, if_true]
    split_ifs
    · exact ⟨_, rfl, rfl⟩
    · exact ⟨_, rfl, rfl⟩
  · cases hw : flags.waa
    · simp only [hf, if_true, Bool.false_eq_true, if_false]
      split_ifs
      · exact ⟨_, rfl, rfl⟩
      · exact ⟨_, rfl, rfl⟩
    · simp only [if_true]
      split_ifs
      · exact ⟨_, rfl, rfl⟩
      · exact ⟨_, rfl, rfl⟩

theorem hashed_bytes_softroot (sr : SoftRoot) (R path : CStr) (h : sr.str = some R) :
    hashed_bytes sr path = if strncmp_eq R path sr.int then path.drop sr.int else path := by
  unfold hashed_bytes
  rw [h]
  simp only [List.take_length]

/-- C14: with a soft-root set, the bytes that `waa__get_waa_directory` gives
to `apr_md5` for an absolute path and for the same path followed by a
separator differ: `plen=strlen(path)` in the soft-root branch undoes the loop
that has skipped the separators at the end. -/
theorem get_waa_directory_trailing_sep_hashed (env : WaaDirEnv) (R path : CStr)
    (flags : GwdFlags) (hsr : env.softroot.str = some R)
    (ha : path.at 0 = PATH_SEPARATOR) (hf : flags.waa = true ∨ flags.conf = true) :
    ∃ r1 r2, waa__get_waa_directory env path flags = Run.ret r1 ∧
      waa__get_waa_directory env (path ++ [PATH_SEPARATOR]) flags = Run.ret r2 ∧
      r1.hashed ≠ r2.hashed := by
  have hne : path ≠ [] := by
    intro h
    rw [h] at ha
    exact absurd ha (by decide)
  have ha2 : (path ++ [PATH_SEPARATOR]).at 0 = PATH_SEPARATOR := by
    cases path with
    | nil => exact absurd rfl hne
    | cons c cs => exact ha
  obtain ⟨r1, h1, e1⟩ := get_waa_directory_abs env path flags ha hf
  obtain ⟨r2, h2, e2⟩ := get_waa_directory_abs env (path ++ [PATH_SEPARATOR]) flags ha2 hf
  refine ⟨r1, r2, h1, h2, ?_⟩
  rw [e1, e2, hashed_bytes_softroot _ R _ hsr, hashed_bytes_softroot _ R _ hsr]
  intro heq
  have hl := congrArg List.length heq
  have hpl : 0 < path.length := List.length_pos.mpr hne
  unfold strncmp_eq at hl
  by_cases c1 : List.take env.softroot.int R = List.take env.softroot.int path <;>
    by_cases c2 : List.take env.softroot.int R
      = List.take env.softroot.int (path ++ [PATH_SEPARATOR])
  · rw [decide_eq_true c1, decide_eq_true c2, if_pos rfl, if_pos rfl] at hl
    simp only [List.length_drop, List.length_append, List.length_cons,
      List.length_nil] at hl
    by_cases hn : env.softroot.int ≤ path.length
    · omega
    · rw [c1] at c2
      have := congrArg List.length c2
      simp only [List.length_take, List.length_append, List.length_cons,
        List.length_nil] at this
      omega
  · rw [decide_eq_true c1, decide_eq_false c2, if_pos rfl, if_neg (by simp)] at hl
    simp only [List.length_drop, List.length_append, List.length_cons,
      List.length_nil] at hl
    omega
  · rw [decide_eq_false c1, decide_eq_true c2, if_pos rfl, if_neg (by simp)] at hl
    simp only [List.length_drop, List.length_append, List.length_cons,
      List.length_nil] at hl
    by_cases hn : env.softroot.int ≤ path.length
    · apply c1
      rw [c2, List.take_append_of_le_length hn]
    · omega
  · rw [decide_eq_false c1, decide_eq_false c2, if_neg (by simp), if_neg (by simp)] at hl
    simp only [List.length_append, List.length_cons, List.length_nil] at hl
    omega

/-- C15: with the soft-root `R` set, `waa__get_waa_directory` gives for the
path `R ++ P` the bytes `P` to `apr_md5`, as it does without a soft-root for
the path `P`; `P` is absolute and has no separator at its end. -/
theorem get_waa_directory_softroot_hashed (env : WaaDirEnv) (R P : CStr) (flags : GwdFlags)
    (hsr : env.softroot = ⟨some R, R.length⟩)
    (hR : (R ++ P).at 0 = PATH_SEPARATOR) (hP : P.at 0 = PATH_SEPARATOR)
    (hend : P.length ≤ 1 ∨ P.at (P.length - 1) ≠ PATH_SEPARATOR)
    (hf : flags.waa = true ∨ flags.conf = true) :
    ∃ r1 r2, waa__get_waa_directory env (R ++ P) flags = Run.ret r1 ∧
      waa__get_waa_directory { env with softroot := ⟨none, 0⟩ } P flags = Run.ret r2 ∧
      r1.hashed = P ∧ r2.hashed = P := by
  obtain ⟨r1, h1, e1⟩ := get_waa_directory_abs env (R ++ P) flags hR hf
  obtain ⟨r2, h2, e2⟩ := get_waa_directory_abs { env with softroot := ⟨none, 0⟩ } P flags hP hf
  refine ⟨r1, r2, h1, h2, ?_, ?_⟩
  · rw [e1, hsr]
    unfold hashed_bytes strncmp_eq
    simp
  · rw [e2]
    unfold hashed_bytes
    simp only
    rw [strip_plen_keep P P.length hend, List.take_length]

theorem flatten_seps_no_sep (s : CStr) : PATH_SEPARATOR ∉ flatten_seps s := by
  induction s with
  | nil =>
    unfold flatten_seps
    simp
  | cons c cs ih =>
    unfold flatten_seps
    intro h
    rcases List.mem_cons.mp h with h1 | h1
    · by_cases hc : c = PATH_SEPARATOR
      · rw [if_pos hc] at h1
        exact absurd h1 (by decide)
      · rw [if_neg hc] at h1
        exact hc h1.symm
    · exact ih h1

theorem get_waa_directory_shape (env : WaaDirEnv) (path : CStr) (flags : GwdFlags)
    (hf : flags.waa = true ∨ flags.conf = true) :
    ∃ d, waa__get_waa_directory env path flags = Run.ret d ∧
      (d.status = 0 → ∃ root spec,
        (root = env.waa_tmp_path ∨ root = env.conf_tmp_path) ∧ d.erg = root ++ spec ∧
        d.start_of_spec = root.length ∧ d.eos = d.erg.length) := by
  unfold waa__get_waa_directory
  simp only
  generalize (if path.at 0 ≠ PATH_SEPARATOR then
      if env.waa__save_cwd.1 ≠ 0 then (env.waa__save_cwd.1, path)
      else (0, env.hlp__pathcopy env.waa__save_cwd.2 [PATH_SEPARATOR] path)
    else (0, path)) = abs
  by_cases hs : abs.1 ≠ 0
  · rw [if_pos hs]
    exact ⟨_, rfl, fun h => absurd h hs⟩
  · rw [if_neg hs]
    cases hw : flags.waa
    · have hc : flags.conf = true := by
        rcases hf with h | h
        · rw [hw] at h
          cases h
        · exact h
      simp only [hc, if_true, Bool.false_eq_true, if_false]
      split_ifs with hm
      · refine ⟨_, rfl, fun h0 => ?_⟩
        simp only [Bool.and_eq_true, decide_eq_true_eq] at hm
        exact absurd h0 hm.2
      · exact ⟨_, rfl, fun _ => ⟨env.conf_tmp_path,
          Mbin2hex (List.take APR_MD5_DIGESTSIZE
            (env.apr_md5 (hashed_bytes env.softroot abs.2))) ++ [PATH_SEPARATOR],
          Or.inr rfl, by simp only [List.append_assoc, List.nil_append], rfl, by
            simp only [List.length_append, List.length_cons, List.length_nil]⟩⟩
    · simp only [if_true]
      split_ifs with hm
      · refine ⟨_, rfl, fun h0 => ?_⟩
        simp only [Bool.and_eq_true, decide_eq_true_eq] at hm
        exact absurd h0 hm.2
      · exact ⟨_, rfl, fun _ => ⟨env.waa_tmp_path,
          Mbin2hex (List.take 1 (env.apr_md5 (hashed_bytes env.softroot abs.2))) ++
            [PATH_SEPARATOR] ++
            Mbin2hex (List.take 1 (List.drop 1
              (env.apr_md5 (hashed_bytes env.softroot abs.2)))) ++ [PATH_SEPARATOR] ++
            Mbin2hex (List.take (APR_MD5_DIGESTSIZE - 2) (List.drop 2
              (env.apr_md5 (hashed_bytes env.softroot abs.2)))) ++ [PATH_SEPARATOR],
          Or.inl rfl, by simp only [List.append_assoc], rfl, by
            simp only [List.length_append, List.length_cons, List.length_nil]⟩⟩

/-- C16 (amended): a write-open through `waa__open` returns, and when its
status is zero the destination name is the root of the area (the string in
`waa_tmp_path` or `conf_tmp_path`), the hashed directories and the extension,
while the temporary name is the same root followed by one component without
a separator: the rest of the destination name and `.tmp` with every separator
replaced by `_`. The temporary file is the file that is opened. -/
theorem waa__open_temp_name (env : OpenEnv) (path ext : CStr) (flags : Nat)
    (hw : flags &&& O_WRITE_MASK ≠ 0)
    (hf : (env.waa__get_gwd_flag (some ext)).waa = true ∨
      (env.waa__get_gwd_flag (some ext)).conf = true)
    (herr : ∀ name, env.sys_open name flags ≠ Except.error 0) :
    ∃ r, waa__open env path (some ext) flags = Run.ret r ∧
      (r.status = 0 → ∃ root spec t,
        (root = env.dir.waa_tmp_path ∨ root = env.dir.conf_tmp_path) ∧
        r.target = some t ∧ r.opened = some t.temp_name ∧
        t.dest_name = root ++ spec ++ ext ∧
        t.temp_name = root ++ flatten_seps (spec ++ ext ++ ext_tmp) ∧
        PATH_SEPARATOR ∉ flatten_seps (spec ++ ext ++ ext_tmp)) := by
  obtain ⟨d, hd, hshape⟩ := get_waa_directory_shape env.dir path _ hf
  unfold waa__open
  rw [hd]
  simp only
  by_cases hs : d.status ≠ 0
  · rw [if_pos hs]
    exact ⟨_, rfl, fun h => absurd h hs⟩
  · rw [if_neg hs]
    obtain ⟨root, spec, hr, he, hss, heos⟩ := hshape (not_not.mp hs)
    rw [if_pos hw, if_pos hw]
    have hdest : (List.take d.eos d.erg ++ ext ++ ext_tmp).take d.start_of_spec ++
        flatten_seps ((List.take d.eos d.erg ++ ext ++ ext_tmp).drop d.start_of_spec)
        = root ++ flatten_seps (spec ++ ext ++ ext_tmp) := by
      rw [heos, List.take_length, he, hss]
      simp only [List.append_assoc, List.take_left', List.drop_left']
    rw [hdest]
    cases ho : env.sys_open (root ++ flatten_seps (spec ++ ext ++ ext_tmp)) flags with
    | error e =>
      simp only
      have : e ≠ 0 := by
        intro h0
        rw [h0] at ho
        exact herr _ ho
      rw [if_neg this]
      exact ⟨_, rfl, fun h => absurd h this⟩
    | ok fh =>
      simp only
      refine ⟨_, rfl, fun _ => ⟨root, spec, _, hr, rfl, rfl, ?_, rfl, flatten_seps_no_sep _⟩⟩
      show List.take d.eos d.erg ++ ext = root ++ spec ++ ext
      rw [heos, List.take_length, he]

/-- C16 (counterexample): the write-open of the dir-file of `/wc` in the
examples succeeds; the temporary file is in `/W`, the directory that holds
the hashed directories, and not in the directory of its destination. -/
theorem waa__open_temp_not_in_bucket :
    ∃ r t, waa__open demo_open path_wc (some [100, 105, 114]) 65 = Run.ret r ∧
      r.status = 0 ∧ r.target = some t ∧ dirname t.temp_name = [47, 87] ∧
      dirname t.dest_name ≠ dirname t.temp_name := by
  exact ⟨_, _, rfl, rfl, rfl, by decide, by decide⟩

/-- Example for C14: with the soft-root `/mnt`, the paths `/mnt/wc` and
`/mnt/wc/` are hashed differently. -/
theorem get_waa_directory_trailing_sep_hashed_witness :
    ∃ r1 r2, waa__get_waa_directory demo_waa_softroot [47, 109, 110, 116, 47, 119, 99]
        ⟨true, false, false⟩ = Run.ret r1 ∧
      waa__get_waa_directory demo_waa_softroot
        ([47, 109, 110, 116, 47, 119, 99] ++ [PATH_SEPARATOR]) ⟨true, false, false⟩
        = Run.ret r2 ∧
      r1.hashed ≠ r2.hashed :=
  get_waa_directory_trailing_sep_hashed demo_waa_softroot [47, 109, 110, 116]
    [47, 109, 110, 116, 47, 119, 99] ⟨true, false, false⟩ rfl (by decide) (Or.inl rfl)

/-- Example for C15: with the soft-root `/mnt`, `/mnt/wc` is hashed as `/wc`. -/
theorem get_waa_directory_softroot_hashed_witness :
    ∃ r1 r2, waa__get_waa_directory demo_waa_softroot ([47, 109, 110, 116] ++ path_wc)
        ⟨true, false, false⟩ = Run.ret r1 ∧
      waa__get_waa_directory { demo_waa_softroot with softroot := ⟨none, 0⟩ } path_wc
        ⟨true, false, false⟩ = Run.ret r2 ∧
      r1.hashed = path_wc ∧ r2.hashed = path_wc :=
  get_waa_directory_softroot_hashed demo_waa_softroot [47, 109, 110, 116] path_wc
    ⟨true, false, false⟩ rfl (by decide) (by decide) (Or.inr (by decide)) (Or.inl rfl)

/-- Example for C16: the write-open of the dir-file of `/wc` in the examples. -/
theorem waa__open_temp_name_witness :
    ∃ r, waa__open demo_open path_wc (some [100, 105, 114]) 65 = Run.ret r ∧
      r.status = 0 ∧ ∃ t, r.target = some t ∧ r.opened = some t.temp_name ∧
        PATH_SEPARATOR ∉ t.temp_name.drop 3 := by
  obtain ⟨r, h, hr⟩ := waa__open_temp_name demo_open path_wc [100, 105, 114] 65
    (by decide) (Or.inl rfl) (fun name hn => by cases hn)
  have hrr : waa__open demo_open path_wc (some [100, 105, 114]) 65 = Run.ret r := h
  have h0 : r.status = 0 := by
    have e : (waa__open demo_open path_wc (some [100, 105, 114]) 65)
        = Run.ret ⟨0, _, _, _⟩ := rfl
    rw [e] at hrr
    cases hrr
    rfl
  obtain ⟨root, spec, t, hroot, ht, ho, _, htmp, hno⟩ := hr h0
  refine ⟨r, h, h0, t, ht, ho, ?_⟩
  have hl : root.length = 3 := by
    rcases hroot with e | e
    · rw [e]
      rfl
    · rw [e]
      rfl
  rw [htmp, ← hl, List.drop_left' rfl]
  exact hno

/-! ### The search for the working copy base in `waa__find_common_base` -/

theorem strrchr_none (s : CStr) (c : Nat) (h : c ∉ s) : strrchr s c = none := by
  induction s with
  | nil => rfl
  | cons x xs ih =>
    unfold strrchr
    rw [ih (fun hh => h (List.mem_cons_of_mem _ hh))]
    have : x ≠ c := fun e => h (e ▸ List.mem_cons_self _ _)
    simp [this]

theorem strrchr_last (pre s : CStr) (c : Nat) (h : c ∉ s) :
    strrchr (pre ++ c :: s) c = some pre.length := by
  induction pre with
  | nil =>
    show strrchr (c :: s) c = some 0
    unfold strrchr
    rw [strrchr_none s c h]
    simp
  | cons x xs ih =>
    show strrchr (x :: (xs ++ c :: s)) c = some (xs.length + 1)
    unfold strrchr
    rw [ih]

theorem path_of_concat (cs : List CStr) (c : CStr) :
    path_of (cs ++ [c]) = cs.flatMap (fun c => PATH_SEPARATOR :: c) ++ PATH_SEPARATOR :: c := by
  unfold path_of
  rw [if_neg (by simp)]
  simp [List.flatMap_append]

theorem path_of_ne_nil (cs : List CStr) (h : cs ≠ []) :
    path_of cs = cs.flatMap (fun c => PATH_SEPARATOR :: c) := by
  unfold path_of
  rw [if_neg h]

theorem ancestors_concat (cs : List CStr) (c : CStr) :
    ancestors (cs ++ [c]) = path_of (cs ++ [c]) :: ancestors cs := by
  unfold ancestors
  rw [List.length_append, List.length_singleton, List.range_succ_eq_map, List.map_cons,
    List.map_map]
  congr 1
  · show path_of (List.take (cs.length + 1 - 0) (cs ++ [c])) = _
    rw [Nat.sub_zero, List.take_of_length_le (by simp)]
  · apply List.map_congr_left
    intro i hi
    have hi' : i < cs.length + 1 := List.mem_range.mp hi
    show path_of (List.take (cs.length + 1 - (i + 1)) (cs ++ [c])) = _
    rw [List.take_append_of_le_length (by omega)]
    congr 2
    omega

theorem ancestors_nil : ancestors [] = [[PATH_SEPARATOR]] := rfl

theorem path_of_length_pos (cs : List CStr) : 0 < (path_of cs).length := by
  unfold path_of
  split_ifs with h
  · simp
  · cases cs with
    | nil => exact absurd rfl h
    | cons c cs => simp [List.flatMap_cons]

theorem path_of_concat_length (cs : List CStr) (c : CStr) (hc : c ≠ []) :
    (path_of cs).length < (path_of (cs ++ [c])).length := by
  rw [path_of_concat]
  have hcl : 0 < c.length := List.length_pos.mpr hc
  unfold path_of
  split_ifs with h
  · rw [h]
    simp
    exact hcl
  · simp

theorem ancestors_length_le (cs : List CStr) (hok : components_ok cs) :
    ∀ p ∈ ancestors cs, p.length ≤ (path_of cs).length := by
  induction cs using List.reverseRecOn with
  | nil =>
    intro p hp
    rw [ancestors_nil] at hp
    have : p = [PATH_SEPARATOR] := by simpa using hp
    rw [this]
    rfl
  | append_singleton cs c ih =>
    intro p hp
    rw [ancestors_concat] at hp
    rcases List.mem_cons.mp hp with h | h
    · rw [h]
    · have hc := (hok c (by simp)).1
      have := ih (fun d hd => hok d (List.mem_append_left _ hd)) p h
      have := path_of_concat_length cs c hc
      omega

theorem ancestors_nodup (cs : List CStr) (hok : components_ok cs) : (ancestors cs).Nodup := by
  induction cs using List.reverseRecOn with
  | nil =>
    rw [ancestors_nil]
    simp
  | append_singleton cs c ih =>
    rw [ancestors_concat, List.nodup_cons]
    have hok' : components_ok cs := fun d hd => hok d (List.mem_append_left _ hd)
    refine ⟨?_, ih hok'⟩
    intro hmem
    have h1 := ancestors_length_le cs hok' _ hmem
    have h2 := path_of_concat_length cs c (hok c (by simp)).1
    omega

theorem search_spec_cons (probe : CStr → Int) (A : List CStr) (b : CStr) (status : Int)
    (base : CStr) (log : List CStr) (hb : probe b ≠ 0)
    (h : SearchSpec probe A status base log) :
    SearchSpec probe (b :: A) status base (b :: log) := by
  obtain ⟨k, h1, h2, h3, h4, h5, h6⟩ := h
  refine ⟨k + 1, by simpa using h1, ?_, ?_, h4, ?_, ?_⟩
  · rw [h2]
    rfl
  · simpa using h3
  · intro p hp
    rw [List.take_succ_cons] at hp
    rcases List.mem_cons.mp hp with e | e
    · rw [e]
      exact hb
    · exact h5 p e
  · intro hs
    have := h6 hs
    simp only [List.length_cons]
    omega

theorem search_spec_first (probe : CStr → Int) (A : List CStr) (b : CStr)
    (h : probe b = 0 ∨ A = []) :
    SearchSpec probe (b :: A) (probe b) b [b] := by
  refine ⟨0, by simp, rfl, rfl, rfl, ?_, ?_⟩
  · intro p hp
    simp at hp
  · intro hs
    rcases h with h | h
    · exact absurd h hs
    · rw [h]
      rfl

theorem find_base_loop_spec (x : BaseExt) (cs : List CStr) (hok : components_ok cs) :
    ∀ (fuel len : Nat) (log0 : List CStr), cs.length < fuel →
      (len = (path_of cs).length ∨ (cs = [] ∧ len ≤ 1)) →
      ∃ status base len1 log,
        find_base_loop x fuel (path_of cs) len log0 = Run.ret (status, base, len1, log0 ++ log) ∧
        SearchSpec x.probe (ancestors cs) status base log := by
  induction cs using List.reverseRecOn with
  | nil =>
    intro fuel len log0 hf hlen
    have hl : len ≤ 1 := by
      rcases hlen with h | h
      · rw [h]
        exact le_refl _
      · exact h.2
    obtain ⟨f, rfl⟩ : ∃ f, fuel = f + 1 := ⟨fuel - 1, by omega⟩
    unfold find_base_loop
    rw [ancestors_nil]
    by_cases hp : x.probe (path_of []) = 0
    · rw [if_pos hp]
      refine ⟨0, _, _, _, rfl, ?_⟩
      have := search_spec_first x.probe [] (path_of []) (Or.inr rfl)
      rw [hp] at this
      exact this
    · rw [if_neg hp, if_pos hl]
      exact ⟨_, _, _, _, rfl, search_spec_first x.probe [] (path_of []) (Or.inr rfl)⟩
  | append_singleton cs c ih =>
    intro fuel len log0 hf hlen
    have hok' : components_ok cs := fun d hd => hok d (List.mem_append_left _ hd)
    have hc := hok c (by simp)
    have hlen' : len = (path_of (cs ++ [c])).length := by
      rcases hlen with h | h
      · exact h
      · exact absurd h.1 (by simp)
    obtain ⟨f, rfl⟩ : ∃ f, fuel = f + 1 := ⟨fuel - 1, by omega⟩
    have hf' : cs.length < f := by
      simp only [List.length_append, List.length_singleton] at hf
      omega
    unfold find_base_loop
    rw [ancestors_concat]
    by_cases hp : x.probe (path_of (cs ++ [c])) = 0
    · rw [if_pos hp]
      refine ⟨0, _, _, _, rfl, ?_⟩
      have := search_spec_first x.probe (ancestors cs) (path_of (cs ++ [c])) (Or.inl hp)
      rw [hp] at this
      exact this
    · rw [if_neg hp]
      have h1 := path_of_concat_length cs c hc.1
      have h0 := path_of_length_pos cs
      rw [if_neg (by omega), hlen', List.take_length, path_of_concat,
        strrchr_last _ _ _ hc.2]
      simp only
      by_cases hnil : cs = []
      · subst hnil
        simp only [List.flatMap_nil, List.length_nil, if_true, List.nil_append]
        obtain ⟨status, base, len1, log, hr, hs⟩ := ih hok' f 0 (log0 ++ [PATH_SEPARATOR :: c])
          hf' (Or.inr ⟨rfl, by omega⟩)
        have e : List.take 1 (PATH_SEPARATOR :: c) = path_of [] := rfl
        rw [e, hr]
        refine ⟨status, base, len1, (PATH_SEPARATOR :: c) :: log, ?_, ?_⟩
        · simp only [List.append_assoc, List.singleton_append]
        · have := search_spec_cons x.probe _ (path_of ([] ++ [c])) status base log hp hs
          rw [path_of_concat] at this
          exact this
      · have hne : (cs.flatMap (fun c => PATH_SEPARATOR :: c)).length ≠ 0 := by
          rw [← path_of_ne_nil cs hnil]
          omega
        rw [if_neg hne, List.take_left' rfl, ← path_of_ne_nil cs hnil]
        obtain ⟨status, base, len1, log, hr, hs⟩ := ih hok' f (path_of cs).length
          (log0 ++ [path_of cs ++ PATH_SEPARATOR :: c]) hf' (Or.inl rfl)
        rw [hr]
        refine ⟨status, base, len1, (path_of cs ++ PATH_SEPARATOR :: c) :: log, ?_, ?_⟩
        · simp only [List.append_assoc, List.singleton_append]
        · have := search_spec_cons x.probe _ (path_of (cs ++ [c])) status base log hp hs
          rw [path_of_concat, ← path_of_ne_nil cs hnil] at this
          exact this

/-- The search of step 4 of `waa__find_common_base`, started on the
common base with the components `cs`, returns; it has given to `waa__open`,
in this order, the base and its parent directories towards `/` (no directory
twice), up to the first for which `waa__open` returned `0`, or all of them
including `/`. The base left is the last directory probed, the status what
`waa__open` returned for it: when it is `0` no deeper directory is registered,
and it is not `0` only if `/` was probed as well and none is registered. -/
theorem find_base_loop_search (x : BaseExt) (cs : List CStr) (hok : components_ok cs) :
    ∃ status base len log,
      find_base_loop x ((path_of cs).length + 1) (path_of cs) (path_of cs).length []
        = Run.ret (status, base, len, log) ∧
      SearchSpec x.probe (ancestors cs) status base log ∧ (ancestors cs).Nodup := by
  have hlen : cs.length < (path_of cs).length + 1 := by
    have : cs.length ≤ (path_of cs).length := by
      unfold path_of
      split_ifs with h
      · rw [h]
        simp
      · rw [List.length_flatMap]
        have : ∀ l : List CStr, l.length ≤ (l.map (fun c => (PATH_SEPARATOR :: c).length)).sum := by
          intro l
          induction l with
          | nil => simp
          | cons a l ih =>
            simp only [List.map_cons, List.sum_cons, List.length_cons] at ih ⊢
            omega
        exact this cs
    omega
  obtain ⟨status, base, len1, log, hr, hs⟩ := find_base_loop_spec x cs hok _ _ [] hlen
    (Or.inl rfl)
  exact ⟨status, base, len1, log, hr, hs, ancestors_nodup cs hok⟩

/-- C18: when `waa__open` finds no working copy for any directory,
`waa__find_common_base` returns `ENOENT` with the globals `wc_path` and
`wc_path_len` not set and no element of `normalized` assigned: the
`STOPIF(status, ...)` behind the search jumps over step 5. -/
theorem find_common_base_enoent_no_paths (x : BaseExt) (args : List CStr)
    (hp : ∀ p, x.probe p = ENOENT) (r : BaseResult)
    (h : waa__find_common_base x args = Run.ret r) :
    r.status = ENOENT ∧ r.wc_path = none ∧ r.normalized = none := by
  have hloop : ∀ fuel base len log st b l lg,
      find_base_loop x fuel base len log = Run.ret (st, b, l, lg) → st = ENOENT := by
    intro fuel
    induction fuel with
    | zero =>
      intro base len log st b l lg hr
      unfold find_base_loop at hr
      cases hr
    | succ f ih =>
      intro base len log st b l lg hr
      unfold find_base_loop at hr
      rw [hp base] at hr
      rw [if_neg (by decide)] at hr
      split at hr
      · cases hr
        rfl
      · split at hr
        · split at hr
          · exact ih _ _ _ _ _ _ _ hr
          · exact ih _ _ _ _ _ _ _ hr
        · cases hr
  unfold waa__find_common_base at h
  simp only at h
  split at h
  · split at h
    · rename_i status base len3 lg hl
      have hst := hloop _ _ _ _ _ _ _ _ hl
      rw [if_pos (by rw [hst]; decide)] at h
      cases h
      exact ⟨hst, rfl, rfl⟩
    · cases h
    · cases h
  · cases h
  · cases h

/-- Example for C18: no working copy is registered, the arguments are `/wc/a`
and `/wc/ab`. -/
theorem find_common_base_enoent_no_paths_witness :
    ∃ r, waa__find_common_base { demo_base with probe := fun _ => ENOENT }
        [path_wc_a, path_wc_ab] = Run.ret r ∧
      r.status = ENOENT ∧ r.wc_path = none ∧ r.normalized = none :=
  ⟨⟨ENOENT, none, 0, none⟩, by decide,
    find_common_base_enoent_no_paths { demo_base with probe := fun _ => ENOENT }
      [path_wc_a, path_wc_ab] (fun _ => rfl) _ (by decide)⟩

/-! ### The number of records of a dir-file: `waa__input_tree` -/

theorem input_loop_exhausted (x : InputExt) (env : InputEnv) (fuel root ss : Nat) :
    ∀ (n count : Nat) (s s1 : InState),
      input_iter x env fuel root ss n count s = some s1 → n < count → s1.dir_curr = [] →
      input_loop x env fuel root ss count s = Run.ret { s1 with status := EINVAL } ∧
        s1.nloaded = s.nloaded + n := by
  intro n
  induction n with
  | zero =>
    intro count s s1 hi hn hd
    unfold input_iter at hi
    cases hi
    obtain ⟨c, rfl⟩ : ∃ c, count = c + 1 := ⟨count - 1, by omega⟩
    unfold input_loop input_step
    rw [hd]
    exact ⟨rfl, rfl⟩
  | succ n ih =>
    intro count s s1 hi hn hd
    obtain ⟨c, rfl⟩ : ∃ c, count = c + 1 := ⟨count - 1, by omega⟩
    unfold input_iter at hi
    split at hi
    · rename_i s2 hs
      have hnl := input_step_nloaded _ _ _ _ _ _ _ _ _ hs
      obtain ⟨h1, h2⟩ := ih c s2 s1 hi (by omega) hd
      have hne : s.dir_curr ≠ [] := by
        intro he
        unfold input_step at hs
        rw [he] at hs
        cases hs
      unfold input_loop
      rw [hs]
      refine ⟨h1, ?_⟩
      rcases hnl with ⟨h0, _⟩ | h3
      · exact absurd h0 hne
      · omega
    · cases hi

/-- C20 (amended): when the dir-file ends after `n` records were read and
taken, with `n` smaller than the entry count of the header, `waa__input_tree`
returns `EINVAL`, after `n` calls of `ops__load_1entry`. -/
theorem input_tree_fewer_records (k : Consts) (x : InputExt) (env : InputEnv) (fuel : Nat)
    (dir : List Nat) (h : Heap) (approx mpl root n : Nat)
    (ho : env.open_status = 0) (hl : env.lseek_ret = none) (hm : env.mmap_ret = none)
    (hc : env.close_ret = none)
    (hhd : (input_header k dir approx mpl).status ≠ EINVAL)
    (hn : n < (input_header k dir approx mpl).count)
    (hit : iter_summary (input_iter x env fuel root (input_header k dir approx mpl).string_space
        n (input_header k dir approx mpl).count
        (input_init k (input_header k dir approx mpl).status dir h root)) = some (n, [])) :
    ∃ r, waa__input_tree k x env fuel dir h approx mpl root = Run.ret r ∧
      r.status = EINVAL ∧ r.nloaded = n := by
  generalize hhdr : input_header k dir approx mpl = hd at *
  unfold iter_summary at hit
  cases hi : input_iter x env fuel root hd.string_space n hd.count
      (input_init k hd.status dir h root) with
  | none =>
    rw [hi] at hit
    cases hit
  | some s1 =>
    rw [hi] at hit
    simp only [Option.map_some', Option.some.injEq, Prod.mk.injEq] at hit
    obtain ⟨hloop, _⟩ := input_loop_exhausted x env fuel root hd.string_space n hd.count _ s1 hi
      hn hit.2
    unfold waa__input_tree
    have hne : ((0 : Int) = ENOENT) = False := by simp [ENOENT]
    simp only [ho, hl, hm, hc, hhdr, hne, if_false, ne_eq, not_true_eq_false, hhd, hloop]
    refine ⟨_, rfl, ?_, hit.1⟩
    simp [EINVAL]

/-- Example for C20: the dir-file of the examples with the entry count `5` in
its header and its four records is refused with `EINVAL`. -/
theorem input_tree_fewer_records_witness :
    ∃ r, waa__input_tree demo_consts demo_in demo_in_env 4 (demo_dir_file_count 5)
        (fun _ => default) 0 0 500 = Run.ret r ∧
      r.status = EINVAL ∧ r.nloaded = 4 :=
  input_tree_fewer_records demo_consts demo_in demo_in_env 4 (demo_dir_file_count 5)
    (fun _ => default) 0 0 500 4 rfl rfl rfl rfl (by decide!) (by decide!) (by decide!)

/-- C20 (counterexample): the dir-file of the examples with the entry count
`3` in its header holds four records (four iterations consume it), but
`waa__input_tree` returns `0` after three calls of `ops__load_1entry`. -/
theorem input_tree_more_records_accepted :
    in_summary (waa__input_tree demo_consts demo_in demo_in_env 4
      (demo_dir_file_count 3) (fun _ => default) 0 0 500) = some (0, 3) ∧
    iter_summary (input_iter demo_in demo_in_env 4 500 11 4 4
      (input_init demo_consts 6 (demo_dir_file_count 3) (fun _ => default) 500))
      = some (4, []) := by
  constructor <;> decide!

/-! ### The arrays `by_inode` that `waa__input_tree` builds -/

theorem same_but_revs_refl (e : estat) : same_but_revs e e := rfl

theorem same_but_revs_trans (a b c : estat) (h1 : same_but_revs a b) (h2 : same_but_revs b c) :
    same_but_revs a c := by
  unfold same_but_revs at *
  rw [h2, h1]

theorem mark_other_revs_frame (fuel : Nat) :
    ∀ (h : Heap) (start : Option Nat) (h1 : Heap),
      mark_other_revs fuel h start = Run.ret h1 → ∀ q, same_but_revs (h q) (h1 q) := by
  induction fuel with
  | zero =>
    intro h start h1 hr q
    cases start with
    | none =>
      unfold mark_other_revs at hr
      cases hr
      rfl
    | some p =>
      unfold mark_other_revs at hr
      cases hr
  | succ f ih =>
    intro h start h1 hr q
    cases start with
    | none =>
      unfold mark_other_revs at hr
      cases hr
      rfl
    | some p =>
      unfold mark_other_revs at hr
      split at hr
      · cases hr
        rfl
      · have := ih _ _ _ hr q
        refine same_but_revs_trans _ _ _ ?_ this
        by_cases hq : q = p
        · rw [hq, Heap.set_same]
          rfl
        · rw [Heap.set_other _ _ _ _ hq]
          rfl

theorem input_attach_heap (fuel root : Nat) (s : InState) (h1 : Heap) (cur sts parent par : Nat)
    (h5 : Heap) (hres : resolve_parent root s.stat_mem parent cur = Run.ret par)
    (hne : par ≠ sts)
    (h : input_attach fuel root s h1 cur sts parent = Run.ret h5) :
    (∀ q, q ≠ sts → q ≠ par → same_but_revs (h1 q) (h5 q)) ∧
    same_but_revs { h1 sts with parent := some par, path_level := (h1 par).path_level + 1 }
      (h5 sts) ∧
    (h1 par).child_index < (h1 par).by_inode.length ∧
    (h1 par).child_index + 1 ≤ (h1 par).entry_count ∧
    same_but_revs { h1 par with
        by_inode := (h1 par).by_inode.set (h1 par).child_index (some sts),
        child_index := (h1 par).child_index + 1 } (h5 par) ∧
    ∃ h4 : Heap, (∀ q, (h4 q).other_revs = (h1 q).other_revs) ∧
      (∀ q, q ≠ sts → (h4 q).parent = (h1 q).parent) ∧ (h4 sts).parent = some par ∧
      (∀ q, (h4 q).repos_rev = (h1 q).repos_rev) ∧
      (((h1 sts).repos_rev ≠ (h1 par).repos_rev ∧
          mark_other_revs fuel h4 (some par) = Run.ret h5) ∨
        ((h1 sts).repos_rev = (h1 par).repos_rev ∧ h5 = h4)) := by
  unfold input_attach at h
  rw [hres] at h
  simp only at h
  have hns : sts ≠ par := Ne.symm hne
  have e3par : ((h1.set sts { h1 sts with parent := some par }).set sts
      { (h1.set sts { h1 sts with parent := some par }) sts with
        path_level := ((h1.set sts { h1 sts with parent := some par }) par).path_level + 1 })
      par = h1 par := by
    rw [Heap.set_other _ _ _ _ hne, Heap.set_other _ _ _ _ hne]
  rw [e3par] at h
  split at h
  · cases h
  · rename_i hci
    rw [Heap.set_same] at h
    simp only at h
    split at h
    · cases h
    · rename_i hce
      have key : ∀ h4 : Heap,
          h4 = (((h1.set sts { h1 sts with parent := some par }).set sts
            { (h1.set sts { h1 sts with parent := some par }) sts with
              path_level := ((h1.set sts { h1 sts with parent := some par }) par).path_level
                + 1 }).set par
            { h1 par with
              by_inode := (h1 par).by_inode.set (h1 par).child_index (some sts),
              child_index := (h1 par).child_index + 1 }) →
          (∀ q, same_but_revs (h4 q) (h5 q)) →
          (∀ q, q ≠ sts → q ≠ par → same_but_revs (h1 q) (h5 q)) ∧
          same_but_revs { h1 sts with parent := some par,
                                      path_level := (h1 par).path_level + 1 } (h5 sts) ∧
          same_but_revs { h1 par with
            by_inode := (h1 par).by_inode.set (h1 par).child_index (some sts),
            child_index := (h1 par).child_index + 1 } (h5 par) := by
        intro h4 e4 hf
        refine ⟨?_, ?_, ?_⟩
        · intro q hq1 hq2
          have := hf q
          rw [e4, Heap.set_other _ _ _ _ hq2, Heap.set_other _ _ _ _ hq1,
            Heap.set_other _ _ _ _ hq1] at this
          exact this
        · have := hf sts
          rw [e4, Heap.set_other _ _ _ _ hns, Heap.set_same, Heap.set_same,
            Heap.set_other _ _ _ _ hne] at this
          exact this
        · have := hf par
          rw [e4, Heap.set_same] at this
          exact this
      have hci' : (h1 par).child_index < (h1 par).by_inode.length := by omega
      have hce' : (h1 par).child_index + 1 ≤ (h1 par).entry_count := by omega
      have facts : ∀ h4 : Heap,
          h4 = (((h1.set sts { h1 sts with parent := some par }).set sts
            { (h1.set sts { h1 sts with parent := some par }) sts with
              path_level := ((h1.set sts { h1 sts with parent := some par }) par).path_level
                + 1 }).set par
            { h1 par with
              by_inode := (h1 par).by_inode.set (h1 par).child_index (some sts),
              child_index := (h1 par).child_index + 1 }) →
          (∀ q, (h4 q).other_revs = (h1 q).other_revs) ∧
          (∀ q, q ≠ sts → (h4 q).parent = (h1 q).parent) ∧ (h4 sts).parent = some par ∧
          (∀ q, (h4 q).repos_rev = (h1 q).repos_rev) := by
        intro h4 e4
        have e4p : h4 par = { h1 par with
            by_inode := (h1 par).by_inode.set (h1 par).child_index (some sts),
            child_index := (h1 par).child_index + 1 } := by
          rw [e4, Heap.set_same]
        have e4s : h4 sts = { h1 sts with
            parent := some par
            path_level := (h1 par).path_level + 1 } := by
          rw [e4, Heap.set_other _ _ _ _ hns, Heap.set_same, Heap.set_same,
            Heap.set_other _ _ _ _ hne]
        have e4o : ∀ q, q ≠ sts → q ≠ par → h4 q = h1 q := by
          intro q hq1 hq2
          rw [e4, Heap.set_other _ _ _ _ hq2, Heap.set_other _ _ _ _ hq1,
            Heap.set_other _ _ _ _ hq1]
        refine ⟨?_, ?_, ?_, ?_⟩
        · intro q
          by_cases hq1 : q = sts
          · rw [hq1, e4s]
          · by_cases hq2 : q = par
            · rw [hq2, e4p]
            · rw [e4o q hq1 hq2]
        · intro q hq1
          by_cases hq2 : q = par
          · rw [hq2, e4p]
          · rw [e4o q hq1 hq2]
        · rw [e4s]
        · intro q
          by_cases hq1 : q = sts
          · rw [hq1, e4s]
          · by_cases hq2 : q = par
            · rw [hq2, e4p]
            · rw [e4o q hq1 hq2]
      split at h
      · rename_i hrev
        obtain ⟨k1, k2, k3⟩ := key _ rfl (mark_other_revs_frame fuel _ _ _ h)
        obtain ⟨g1, g2, g3, g4⟩ := facts _ rfl
        rw [g3] at h
        rw [g4 sts] at hrev
        exact ⟨k1, k2, hci', hce', k3, _, g1, g2, g3, g4, Or.inl ⟨hrev, h⟩⟩
      · rename_i hrev
        cases h
        obtain ⟨k1, k2, k3⟩ := key _ rfl (fun q => same_but_revs_refl _)
        obtain ⟨g1, g2, g3, g4⟩ := facts _ rfl
        rw [g4 sts] at hrev
        exact ⟨k1, k2, hci', hce', k3, _, g1, g2, g3, g4, Or.inr ⟨not_not.mp hrev, rfl⟩⟩

theorem input_link_heap (x : InputExt) (env : InputEnv) (fuel root ss : Nat) (s : InState)
    (sts : Nat) (fn : CStr) (p : Nat) (s1 : InState) (hcb : x.callback = none)
    (h : input_link x env fuel root ss s sts fn p = Run.ret s1) :
    ∃ h5 : Heap,
      ((p = 0 ∧ h5 = s.heap.set sts { s.heap sts with name := fn }) ∨
       (p ≠ 0 ∧ input_attach fuel root s (s.heap.set sts { s.heap sts with name := fn })
          (if s.first then s.cur else s.cur + 1) sts p = Run.ret h5)) ∧
      s1.heap sts = dir_array env (h5 sts) ∧ (∀ q, q ≠ sts → s1.heap q = h5 q) ∧
      s1.status = s.status ∧ s1.stat_mem = s.stat_mem ∧ s1.sts_free = s.sts_free ∧
      s1.nloaded = s.nloaded ∧ s1.first = false ∧
      s1.cur = (if s.first then s.cur else s.cur + 1) ∧ s1.dir_curr = s.dir_curr := by
  unfold input_link at h
  simp only [hcb] at h
  split at h
  · cases h
  · split at h
    · rename_i h5 hl
      cases h
      refine ⟨h5, ?_, ?_, ?_, rfl, rfl, rfl, rfl, rfl, rfl, rfl⟩
      · by_cases hp : p = 0
        · left
          rw [if_neg (not_not.mpr hp)] at hl
          cases hl
          exact ⟨hp, rfl⟩
        · right
          rw [if_pos hp] at hl
          exact ⟨hp, hl⟩
      · unfold dir_array
        simp only
        split_ifs with hc
        · rw [Heap.set_same]
        · rfl
      · intro q hq
        simp only
        split_ifs with hc
        · rw [Heap.set_other _ _ _ _ hq]
        · rfl
    · cases h
    · cases h

theorem input_step_next (x : InputExt) (env : InputEnv) (fuel root ss count : Nat)
    (s s1 : InState) (hcb : x.callback = none) (hfirst : s.first = false)
    (hroot : root < env.stat_mem)
    (hfree : s.sts_free = 0 ∨ (s.sts_free ≠ 0 ∧ s.stat_mem = env.stat_mem))
    (hstep : input_step x env fuel root ss count s = Run.ret (true, s1)) :
    ∃ (p : Nat) (H0 : Heap) (e0 : estat) (ld : Int × estat × CStr × Nat × List Nat),
      1 ≤ p ∧ p ≤ s.cur + 1 ∧
      H0 = (if s.sts_free = 0 then ops__allocate s.heap env.stat_mem count else s.heap) ∧
      ld = x.ops__load_1entry s.dir_curr (H0 (env.stat_mem + s.cur)) ∧
      ld.1 = 0 ∧ ld.2.2.2.1 = p ∧ s1.dir_curr = ld.2.2.2.2 ∧
      s1.first = false ∧ s1.cur = s.cur + 1 ∧ s1.nloaded = s.nloaded + 1 ∧
      s1.stat_mem = env.stat_mem ∧
      s1.sts_free = (if s.sts_free = 0 then count else s.sts_free) - 1 ∧
      (∀ q, q ≠ env.stat_mem + s.cur → q ≠ rec_ptr root env.stat_mem (p - 1) →
        same_but_revs (H0 q) (s1.heap q)) ∧
      s1.heap (env.stat_mem + s.cur) = dir_array env e0 ∧
      same_but_revs { ld.2.1 with
          name := ld.2.2.1,
          parent := some (rec_ptr root env.stat_mem (p - 1)),
          path_level := (H0 (rec_ptr root env.stat_mem (p - 1))).path_level + 1 } e0 ∧
      (H0 (rec_ptr root env.stat_mem (p - 1))).child_index
        < (H0 (rec_ptr root env.stat_mem (p - 1))).by_inode.length ∧
      (H0 (rec_ptr root env.stat_mem (p - 1))).child_index + 1
        ≤ (H0 (rec_ptr root env.stat_mem (p - 1))).entry_count ∧
      same_but_revs { H0 (rec_ptr root env.stat_mem (p - 1)) with
          by_inode := (H0 (rec_ptr root env.stat_mem (p - 1))).by_inode.set
            (H0 (rec_ptr root env.stat_mem (p - 1))).child_index (some (env.stat_mem + s.cur)),
          child_index := (H0 (rec_ptr root env.stat_mem (p - 1))).child_index + 1 }
        (s1.heap (rec_ptr root env.stat_mem (p - 1))) ∧
      ∃ h4 : Heap,
        (∀ q, q ≠ env.stat_mem + s.cur → (h4 q).other_revs = (H0 q).other_revs) ∧
        (h4 (env.stat_mem + s.cur)).other_revs = ld.2.1.other_revs ∧
        (∀ q, q ≠ env.stat_mem + s.cur → (h4 q).parent = (H0 q).parent) ∧
        (h4 (env.stat_mem + s.cur)).parent = some (rec_ptr root env.stat_mem (p - 1)) ∧
        ((ld.2.1.repos_rev ≠ (H0 (rec_ptr root env.stat_mem (p - 1))).repos_rev ∧
            ∃ h5, mark_other_revs fuel h4 (some (rec_ptr root env.stat_mem (p - 1)))
                = Run.ret h5 ∧
              ∀ q, (s1.heap q).other_revs = (h5 q).other_revs) ∨
          (ld.2.1.repos_rev = (H0 (rec_ptr root env.stat_mem (p - 1))).repos_rev ∧
            ∀ q, (s1.heap q).other_revs = (h4 q).other_revs)) := by
  -- the state after the allocation
  have ha : (input_alloc env count s).heap
        = (if s.sts_free = 0 then ops__allocate s.heap env.stat_mem count else s.heap) ∧
      (input_alloc env count s).stat_mem = env.stat_mem ∧
      (input_alloc env count s).sts_free = (if s.sts_free = 0 then count else s.sts_free) - 1 ∧
      (input_alloc env count s).first = false ∧ (input_alloc env count s).cur = s.cur ∧
      (input_alloc env count s).nloaded = s.nloaded ∧
      (input_alloc env count s).dir_curr = s.dir_curr := by
    unfold input_alloc
    rcases hfree with h0 | ⟨h0, h1⟩
    · simp [h0, hfirst]
    · simp [h0, h1, hfirst]
  obtain ⟨a1, a2, a3, a4, a5, a6, a7⟩ := ha
  unfold input_step at hstep
  split at hstep
  · cases hstep
  · rename_i c cs hcur
    simp only at hstep
    have hsts : input_sts root (input_alloc env count s) = env.stat_mem + s.cur := by
      unfold input_sts
      rw [a4, a2, a5]
      simp
    rw [hsts] at hstep
    generalize hs2 : input_alloc env count s = s2 at *
    generalize hld : x.ops__load_1entry s2.dir_curr (s2.heap (env.stat_mem + s.cur)) = ld at *
    split at hstep
    · cases hstep
    · rename_i hl0
      split at hstep
      · cases hstep
      · rename_i hpv
        split at hstep
        · rename_i s4 hlink
          have hb : decide (s4.status = 0) = true ∧ s4 = s1 := by
            injection hstep with hstep
            injection hstep with h1 h2
            exact ⟨h1, h2⟩
          rw [hb.2] at hlink
          obtain ⟨h5, hcase, k1, k2, k3, k4, k5, k6, k7, k8, k9⟩ :=
            input_link_heap x env fuel root ss _ _ _ _ s1 hcb hlink
          simp only at k3 k4 k5 k6 k8 k9 hcase k1 k2
          -- the parent index is valid
          have hp : 1 ≤ ld.2.2.2.1 ∧ ld.2.2.2.1 ≤ s.cur + 1 := by
            have : parent_invalid ld.2.2.2.1 false s.cur = false := by
              have h9 : parent_invalid ld.2.2.2.1 s2.first s2.cur = false := by
                simpa using hpv
              rw [a4, a5] at h9
              exact h9
            unfold parent_invalid at this
            simp at this
            omega
          rw [a4] at hcase k8
          simp only [Bool.false_eq_true, if_false] at hcase k8
          rcases hcase with ⟨hp0, _⟩ | ⟨_, hatt⟩
          · omega
          · have hres : resolve_parent root s2.stat_mem ld.2.2.2.1 (s2.cur + 1)
                = Run.ret (rec_ptr root env.stat_mem (ld.2.2.2.1 - 1)) := by
              unfold resolve_parent rec_ptr
              rw [a2, a5]
              by_cases h1 : ld.2.2.2.1 = 1
              · rw [if_pos h1, if_pos (by omega)]
              · rw [if_neg h1, if_neg (by omega), if_neg (by omega)]
                congr 2
            have hne : rec_ptr root env.stat_mem (ld.2.2.2.1 - 1) ≠ env.stat_mem + s.cur := by
              unfold rec_ptr
              split_ifs <;> omega
            obtain ⟨b1, b2, b3, b4, b5, h4, c1, c2, c3, c4, c5⟩ :=
              input_attach_heap fuel root _ _ _ _ _ _ h5 hres hne hatt
            have hpar1 : ∀ hh : Heap, ((hh.set (env.stat_mem + s.cur) ld.2.1).set
                (env.stat_mem + s.cur)
                { (hh.set (env.stat_mem + s.cur) ld.2.1) (env.stat_mem + s.cur) with
                  name := ld.2.2.1 }) (rec_ptr root env.stat_mem (ld.2.2.2.1 - 1))
                = hh (rec_ptr root env.stat_mem (ld.2.2.2.1 - 1)) := by
              intro hh
              rw [Heap.set_other _ _ _ _ hne, Heap.set_other _ _ _ _ hne]
            simp only at b1 b2 b3 b4 b5 c1 c2 c4 c5
            rw [hpar1] at b2 b3 b4 b5 c5
            rw [Heap.set_same, Heap.set_same] at b2 c5
            have hfl5 : ∀ q, (s1.heap q).other_revs = (h5 q).other_revs := by
              intro q
              by_cases hq : q = env.stat_mem + s.cur
              · rw [hq, k1]
                unfold dir_array
                split_ifs <;> rfl
              · rw [k2 q hq]
            have hflags : ∃ h4 : Heap,
                (∀ q, q ≠ env.stat_mem + s.cur → (h4 q).other_revs = (s2.heap q).other_revs) ∧
                (h4 (env.stat_mem + s.cur)).other_revs = ld.2.1.other_revs ∧
                (∀ q, q ≠ env.stat_mem + s.cur → (h4 q).parent = (s2.heap q).parent) ∧
                (h4 (env.stat_mem + s.cur)).parent
                  = some (rec_ptr root env.stat_mem (ld.2.2.2.1 - 1)) ∧
                ((ld.2.1.repos_rev
                      ≠ (s2.heap (rec_ptr root env.stat_mem (ld.2.2.2.1 - 1))).repos_rev ∧
                    ∃ h5, mark_other_revs fuel h4
                        (some (rec_ptr root env.stat_mem (ld.2.2.2.1 - 1))) = Run.ret h5 ∧
                      ∀ q, (s1.heap q).other_revs = (h5 q).other_revs) ∨
                  (ld.2.1.repos_rev
                      = (s2.heap (rec_ptr root env.stat_mem (ld.2.2.2.1 - 1))).repos_rev ∧
                    ∀ q, (s1.heap q).other_revs = (h4 q).other_revs)) := by
              refine ⟨h4, ?_, ?_, ?_, c3, ?_⟩
              · intro q hq
                rw [c1 q, Heap.set_other _ _ _ _ hq, Heap.set_other _ _ _ _ hq]
              · rw [c1]
                simp only [Heap.set_same]
              · intro q hq
                rw [c2 q hq, Heap.set_other _ _ _ _ hq, Heap.set_other _ _ _ _ hq]
              · rcases c5 with ⟨c6, c7⟩ | ⟨c6, c7⟩
                · exact Or.inl ⟨c6, h5, c7, hfl5⟩
                · refine Or.inr ⟨c6, ?_⟩
                  rw [← c7]
                  exact hfl5
            refine ⟨ld.2.2.2.1, s2.heap, h5 (env.stat_mem + s.cur), ld, hp.1, hp.2, a1, ?_, ?_,
              rfl, ?_, k7, ?_, ?_, ?_, ?_, ?_, k1, b2, b3, b4, ?_, hflags⟩
            · rw [a7] at hld
              exact hld.symm
            · exact not_not.mp hl0
            · exact k9
            · rw [k8, a5]
            · rw [k6, a6]
            · rw [k4, a2]
            · rw [k5, a3]
            · intro q hq1 hq2
              rw [k2 q hq1]
              have := b1 q hq1 hq2
              rw [Heap.set_other _ _ _ _ hq1, Heap.set_other _ _ _ _ hq1] at this
              exact this
            · rw [k2 _ hne]
              exact b5
        · cases hstep
        · cases hstep

theorem input_step_first (x : InputExt) (env : InputEnv) (fuel root ss count : Nat)
    (s s1 : InState) (hcb : x.callback = none) (hfirst : s.first = true)
    (hc : s.cur = 0) (hf : s.sts_free = 1)
    (hstep : input_step x env fuel root ss count s = Run.ret (true, s1)) :
    ∃ ld : Int × estat × CStr × Nat × List Nat,
      ld = x.ops__load_1entry s.dir_curr (s.heap root) ∧
      ld.1 = 0 ∧ ld.2.2.2.1 = 0 ∧ s1.dir_curr = ld.2.2.2.2 ∧
      s1.first = false ∧ s1.cur = 0 ∧ s1.nloaded = s.nloaded + 1 ∧ s1.sts_free = 0 ∧
      (∀ q, q ≠ root → s1.heap q = s.heap q) ∧
      s1.heap root = dir_array env { ld.2.1 with name := ld.2.2.1 } := by
  have ha : input_alloc env count s = { s with sts_free := 0 } := by
    unfold input_alloc
    simp [hf]
  unfold input_step at hstep
  split at hstep
  · cases hstep
  · rename_i c cs hcur
    simp only at hstep
    rw [ha] at hstep
    have hsts : input_sts root { s with sts_free := 0 } = root := by
      unfold input_sts
      simp [hfirst]
    rw [hsts] at hstep
    simp only at hstep
    generalize hld : x.ops__load_1entry s.dir_curr (s.heap root) = ld at *
    split at hstep
    · cases hstep
    · rename_i hl0
      split at hstep
      · cases hstep
      · rename_i hpv
        split at hstep
        · rename_i s4 hlink
          have hb : s4 = s1 := by
            injection hstep with hstep
            injection hstep with h1 h2
          rw [hb] at hlink
          obtain ⟨h5, hcase, k1, k2, k3, k4, k5, k6, k7, k8, k9⟩ :=
            input_link_heap x env fuel root ss _ _ _ _ s1 hcb hlink
          simp only at k3 k4 k5 k6 k8 k9 hcase k1 k2
          have hp : ld.2.2.2.1 = 0 := by
            have h9 : parent_invalid ld.2.2.2.1 true s.cur = false := by
              rw [← hfirst]
              simpa using hpv
            unfold parent_invalid at h9
            simp at h9
            exact h9.1
          rcases hcase with ⟨_, hh⟩ | ⟨hp0, _⟩
          · refine ⟨ld, rfl, not_not.mp hl0, hp, k9, k7, ?_, k6, k5, ?_, ?_⟩
            · rw [k8, hfirst]
              simp [hc]
            · intro q hq
              rw [k2 q hq, hh, Heap.set_other _ _ _ _ hq, Heap.set_other _ _ _ _ hq]
            · rw [k1, hh, Heap.set_same, Heap.set_same]
          · exact absurd hp hp0
        · cases hstep
        · cases hstep

theorem rec_kids_append (root sm : Nat) (ps : List Nat) (p j : Nat) :
    rec_kids root sm (ps ++ [p]) j
      = rec_kids root sm ps j ++ (if p = j + 1 then [rec_ptr root sm ps.length] else []) := by
  unfold rec_kids
  rw [List.length_append, List.length_singleton, List.range_succ, List.filter_append,
    List.map_append]
  congr 1
  · congr 1
    apply List.filter_congr
    intro i hi
    have hi' : i < ps.length := List.mem_range.mp hi
    rw [List.getD_eq_getElem?_getD, List.getD_eq_getElem?_getD,
      List.getElem?_append_left hi']
  · have e : (ps ++ [p]).getD ps.length 0 = p := by
      rw [List.getD_eq_getElem?_getD, List.getElem?_append_right (le_refl _)]
      simp
    by_cases hp : p = j + 1
    · simp [List.filter_cons, e, hp]
    · simp [List.filter_cons, e, hp]

theorem rec_ptr_inj (root sm i j : Nat) (hroot : root < sm)
    (h : rec_ptr root sm i = rec_ptr root sm j) : i = j := by
  unfold rec_ptr at h
  split_ifs at h <;> omega

theorem same_but_revs_fields (e e1 : estat) (h : same_but_revs e e1) :
    e1.st = e.st ∧ e1.entry_count = e.entry_count ∧ e1.parent = e.parent ∧
    e1.by_inode = e.by_inode ∧ e1.child_index = e.child_index ∧ e1.name = e.name := by
  have h1 : e1 = { e with other_revs := e1.other_revs } := h
  exact ⟨(congrArg estat.st h1 : _), (congrArg estat.entry_count h1 : _),
    (congrArg estat.parent h1 : _), (congrArg estat.by_inode h1 : _),
    (congrArg estat.child_index h1 : _), (congrArg estat.name h1 : _)⟩

theorem dir_array_fields (env : InputEnv) (e : estat) :
    (dir_array env e).st = e.st ∧ (dir_array env e).entry_count = e.entry_count ∧
    (dir_array env e).parent = e.parent ∧ (dir_array env e).name = e.name ∧
    (S_ISDIR e.st.mode = true → e.entry_count ≠ 0 →
      (dir_array env e).by_inode = List.replicate e.entry_count env.junk ++ [none] ∧
      (dir_array env e).child_index = 0) := by
  unfold dir_array
  split_ifs with h
  · exact ⟨rfl, rfl, rfl, rfl, fun _ _ => ⟨rfl, rfl⟩⟩
  · refine ⟨rfl, rfl, rfl, rfl, fun h1 h2 => ?_⟩
    exfalso
    apply h
    simp [h1, h2]

theorem slots_set (K : List Nat) (m : Nat) (junk : Option Nat) (c : Nat) :
    (K.map some ++ List.replicate (m + 1) junk ++ [none]).set K.length (some c)
      = (K ++ [c]).map some ++ List.replicate m junk ++ [none] := by
  induction K with
  | nil => simp [List.replicate_succ]
  | cons a K ih =>
    simp only [List.map_cons, List.cons_append, List.length_cons, List.set_cons_succ]
    rw [ih]

theorem rec_kids_nil (root sm : Nat) (ps : List Nat) (j : Nat)
    (h : ∀ i, i < ps.length → ps.getD i 0 ≠ j + 1) : rec_kids root sm ps j = [] := by
  unfold rec_kids
  rw [List.map_eq_nil_iff, List.filter_eq_nil_iff]
  intro i hi
  simp only [decide_eq_true_eq]
  exact h i (List.mem_range.mp hi)

theorem getD_append_last (ps : List Nat) (p : Nat) :
    (ps ++ [p]).getD ps.length 0 = p := by
  rw [List.getD_eq_getElem?_getD, List.getElem?_append_right (le_refl _)]
  simp

theorem getD_append_left (ps : List Nat) (p i : Nat) (hi : i < ps.length) :
    (ps ++ [p]).getD i 0 = ps.getD i 0 := by
  rw [List.getD_eq_getElem?_getD, List.getD_eq_getElem?_getD, List.getElem?_append_left hi]

theorem load_inv_first (x : InputExt) (env : InputEnv) (fuel root ss count : Nat)
    (s s1 : InState) (hcb : x.callback = none) (hfirst : s.first = true)
    (hc : s.cur = 0) (hf : s.sts_free = 1) (hn : s.nloaded = 0)
    (hstep : input_step x env fuel root ss count s = Run.ret (true, s1)) :
    ∃ ld : Int × estat × CStr × Nat × List Nat,
      LoadInv env root [0] (count - 1) s1 ∧
      ld = x.ops__load_1entry s.dir_curr (s.heap root) ∧ ld.1 = 0 ∧
      s1.dir_curr = ld.2.2.2.2 ∧
      (s1.heap root).st = ld.2.1.st ∧ (s1.heap root).entry_count = ld.2.1.entry_count ∧
      (s1.heap root).name = ld.2.2.1 := by
  obtain ⟨ld, e1, e2, e3, e4, e5, e6, e7, e8, e9, e10⟩ :=
    input_step_first x env fuel root ss count s s1 hcb hfirst hc hf hstep
  obtain ⟨d1, d2, d3, d4, d5⟩ := dir_array_fields env { ld.2.1 with name := ld.2.2.1 }
  have hk : rec_kids root env.stat_mem [0] 0 = [] := by
    apply rec_kids_nil
    intro i hi
    have : i = 0 := by
      simp only [List.length_singleton] at hi
      omega
    rw [this]
    simp
  refine ⟨ld, ?_, e1, e2, e4, ?_, ?_, ?_⟩
  · refine ⟨by simp, by rw [e7, hn]; rfl, e5, by rw [e6]; rfl, Or.inl ⟨rfl, e8⟩, ?_, ?_, ?_⟩
    · intro i hi
      have : i = 0 := by
        simp only [List.length_singleton] at hi
        omega
      left
      rw [this]
      exact ⟨rfl, rfl⟩
    · intro i h1 hi
      simp only [List.length_singleton] at hi
      omega
    · intro j hj hdir hec
      have : j = 0 := by
        simp only [List.length_singleton] at hj
        omega
      rw [this] at hdir hec ⊢
      have hr : rec_ptr root env.stat_mem 0 = root := rfl
      rw [hr] at hdir hec ⊢
      rw [hk]
      rw [e10] at hdir hec ⊢
      rw [d1] at hdir
      rw [d2] at hec
      obtain ⟨f1, f2⟩ := d5 hdir hec
      rw [f1, f2, d2]
      simp
  · rw [e10, d1]
  · rw [e10, d2]
  · rw [e10, d4]

theorem load_inv_step (x : InputExt) (env : InputEnv) (fuel root ss count : Nat)
    (ps : List Nat) (s s1 : InState) (hcb : x.callback = none) (hroot : root < env.stat_mem)
    (hinv : LoadInv env root ps count s) (hcount : 1 ≤ count)
    (hstep : input_step x env fuel root ss count s = Run.ret (true, s1)) :
    ∃ (p : Nat) (old : estat) (ld : Int × estat × CStr × Nat × List Nat),
      LoadInv env root (ps ++ [p]) (count - 1) s1 ∧
      ld = x.ops__load_1entry s.dir_curr old ∧ ld.1 = 0 ∧ ld.2.2.2.1 = p ∧
      s1.dir_curr = ld.2.2.2.2 ∧
      (s1.heap (rec_ptr root env.stat_mem ps.length)).st = ld.2.1.st ∧
      (s1.heap (rec_ptr root env.stat_mem ps.length)).entry_count = ld.2.1.entry_count ∧
      (s1.heap (rec_ptr root env.stat_mem ps.length)).name = ld.2.2.1 ∧
      ∀ j, j < ps.length →
        (s1.heap (rec_ptr root env.stat_mem j)).st = (s.heap (rec_ptr root env.stat_mem j)).st ∧
        (s1.heap (rec_ptr root env.stat_mem j)).entry_count
          = (s.heap (rec_ptr root env.stat_mem j)).entry_count ∧
        (s1.heap (rec_ptr root env.stat_mem j)).name
          = (s.heap (rec_ptr root env.stat_mem j)).name := by
  have hn1 : 1 ≤ ps.length := List.length_pos.mpr hinv.pos
  have hfree : s.sts_free = 0 ∨ (s.sts_free ≠ 0 ∧ s.stat_mem = env.stat_mem) := by
    rcases hinv.free with ⟨_, h⟩ | ⟨_, h1, h2⟩
    · exact Or.inl h
    · exact Or.inr ⟨by omega, h2⟩
  obtain ⟨p, H0, e0, ld, p1, p2, hH0, hld, l1, l2, l3, c1, c2, c3, c4, c5, f1, f2, f3, g1, g2, g3,
      _⟩ :=
    input_step_next x env fuel root ss count s s1 hcb hinv.first hroot hfree hstep
  have hcur : s.cur = ps.length - 1 := by
    have := hinv.cur
    omega
  have hsts : env.stat_mem + s.cur = rec_ptr root env.stat_mem ps.length := by
    unfold rec_ptr
    rw [if_neg (by omega), hcur]
  rw [hsts] at f1 f2 g3 hld
  -- the entries read before are not touched by the allocation
  have hold : ∀ j, j < ps.length →
      H0 (rec_ptr root env.stat_mem j) = s.heap (rec_ptr root env.stat_mem j) := by
    intro j hj
    rw [hH0]
    rcases hinv.free with ⟨h1, h2⟩ | ⟨h1, h2, _⟩
    · rw [if_pos h2]
      have : j = 0 := by omega
      rw [this]
      unfold ops__allocate rec_ptr
      simp only [if_true]
      rw [if_neg (by omega)]
    · rw [if_neg (by omega)]
  have hpj : p - 1 < ps.length := by omega
  have hneq : ∀ j, j < ps.length →
      rec_ptr root env.stat_mem j ≠ rec_ptr root env.stat_mem ps.length := by
    intro j hj h
    have := rec_ptr_inj root env.stat_mem _ _ hroot h
    omega
  -- the entries read before, after the step
  have hother : ∀ j, j < ps.length → j ≠ p - 1 →
      same_but_revs (s.heap (rec_ptr root env.stat_mem j))
        (s1.heap (rec_ptr root env.stat_mem j)) := by
    intro j hj hne
    rw [← hold j hj]
    refine f1 _ (hneq j hj) ?_
    intro h
    exact hne (rec_ptr_inj root env.stat_mem _ _ hroot h)
  rw [hold _ hpj] at g1 g2 g3
  obtain ⟨q1, q2, q3, q4, q5, q6⟩ := same_but_revs_fields _ _ g3
  simp only at q1 q2 q3 q4 q5 q6
  obtain ⟨d1, d2, d3, d4, d5⟩ := dir_array_fields env e0
  obtain ⟨r1, r2, r3, _, _, r6⟩ := same_but_revs_fields _ _ f3
  simp only at r1 r2 r3 r6
  have hstatic : ∀ j, j < ps.length →
      (s1.heap (rec_ptr root env.stat_mem j)).st = (s.heap (rec_ptr root env.stat_mem j)).st ∧
      (s1.heap (rec_ptr root env.stat_mem j)).entry_count
        = (s.heap (rec_ptr root env.stat_mem j)).entry_count ∧
      (s1.heap (rec_ptr root env.stat_mem j)).parent
        = (s.heap (rec_ptr root env.stat_mem j)).parent ∧
      (s1.heap (rec_ptr root env.stat_mem j)).name
        = (s.heap (rec_ptr root env.stat_mem j)).name := by
    intro j hj
    by_cases hjp : j = p - 1
    · rw [hjp]
      exact ⟨q1, q2, q3, q6⟩
    · obtain ⟨t1, t2, t3, _, _, t6⟩ := same_but_revs_fields _ _ (hother j hj hjp)
      exact ⟨t1, t2, t3, t6⟩
  refine ⟨p, _, ld, ?_, hld, l1, l2, l3, ?_, ?_, ?_, ?_⟩
  · refine ⟨by simp, ?_, c1, ?_, Or.inr ⟨?_, ?_, c4⟩, ?_, ?_, ?_⟩
    · rw [c3, hinv.nl]
      simp
    · rw [c2, List.length_append, List.length_singleton]
      omega
    · rw [List.length_append, List.length_singleton]
      omega
    · rw [c5]
      rcases hinv.free with ⟨_, h2⟩ | ⟨_, h2, _⟩
      · rw [if_pos h2]
      · rw [if_neg (by omega), h2]
    · intro i hi
      rw [List.length_append, List.length_singleton] at hi
      by_cases hil : i < ps.length
      · rw [getD_append_left ps p i hil]
        exact hinv.pidx i hil
      · have : i = ps.length := by omega
        rw [this, getD_append_last]
        right
        exact ⟨hn1, p1, by omega⟩
    · intro i hi1 hi
      rw [List.length_append, List.length_singleton] at hi
      by_cases hil : i < ps.length
      · rw [getD_append_left ps p i hil, (hstatic i hil).2.2.1]
        exact hinv.par i hi1 hil
      · have : i = ps.length := by omega
        rw [this, getD_append_last, f2, d3, r3]
    · intro j hj hdir hec
      rw [List.length_append, List.length_singleton] at hj
      rw [rec_kids_append]
      by_cases hjl : j < ps.length
      · rw [(hstatic j hjl).1] at hdir
        rw [(hstatic j hjl).2.1] at hec ⊢
        obtain ⟨i1, i2, i3⟩ := hinv.dirs j hjl hdir hec
        by_cases hjp : j = p - 1
        · have hp : p = j + 1 := by omega
          rw [if_pos hp]
          have e1 : (s1.heap (rec_ptr root env.stat_mem j)).by_inode
              = (s.heap (rec_ptr root env.stat_mem j)).by_inode.set
                (s.heap (rec_ptr root env.stat_mem j)).child_index
                (some (rec_ptr root env.stat_mem ps.length)) := by
            rw [hjp]
            exact (same_but_revs_fields _ _ g3).2.2.2.1
          have e2 : (s1.heap (rec_ptr root env.stat_mem j)).child_index
              = (s.heap (rec_ptr root env.stat_mem j)).child_index + 1 := by
            rw [hjp]
            exact (same_but_revs_fields _ _ g3).2.2.2.2.1
          have hg2 : (s.heap (rec_ptr root env.stat_mem j)).child_index + 1
              ≤ (s.heap (rec_ptr root env.stat_mem j)).entry_count := by
            rw [hjp]
            exact g2
          rw [e1, e2, i1, i2]
          rw [i2] at hg2
          obtain ⟨m, hm⟩ : ∃ m, (s.heap (rec_ptr root env.stat_mem j)).entry_count
              - (rec_kids root env.stat_mem ps j).length = m + 1 :=
            ⟨(s.heap (rec_ptr root env.stat_mem j)).entry_count
              - (rec_kids root env.stat_mem ps j).length - 1, by omega⟩
          rw [hm, slots_set]
          refine ⟨?_, ?_, ?_⟩
          · congr 3
            simp only [List.length_append, List.length_singleton]
            omega
          · simp
          · simp only [List.length_append, List.length_singleton]
            exact hg2
        · have hp : ¬ p = j + 1 := by omega
          rw [if_neg hp, List.append_nil]
          obtain ⟨_, _, _, t4, t5, _⟩ := same_but_revs_fields _ _ (hother j hjl hjp)
          rw [t4, t5]
          exact ⟨i1, i2, i3⟩
      · have hjn : j = ps.length := by omega
        rw [hjn] at hdir hec ⊢
        have hk : rec_kids root env.stat_mem ps ps.length = [] := by
          apply rec_kids_nil
          intro i hi
          rcases hinv.pidx i hi with ⟨_, h⟩ | ⟨_, _, h⟩ <;> omega
        rw [hk, if_neg (by omega)]
        rw [f2] at hdir hec ⊢
        rw [d1] at hdir
        rw [d2] at hec
        obtain ⟨u1, u2⟩ := d5 hdir hec
        rw [u1, u2, d2]
        simp
  · rw [f2, d1, r1]
  · rw [f2, d2, r2]
  · rw [f2, d4, r6]
  · intro j hj
    exact ⟨(hstatic j hj).1, (hstatic j hj).2.1, (hstatic j hj).2.2.2⟩

theorem input_step_false_status (x : InputExt) (env : InputEnv) (fuel root ss count : Nat)
    (s s1 : InState) (h : input_step x env fuel root ss count s = Run.ret (false, s1)) :
    s1.status ≠ 0 := by
  unfold input_step at h
  split at h
  · cases h
    simp [EINVAL]
  · simp only at h
    split at h
    · rename_i hl
      cases h
      exact hl
    · split at h
      · cases h
        simp [EINVAL]
      · split at h
        · rename_i s4 _
          injection h with h
          injection h with h1 h2
          rw [← h2]
          simpa using h1
        · cases h
        · cases h

theorem input_loop_accepted (x : InputExt) (env : InputEnv) (fuel root ss : Nat) :
    ∀ (count : Nat) (s s1 : InState), 1 ≤ count →
      input_loop x env fuel root ss count s = Run.ret s1 → s1.status = 0 →
      input_iter x env fuel root ss count count s = some s1 := by
  intro count
  induction count with
  | zero =>
    intro s s1 h
    omega
  | succ c ih =>
    intro s s1 _ hl hs
    unfold input_loop at hl
    unfold input_iter
    split at hl
    · rename_i s2 hstep
      rw [hstep]
      simp only [Nat.add_sub_cancel]
      by_cases hc : c = 0
      · rw [hc] at hl ⊢
        unfold input_loop at hl
        cases hl
        rfl
      · exact ih s2 s1 (by omega) hl hs
    · rename_i s2 hstep
      cases hl
      exact absurd hs (input_step_false_status _ _ _ _ _ _ _ _ hstep)
    · cases hl
    · cases hl

theorem load_inv_iter (x : InputExt) (env : InputEnv) (fuel root ss : Nat)
    (hcb : x.callback = none) (hroot : root < env.stat_mem) :
    ∀ (n count : Nat) (ps : List Nat) (s s1 : InState), LoadInv env root ps count s →
      n ≤ count → input_iter x env fuel root ss n count s = some s1 →
      ∃ ps1, ps1.length = n ∧ LoadInv env root (ps ++ ps1) (count - n) s1 := by
  intro n
  induction n with
  | zero =>
    intro count ps s s1 hinv _ hit
    unfold input_iter at hit
    cases hit
    exact ⟨[], rfl, by simpa using hinv⟩
  | succ n ih =>
    intro count ps s s1 hinv hn hit
    unfold input_iter at hit
    split at hit
    · rename_i s2 hstep
      obtain ⟨p, _, _, hinv2, _⟩ := load_inv_step x env fuel root ss count ps s s2 hcb hroot hinv
        (by omega) hstep
      obtain ⟨ps1, hl, hinv3⟩ := ih (count - 1) (ps ++ [p]) s2 s1 hinv2 (by omega) hit
      refine ⟨p :: ps1, by simp [hl], ?_⟩
      have e : count - 1 - n = count - (n + 1) := by omega
      rw [e] at hinv3
      simpa using hinv3
    · cases hit

theorem input_tree_accepted (k : Consts) (x : InputExt) (env : InputEnv) (fuel : Nat)
    (dir : List Nat) (h : Heap) (approx mpl root : Nat) (r : InResult)
    (hl : env.lseek_ret = none) (hm : env.mmap_ret = none) (hc : env.close_ret = none)
    (hrun : waa__input_tree k x env fuel dir h approx mpl root = Run.ret r)
    (hacc : r.status = 0) :
    ∃ s, (input_header k dir approx mpl).status = 6 ∧
      input_loop x env fuel root (input_header k dir approx mpl).string_space
        (input_header k dir approx mpl).count
        (input_init k (input_header k dir approx mpl).status dir h root) = Run.ret s ∧
      s.status = 0 ∧ r.heap = s.heap ∧ r.nloaded = s.nloaded ∧ r.used = s.used := by
  unfold waa__input_tree at hrun
  simp only [hl, hm, hc] at hrun
  split at hrun
  · cases hrun
    simp [ENOENT] at hacc
  · split at hrun
    · rename_i h1 h2
      cases hrun
      exact absurd hacc h2
    · split at hrun
      · cases hrun
        simp [EINVAL] at hacc
      · rename_i hne
        split at hrun
        · rename_i s hlp
          cases hrun
          simp only at hacc
          refine ⟨s, (input_header_status k dir approx mpl).2 hne, hlp, ?_, rfl, rfl, rfl⟩
          by_contra hs
          rw [if_neg hs] at hacc
          exact hs hacc
        · cases hrun
        · cases hrun

/-- C19 (amended): for a dir-file that `waa__input_tree` accepts (status `0`,
no callback), with the parent indices `ps` of its records: every directory
read with a non-zero `entry_count` has a `by_inode` array of `entry_count+1`
slots: first its children read from the file, in the order of their records
(each points back to it with `parent`), then the slots that were never
assigned, which hold what `malloc` left (`junk`), then the NULL. -/
theorem input_tree_by_inode (k : Consts) (x : InputExt) (env : InputEnv) (fuel : Nat)
    (dir : List Nat) (h : Heap) (approx mpl root : Nat) (r : InResult)
    (hcb : x.callback = none) (hroot : root < env.stat_mem)
    (hl : env.lseek_ret = none) (hm : env.mmap_ret = none) (hc : env.close_ret = none)
    (hrun : waa__input_tree k x env fuel dir h approx mpl root = Run.ret r)
    (hacc : r.status = 0) :
    ∃ ps : List Nat, ps.length = r.nloaded ∧ 1 ≤ ps.length ∧
      ∀ j, j < ps.length →
        S_ISDIR (r.heap (rec_ptr root env.stat_mem j)).st.mode = true →
        (r.heap (rec_ptr root env.stat_mem j)).entry_count ≠ 0 →
        (r.heap (rec_ptr root env.stat_mem j)).by_inode
          = (rec_kids root env.stat_mem ps j).map some ++
            List.replicate ((r.heap (rec_ptr root env.stat_mem j)).entry_count
              - (rec_kids root env.stat_mem ps j).length) env.junk ++ [none] ∧
        (rec_kids root env.stat_mem ps j).length
          ≤ (r.heap (rec_ptr root env.stat_mem j)).entry_count ∧
        ∀ c ∈ rec_kids root env.stat_mem ps j,
          (r.heap c).parent = some (rec_ptr root env.stat_mem j) := by
  obtain ⟨s, h6, hloop, hs0, eh, en, _⟩ :=
    input_tree_accepted k x env fuel dir h approx mpl root r hl hm hc hrun hacc
  generalize input_header k dir approx mpl = hd at *
  have hcnt : 1 ≤ hd.count := by
    by_contra hz
    have h0 : hd.count = 0 := by omega
    rw [h0] at hloop
    unfold input_loop at hloop
    cases hloop
    unfold input_init at hs0
    simp only at hs0
    rw [h6] at hs0
    cases hs0
  have hit := input_loop_accepted x env fuel root hd.string_space hd.count _ s hcnt hloop hs0
  obtain ⟨c, hcc⟩ : ∃ c, hd.count = c + 1 := ⟨hd.count - 1, by omega⟩
  rw [hcc] at hit
  unfold input_iter at hit
  split at hit
  · rename_i s2 hstep
    obtain ⟨_, hinv, _⟩ := load_inv_first x env fuel root hd.string_space (c + 1) _ s2 hcb
      rfl rfl rfl rfl hstep
    simp only [Nat.add_sub_cancel] at hinv hit
    obtain ⟨ps1, hlen, hfin⟩ := load_inv_iter x env fuel root hd.string_space hcb hroot c c [0]
      s2 s hinv (le_refl _) hit
    refine ⟨[0] ++ ps1, ?_, by simp, ?_⟩
    · rw [en, hfin.nl]
    · intro j hj hdir hec
      rw [eh] at hdir hec ⊢
      obtain ⟨d1, d2, d3⟩ := hfin.dirs j hj hdir hec
      refine ⟨d1, d3, ?_⟩
      intro q hq
      unfold rec_kids at hq
      obtain ⟨i, hi, rfl⟩ := List.mem_map.mp hq
      obtain ⟨hi1, hi2⟩ := List.mem_filter.mp hi
      have hil := List.mem_range.mp hi1
      simp only [decide_eq_true_eq] at hi2
      have hi0 : 1 ≤ i := by
        rcases hfin.pidx i hil with ⟨_, h0⟩ | ⟨h1, _, _⟩
        · omega
        · exact h1
      rw [hfin.par i hi0 hil, hi2]
      rfl
  · cases hit

theorem in_summary_ret (run : Run InResult) (st : Int) (n : Nat)
    (h : in_summary run = some (st, n)) :
    ∃ r, run = Run.ret r ∧ r.status = st ∧ r.nloaded = n := by
  cases run with
  | ret r =>
    unfold in_summary at h
    simp only [Option.some.injEq, Prod.mk.injEq] at h
    exact ⟨r, rfl, h.1, h.2⟩
  | bug => cases h
  | fuel => cases h

/-- Example for C19: the dir-file of the examples is accepted, with four
records. -/
theorem input_tree_by_inode_witness :
    ∃ (r : InResult) (ps : List Nat),
      waa__input_tree demo_consts demo_in demo_in_env 4 demo_dir_file
        (fun _ => default) 0 0 500 = Run.ret r ∧
      r.status = 0 ∧ ps.length = r.nloaded ∧ r.nloaded = 4 := by
  obtain ⟨r, hr, hs, hn⟩ := in_summary_ret (waa__input_tree demo_consts demo_in demo_in_env 4
    demo_dir_file (fun _ => default) 0 0 500) 0 4 (by decide!)
  obtain ⟨ps, hp, _⟩ := input_tree_by_inode demo_consts demo_in demo_in_env 4 demo_dir_file
    (fun _ => default) 0 0 500 r rfl (by decide) rfl rfl rfl hr hs
  exact ⟨r, ps, hr, hs, hp, hn⟩

/-- C19 (counterexample): two dir-files that `waa__input_tree` accepts. In
the first the root (at `500`) gets its two children in the order of the file,
with the inode numbers 102 and 101. In the second (the header says three
records) the directory `b` (at `1001`) has `entry_count = 1`, but its child
was not read: the slot of `by_inode` holds what `malloc` left (here `4242`). -/
theorem input_tree_by_inode_unsorted_or_unset :
    by_inode_summary 500 (waa__input_tree demo_consts demo_in demo_in_env 4
      demo_dir_unsorted (fun _ => default) 0 0 500)
      = some (0, 2, [some 1000, some 1001, none], [some 102, some 101, none]) ∧
    by_inode_summary 1001 (waa__input_tree demo_consts demo_in
      { demo_in_env with junk := some 4242 } 4
      (demo_dir_file_count 3) (fun _ => default) 0 0 500)
      = some (0, 1, [some 4242, none], [some 0, none]) := by
  constructor <;> decide!

/-! ### The loop of `waa__output_tree` -/

theorem find_position_loop_total (cmpAt : Nat → Int) :
    ∀ (fuel smaller bigger_eq : Nat), smaller ≤ bigger_eq → bigger_eq - smaller < fuel →
      ∃ i, waa___find_position_loop cmpAt fuel smaller bigger_eq = Run.ret i ∧ i ≤ bigger_eq := by
  intro fuel
  induction fuel with
  | zero =>
    intro s b _ h
    omega
  | succ f ih =>
    intro s b hsb hf
    unfold waa___find_position_loop
    simp only
    have hm1 : s ≤ (b + s) / 2 := by omega
    have hm2 : (b + s) / 2 ≤ b := by omega
    split_ifs with h1 h2 h3 h4
    · exact ⟨_, rfl, le_refl _⟩
    · exact ih ((b + s) / 2 + 1) b (by omega) (by omega)
    · exact ⟨_, rfl, hm2⟩
    · obtain ⟨i, hi, hle⟩ := ih s ((b + s) / 2) (by omega) (by omega)
      exact ⟨i, hi, by omega⟩
    · exact ⟨_, rfl, hm2⟩

theorem find_position_total (cmpAt : Nat → Int) (count : Nat) :
    ∃ i, waa___find_position cmpAt count = Run.ret i ∧ i ≤ count := by
  unfold waa___find_position
  split_ifs with h1 h2 h3 h4
  · exact ⟨0, rfl, Nat.zero_le _⟩
  · exact ⟨0, rfl, Nat.zero_le _⟩
  · exact ⟨1, rfl, by omega⟩
  · exact ⟨count, rfl, le_refl _⟩
  · obtain ⟨i, hi, hle⟩ := find_position_loop_total cmpAt count 1 (count - 1) (by omega) (by omega)
    exact ⟨i, hi, by omega⟩

theorem insert_cursor_perm (dir : List Cursor) (i : Nat) (c : Cursor) :
    (insert_cursor dir i c).Perm (c :: dir) := by
  unfold insert_cursor
  have h : (dir.take i ++ c :: dir.drop i).Perm (c :: (dir.take i ++ dir.drop i)) :=
    List.perm_middle
  rw [List.take_append_drop] at h
  exact h

theorem reduceOption_map_some (K : List Nat) : (List.map some K).reduceOption = K := by
  induction K with
  | nil => rfl
  | cons a K ih => simp [List.reduceOption_cons_of_some, ih]

theorem kids_of_array (h : Heap) (d : Nat) (K : List Nat)
    (hk : (h d).by_inode = K.map some ++ [none]) : kids h d = K := by
  unfold kids
  rw [hk, List.reduceOption_append, reduceOption_map_some]
  simp [List.reduceOption]

theorem array_get (K : List Nat) (i : Nat) :
    (K.map some ++ [none]).get? i =
      if i < K.length then some (some (K.getD i 0))
      else if i = K.length then some none else none := by
  rw [List.get?_eq_getElem?]
  split_ifs with h1 h2
  · rw [List.getElem?_append_left (by simpa using h1), List.getElem?_map,
      List.getD_eq_getElem?_getD, List.getElem?_eq_getElem h1]
    rfl
  · rw [List.getElem?_append_right (by simp; omega)]
    simp [h2]
  · rw [List.getElem?_eq_none]
    simp
    omega

theorem output_advance_spec (x : OutputExt) (h : Heap) (d pos : Nat) (rest : List Cursor)
    (harr : (h d).by_inode = (kids h d).map some ++ [none])
    (hpos : pos < (kids h d).length) :
    ∃ dir1, output_advance x h ⟨d, pos⟩ rest = Run.ret ((kids h d).getD pos 0, dir1) ∧
      dir1.Perm (if pos + 1 < (kids h d).length then ⟨d, pos + 1⟩ :: rest else rest) := by
  unfold output_advance Cursor.deref
  simp only
  rw [harr, array_get, if_pos hpos]
  simp only
  rw [array_get]
  by_cases h1 : pos + 1 < (kids h d).length
  · rw [if_pos h1, if_pos h1]
    simp only
    by_cases h2 : rest.length + 1 > 1
    · rw [if_pos h2]
      obtain ⟨i, hi, _⟩ := find_position_total
        (fun i => x.dir___f_sort_by_inode (Cursor.head h ⟨d, pos + 1⟩)
          (Cursor.head h (rest.getD i default))) rest.length
      unfold find_position_cursors
      rw [hi]
      simp only
      split_ifs
      · exact ⟨_, rfl, insert_cursor_perm _ _ _⟩
      · exact ⟨_, rfl, List.Perm.refl _⟩
    · rw [if_neg h2]
      exact ⟨_, rfl, List.Perm.refl _⟩
  · rw [if_neg h1, if_neg h1, if_pos (by omega)]
    exact ⟨_, rfl, List.Perm.refl _⟩

theorem output_count_spec (x : OutputExt) (s : OutState) (sts : Nat) (dir1 : List Cursor)
    (pidx : Nat) (hsort : SortSpec x.dir__sortbyinode)
    (harr : is_dir s.heap sts = true →
      (s.heap sts).by_inode = (kids s.heap sts).map some ++ [none]) :
    ∃ s2, output_count x s sts dir1 pidx = Run.ret s2 ∧
      s2.saved = s.saved ++ [(sts, pidx)] ∧
      s2.complete_count = u32 (s.complete_count + 1) ∧
      s2.body = s.body ++ x.ops__save_1entry (s.heap sts) pidx ∧
      s2.string_space = u32 (s.string_space + u32 ((s.heap sts).name.length + 1)) ∧
      (∀ q, q ≠ sts → s2.heap q = s.heap q) ∧
      StaticEq (s.heap sts) (s2.heap sts) ∧
      (s2.heap sts).file_index = u32 (s.complete_count + 1) ∧
      (kids s2.heap sts).Perm (kids s.heap sts) ∧
      (is_dir s.heap sts = true →
        (s2.heap sts).by_inode = (kids s2.heap sts).map some ++ [none]) ∧
      s2.directory.Perm (if is_dir s.heap sts = true then ⟨sts, 0⟩ :: dir1 else dir1) ∧
      (s2.alloc_dir = s.alloc_dir ∨
        (s.alloc_dir ≤ dir1.length ∧ s2.alloc_dir = s.alloc_dir * 2)) ∧
      ((s.heap sts).to_be_sorted = false → (s2.heap sts).by_inode = (s.heap sts).by_inode) ∧
      s2.max_path_len = max s.max_path_len (s2.heap sts).path_len := by
  -- the heap after `file_index` and `path_len` are set
  obtain ⟨h2, hh2, e2, o2⟩ : ∃ h2 : Heap,
      h2 = (if ((s.heap.set sts { s.heap sts with
              file_index := u32 (s.complete_count + 1) }) sts).path_len = 0 then
          (s.heap.set sts { s.heap sts with file_index := u32 (s.complete_count + 1) }).set sts
            { (s.heap.set sts { s.heap sts with
                file_index := u32 (s.complete_count + 1) }) sts with
              path_len := x.ops__calc_path_len
                (s.heap.set sts { s.heap sts with file_index := u32 (s.complete_count + 1) })
                sts }
        else s.heap.set sts { s.heap sts with file_index := u32 (s.complete_count + 1) }) ∧
      h2 sts = { s.heap sts with file_index := u32 (s.complete_count + 1),
                                 path_len := (h2 sts).path_len } ∧
      ∀ q, q ≠ sts → h2 q = s.heap q := by
    refine ⟨_, rfl, ?_, ?_⟩
    · split_ifs
      · rw [Heap.set_same, Heap.set_same]
      · rw [Heap.set_same]
    · intro q hq
      split_ifs
      · rw [Heap.set_other _ _ _ _ hq, Heap.set_other _ _ _ _ hq]
      · rw [Heap.set_other _ _ _ _ hq]
  have hst2 : StaticEq (s.heap sts) (h2 sts) := by
    rw [e2]
    exact ⟨rfl, rfl, rfl, rfl, rfl⟩
  have hk2 : (h2 sts).by_inode = (s.heap sts).by_inode := by
    rw [e2]
  have hkk2 : kids h2 sts = kids s.heap sts := by
    unfold kids
    rw [hk2]
  have hd2 : is_dir h2 sts = is_dir s.heap sts := by
    unfold is_dir
    rw [hst2.1, hst2.2.1]
  have hfi2 : (h2 sts).file_index = u32 (s.complete_count + 1) := by
    rw [e2]
  unfold output_count
  simp only
  rw [← hh2]
  have hcond : (S_ISDIR (h2 sts).st.mode && decide ((h2 sts).entry_count > 0))
      = is_dir s.heap sts := by
    rw [← hd2]
    rfl
  rw [hcond]
  by_cases hdir : is_dir s.heap sts = true
  · rw [if_pos hdir, if_pos hdir]
    -- the heap after the sort
    obtain ⟨h3, hh3, e3, o3, k3, a3⟩ : ∃ h3 : Heap,
        h3 = (if (h2 sts).to_be_sorted = true then x.dir__sortbyinode h2 sts else h2) ∧
        StaticEq (h2 sts) (h3 sts) ∧ (∀ q, q ≠ sts → h3 q = h2 q) ∧
        (kids h3 sts).Perm (kids h2 sts) ∧
        (h3 sts).by_inode = (kids h3 sts).map some ++ [none] ∧
        (h3 sts).file_index = (h2 sts).file_index ∧
        (h3 sts).path_len = (h2 sts).path_len := by
      have harr2 : (h2 sts).by_inode = (kids h2 sts).map some ++ [none] := by
        rw [hk2, hkk2]
        exact harr hdir
      by_cases hts : (h2 sts).to_be_sorted = true
      · rw [if_pos hts]
        obtain ⟨g1, g2⟩ := hsort h2 sts
        obtain ⟨ks, hp, hs⟩ := g2 harr2
        have hks : kids (x.dir__sortbyinode h2 sts) sts = ks :=
          kids_of_array _ _ _ (by rw [hs])
        refine ⟨_, rfl, ?_, g1, ?_, ?_, ?_, ?_⟩
        · rw [hs]
          exact ⟨rfl, rfl, rfl, rfl, rfl⟩
        · rw [hks]
          exact hp
        · rw [hks, hs]
        · rw [hs]
        · rw [hs]
      · rw [if_neg hts]
        exact ⟨_, rfl, ⟨rfl, rfl, rfl, rfl, rfl⟩, fun _ _ => rfl, List.Perm.refl _, harr2, rfl,
          rfl⟩
    rw [← hh3]
    obtain ⟨i, hi, _⟩ := find_position_total
      (fun i => x.dir___f_sort_by_inode (Cursor.head h3 ⟨sts, 0⟩)
        (Cursor.head h3 (dir1.getD i default))) dir1.length
    unfold find_position_cursors
    rw [hi]
    refine ⟨_, rfl, rfl, rfl, rfl, rfl, ?_, ?_, ?_, ?_, ?_, insert_cursor_perm _ _ _, ?_, ?_, ?_⟩
    rotate_right
    · show (if (h2 sts).path_len > s.max_path_len then (h2 sts).path_len else s.max_path_len)
        = max s.max_path_len (h3 sts).path_len
      rw [a3.2.2]
      by_cases hgt : (h2 sts).path_len > s.max_path_len
      · rw [if_pos hgt, max_eq_right (le_of_lt hgt)]
      · rw [if_neg hgt, max_eq_left (not_lt.mp hgt)]
    rotate_right
    · intro hts
      show (h3 sts).by_inode = _
      have hts2 : ¬ ((h2 sts).to_be_sorted = true) := by
        rw [e2]
        simp [hts]
      rw [hh3, if_neg hts2]
      exact hk2
    rotate_right
    · show (if dir1.length ≥ s.alloc_dir then s.alloc_dir * 2 else s.alloc_dir) = _ ∨ _
      by_cases hge : dir1.length ≥ s.alloc_dir
      · rw [if_pos hge]
        exact Or.inr ⟨hge, rfl⟩
      · rw [if_neg hge]
        exact Or.inl rfl
    · intro q hq
      show h3 q = _
      rw [o3 q hq, o2 q hq]
    · show StaticEq _ (h3 sts)
      exact ⟨e3.1.trans hst2.1, e3.2.1.trans hst2.2.1, e3.2.2.1.trans hst2.2.2.1,
        e3.2.2.2.1.trans hst2.2.2.2.1, e3.2.2.2.2.trans hst2.2.2.2.2⟩
    · show (h3 sts).file_index = _
      rw [a3.2.1, hfi2]
    · show (kids h3 sts).Perm _
      rw [← hkk2]
      exact k3
    · intro _
      exact a3.1
  · rw [if_neg hdir, if_neg hdir]
    refine ⟨_, rfl, rfl, rfl, rfl, rfl, o2, hst2, hfi2, ?_, ?_, List.Perm.refl _, Or.inl rfl,
      fun _ => hk2, ?_⟩
    · show (kids h2 sts).Perm _
      rw [hkk2]
    · intro hd
      exact absurd hd hdir
    · show (if (h2 sts).path_len > s.max_path_len then (h2 sts).path_len else s.max_path_len)
        = max s.max_path_len (h2 sts).path_len
      by_cases hgt : (h2 sts).path_len > s.max_path_len
      · rw [if_pos hgt, max_eq_right (le_of_lt hgt)]
      · rw [if_neg hgt, max_eq_left (not_lt.mp hgt)]

theorem static_is_dir (h h1 : Heap) (q : Nat) (hs : StaticEq (h q) (h1 q)) :
    is_dir h1 q = is_dir h q := by
  unfold is_dir
  rw [hs.1, hs.2.1]

theorem static_trans (a b c : estat) (h1 : StaticEq a b) (h2 : StaticEq b c) :
    StaticEq a c :=
  ⟨h2.1.trans h1.1, h2.2.1.trans h1.2.1, h2.2.2.1.trans h1.2.2.1,
    h2.2.2.2.1.trans h1.2.2.2.1, h2.2.2.2.2.trans h1.2.2.2.2⟩

theorem static_refl (a : estat) : StaticEq a a := ⟨rfl, rfl, rfl, rfl, rfl⟩

theorem wf_update (h h1 : Heap) (root : Nat) (nodes : List Nat) (p : Nat)
    (hwf : WellFormed h root nodes) (ho : ∀ q, q ≠ p → h1 q = h q)
    (hs : StaticEq (h p) (h1 p)) (hk : (kids h1 p).Perm (kids h p))
    (ha : is_dir h p = true → (h1 p).by_inode = (kids h1 p).map some ++ [none]) :
    WellFormed h1 root nodes := by
  have hst : ∀ q, StaticEq (h q) (h1 q) := by
    intro q
    by_cases hq : q = p
    · rw [hq]
      exact hs
    · rw [ho q hq]
      exact static_refl _
  refine ⟨hwf.nodup, hwf.root_mem, ?_, ?_, ?_⟩
  · rw [(hst root).2.2.1]
    exact hwf.root_parent
  · rw [(hst root).1]
    exact hwf.root_dir
  · intro d hd hdir
    rw [static_is_dir h h1 d (hst d)] at hdir
    obtain ⟨a1, a2, a3, a4⟩ := hwf.arr d hd hdir
    by_cases hq : d = p
    · rw [hq] at a1 a2 a3 a4 hdir ⊢
      refine ⟨ha hdir, ?_, hk.nodup_iff.mpr a3, ?_⟩
      · rw [hk.length_eq, a2, hs.2.1]
      · intro c hc
        obtain ⟨b1, b2⟩ := a4 c (hk.mem_iff.mp hc)
        exact ⟨b1, by rw [(hst c).2.2.1]; exact b2⟩
    · have hkk : kids h1 d = kids h d := by
        unfold kids
        rw [ho d hq]
      rw [hkk, ho d hq]
      refine ⟨a1, a2, a3, ?_⟩
      intro c hc
      obtain ⟨b1, b2⟩ := a4 c hc
      exact ⟨b1, by rw [(hst c).2.2.1]; exact b2⟩

theorem saved_nodes (h0 : Heap) (root : Nat) (nodes done : List Nat) (s : OutState)
    (inv : OutInv h0 root nodes done s) : ∀ e ∈ s.saved.map Prod.fst, e ∈ nodes := by
  intro e he
  rw [inv.saved_eq] at he
  rcases List.mem_cons.mp he with h | h
  · rw [h]
    exact inv.wf.root_mem
  · exact inv.done_nodes e (List.mem_filter.mp h).1

theorem root_not_done (h0 : Heap) (root : Nat) (nodes done : List Nat) (s : OutState)
    (inv : OutInv h0 root nodes done s) : root ∉ done := by
  intro hr
  obtain ⟨d, hd, hdir, hk⟩ := inv.done_kid root hr
  have := (inv.wf.arr d (saved_nodes h0 root nodes done s inv d hd) hdir).2.2.2 root hk
  rw [inv.wf.root_parent] at this
  cases this.2

theorem saved_iff (h0 : Heap) (root : Nat) (nodes done : List Nat) (s : OutState)
    (inv : OutInv h0 root nodes done s) (e : Nat) :
    e ∈ s.saved.map Prod.fst ↔ e = root ∨ (e ∈ done ∧ not_ignored h0 e = true) := by
  rw [inv.saved_eq, List.mem_cons, List.mem_filter]

theorem pop_facts (h0 : Heap) (root : Nat) (nodes done : List Nat) (s : OutState)
    (c : Cursor) (rest : List Cursor) (inv : OutInv h0 root nodes done s)
    (hdirs : s.directory = c :: rest) :
    c.dir ∈ nodes ∧ c.dir ∈ s.saved.map Prod.fst ∧ is_dir s.heap c.dir = true ∧
    (s.heap c.dir).by_inode = (kids s.heap c.dir).map some ++ [none] ∧
    c.pos < (kids s.heap c.dir).length ∧ (kids s.heap c.dir).Nodup ∧
    (kids s.heap c.dir).getD c.pos 0 ∈ kids s.heap c.dir ∧
    (kids s.heap c.dir).getD c.pos 0 ∈ nodes ∧
    (s.heap ((kids s.heap c.dir).getD c.pos 0)).parent = some c.dir ∧
    (kids s.heap c.dir).getD c.pos 0 ∉ done ∧
    (kids s.heap c.dir).getD c.pos 0 ≠ root ∧
    (kids s.heap c.dir).getD c.pos 0 ∉ s.saved.map Prod.fst ∧
    (kids s.heap c.dir).take (c.pos + 1)
      = (kids s.heap c.dir).take c.pos ++ [(kids s.heap c.dir).getD c.pos 0] ∧
    (∀ e ∈ (kids s.heap c.dir).drop (c.pos + 1),
      e ≠ (kids s.heap c.dir).getD c.pos 0 ∧ e ∉ done) := by
  have hc : c ∈ s.directory := by
    rw [hdirs]
    exact List.mem_cons_self _ _
  obtain ⟨c1, c2, c3, c4, c5⟩ := inv.cur c hc
  have hdn := saved_nodes h0 root nodes done s inv c.dir c1
  obtain ⟨a1, a2, a3, a4⟩ := inv.wf.arr c.dir hdn c2
  generalize hK : kids s.heap c.dir = K at *
  have hget : K[c.pos]? = some (K.getD c.pos 0) := by
    rw [List.getD_eq_getElem?_getD, List.getElem?_eq_getElem c3]
    rfl
  have hmem : K.getD c.pos 0 ∈ K := List.getElem?_mem hget
  have hdrop : K.drop c.pos = K.getD c.pos 0 :: K.drop (c.pos + 1) := drop_of_get K _ _ hget
  have hnd : K.getD c.pos 0 ∉ done := c5 _ (by rw [hdrop]; exact List.mem_cons_self _ _)
  have hpar := (a4 _ hmem).2
  have hnr : K.getD c.pos 0 ≠ root := by
    intro h
    rw [h, inv.wf.root_parent] at hpar
    cases hpar
  refine ⟨hdn, c1, c2, a1, c3, a3, hmem, (a4 _ hmem).1, hpar, hnd, hnr, ?_,
    take_succ_of_get K _ _ hget, ?_⟩
  · rw [saved_iff h0 root nodes done s inv]
    rintro (h | ⟨h, _⟩)
    · exact hnr h
    · exact hnd h
  · intro e he
    constructor
    · intro heq
      have hsplit := list_split_at K c.pos _ hget
      have hnd2 := a3
      rw [hsplit, List.nodup_append] at hnd2
      have := (List.nodup_cons.mp hnd2.2.1).1
      rw [heq] at he
      exact this he
    · exact c5 e (by rw [hdrop]; exact List.mem_cons_of_mem _ he)

theorem cursor_step (h0 : Heap) (root : Nat) (nodes done : List Nat) (s : OutState)
    (c : Cursor) (rest dir1 : List Cursor) (inv : OutInv h0 root nodes done s)
    (hdirs : s.directory = c :: rest)
    (hperm : dir1.Perm (if c.pos + 1 < (kids s.heap c.dir).length
      then ⟨c.dir, c.pos + 1⟩ :: rest else rest)) :
    (dir1.map Cursor.dir).Nodup ∧
    (∀ c1 ∈ dir1, c1.dir ∈ s.saved.map Prod.fst ∧ is_dir s.heap c1.dir = true ∧
      c1.pos < (kids s.heap c1.dir).length ∧
      (∀ e ∈ (kids s.heap c1.dir).take c1.pos,
        e ∈ done ++ [(kids s.heap c.dir).getD c.pos 0]) ∧
      (∀ e ∈ (kids s.heap c1.dir).drop c1.pos,
        e ∉ done ++ [(kids s.heap c.dir).getD c.pos 0])) ∧
    (∀ d1 ∈ s.saved.map Prod.fst, is_dir s.heap d1 = true → d1 ∉ dir1.map Cursor.dir →
      ∀ e ∈ kids s.heap d1, e ∈ done ++ [(kids s.heap c.dir).getD c.pos 0]) := by
  obtain ⟨p1, p2, p3, p4, p5, p6, p7, p8, p9, p10, p11, p12, p13, p14⟩ :=
    pop_facts h0 root nodes done s c rest inv hdirs
  have hc : c ∈ s.directory := by
    rw [hdirs]
    exact List.mem_cons_self _ _
  obtain ⟨_, _, _, c4, c5⟩ := inv.cur c hc
  have hnd := inv.cur_dir
  rw [hdirs, List.map_cons, List.nodup_cons] at hnd
  generalize hsts : (kids s.heap c.dir).getD c.pos 0 = sts at *
  -- a cursor of the rest
  have hrest : ∀ c1 ∈ rest, c1.dir ∈ s.saved.map Prod.fst ∧ is_dir s.heap c1.dir = true ∧
      c1.pos < (kids s.heap c1.dir).length ∧
      (∀ e ∈ (kids s.heap c1.dir).take c1.pos, e ∈ done ++ [sts]) ∧
      (∀ e ∈ (kids s.heap c1.dir).drop c1.pos, e ∉ done ++ [sts]) := by
    intro c1 hc1
    obtain ⟨r1, r2, r3, r4, r5⟩ := inv.cur c1 (by rw [hdirs]; exact List.mem_cons_of_mem _ hc1)
    refine ⟨r1, r2, r3, fun e he => List.mem_append_left _ (r4 e he), ?_⟩
    intro e he hmem
    rcases List.mem_append.mp hmem with h | h
    · exact r5 e he h
    · have hes : e = sts := by simpa using h
      have hk : sts ∈ kids s.heap c1.dir := by
        rw [← hes]
        exact List.mem_of_mem_drop he
      have hp := (inv.wf.arr c1.dir (saved_nodes h0 root nodes done s inv _ r1) r2).2.2.2 sts hk
      rw [p9] at hp
      have hd : c.dir = c1.dir := Option.some.inj hp.2
      exact hnd.1 (by rw [hd]; exact List.mem_map_of_mem _ hc1)
  by_cases hlt : c.pos + 1 < (kids s.heap c.dir).length
  · rw [if_pos hlt] at hperm
    refine ⟨?_, ?_, ?_⟩
    · have := (hperm.map Cursor.dir).nodup_iff.mpr (by
        rw [List.map_cons]
        exact List.nodup_cons.mpr hnd)
      exact this
    · intro c1 hc1
      rcases List.mem_cons.mp (hperm.mem_iff.mp hc1) with h | h
      · rw [h]
        refine ⟨p2, p3, hlt, ?_, ?_⟩
        · intro e he
          simp only at he
          rw [p13] at he
          rcases List.mem_append.mp he with h1 | h1
          · exact List.mem_append_left _ (c4 e h1)
          · exact List.mem_append_right _ h1
        · intro e he hmem
          obtain ⟨q1, q2⟩ := p14 e he
          rcases List.mem_append.mp hmem with h1 | h1
          · exact q2 h1
          · exact q1 (by simpa using h1)
      · exact hrest c1 h
    · intro d1 hd1 hdir hnot e he
      have hne : d1 ≠ c.dir := by
        intro heq
        apply hnot
        rw [heq]
        exact (hperm.map Cursor.dir).mem_iff.mpr (by simp)
      have hnr : d1 ∉ (c :: rest).map Cursor.dir := by
        intro hm
        rcases List.mem_cons.mp hm with h | h
        · exact hne h
        · apply hnot
          exact (hperm.map Cursor.dir).mem_iff.mpr (List.mem_cons_of_mem _ h)
      rw [← hdirs] at hnr
      exact List.mem_append_left _ (inv.fin d1 hd1 hdir hnr e he)
  · rw [if_neg hlt] at hperm
    refine ⟨?_, ?_, ?_⟩
    · exact (hperm.map Cursor.dir).nodup_iff.mpr hnd.2
    · intro c1 hc1
      exact hrest c1 (hperm.mem_iff.mp hc1)
    · intro d1 hd1 hdir hnot e he
      by_cases heq : d1 = c.dir
      · rw [heq] at he
        have hall : (kids s.heap c.dir).take (c.pos + 1) = kids s.heap c.dir :=
          List.take_of_length_le (by omega)
        rw [← hall, p13] at he
        rcases List.mem_append.mp he with h1 | h1
        · exact List.mem_append_left _ (c4 e h1)
        · exact List.mem_append_right _ h1
      · have hnr : d1 ∉ (c :: rest).map Cursor.dir := by
          intro hm
          rcases List.mem_cons.mp hm with h | h
          · exact heq h
          · apply hnot
            exact (hperm.map Cursor.dir).mem_iff.mpr h
        rw [← hdirs] at hnr
        exact List.mem_append_left _ (inv.fin d1 hd1 hdir hnr e he)

theorem filter_snoc (p : Nat → Bool) (l : List Nat) (a : Nat) :
    (l ++ [a]).filter p = l.filter p ++ (if p a = true then [a] else []) := by
  rw [List.filter_append]
  by_cases h : p a = true
  · simp [List.filter_cons, h]
  · simp [List.filter_cons, h]

theorem ord_step (h0 : Heap) (root : Nat) (nodes done : List Nat) (s : OutState)
    (c : Cursor) (rest dir1 : List Cursor) (inv : OutInv h0 root nodes done s)
    (hdirs : s.directory = c :: rest)
    (hperm : dir1.Perm (if c.pos + 1 < (kids s.heap c.dir).length
      then ⟨c.dir, c.pos + 1⟩ :: rest else rest)) :
    (∀ c1 ∈ dir1, (done ++ [(kids s.heap c.dir).getD c.pos 0]).filter (kid_of h0 c1.dir)
      = (kids s.heap c1.dir).take c1.pos) ∧
    (∀ d1 ∈ s.saved.map Prod.fst, is_dir s.heap d1 = true → d1 ∉ dir1.map Cursor.dir →
      (done ++ [(kids s.heap c.dir).getD c.pos 0]).filter (kid_of h0 d1) = kids s.heap d1) ∧
    (done ++ [(kids s.heap c.dir).getD c.pos 0]).filter
      (kid_of h0 ((kids s.heap c.dir).getD c.pos 0)) = [] := by
  obtain ⟨p1, p2, p3, p4, p5, p6, p7, p8, p9, p10, p11, p12, p13, p14⟩ :=
    pop_facts h0 root nodes done s c rest inv hdirs
  have hc : c ∈ s.directory := by
    rw [hdirs]
    exact List.mem_cons_self _ _
  have oc := inv.ord c hc
  have hnd := inv.cur_dir
  rw [hdirs, List.map_cons, List.nodup_cons] at hnd
  generalize hsts : (kids s.heap c.dir).getD c.pos 0 = sts at *
  have hpar : (h0 sts).parent = some c.dir := by
    rw [← (inv.static sts).2.2.1]
    exact p9
  have hks : kid_of h0 c.dir sts = true := by
    unfold kid_of
    rw [hpar]
    simp
  have hko : ∀ d, d ≠ c.dir → ¬ (kid_of h0 d sts = true) := by
    intro d hd hk
    unfold kid_of at hk
    rw [hpar] at hk
    simp only [decide_eq_true_eq, Option.some.injEq] at hk
    exact hd hk.symm
  have hcur : (done ++ [sts]).filter (kid_of h0 c.dir) = (kids s.heap c.dir).take (c.pos + 1) := by
    rw [filter_snoc, if_pos hks, oc, p13]
  have hother : ∀ d, d ≠ c.dir →
      (done ++ [sts]).filter (kid_of h0 d) = done.filter (kid_of h0 d) := by
    intro d hd
    rw [filter_snoc, if_neg (hko d hd), List.append_nil]
  have hrest : ∀ c1 ∈ rest, (done ++ [sts]).filter (kid_of h0 c1.dir)
      = (kids s.heap c1.dir).take c1.pos := by
    intro c1 hc1
    have hne : c1.dir ≠ c.dir := by
      intro heq
      apply hnd.1
      rw [← heq]
      exact List.mem_map_of_mem _ hc1
    rw [hother _ hne]
    exact inv.ord c1 (by rw [hdirs]; exact List.mem_cons_of_mem _ hc1)
  have hthird : (done ++ [sts]).filter (kid_of h0 sts) = [] := by
    rw [List.filter_eq_nil_iff]
    intro e he hk
    unfold kid_of at hk
    simp only [decide_eq_true_eq] at hk
    rcases List.mem_append.mp he with h | h
    · obtain ⟨d1, g1, g2, g3⟩ := inv.done_kid e h
      have hp1 := ((inv.wf.arr d1 (saved_nodes h0 root nodes done s inv d1 g1) g2).2.2.2 e g3).2
      rw [(inv.static e).2.2.1, hk] at hp1
      have : sts = d1 := Option.some.inj hp1
      exact p12 (this ▸ g1)
    · have hes : e = sts := by simpa using h
      rw [hes, hpar] at hk
      have : c.dir = sts := Option.some.inj hk
      exact p12 (this ▸ p2)
  by_cases hlt : c.pos + 1 < (kids s.heap c.dir).length
  · rw [if_pos hlt] at hperm
    refine ⟨?_, ?_, hthird⟩
    · intro c1 hc1
      rcases List.mem_cons.mp (hperm.mem_iff.mp hc1) with h | h
      · rw [h]
        exact hcur
      · exact hrest c1 h
    · intro d1 hd1 hdir hnot
      have hne : d1 ≠ c.dir := by
        intro heq
        apply hnot
        rw [heq]
        exact (hperm.map Cursor.dir).mem_iff.mpr (by simp)
      have hnr : d1 ∉ (c :: rest).map Cursor.dir := by
        intro hm
        rcases List.mem_cons.mp hm with h | h
        · exact hne h
        · apply hnot
          exact (hperm.map Cursor.dir).mem_iff.mpr (List.mem_cons_of_mem _ h)
      rw [← hdirs] at hnr
      rw [hother _ hne]
      exact inv.ordfin d1 hd1 hdir hnr
  · rw [if_neg hlt] at hperm
    refine ⟨?_, ?_, hthird⟩
    · intro c1 hc1
      exact hrest c1 (hperm.mem_iff.mp hc1)
    · intro d1 hd1 hdir hnot
      by_cases heq : d1 = c.dir
      · rw [heq, hcur]
        exact List.take_of_length_le (by omega)
      · have hnr : d1 ∉ (c :: rest).map Cursor.dir := by
          intro hm
          rcases List.mem_cons.mp hm with h | h
          · exact heq h
          · apply hnot
            exact (hperm.map Cursor.dir).mem_iff.mpr h
        rw [← hdirs] at hnr
        rw [hother _ heq]
        exact inv.ordfin d1 hd1 hdir hnr

theorem done_length (h0 : Heap) (root : Nat) (nodes done : List Nat) (s : OutState)
    (inv : OutInv h0 root nodes done s) : done.length + 1 ≤ nodes.length := by
  have hnd : (root :: done).Nodup :=
    List.nodup_cons.mpr ⟨root_not_done h0 root nodes done s inv, inv.done_nodup⟩
  have hsub : (root :: done) ⊆ nodes := by
    intro e he
    rcases List.mem_cons.mp he with h | h
    · rw [h]
      exact inv.wf.root_mem
    · exact inv.done_nodes e h
  have := (List.subperm_of_subset hnd hsub).length_le
  simpa using this

theorem saved_length (h0 : Heap) (root : Nat) (nodes done : List Nat) (s : OutState)
    (inv : OutInv h0 root nodes done s) : s.saved.length ≤ done.length + 1 := by
  have h := congrArg List.length inv.saved_eq
  rw [List.length_map, List.length_cons] at h
  have := List.length_filter_le (not_ignored h0) done
  omega

theorem inv_ignored (h0 : Heap) (root : Nat) (nodes done : List Nat) (s : OutState)
    (c : Cursor) (rest dir1 : List Cursor) (inv : OutInv h0 root nodes done s)
    (hdirs : s.directory = c :: rest)
    (hperm : dir1.Perm (if c.pos + 1 < (kids s.heap c.dir).length
      then ⟨c.dir, c.pos + 1⟩ :: rest else rest))
    (hign : (s.heap ((kids s.heap c.dir).getD c.pos 0)).entry_type = entry_type_t.FT_IGNORE) :
    OutInv h0 root nodes (done ++ [(kids s.heap c.dir).getD c.pos 0])
      { s with directory := dir1 } := by
  obtain ⟨p1, p2, p3, p4, p5, p6, p7, p8, p9, p10, p11, p12, p13, p14⟩ :=
    pop_facts h0 root nodes done s c rest inv hdirs
  obtain ⟨k1, k2, k3⟩ := cursor_step h0 root nodes done s c rest dir1 inv hdirs hperm
  obtain ⟨o1, o2, _⟩ := ord_step h0 root nodes done s c rest dir1 inv hdirs hperm
  generalize hsts : (kids s.heap c.dir).getD c.pos 0 = sts at *
  have hni : not_ignored h0 sts = false := by
    unfold not_ignored
    rw [← (inv.static sts).2.2.2.1, hign]
    simp
  refine ⟨inv.wf, inv.static, inv.kperm, inv.frame, ?_, ?_, ?_, ?_, k1, k2, k3, inv.fidx,
    inv.pidx, inv.cc, o1, o2, inv.unsorted⟩
  · exact List.nodup_append.mpr ⟨inv.done_nodup, List.nodup_singleton _, by
      intro a ha hb
      have : a = sts := by simpa using hb
      exact p10 (this ▸ ha)⟩
  · intro e he
    rcases List.mem_append.mp he with h | h
    · exact inv.done_nodes e h
    · have : e = sts := by simpa using h
      rw [this]
      exact p8
  · show s.saved.map Prod.fst = _
    rw [inv.saved_eq, List.filter_append]
    simp [List.filter_cons, hni]
  · intro e he
    rcases List.mem_append.mp he with h | h
    · exact inv.done_kid e h
    · have : e = sts := by simpa using h
      rw [this]
      exact ⟨c.dir, p2, p3, p7⟩

theorem done_length_pop (h0 : Heap) (root : Nat) (nodes done : List Nat) (s : OutState)
    (inv : OutInv h0 root nodes done s) (sts : Nat) (h1 : sts ∈ nodes) (h2 : sts ∉ done)
    (h3 : sts ≠ root) : done.length + 2 ≤ nodes.length := by
  have hnd : (sts :: root :: done).Nodup := by
    refine List.nodup_cons.mpr ⟨?_, List.nodup_cons.mpr
      ⟨root_not_done h0 root nodes done s inv, inv.done_nodup⟩⟩
    intro hm
    rcases List.mem_cons.mp hm with h | h
    · exact h3 h
    · exact h2 h
  have hsub : (sts :: root :: done) ⊆ nodes := by
    intro e he
    rcases List.mem_cons.mp he with h | h
    · rw [h]
      exact h1
    · rcases List.mem_cons.mp h with h | h
      · rw [h]
        exact inv.wf.root_mem
      · exact inv.done_nodes e h
  have := (List.subperm_of_subset hnd hsub).length_le
  simpa using this

theorem getD_append_one (l : List (Nat × Nat)) (a : Nat × Nat) (i : Nat) :
    (i < l.length → (l ++ [a]).getD i default = l.getD i default) ∧
    (l ++ [a]).getD l.length default = a := by
  constructor
  · intro hi
    rw [List.getD_eq_getElem?_getD, List.getD_eq_getElem?_getD, List.getElem?_append_left hi]
  · rw [List.getD_eq_getElem?_getD, List.getElem?_append_right (le_refl _)]
    simp

theorem getD_mem_map (l : List (Nat × Nat)) (i : Nat) (hi : i < l.length) :
    (l.getD i default).1 ∈ l.map Prod.fst := by
  rw [List.getD_eq_getElem?_getD, List.getElem?_eq_getElem hi]
  exact List.mem_map_of_mem _ (List.getElem_mem _)

theorem mem_map_getD (l : List (Nat × Nat)) (d : Nat) (hd : d ∈ l.map Prod.fst) :
    ∃ j, j < l.length ∧ (l.getD j default).1 = d := by
  obtain ⟨a, ha, rfl⟩ := List.mem_map.mp hd
  obtain ⟨j, hj, hja⟩ := List.getElem_of_mem ha
  refine ⟨j, hj, ?_⟩
  rw [List.getD_eq_getElem?_getD, List.getElem?_eq_getElem hj]
  simp [hja]

theorem inv_saved (h0 : Heap) (root : Nat) (nodes done : List Nat) (s s2 : OutState)
    (c : Cursor) (rest dir1 : List Cursor) (inv : OutInv h0 root nodes done s)
    (hdirs : s.directory = c :: rest) (hbound : nodes.length < 2 ^ 32)
    (hperm : dir1.Perm (if c.pos + 1 < (kids s.heap c.dir).length
      then ⟨c.dir, c.pos + 1⟩ :: rest else rest))
    (hnign : (s.heap ((kids s.heap c.dir).getD c.pos 0)).entry_type
      ≠ entry_type_t.FT_IGNORE)
    (f1 : s2.saved = s.saved ++
      [((kids s.heap c.dir).getD c.pos 0, (s.heap c.dir).file_index)])
    (f2 : s2.complete_count = u32 (s.complete_count + 1))
    (f5 : ∀ q, q ≠ (kids s.heap c.dir).getD c.pos 0 → s2.heap q = s.heap q)
    (f6 : StaticEq (s.heap ((kids s.heap c.dir).getD c.pos 0))
      (s2.heap ((kids s.heap c.dir).getD c.pos 0)))
    (f7 : (s2.heap ((kids s.heap c.dir).getD c.pos 0)).file_index
      = u32 (s.complete_count + 1))
    (f8 : (kids s2.heap ((kids s.heap c.dir).getD c.pos 0)).Perm
      (kids s.heap ((kids s.heap c.dir).getD c.pos 0)))
    (f9 : is_dir s.heap ((kids s.heap c.dir).getD c.pos 0) = true →
      (s2.heap ((kids s.heap c.dir).getD c.pos 0)).by_inode
        = (kids s2.heap ((kids s.heap c.dir).getD c.pos 0)).map some ++ [none])
    (f10 : s2.directory.Perm (if is_dir s.heap ((kids s.heap c.dir).getD c.pos 0) = true
      then ⟨(kids s.heap c.dir).getD c.pos 0, 0⟩ :: dir1 else dir1))
    (f12 : (s.heap ((kids s.heap c.dir).getD c.pos 0)).to_be_sorted = false →
      (s2.heap ((kids s.heap c.dir).getD c.pos 0)).by_inode
        = (s.heap ((kids s.heap c.dir).getD c.pos 0)).by_inode) :
    OutInv h0 root nodes (done ++ [(kids s.heap c.dir).getD c.pos 0]) s2 := by
  obtain ⟨p1, p2, p3, p4, p5, p6, p7, p8, p9, p10, p11, p12, p13, p14⟩ :=
    pop_facts h0 root nodes done s c rest inv hdirs
  obtain ⟨k1, k2, k3⟩ := cursor_step h0 root nodes done s c rest dir1 inv hdirs hperm
  obtain ⟨o1, o2, o3⟩ := ord_step h0 root nodes done s c rest dir1 inv hdirs hperm
  have hdl := done_length_pop h0 root nodes done s inv _ p8 p10 p11
  have hsl := saved_length h0 root nodes done s inv
  generalize hsts : (kids s.heap c.dir).getD c.pos 0 = sts at *
  have hwf2 : WellFormed s2.heap root nodes := wf_update s.heap s2.heap root nodes sts inv.wf f5
    f6 f8 f9
  have hst : ∀ q, StaticEq (s.heap q) (s2.heap q) := by
    intro q
    by_cases hq : q = sts
    · rw [hq]
      exact f6
    · rw [f5 q hq]
      exact static_refl _
  have hdir2 : ∀ q, is_dir s2.heap q = is_dir s.heap q := fun q => static_is_dir _ _ q (hst q)
  have hkids : ∀ q, q ∈ s.saved.map Prod.fst → kids s2.heap q = kids s.heap q := by
    intro q hq
    have : q ≠ sts := fun h => p12 (h ▸ hq)
    unfold kids
    rw [f5 q this]
  have hni : not_ignored h0 sts = true := by
    unfold not_ignored
    rw [← (inv.static sts).2.2.2.1]
    simpa using hnign
  have hsv : s2.saved.map Prod.fst = s.saved.map Prod.fst ++ [sts] := by
    rw [f1, List.map_append]
    rfl
  have hsub : ∀ q, q ∈ s.saved.map Prod.fst → q ∈ s2.saved.map Prod.fst := by
    intro q hq
    rw [hsv]
    exact List.mem_append_left _ hq
  have hu : u32 (s.complete_count + 1) = s.saved.length + 1 := by
    unfold u32
    rw [inv.cc]
    exact Nat.mod_eq_of_lt (by omega)
  have hsd : sts ≠ c.dir := fun h => p12 (h ▸ p2)
  -- the children of `sts` were not taken yet
  have hfresh : ∀ e ∈ kids s.heap sts, is_dir s.heap sts = true → e ∉ done ++ [sts] := by
    intro e he hd hmem
    have hp := ((inv.wf.arr sts p8 hd).2.2.2 e he).2
    rcases List.mem_append.mp hmem with h | h
    · obtain ⟨d1, g1, g2, g3⟩ := inv.done_kid e h
      have hp1 := ((inv.wf.arr d1 (saved_nodes h0 root nodes done s inv d1 g1) g2).2.2.2 e g3).2
      rw [hp] at hp1
      have : sts = d1 := Option.some.inj hp1
      exact p12 (this ▸ g1)
    · have : e = sts := by simpa using h
      rw [this, p9] at hp
      exact hsd (Option.some.inj hp).symm
  refine ⟨hwf2, ?_, ?_, ?_, ?_, ?_, ?_, ?_, ?_, ?_, ?_, ?_, ?_, ?_, ?_, ?_, ?_⟩
  rotate_right 3
  · -- the order of the entries taken, for the cursors
    intro c1 hc1
    by_cases hd : is_dir s.heap sts = true
    · rw [if_pos hd] at f10
      rcases List.mem_cons.mp (f10.mem_iff.mp hc1) with h | h
      · rw [h]
        simp only [List.take_zero]
        exact o3
      · rw [hkids _ (k2 c1 h).1]
        exact o1 c1 h
    · rw [if_neg hd] at f10
      have h := f10.mem_iff.mp hc1
      rw [hkids _ (k2 c1 h).1]
      exact o1 c1 h
  · -- the order of the entries taken, for the directories that are finished
    intro d1 hd1 hdir hnot
    rw [hsv] at hd1
    rw [hdir2] at hdir
    rcases List.mem_append.mp hd1 with h | h
    · rw [hkids d1 h]
      refine o2 d1 h hdir ?_
      intro hm
      apply hnot
      by_cases hd : is_dir s.heap sts = true
      · rw [if_pos hd] at f10
        exact (f10.map Cursor.dir).mem_iff.mpr (List.mem_cons_of_mem _ hm)
      · rw [if_neg hd] at f10
        exact (f10.map Cursor.dir).mem_iff.mpr hm
    · have hds : d1 = sts := by simpa using h
      rw [hds] at hdir hnot
      exfalso
      apply hnot
      rw [if_pos hdir] at f10
      exact (f10.map Cursor.dir).mem_iff.mpr (by simp)
  · intro q hq
    by_cases hqs : q = sts
    · rw [hqs] at hq ⊢
      have hfr : s.heap sts = h0 sts := inv.frame sts p12
      rw [f12 (by rw [hfr]; exact hq), hfr]
    · rw [f5 q hqs]
      exact inv.unsorted q hq
  · intro q
    exact static_trans _ _ _ (inv.static q) (hst q)
  · intro q
    by_cases hq : q = sts
    · rw [hq]
      exact f8.trans (inv.kperm sts)
    · have : kids s2.heap q = kids s.heap q := by
        unfold kids
        rw [f5 q hq]
      rw [this]
      exact inv.kperm q
  · intro q hq
    rw [hsv, List.mem_append, not_or] at hq
    have : q ≠ sts := by
      intro h
      apply hq.2
      rw [h]
      exact List.mem_singleton_self _
    rw [f5 q this]
    exact inv.frame q hq.1
  · exact List.nodup_append.mpr ⟨inv.done_nodup, List.nodup_singleton _, by
      intro a ha hb
      have : a = sts := by simpa using hb
      exact p10 (this ▸ ha)⟩
  · intro e he
    rcases List.mem_append.mp he with h | h
    · exact inv.done_nodes e h
    · have : e = sts := by simpa using h
      rw [this]
      exact p8
  · rw [hsv, inv.saved_eq, List.filter_append]
    simp [List.filter_cons, hni]
  · intro e he
    rcases List.mem_append.mp he with h | h
    · obtain ⟨d1, g1, g2, g3⟩ := inv.done_kid e h
      exact ⟨d1, hsub d1 g1, by rw [hdir2]; exact g2, by rw [hkids d1 g1]; exact g3⟩
    · have : e = sts := by simpa using h
      rw [this]
      exact ⟨c.dir, hsub _ p2, by rw [hdir2]; exact p3, by rw [hkids _ p2]; exact p7⟩
  · -- the directories of the cursors are different
    by_cases hd : is_dir s.heap sts = true
    · rw [if_pos hd] at f10
      refine (f10.map Cursor.dir).nodup_iff.mpr ?_
      rw [List.map_cons, List.nodup_cons]
      refine ⟨?_, k1⟩
      intro hm
      obtain ⟨c1, hc1, hc2⟩ := List.mem_map.mp hm
      have hc3 : c1.dir = sts := hc2
      have hc4 := (k2 c1 hc1).1
      rw [hc3] at hc4
      exact p12 hc4
    · rw [if_neg hd] at f10
      exact (f10.map Cursor.dir).nodup_iff.mpr k1
  · intro c1 hc1
    have hold : c1 ∈ dir1 → c1.dir ∈ s2.saved.map Prod.fst ∧ is_dir s2.heap c1.dir = true ∧
        c1.pos < (kids s2.heap c1.dir).length ∧
        (∀ e ∈ (kids s2.heap c1.dir).take c1.pos, e ∈ done ++ [sts]) ∧
        (∀ e ∈ (kids s2.heap c1.dir).drop c1.pos, e ∉ done ++ [sts]) := by
      intro h
      obtain ⟨r1, r2, r3, r4, r5⟩ := k2 c1 h
      rw [hkids _ r1, hdir2]
      exact ⟨hsub _ r1, r2, r3, r4, r5⟩
    by_cases hd : is_dir s.heap sts = true
    · rw [if_pos hd] at f10
      rcases List.mem_cons.mp (f10.mem_iff.mp hc1) with h | h
      · rw [h]
        have hlen := (inv.wf.arr sts p8 hd).2.1
        have hec : (s.heap sts).entry_count > 0 := by
          unfold is_dir at hd
          simp only [Bool.and_eq_true, decide_eq_true_eq] at hd
          exact hd.2
        refine ⟨?_, by rw [hdir2]; exact hd, ?_, ?_, ?_⟩
        · rw [hsv]
          exact List.mem_append_right _ (List.mem_singleton_self _)
        · show 0 < (kids s2.heap sts).length
          rw [f8.length_eq]
          omega
        · intro e he
          simp at he
        · intro e he
          simp only [List.drop_zero] at he
          exact hfresh e (f8.mem_iff.mp he) hd
      · exact hold h
    · rw [if_neg hd] at f10
      exact hold (f10.mem_iff.mp hc1)
  · intro d1 hd1 hdir hnot e he
    rw [hsv] at hd1
    rw [hdir2] at hdir
    rcases List.mem_append.mp hd1 with h | h
    · rw [hkids d1 h] at he
      refine k3 d1 h hdir ?_ e he
      intro hm
      apply hnot
      by_cases hd : is_dir s.heap sts = true
      · rw [if_pos hd] at f10
        exact (f10.map Cursor.dir).mem_iff.mpr (List.mem_cons_of_mem _ hm)
      · rw [if_neg hd] at f10
        exact (f10.map Cursor.dir).mem_iff.mpr hm
    · have hds : d1 = sts := by simpa using h
      rw [hds] at hdir hnot
      exfalso
      apply hnot
      rw [if_pos hdir] at f10
      exact (f10.map Cursor.dir).mem_iff.mpr (by simp)
  · intro i hi
    rw [f1] at hi ⊢
    rw [List.length_append, List.length_singleton] at hi
    by_cases hil : i < s.saved.length
    · rw [(getD_append_one s.saved _ i).1 hil]
      have hm := getD_mem_map s.saved i hil
      have : (s.saved.getD i default).1 ≠ sts := fun h => p12 (h ▸ hm)
      rw [f5 _ this]
      exact inv.fidx i hil
    · have : i = s.saved.length := by omega
      rw [this, (getD_append_one s.saved _ 0).2]
      show (s2.heap sts).file_index = _
      rw [f7, hu]
  · constructor
    · rw [f1]
      have h := inv.pidx.1
      cases hsv0 : s.saved with
      | nil =>
        rw [hsv0] at h
        cases h
      | cons a l =>
        rw [hsv0] at h
        exact h
    · intro i hi0 hi
      rw [f1] at hi ⊢
      rw [List.length_append, List.length_singleton] at hi
      by_cases hil : i < s.saved.length
      · obtain ⟨j, hj, g1, g2⟩ := inv.pidx.2 i hi0 hil
        refine ⟨j, hj, ?_, ?_⟩
        · rw [(getD_append_one s.saved _ i).1 hil, (getD_append_one s.saved _ j).1 (by omega),
            (hst _).2.2.1]
          exact g1
        · rw [(getD_append_one s.saved _ i).1 hil]
          exact g2
      · have hie : i = s.saved.length := by omega
        obtain ⟨j, hj, hjd⟩ := mem_map_getD s.saved c.dir p2
        refine ⟨j, by omega, ?_, ?_⟩
        · rw [hie, (getD_append_one s.saved _ 0).2, (getD_append_one s.saved _ j).1 hj, hjd]
          show (s2.heap sts).parent = _
          rw [(hst sts).2.2.1]
          exact p9
        · rw [hie, (getD_append_one s.saved _ 0).2]
          show (s.heap c.dir).file_index = _
          rw [← hjd]
          exact inv.fidx j hj
  · rw [f2, hu, f1]
    simp

theorem output_step_inv (x : OutputExt) (env : OutputEnv) (h0 : Heap) (root : Nat)
    (nodes done : List Nat) (s : OutState) (c : Cursor) (rest : List Cursor)
    (inv : OutInv h0 root nodes done s) (hdirs : s.directory = c :: rest)
    (hsort : SortSpec x.dir__sortbyinode) (hbound : nodes.length < 2 ^ 32)
    (hsave : ∀ n, env.save_status n = 0) :
    ∃ sts s2, output_step x env s c rest = Run.ret (0, s2) ∧
      OutInv h0 root nodes (done ++ [sts]) s2 ∧ sts ≠ root ∧ sts ∉ s.saved.map Prod.fst ∧
      s2.body = s.body ++ (if not_ignored h0 sts = true
        then x.ops__save_1entry (h0 sts) (s.heap c.dir).file_index else []) ∧
      s2.saved = s.saved ++ (if not_ignored h0 sts = true
        then [(sts, (s.heap c.dir).file_index)] else []) ∧
      s2.alloc_dir ≤ max s.alloc_dir (2 * nodes.length) ∧
      s2.string_space = (if not_ignored h0 sts = true
        then u32 (s.string_space + u32 ((h0 sts).name.length + 1)) else s.string_space) ∧
      (s2.alloc_dir = s.alloc_dir ∨
        (s.alloc_dir < nodes.length ∧ s2.alloc_dir = s.alloc_dir * 2)) ∧
      s2.max_path_len = (if not_ignored h0 sts = true
        then max s.max_path_len (s2.heap sts).path_len else s.max_path_len) ∧
      (∀ q, q ≠ sts → s2.heap q = s.heap q) := by
  obtain ⟨p1, p2, p3, p4, p5, p6, p7, p8, p9, p10, p11, p12, p13, p14⟩ :=
    pop_facts h0 root nodes done s c rest inv hdirs
  obtain ⟨dir1, ha, hperm⟩ := output_advance_spec x s.heap c.dir c.pos rest p4 p5
  have hlen2 : dir1.length < nodes.length := by
    obtain ⟨k1, k2, _⟩ := cursor_step h0 root nodes done s c rest dir1 inv hdirs hperm
    have hnot : (kids s.heap c.dir).getD c.pos 0 ∉ dir1.map Cursor.dir := by
      intro he
      obtain ⟨c1, hc1, hc2⟩ := List.mem_map.mp he
      rw [← hc2] at p12
      exact p12 (k2 c1 hc1).1
    have hsub : ((kids s.heap c.dir).getD c.pos 0 :: dir1.map Cursor.dir) ⊆ nodes := by
      intro e he
      rcases List.mem_cons.mp he with h | h
      · rw [h]
        exact p8
      · obtain ⟨c1, hc1, hc2⟩ := List.mem_map.mp h
        rw [← hc2]
        exact saved_nodes h0 root nodes done s inv _ (k2 c1 hc1).1
    have := (List.subperm_of_subset (List.nodup_cons.mpr ⟨hnot, k1⟩) hsub).length_le
    simp only [List.length_cons, List.length_map] at this
    omega
  have hlen : dir1.length ≤ nodes.length := by
    obtain ⟨k1, k2, _⟩ := cursor_step h0 root nodes done s c rest dir1 inv hdirs hperm
    have hsub : dir1.map Cursor.dir ⊆ nodes := by
      intro e he
      obtain ⟨c1, hc1, hc2⟩ := List.mem_map.mp he
      rw [← hc2]
      exact saved_nodes h0 root nodes done s inv _ (k2 c1 hc1).1
    have := (List.subperm_of_subset k1 hsub).length_le
    simpa using this
  have hfr : s.heap ((kids s.heap c.dir).getD c.pos 0) = h0 ((kids s.heap c.dir).getD c.pos 0) :=
    inv.frame _ p12
  refine ⟨(kids s.heap c.dir).getD c.pos 0, ?_⟩
  unfold output_step
  have hc : c = ⟨c.dir, c.pos⟩ := rfl
  rw [hc, ha]
  simp only []
  by_cases hign : (s.heap ((kids s.heap c.dir).getD c.pos 0)).entry_type
      = entry_type_t.FT_IGNORE
  · rw [if_pos hign]
    have hni : not_ignored h0 ((kids s.heap c.dir).getD c.pos 0) = false := by
      unfold not_ignored
      rw [← hfr]
      simpa using hign
    refine ⟨_, rfl, inv_ignored h0 root nodes done s c rest dir1 inv hdirs hperm hign,
      p11, p12, ?_, ?_, le_max_left _ _, ?_, Or.inl rfl, ?_, fun _ _ => rfl⟩
    · rw [hni]
      simp
    · rw [hni]
      simp
    · rw [hni]
      simp
    · rw [hni]
      simp
  · rw [if_neg hign, p9]
    simp only [hsave, ne_eq, not_true_eq_false, if_false]
    have hni : not_ignored h0 ((kids s.heap c.dir).getD c.pos 0) = true := by
      unfold not_ignored
      rw [← hfr]
      simpa using hign
    obtain ⟨s2, e0, f1, f2, f3, f4, f5, f6, f7, f8, f9, f10, f11, f12, f13⟩ :=
      output_count_spec x s ((kids s.heap c.dir).getD c.pos 0) dir1 (s.heap c.dir).file_index
        hsort (fun hd => (inv.wf.arr _ p8 hd).1)
    rw [e0]
    have hal3 : s2.alloc_dir = s.alloc_dir ∨
        (s.alloc_dir < nodes.length ∧ s2.alloc_dir = s.alloc_dir * 2) := by
      rcases f11 with h | ⟨h1, h2⟩
      · exact Or.inl h
      · exact Or.inr ⟨by omega, h2⟩
    have hmp3 : s2.max_path_len = (if not_ignored h0 ((kids s.heap c.dir).getD c.pos 0) = true
        then max s.max_path_len (s2.heap ((kids s.heap c.dir).getD c.pos 0)).path_len
        else s.max_path_len) := by
      rw [hni, if_pos rfl]
      exact f13
    refine ⟨s2, rfl, inv_saved h0 root nodes done s s2 c rest dir1 inv hdirs hbound hperm hign
      f1 f2 f5 f6 f7 f8 f9 f10 f12, p11, p12, ?_, ?_, ?_, ?_, hal3, hmp3, f5⟩
    rotate_right
    · rw [hni, if_pos rfl, f4, hfr]
    · rw [hni, if_pos rfl, f3, hfr]
    · rw [hni, if_pos rfl, f1]
    · rcases f11 with h | ⟨h1, h2⟩
      · rw [h]
        exact le_max_left _ _
      · rw [h2]
        exact le_trans (by omega) (le_max_right _ _)

theorem out_records_append (x : OutputExt) (h1 : Heap) (l1 l2 : List (Nat × Nat)) :
    out_records x h1 (l1 ++ l2) = out_records x h1 l1 ++ out_records x h1 l2 := by
  unfold out_records
  rw [List.flatMap_append]

theorem out_max_path_congr (h1 h2 : Heap) (saved : List (Nat × Nat))
    (h : ∀ p ∈ saved, h2 p.1 = h1 p.1) : out_max_path h2 saved = out_max_path h1 saved := by
  unfold out_max_path
  congr 1
  apply List.map_congr_left
  intro p hp
  rw [h p hp]

theorem foldr_max_snoc (l : List Nat) (a : Nat) :
    (l ++ [a]).foldr max 0 = max (l.foldr max 0) a := by
  induction l with
  | nil => simp
  | cons b l ih =>
    rw [List.cons_append, List.foldr_cons, ih, List.foldr_cons, max_assoc]

theorem out_max_path_snoc (h1 : Heap) (saved : List (Nat × Nat)) (p : Nat × Nat) :
    out_max_path h1 (saved ++ [p]) = max (out_max_path h1 saved) (h1 p.1).path_len := by
  unfold out_max_path
  rw [List.map_append, List.map_singleton, foldr_max_snoc]

theorem out_strings_append (h1 : Heap) (l1 l2 : List (Nat × Nat)) :
    out_strings h1 (l1 ++ l2) = out_strings h1 l1 + out_strings h1 l2 := by
  unfold out_strings
  rw [List.map_append, List.sum_append]

theorem output_loop_inv (x : OutputExt) (env : OutputEnv) (h0 h1 : Heap) (root : Nat)
    (nodes : List Nat) (hsort : SortSpec x.dir__sortbyinode) (hbound : nodes.length < 2 ^ 32)
    (hsave : ∀ n, env.save_status n = 0) (hh1 : ∀ q, q ≠ root → h1 q = h0 q) :
    ∀ (fuel : Nat) (done : List Nat) (s : OutState), OutInv h0 root nodes done s →
      nodes.length ≤ fuel + done.length + 1 →
      ∃ done2 s2, output_loop x env fuel s = Run.ret (0, s2) ∧
        OutInv h0 root nodes done2 s2 ∧ s2.directory = [] ∧
        s2.alloc_dir ≤ max s.alloc_dir (2 * nodes.length) ∧
        (s.body = out_records x h1 s.saved → s2.body = out_records x h1 s2.saved) ∧
        (u32 (s.string_space + 1) = u32 (out_strings h1 s.saved) →
          u32 (s2.string_space + 1) = u32 (out_strings h1 s2.saved)) ∧
        (nodes.length ≤ 1024 → s.alloc_dir = 1024 → s2.alloc_dir = 1024) ∧
        (s.max_path_len = out_max_path s.heap s.saved →
          s2.max_path_len = out_max_path s2.heap s2.saved) := by
  intro fuel
  induction fuel with
  | zero =>
    intro done s inv hf
    cases hd : s.directory with
    | nil =>
      refine ⟨done, s, ?_, inv, hd, le_max_left _ _, id, id, fun _ h => h, id⟩
      unfold output_loop
      rw [hd]
    | cons c rest =>
      obtain ⟨p1, p2, p3, p4, p5, p6, p7, p8, p9, p10, p11, p12, p13, p14⟩ :=
        pop_facts h0 root nodes done s c rest inv hd
      have := done_length_pop h0 root nodes done s inv _ p8 p10 p11
      omega
  | succ fuel ih =>
    intro done s inv hf
    cases hd : s.directory with
    | nil =>
      refine ⟨done, s, ?_, inv, hd, le_max_left _ _, id, id, fun _ h => h, id⟩
      unfold output_loop
      rw [hd]
    | cons c rest =>
      obtain ⟨sts, s1, e1, inv1, hne, hns, hb, hs, ha, hstr, hal, hmp, hoth⟩ :=
        output_step_inv x env h0 root nodes done s c rest inv hd hsort hbound hsave
      obtain ⟨done2, s2, e2, inv2, hd2, ha2, hb2, hs2, hal2, hmp2⟩ :=
        ih (done ++ [sts]) s1 inv1 (by
          rw [List.length_append, List.length_singleton]
          omega)
      have halloc : nodes.length ≤ 1024 → s.alloc_dir = 1024 → s2.alloc_dir = 1024 := by
        intro hn h0a
        apply hal2 hn
        rcases hal with h | ⟨h1, _⟩
        · rw [h]
          exact h0a
        · omega
      have hmpath : s.max_path_len = out_max_path s.heap s.saved →
          s2.max_path_len = out_max_path s2.heap s2.saved := by
        intro hm
        apply hmp2
        have hold : out_max_path s1.heap s.saved = out_max_path s.heap s.saved := by
          apply out_max_path_congr
          intro p hp
          apply hoth
          intro hps
          exact hns (hps ▸ List.mem_map_of_mem Prod.fst hp)
        rw [hmp, hs]
        by_cases hni : not_ignored h0 sts = true
        · rw [if_pos hni, if_pos hni, out_max_path_snoc, hold, hm]
        · rw [if_neg hni, if_neg hni, List.append_nil, hold, hm]
      refine ⟨done2, s2, ?_, inv2, hd2, ?_, ?_, ?_, halloc, hmpath⟩
      rotate_right
      · intro hss
        apply hs2
        rw [hstr, hs, out_strings_append]
        by_cases hni : not_ignored h0 sts = true
        · rw [if_pos hni, if_pos hni]
          have h1s : out_strings h1 [(sts, (s.heap c.dir).file_index)]
              = (h0 sts).name.length + 1 := by
            unfold out_strings
            simp [hh1 sts hne]
          rw [h1s]
          unfold u32 at hss ⊢
          omega
        · rw [if_neg hni, if_neg hni]
          have h1s : out_strings h1 [] = 0 := rfl
          rw [h1s, Nat.add_zero]
          exact hss
      · unfold output_loop
        rw [hd]
        simp only [e1, if_true]
        exact e2
      · refine le_trans ha2 (max_le (le_trans ha (max_le (le_max_left _ _) (le_max_right _ _)))
          (le_max_right _ _))
      · intro hbody
        apply hb2
        rw [hb, hs, out_records_append, hbody]
        congr 1
        by_cases hni : not_ignored h0 sts = true
        · rw [if_pos hni, if_pos hni]
          unfold out_records
          simp [hh1 sts hne]
        · rw [if_neg hni, if_neg hni]
          rfl

theorem inv_init (h H : Heap) (root : Nat) (nodes : List Nat) (s : OutState)
    (wf : WellFormed h root nodes) (o : ∀ q, q ≠ root → H q = h q)
    (st : StaticEq (h root) (H root)) (kp : (kids H root).Perm (kids h root))
    (arr : is_dir h root = true → (H root).by_inode = (kids H root).map some ++ [none])
    (fi : (H root).file_index = 1)
    (hus : (h root).to_be_sorted = false → (H root).by_inode = (h root).by_inode)
    (hheap : s.heap = H) (hsaved : s.saved = [(root, 0)])
    (hcc : s.complete_count = 1)
    (hdir : s.directory = if is_dir h root = true then [⟨root, 0⟩] else []) :
    OutInv h root nodes [] s := by
  have hwf2 : WellFormed H root nodes := wf_update h H root nodes root wf o st kp arr
  have hst : ∀ q, StaticEq (h q) (H q) := by
    intro q
    by_cases hq : q = root
    · rw [hq]
      exact st
    · rw [o q hq]
      exact static_refl _
  have hd : is_dir H root = is_dir h root := static_is_dir _ _ root (hst root)
  refine ⟨(by rw [hheap]; exact hwf2), (by rw [hheap]; exact hst), ?_, ?_, List.nodup_nil,
    (fun _ he => by cases he), (by rw [hsaved]; rfl), (fun _ he => by cases he), ?_, ?_, ?_,
    ?_, ?_, (by rw [hcc, hsaved]; rfl), ?_, ?_, ?_⟩
  rotate_right 3
  · intro c hc
    simp only [List.filter_nil]
    symm
    rw [List.take_eq_nil_iff]
    left
    rw [hdir] at hc
    by_cases hdr : is_dir h root = true
    · rw [if_pos hdr] at hc
      have hc1 : c = ⟨root, 0⟩ := by simpa using hc
      rw [hc1]
    · rw [if_neg hdr] at hc
      cases hc
  · intro d hd1 hdd hnot
    rw [hsaved] at hd1
    have hdr : d = root := by simpa using hd1
    rw [hdr, hheap, hd] at hdd
    rw [hdir, if_pos hdd, hdr] at hnot
    simp at hnot
  · intro q hq
    rw [hheap]
    by_cases hqr : q = root
    · rw [hqr] at hq ⊢
      exact hus hq
    · rw [o q hqr]
  · intro q
    rw [hheap]
    by_cases hq : q = root
    · rw [hq]
      exact kp
    · have : kids H q = kids h q := by
        unfold kids
        rw [o q hq]
      rw [this]
  · intro q hq
    rw [hsaved] at hq
    rw [hheap]
    exact o q (by simpa using hq)
  · rw [hdir]
    split_ifs
    · simp
    · simp
  · intro c hc
    rw [hdir] at hc
    by_cases hdr : is_dir h root = true
    · rw [if_pos hdr] at hc
      have hc1 : c = ⟨root, 0⟩ := by simpa using hc
      rw [hc1, hheap, hsaved]
      have hl := (hwf2.arr root wf.root_mem (by rw [hd]; exact hdr)).2.1
      have hec : (H root).entry_count > 0 := by
        have := hdr
        rw [← hd] at this
        unfold is_dir at this
        simp only [Bool.and_eq_true, decide_eq_true_eq] at this
        exact this.2
      refine ⟨by simp, by rw [hd]; exact hdr, ?_, ?_, ?_⟩
      · show 0 < (kids H root).length
        omega
      · intro e he
        simp at he
      · intro e _ he
        cases he
    · rw [if_neg hdr] at hc
      cases hc
  · intro d hd1 hdd hnot e _
    rw [hsaved] at hd1
    have hdr : d = root := by simpa using hd1
    rw [hdr, hheap, hd] at hdd
    rw [hdir, if_pos hdd, hdr] at hnot
    simp at hnot
  · intro i hi
    rw [hsaved] at hi ⊢
    have : i = 0 := by simpa using hi
    rw [this, hheap]
    exact fi
  · rw [hsaved]
    refine ⟨rfl, ?_⟩
    intro i h1 h2
    simp at h2
    omega

theorem waa__close_total (env : CloseEnv) (files : Files) (fd : Int)
    (target : waa___temp_names_t) (st : Int) (hsep : PATH_SEPARATOR ∈ target.dest_name) :
    ∃ cr, waa__close env files fd target st = Run.ret cr := by
  obtain ⟨cp, hcp⟩ := strrchr_isSome_of_mem _ _ hsep
  unfold waa__close
  simp only [hcp]
  split_ifs <;> (repeat' split) <;> exact ⟨_, rfl⟩

theorem output_ex_ret (env : OutputEnv) (files : Files) (status : Int) (content : List Nat)
    (s : OutState) (header : List Nat) (hsep : PATH_SEPARATOR ∈ env.target.dest_name) :
    ∃ r, output_ex env files status content s header = Run.ret r ∧ r.heap = s.heap ∧
      r.saved = s.saved ∧ r.header = header ∧ r.max_path_len = s.max_path_len := by
  obtain ⟨cr, hcr⟩ := waa__close_total env.close_env
    (Function.update files env.target.temp_name (some content)) env.fd env.target status hsep
  unfold output_ex
  simp only [hcr]
  exact ⟨_, rfl, rfl, rfl, rfl, rfl⟩

theorem output_save_header_ret (k : Consts) (env : OutputEnv) (files : Files) (s : OutState)
    (hsep : PATH_SEPARATOR ∈ env.target.dest_name)
    (hfit : (fmt_header k.WAA_VERSION k.HEADER_LEN s.complete_count s.alloc_dir
      (u32 (s.string_space + 4)) (u32 (s.max_path_len + 4))).length < k.HEADER_LEN - 1) :
    ∃ r, output_save_header k env files s = Run.ret r ∧ r.heap = s.heap ∧
      r.saved = s.saved ∧
      r.header = header_final k (fmt_header k.WAA_VERSION k.HEADER_LEN s.complete_count
        s.alloc_dir (u32 (s.string_space + 4)) (u32 (s.max_path_len + 4))) ∧
      r.max_path_len = s.max_path_len := by
  unfold output_save_header
  have : ¬ ((fmt_header k.WAA_VERSION k.HEADER_LEN s.complete_count s.alloc_dir
      (u32 (s.string_space + 4)) (u32 (s.max_path_len + 4))).length ≥ k.HEADER_LEN - 1) := by
    omega
  simp only [this, if_false]
  cases env.lseek_ret with
  | some e => exact output_ex_ret env files e _ s _ hsep
  | none =>
    cases env.write_header with
    | some e => exact output_ex_ret env files e _ s _ hsep
    | none => exact output_ex_ret env files 0 _ s _ hsep

theorem output_tree_core (k : Consts) (x : OutputExt) (env : OutputEnv) (fuel : Nat)
    (files : Files) (h : Heap) (mpl root : Nat) (nodes : List Nat)
    (wf : WellFormed h root nodes) (hsort : SortSpec x.dir__sortbyinode)
    (hbound : nodes.length < 2 ^ 30) (hopen : env.open_status = 0)
    (hwp : env.write_placeholder = none) (hsave : ∀ n, env.save_status n = 0)
    (hfuel : nodes.length ≤ fuel + 1) :
    ∃ done s, waa__output_tree k x env fuel files h mpl root
        = output_save_header k env files s ∧
      OutInv h root nodes done s ∧ s.directory = [] ∧
      s.body = out_records x (h.set root { h root with url := none }) s.saved ∧
      s.alloc_dir < 2 ^ 32 ∧
      u32 (s.string_space + 1)
        = u32 (out_strings (h.set root { h root with url := none }) s.saved) ∧
      (nodes.length ≤ 1024 → s.alloc_dir = 1024) ∧
      s.max_path_len = out_max_path s.heap s.saved := by
  -- the heap after the root is written
  obtain ⟨h3, hh3, e3, o3⟩ : ∃ h3 : Heap,
      h3 = (((h.set root { h root with url := none }).set root
          { (h.set root { h root with url := none }) root with file_index := 1 }).set root
          { ((h.set root { h root with url := none }).set root
              { (h.set root { h root with url := none }) root with file_index := 1 }) root with
            path_len := u32 (((h.set root { h root with url := none }).set root
              { (h.set root { h root with url := none }) root with
                file_index := 1 }) root).name.length }) ∧
      h3 root = { h root with url := none, file_index := 1, path_len := (h3 root).path_len } ∧
      ∀ q, q ≠ root → h3 q = h q := by
    refine ⟨_, rfl, ?_, ?_⟩
    · rw [Heap.set_same, Heap.set_same, Heap.set_same]
    · intro q hq
      rw [Heap.set_other _ _ _ _ hq, Heap.set_other _ _ _ _ hq, Heap.set_other _ _ _ _ hq]
  have hst3 : StaticEq (h root) (h3 root) := by
    rw [e3]
    exact ⟨rfl, rfl, rfl, rfl, rfl⟩
  have hk3 : kids h3 root = kids h root := by
    unfold kids
    rw [e3]
  have hfi3 : (h3 root).file_index = 1 := by
    rw [e3]
  have hby3 : (h3 root).by_inode = (h root).by_inode := by
    rw [e3]
  have hrec : x.ops__save_1entry ((h.set root { h root with url := none }) root) 0
      = out_records x (h.set root { h root with url := none }) [(root, 0)] := by
    unfold out_records
    simp
  have hstr : u32 (u32 (((h.set root { h root with url := none }).set root
        { (h.set root { h root with url := none }) root with
          file_index := 1 }) root).name.length + 1)
      = u32 (out_strings (h.set root { h root with url := none }) [(root, 0)]) := by
    unfold out_strings
    simp only [List.map_cons, List.map_nil, List.sum_cons, List.sum_nil, Heap.set_same]
    unfold u32
    omega
  unfold waa__output_tree
  simp only [hopen, hwp, hsave, ne_eq, not_true_eq_false, if_false]
  rw [← hh3]
  by_cases hec : (h3 root).entry_count = 0
  · rw [if_pos hec]
    have hnd : ¬ (is_dir h root = true) := by
      unfold is_dir
      rw [← hst3.2.1, hec]
      simp
    have inv := inv_init h h3 root nodes
      ⟨h3, [], 1024, 1, u32 (((h.set root { h root with url := none }).set root
          { (h.set root { h root with url := none }) root with
            file_index := 1 }) root).name.length, (h3 root).path_len,
        x.ops__save_1entry ((h.set root { h root with url := none }) root) 0, [(root, 0)]⟩
      wf o3 hst3 (by rw [hk3]) (fun hd => absurd hd hnd) hfi3 (fun _ => hby3) rfl rfl rfl
      (by rw [if_neg hnd])
    refine ⟨[], _, rfl, inv, rfl, hrec, by norm_num, hstr, fun _ => rfl, ?_⟩
    show (h3 root).path_len = max (h3 root).path_len 0
    rw [Nat.max_zero]
  · rw [if_neg hec]
    have hdr : is_dir h root = true := by
      unfold is_dir
      rw [wf.root_dir, ← hst3.2.1]
      simp
      omega
    have harr := (wf.arr root wf.root_mem hdr).1
    -- the heap after the sort
    obtain ⟨h4, hh4, e4, o4, k4, a4, f4⟩ : ∃ h4 : Heap,
        h4 = (if (h3 root).to_be_sorted = true then x.dir__sortbyinode h3 root else h3) ∧
        StaticEq (h3 root) (h4 root) ∧ (∀ q, q ≠ root → h4 q = h3 q) ∧
        (kids h4 root).Perm (kids h3 root) ∧
        (h4 root).by_inode = (kids h4 root).map some ++ [none] ∧
        (h4 root).file_index = (h3 root).file_index ∧
        (h4 root).path_len = (h3 root).path_len := by
      have harr3 : (h3 root).by_inode = (kids h3 root).map some ++ [none] := by
        rw [hby3, hk3]
        exact harr
      by_cases hts : (h3 root).to_be_sorted = true
      · rw [if_pos hts]
        obtain ⟨g1, g2⟩ := hsort h3 root
        obtain ⟨ks, hp, hs⟩ := g2 harr3
        have hks : kids (x.dir__sortbyinode h3 root) root = ks :=
          kids_of_array _ _ _ (by rw [hs])
        refine ⟨_, rfl, ?_, g1, ?_, ?_, ?_, ?_⟩
        · rw [hs]
          exact ⟨rfl, rfl, rfl, rfl, rfl⟩
        · rw [hks]
          exact hp
        · rw [hks, hs]
        · rw [hs]
        · rw [hs]
      · rw [if_neg hts]
        exact ⟨_, rfl, ⟨rfl, rfl, rfl, rfl, rfl⟩, fun _ _ => rfl, List.Perm.refl _, harr3, rfl,
          rfl⟩
    rw [← hh4]
    have inv := inv_init h h4 root nodes
      ⟨h4, [⟨root, 0⟩], 1024, 1, u32 (((h.set root { h root with url := none }).set root
          { (h.set root { h root with url := none }) root with
            file_index := 1 }) root).name.length, (h3 root).path_len,
        x.ops__save_1entry ((h.set root { h root with url := none }) root) 0, [(root, 0)]⟩
      wf (fun q hq => (o4 q hq).trans (o3 q hq)) (static_trans _ _ _ hst3 e4)
      (by rw [← hk3]; exact k4) (fun _ => a4) (by rw [f4.1, hfi3])
      (by
        intro hts
        have hts3 : ¬ ((h3 root).to_be_sorted = true) := by
          rw [e3]
          simp [hts]
        rw [hh4, if_neg hts3]
        exact hby3) rfl rfl rfl
      (by rw [if_pos hdr])
    obtain ⟨done2, s2, e2, inv2, hd2, ha2, hb2, hs2, hal2, hmp2⟩ := output_loop_inv x env h
      (h.set root { h root with url := none }) root nodes hsort
      (lt_trans hbound (by norm_num)) hsave
      (fun q hq => Heap.set_other _ _ _ _ hq) fuel [] _ inv (by simpa using hfuel)
    simp only [e2, if_true]
    have hal : s2.alloc_dir < 2 ^ 32 := by
      have h1 : s2.alloc_dir ≤ max 1024 (2 * nodes.length) := ha2
      have h2 : max 1024 (2 * nodes.length) < 2 ^ 32 := by
        apply max_lt
        · norm_num
        · omega
      omega
    refine ⟨done2, s2, rfl, inv2, hd2, hb2 hrec, hal, hs2 hstr, fun hn => hal2 hn rfl, hmp2 ?_⟩
    show (h3 root).path_len = max (h4 root).path_len 0
    rw [Nat.max_zero, f4.2]

theorem output_tree_run (k : Consts) (x : OutputExt) (env : OutputEnv) (fuel : Nat)
    (files : Files) (h : Heap) (mpl root : Nat) (nodes : List Nat)
    (wf : WellFormed h root nodes) (hsort : SortSpec x.dir__sortbyinode)
    (hbound : nodes.length < 2 ^ 30) (hopen : env.open_status = 0)
    (hwp : env.write_placeholder = none) (hsave : ∀ n, env.save_status n = 0)
    (hfuel : nodes.length ≤ fuel + 1)
    (hfit : ∀ c a ss mp : Nat, c < 2 ^ 32 → a < 2 ^ 32 →
      (fmt_header k.WAA_VERSION k.HEADER_LEN c a (u32 ss) (u32 mp)).length
        < k.HEADER_LEN - 1)
    (hsep : PATH_SEPARATOR ∈ env.target.dest_name) :
    ∃ r done s, waa__output_tree k x env fuel files h mpl root = Run.ret r ∧
      OutInv h root nodes done s ∧ s.directory = [] ∧ r.heap = s.heap ∧
      r.saved = s.saved ∧
      s.body = out_records x (h.set root { h root with url := none }) s.saved ∧
      r.header = header_final k (fmt_header k.WAA_VERSION k.HEADER_LEN s.saved.length
        s.alloc_dir (u32 (s.string_space + 4)) (u32 (s.max_path_len + 4))) ∧
      s.alloc_dir < 2 ^ 32 ∧
      u32 (s.string_space + 1)
        = u32 (out_strings (h.set root { h root with url := none }) s.saved) ∧
      (nodes.length ≤ 1024 → s.alloc_dir = 1024) ∧
      s.max_path_len = out_max_path s.heap s.saved := by
  obtain ⟨done, s, hrun, inv, hd, hb, hal, hss, h1024, hmpl⟩ :=
    output_tree_core k x env fuel files h mpl root
    nodes wf hsort hbound hopen hwp hsave hfuel
  have hcc : s.complete_count < 2 ^ 32 := by
    rw [inv.cc]
    have := saved_length h root nodes done s inv
    have := done_length h root nodes done s inv
    omega
  obtain ⟨r, hr, r1, r2, r3, _⟩ := output_save_header_ret k env files s hsep
    (hfit _ _ _ _ hcc hal)
  rw [inv.cc] at r3
  rw [hrun]
  exact ⟨r, done, s, hr, inv, hd, r1, r2, hb, r3, hal, hss, h1024, hmpl⟩


theorem reach_nodes (h : Heap) (root : Nat) (nodes : List Nat) (wf : WellFormed h root nodes)
    (e : Nat) (hr : Reach h root e) : e ∈ nodes := by
  induction hr with
  | root => exact wf.root_mem
  | child d c _ hd hc _ ih => exact ((wf.arr d ih hd).2.2.2 c hc).1

theorem reach_parent (h : Heap) (root : Nat) (nodes : List Nat) (wf : WellFormed h root nodes)
    (e : Nat) (hr : Reach h root e) (hne : e ≠ root) :
    not_ignored h e = true ∧ ∃ d, (h e).parent = some d ∧ Reach h root d := by
  cases hr with
  | root => exact absurd rfl hne
  | child d c hd hdir hc hni =>
    exact ⟨hni, d, ((wf.arr d (reach_nodes h root nodes wf d hd) hdir).2.2.2 e hc).2, hd⟩

theorem saved_reach (h0 : Heap) (root : Nat) (nodes done : List Nat) (s : OutState)
    (inv : OutInv h0 root nodes done s) (hdir : s.directory = []) :
    ∀ e, e ∈ done.filter (not_ignored h0) ↔ e ≠ root ∧ Reach h0 root e := by
  have hroot := root_not_done h0 root nodes done s inv
  -- every entry written is reachable
  have hidx : ∀ n i, i < n → i < s.saved.length → Reach h0 root (s.saved.getD i default).1 := by
    intro n
    induction n with
    | zero =>
      intro i hi
      omega
    | succ n ih =>
      intro i hi hil
      by_cases hi0 : i = 0
      · have hh := inv.pidx.1
        rw [hi0]
        cases hsv : s.saved with
        | nil =>
          rw [hsv] at hh
          cases hh
        | cons a l =>
          rw [hsv] at hh
          have : a = (root, 0) := by simpa using hh
          rw [this]
          exact Reach.root
      · obtain ⟨j, hj, g1, _⟩ := inv.pidx.2 i (by omega) hil
        have hrd := ih j (by omega) (by omega)
        have hmem := getD_mem_map s.saved i hil
        generalize (s.saved.getD i default).1 = e at *
        generalize (s.saved.getD j default).1 = d at *
        have hne : e ≠ root := by
          intro he
          rw [he, inv.wf.root_parent] at g1
          cases g1
        rw [inv.saved_eq] at hmem
        have hf : e ∈ done.filter (not_ignored h0) := by
          rcases List.mem_cons.mp hmem with h | h
          · exact absurd h hne
          · exact h
        obtain ⟨hed, hni⟩ := List.mem_filter.mp hf
        obtain ⟨d1, m1, m2, m3⟩ := inv.done_kid e hed
        have hp := ((inv.wf.arr d1 (saved_nodes h0 root nodes done s inv d1 m1) m2).2.2.2 e m3).2
        rw [g1] at hp
        have hdd : d = d1 := Option.some.inj hp
        rw [← hdd] at m2 m3
        refine Reach.child d e hrd ?_ ((inv.kperm d).mem_iff.mp m3) hni
        rw [← static_is_dir h0 s.heap d (inv.static d)]
        exact m2
  intro e
  constructor
  · intro he
    have hed := (List.mem_filter.mp he).1
    refine ⟨fun h => hroot (h ▸ hed), ?_⟩
    have hm : e ∈ s.saved.map Prod.fst := by
      rw [inv.saved_eq]
      exact List.mem_cons_of_mem _ he
    obtain ⟨i, hi, hie⟩ := mem_map_getD s.saved e hm
    rw [← hie]
    exact hidx (i + 1) i (by omega) hi
  · intro ⟨hne, hr⟩
    have hall : ∀ e, Reach h0 root e → e ∈ s.saved.map Prod.fst := by
      intro e hr
      induction hr with
      | root =>
        rw [inv.saved_eq]
        exact List.mem_cons_self _ _
      | child d c _ hd hc hni ih =>
        have hd2 : is_dir s.heap d = true := by
          rw [static_is_dir h0 s.heap d (inv.static d)]
          exact hd
        have hcd := inv.fin d ih hd2 (by rw [hdir]; simp) c ((inv.kperm d).mem_iff.mpr hc)
        rw [inv.saved_eq]
        exact List.mem_cons_of_mem _ (List.mem_filter.mpr ⟨hcd, hni⟩)
    have := hall e hr
    rw [inv.saved_eq] at this
    rcases List.mem_cons.mp this with h | h
    · exact absurd h hne
    · exact h

theorem fmt_u_aux_length_le (f : Nat) : ∀ (n d : Nat) (acc : List Nat), n < 10 ^ (d + 1) →
    (fmt_u_aux f n acc).length ≤ acc.length + (d + 1) := by
  induction f with
  | zero =>
    intro n d acc _
    simp [fmt_u_aux]
  | succ f ih =>
    intro n d acc hn
    unfold fmt_u_aux
    by_cases h : n / 10 = 0
    · rw [if_pos h]
      simp
    · rw [if_neg h]
      cases d with
      | zero =>
        exfalso
        apply h
        have : n < 10 := by simpa using hn
        omega
      | succ d =>
        have h1 : n / 10 < 10 ^ (d + 1) := by
          rw [Nat.div_lt_iff_lt_mul (by norm_num)]
          rw [pow_succ] at hn
          exact hn
        have := ih (n / 10) d ((n % 10 + 48) :: acc) h1
        simp only [List.length_cons] at this
        omega

theorem fmt_u_length_le (n : Nat) (hn : n < 2 ^ 32) : (fmt_u n).length ≤ 10 := by
  have := fmt_u_aux_length_le (n + 1) n 9 [] (lt_trans hn (by norm_num))
  simpa [fmt_u] using this

theorem demo_fit (c a ss mp : Nat) (hc : c < 2 ^ 32) (ha : a < 2 ^ 32) :
    (fmt_header demo_consts.WAA_VERSION demo_consts.HEADER_LEN c a (u32 ss) (u32 mp)).length
      < demo_consts.HEADER_LEN - 1 := by
  have h1 := fmt_u_length_le c hc
  have h2 := fmt_u_length_le a ha
  have h3 := fmt_u_length_le (u32 ss) (Nat.mod_lt _ (by norm_num))
  have h4 := fmt_u_length_le (u32 mp) (Nat.mod_lt _ (by norm_num))
  have h5 : (fmt_u 1).length = 1 := by decide
  have h6 : (fmt_u 64).length = 2 := by decide
  show (fmt_header 1 64 c a (u32 ss) (u32 mp)).length < 64 - 1
  unfold fmt_header
  simp only [List.length_append, List.length_singleton, h5, h6]
  omega

theorem sort_id_spec : SortSpec (fun h _ => h) := by
  intro h d
  exact ⟨fun _ _ => rfl, fun harr => ⟨kids h d, List.Perm.refl _, by rw [← harr]⟩⟩

theorem demo_wf : WellFormed demo_heap 0 [0, 1, 2, 3] := by
  refine ⟨by decide, by decide, rfl, by decide, ?_⟩
  intro d hd hdir
  have hd4 : d = 0 ∨ d = 1 ∨ d = 2 ∨ d = 3 := by simpa using hd
  rcases hd4 with h | h | h | h
  · subst h
    exact ⟨by decide, by decide, by decide, by decide⟩
  · subst h
    exact absurd hdir (by decide)
  · subst h
    exact ⟨by decide, by decide, by decide, by decide⟩
  · subst h
    exact absurd hdir (by decide)

/-! ### The entries `waa__output_tree` writes -/

theorem out_summary_ret (run : Run OutResult) (ps : List Nat) (st : Int)
    (sv : List (Nat × Nat)) (fi : List Nat) (h : out_summary run ps = some (st, sv, fi)) :
    ∃ r, run = Run.ret r ∧ r.status = st ∧ r.saved = sv ∧
      ps.map (fun p => (r.heap p).file_index) = fi := by
  cases run with
  | ret r =>
    simp only [out_summary, Option.some.injEq, Prod.mk.injEq] at h
    exact ⟨r, rfl, h.1, h.2.1, h.2.2⟩
  | bug => cases h
  | fuel => cases h

theorem demo_out_run :
    out_summary (waa__output_tree demo_consts demo_out demo_out_env 4 demo_files demo_heap 0 0)
      [0, 1, 2, 3] = some (0, [(0, 0), (1, 1), (2, 1), (3, 3)], [1, 2, 3, 4]) := by
  decide!

/-- C1: on a well-formed entry tree (the root is a directory without parent;
the array `by_inode` of every directory with children is NULL-terminated and
lists its children, each once, whose `parent` points back), with fewer than
`2^30` entries, a header line that fits, and every write succeeding,
`waa__output_tree` returns; the first call of `ops__save_1entry` is for the
root with parent index `0`, and the root gets `file_index` 1; the `i`-th entry
written (counting from 0) gets `file_index` `i+1`; and every other entry is
written with the `file_index` of its parent, which was written before it, so
that this index is at least 1 and smaller than the `file_index` of the entry
itself. -/
theorem output_tree_parent_first (k : Consts) (x : OutputExt) (env : OutputEnv) (fuel : Nat)
    (files : Files) (h : Heap) (mpl root : Nat) (nodes : List Nat)
    (wf : WellFormed h root nodes) (hsort : SortSpec x.dir__sortbyinode)
    (hbound : nodes.length < 2 ^ 30) (hopen : env.open_status = 0)
    (hwp : env.write_placeholder = none) (hsave : ∀ n, env.save_status n = 0)
    (hfuel : nodes.length ≤ fuel + 1)
    (hfit : ∀ c a ss mp : Nat, c < 2 ^ 32 → a < 2 ^ 32 →
      (fmt_header k.WAA_VERSION k.HEADER_LEN c a (u32 ss) (u32 mp)).length
        < k.HEADER_LEN - 1)
    (hsep : PATH_SEPARATOR ∈ env.target.dest_name) :
    ∃ r, waa__output_tree k x env fuel files h mpl root = Run.ret r ∧
      r.saved.head? = some (root, 0) ∧ (r.heap root).file_index = 1 ∧
      (∀ i, i < r.saved.length → (r.heap (r.saved.getD i default).1).file_index = i + 1) ∧
      (∀ i, 0 < i → i < r.saved.length → ∃ par j,
        (h (r.saved.getD i default).1).parent = some par ∧
        j < i ∧ (r.saved.getD j default).1 = par ∧
        (r.saved.getD i default).2 = (r.heap par).file_index ∧
        1 ≤ (r.heap par).file_index ∧
        (r.heap par).file_index < (r.heap (r.saved.getD i default).1).file_index) := by
  obtain ⟨r, done, s, hr, inv, _, r1, r2, _, _, _, _⟩ := output_tree_run k x env fuel files h mpl root
    nodes wf hsort hbound hopen hwp hsave hfuel hfit hsep
  have hlen : 0 < s.saved.length := by
    have := inv.pidx.1
    cases hsv : s.saved with
    | nil =>
      rw [hsv] at this
      cases this
    | cons a l => simp
  have h0 : (s.saved.getD 0 default).1 = root := by
    have := inv.pidx.1
    cases hsv : s.saved with
    | nil =>
      rw [hsv] at this
      cases this
    | cons a l =>
      rw [hsv] at this
      have ha : a = (root, 0) := by simpa using this
      rw [ha]
      rfl
  refine ⟨r, hr, ?_, ?_, ?_, ?_⟩
  · rw [r2]
    exact inv.pidx.1
  · have := inv.fidx 0 hlen
    rw [h0] at this
    rw [r1]
    exact this
  · intro i hi
    rw [r2] at hi ⊢
    rw [r1]
    exact inv.fidx i hi
  · intro i hi0 hi
    rw [r2] at hi ⊢
    rw [r1]
    obtain ⟨j, hj, g1, g2⟩ := inv.pidx.2 i hi0 hi
    have hfj := inv.fidx j (by omega)
    have hfi := inv.fidx i hi
    refine ⟨(s.saved.getD j default).1, j, ?_, hj, rfl, ?_, ?_, ?_⟩
    · rw [← (inv.static _).2.2.1]
      exact g1
    · rw [g2, hfj]
    · rw [hfj]
      omega
    · rw [hfj, hfi]
      omega

/-- Example for C1: for the tree `/wc/{a, b/c}` (root `0`, `a` at `1`, `b` at
`2`, `c` at `3`) the entries are written in this order, `a` and `b` with the
parent index 1 and `c` with the parent index 3, the `file_index` of `b`. -/
theorem output_tree_parent_first_witness :
    ∃ r, waa__output_tree demo_consts demo_out demo_out_env 4 demo_files demo_heap 0 0
        = Run.ret r ∧
      r.saved = [(0, 0), (1, 1), (2, 1), (3, 3)] ∧ (r.heap 0).file_index = 1 ∧
      (r.heap (r.saved.getD 3 default).1).file_index = 4 ∧
      ∃ par, (demo_heap (r.saved.getD 3 default).1).parent = some par ∧
        (r.saved.getD 3 default).2 = (r.heap par).file_index := by
  obtain ⟨r, hr, _, h2, h3, h4⟩ := output_tree_parent_first demo_consts demo_out demo_out_env 4
    demo_files demo_heap 0 0 [0, 1, 2, 3] demo_wf sort_id_spec (by decide) rfl rfl
    (fun _ => rfl) (by decide) demo_fit (by decide)
  obtain ⟨r1, hr1, _, hs, _⟩ := out_summary_ret _ _ _ _ _ demo_out_run
  have hrr : r = r1 := Run.ret.inj (hr.symm.trans hr1)
  rw [← hrr] at hs
  have hl : 3 < r.saved.length := by
    rw [hs]
    decide
  obtain ⟨par, j, g1, _, _, g4, _⟩ := h4 3 (by decide) hl
  exact ⟨r, hr, hs, h2, h3 3 hl, par, g1, g4⟩

/-- C11: under the conditions of C1 `waa__output_tree` returns, and the third
field of the header line it writes is the number of calls of
`ops__save_1entry`, that is of records: one for the root, and one for each
entry other than the root that is reachable from the root through directories
(the test `S_ISDIR` and `entry_count > 0`) by children that are not marked
`FT_IGNORE`; no entry is written twice. -/
theorem output_tree_entry_count (k : Consts) (x : OutputExt) (env : OutputEnv) (fuel : Nat)
    (files : Files) (h : Heap) (mpl root : Nat) (nodes : List Nat)
    (wf : WellFormed h root nodes) (hsort : SortSpec x.dir__sortbyinode)
    (hbound : nodes.length < 2 ^ 30) (hopen : env.open_status = 0)
    (hwp : env.write_placeholder = none) (hsave : ∀ n, env.save_status n = 0)
    (hfuel : nodes.length ≤ fuel + 1)
    (hfit : ∀ c a ss mp : Nat, c < 2 ^ 32 → a < 2 ^ 32 →
      (fmt_header k.WAA_VERSION k.HEADER_LEN c a (u32 ss) (u32 mp)).length
        < k.HEADER_LEN - 1)
    (hsep : PATH_SEPARATOR ∈ env.target.dest_name) :
    ∃ (r : OutResult) (a ss mp : Nat) (l : List Nat),
      waa__output_tree k x env fuel files h mpl root = Run.ret r ∧
      r.header = fmt_header k.WAA_VERSION k.HEADER_LEN r.saved.length a ss mp ++
        List.replicate (k.HEADER_LEN - 2 -
          (fmt_header k.WAA_VERSION k.HEADER_LEN r.saved.length a ss mp).length) 32 ++
        [36, 10] ∧
      r.saved.map Prod.fst = root :: l ∧ r.saved.length = 1 + l.length ∧ l.Nodup ∧
      ∀ e, e ∈ l ↔ e ≠ root ∧ Reach h root e := by
  obtain ⟨r, done, s, hr, inv, hd, r1, r2, _, r4, r5, _⟩ := output_tree_run k x env fuel files h mpl
    root nodes wf hsort hbound hopen hwp hsave hfuel hfit hsep
  have hcc : s.saved.length < 2 ^ 32 := by
    have := saved_length h root nodes done s inv
    have := done_length h root nodes done s inv
    omega
  have h11 := fmt_header_length_ge k.WAA_VERSION k.HEADER_LEN s.saved.length s.alloc_dir
    (u32 (s.string_space + 4)) (u32 (s.max_path_len + 4))
  have hf := hfit s.saved.length s.alloc_dir (s.string_space + 4) (s.max_path_len + 4) hcc r5
  have hfe := header_final_eq k _ h11 hf
  have hiff := saved_reach h root nodes done s inv hd
  refine ⟨r, s.alloc_dir, u32 (s.string_space + 4), u32 (s.max_path_len + 4),
    done.filter (not_ignored h), hr, ?_, ?_, ?_, inv.done_nodup.filter _, hiff⟩
  · rw [r4, r2, hfe]
  · rw [r2]
    exact inv.saved_eq
  · have := congrArg List.length inv.saved_eq
    rw [List.length_map, List.length_cons] at this
    rw [r2, this]
    omega

/-- Example for C11: for the tree `/wc/{a, b/c}` four records are written
(root, `a`, `b`, `c`), and the third field of the header line is 4. -/
theorem output_tree_entry_count_witness :
    ∃ (r : OutResult) (a ss mp : Nat),
      waa__output_tree demo_consts demo_out demo_out_env 4 demo_files demo_heap 0 0
        = Run.ret r ∧
      r.saved.map Prod.fst = [0, 1, 2, 3] ∧
      r.header = fmt_header 1 64 4 a ss mp ++
        List.replicate (64 - 2 - (fmt_header 1 64 4 a ss mp).length) 32 ++ [36, 10] := by
  obtain ⟨r, a, ss, mp, l, hr, h1, _⟩ := output_tree_entry_count demo_consts demo_out
    demo_out_env 4 demo_files demo_heap 0 0 [0, 1, 2, 3] demo_wf sort_id_spec (by decide) rfl
    rfl (fun _ => rfl) (by decide) demo_fit (by decide)
  obtain ⟨r1, hr1, _, hs, _⟩ := out_summary_ret _ _ _ _ _ demo_out_run
  have hrr : r = r1 := Run.ret.inj (hr.symm.trans hr1)
  rw [← hrr] at hs
  have hl : r.saved.length = 4 := by
    rw [hs]
    rfl
  rw [hl] at h1
  exact ⟨r, a, ss, mp, hr, by rw [hs]; rfl, h1⟩

theorem reach_under (h : Heap) (root : Nat) (nodes : List Nat) (wf : WellFormed h root nodes)
    (a : Nat) (ha : a ≠ root) (e : Nat) (hu : Under h a e) :
    Reach h root e → not_ignored h a = true := by
  induction hu with
  | self =>
    intro hr
    exact (reach_parent h root nodes wf a hr ha).1
  | child c d _ hp ih =>
    intro hr
    have hne : c ≠ root := by
      intro hc
      rw [hc, wf.root_parent] at hp
      cases hp
    obtain ⟨_, d1, hp1, hr1⟩ := reach_parent h root nodes wf c hr hne
    rw [hp] at hp1
    have : d = d1 := Option.some.inj hp1
    rw [this] at ih
    exact ih hr1

theorem demo_b_ignored_wf : WellFormed demo_heap_b_ignored 0 [0, 1, 2, 3] := by
  refine ⟨by decide, by decide, rfl, by decide, ?_⟩
  intro d hd hdir
  have hd4 : d = 0 ∨ d = 1 ∨ d = 2 ∨ d = 3 := by simpa using hd
  rcases hd4 with h | h | h | h
  · subst h
    exact ⟨by decide, by decide, by decide, by decide⟩
  · subst h
    exact absurd hdir (by decide)
  · subst h
    exact ⟨by decide, by decide, by decide, by decide⟩
  · subst h
    exact absurd hdir (by decide)

theorem demo_b_ignored_run :
    out_summary (waa__output_tree demo_consts demo_out demo_out_env 4 demo_files
      demo_heap_b_ignored 0 0) [0, 1, 2, 3] = some (0, [(0, 0), (1, 1)], [1, 2, 0, 0]) := by
  decide!

/-- C12 (amended): in the loop of `waa__build_tree`, the iteration for a child
`sts` for which `ign__is_ignore` succeeds and sets `ignore` to a positive value
only stores `FT_IGNORE` in `sts->entry_type` and sets `have_ignored`: the loop
goes on with the next index, with `entry_status` of the child (so it is not
marked `FS_NEW`), the entries dispatched and `approx_entry_count` as they were.
And `waa__output_tree`, under the conditions of C1, returns, and for every
entry `a` other than the root that is marked `FT_IGNORE`, neither `a` nor any
entry below `a` is given to `ops__save_1entry`, and their `file_index` stays
as it was. (The root is written whatever its type.) -/
theorem ignored_not_written (ux : UpdateExt) (rec : Sys → Nat → Run (Int × Sys))
    (broot n i : Nat) (w : Sys) (hi : Bool) (hf sts : Nat)
    (hslot : (w.heap broot).by_inode.get? i = some (some sts))
    (hst : (ux.ign__is_ignore (w.heap sts)).1 = 0)
    (hig : (ux.ign__is_ignore (w.heap sts)).2 > 0)
    (k : Consts) (x : OutputExt) (env : OutputEnv) (fuel : Nat)
    (files : Files) (h : Heap) (mpl root : Nat) (nodes : List Nat)
    (wf : WellFormed h root nodes) (hsort : SortSpec x.dir__sortbyinode)
    (hbound : nodes.length < 2 ^ 30) (hopen : env.open_status = 0)
    (hwp : env.write_placeholder = none) (hsave : ∀ n, env.save_status n = 0)
    (hfuel : nodes.length ≤ fuel + 1)
    (hfit : ∀ c a ss mp : Nat, c < 2 ^ 32 → a < 2 ^ 32 →
      (fmt_header k.WAA_VERSION k.HEADER_LEN c a (u32 ss) (u32 mp)).length
        < k.HEADER_LEN - 1)
    (hsep : PATH_SEPARATOR ∈ env.target.dest_name) :
    (∃ w1, build_tree_loop ux rec broot (n + 1) i w hi hf
        = build_tree_loop ux rec broot n (i + 1) w1 true hf ∧
      (w1.heap sts).entry_type = entry_type_t.FT_IGNORE ∧
      (w1.heap sts).entry_status = (w.heap sts).entry_status ∧
      (∀ q, q ≠ sts → w1.heap q = w.heap q) ∧
      w1.dispatched = w.dispatched ∧ w1.approx_entry_count = w.approx_entry_count) ∧
    ∃ r, waa__output_tree k x env fuel files h mpl root = Run.ret r ∧
      ∀ a e, a ≠ root → (h a).entry_type = entry_type_t.FT_IGNORE → Under h a e →
        e ∉ r.saved.map Prod.fst ∧ (r.heap e).file_index = (h e).file_index := by
  constructor
  · refine ⟨{ w with heap := (w.heap.set sts
      { w.heap sts with entry_type := entry_type_t.FT_IGNORE }) }, ?_, ?_, ?_, ?_, rfl, rfl⟩
    · rw [build_tree_loop]
      simp only [hslot, hst, ne_eq, not_true_eq_false, if_false, hig, if_true]
    · show ((w.heap.set sts _) sts).entry_type = _
      rw [Heap.set_same]
    · show ((w.heap.set sts _) sts).entry_status = _
      rw [Heap.set_same]
    · intro q hq
      exact Heap.set_other _ _ _ _ hq
  · obtain ⟨r, done, s, hr, inv, hd, r1, r2, _, _, _, _⟩ := output_tree_run k x env fuel files h
      mpl root nodes wf hsort hbound hopen hwp hsave hfuel hfit hsep
    have hiff := saved_reach h root nodes done s inv hd
    refine ⟨r, hr, ?_⟩
    intro a e ha hign hu
    have hnr : ¬ Reach h root e := by
      intro hre
      have := reach_under h root nodes wf a ha e hu hre
      unfold not_ignored at this
      simp only [decide_eq_true_eq] at this
      exact this hign
    have hne : e ≠ root := fun he => hnr (he ▸ Reach.root)
    have hns : e ∉ s.saved.map Prod.fst := by
      rw [inv.saved_eq]
      intro hm
      rcases List.mem_cons.mp hm with h1 | h1
      · exact hne h1
      · exact hnr ((hiff e).mp h1).2
    rw [r1, r2]
    exact ⟨hns, by rw [inv.frame e hns]⟩

/-- Example for C12: with the pattern that matches `a`, the iteration for the
child `a` of `/wc` marks it and dispatches nothing; and of the tree
`/wc/{a, b/c}` with `b` marked `FT_IGNORE` only the root and `a` are
written, `b` and `c` keep the `file_index` 0. -/
theorem ignored_not_written_witness :
    (∃ w1, build_tree_loop demo_ign (waa__build_tree demo_ign 1) 0 1 0 demo_upd_sys false 0
        = build_tree_loop demo_ign (waa__build_tree demo_ign 1) 0 0 1 w1 true 0 ∧
      (w1.heap 1).entry_type = entry_type_t.FT_IGNORE ∧ w1.dispatched = [] ∧
      w1.approx_entry_count = 2) ∧
    ∃ r, waa__output_tree demo_consts demo_out demo_out_env 4 demo_files demo_heap_b_ignored 0 0
        = Run.ret r ∧
      r.saved = [(0, 0), (1, 1)] ∧ 2 ∉ r.saved.map Prod.fst ∧ 3 ∉ r.saved.map Prod.fst ∧
      (r.heap 3).file_index = 0 := by
  obtain ⟨⟨w1, e1, e2, _, _, e5, e6⟩, r, hr, hall⟩ := ignored_not_written demo_ign
    (waa__build_tree demo_ign 1) 0 0 0 demo_upd_sys false 0 1 rfl rfl (by decide)
    demo_consts demo_out demo_out_env 4 demo_files demo_heap_b_ignored 0 0 [0, 1, 2, 3]
    demo_b_ignored_wf sort_id_spec (by decide) rfl rfl (fun _ => rfl) (by decide) demo_fit
    (by decide)
  obtain ⟨r1, hr1, _, hs, _⟩ := out_summary_ret _ _ _ _ _ demo_b_ignored_run
  have hrr : r = r1 := Run.ret.inj (hr.symm.trans hr1)
  rw [← hrr] at hs
  have h2 := hall 2 2 (by decide) rfl Under.self
  have h3 := hall 2 3 (by decide) rfl (Under.child 3 2 Under.self rfl)
  exact ⟨⟨w1, e1, e2, e5, e6⟩, r, hr, hs, h2.1, h3.1, h3.2⟩

/-- C12 (counterexample): the tree `/wc/{a, b/c}` with the root marked
`FT_IGNORE`. `waa__output_tree` returns `0`; it has written the root, which
got `file_index` 1, and the three entries below it. -/
theorem output_tree_ignored_root_written :
    (demo_heap_root_ignored 0).entry_type = entry_type_t.FT_IGNORE ∧
    out_summary (waa__output_tree demo_consts demo_out demo_out_env 4 demo_files
      demo_heap_root_ignored 0 0) [0, 1, 2, 3]
      = some (0, [(0, 0), (1, 1), (2, 1), (3, 3)], [1, 2, 3, 4]) := by
  constructor
  · rfl
  · decide!

/-- C29: the test of `waa__open` is `flags & (O_WRONLY | O_RDWR | O_CREAT)`,
not the `O_WRONLY`, `O_TRUNC` or `O_RDWR` of its description. For flags
without these three bits, as `O_TRUNC` alone, a successful `waa__open` with an
extension has given the destination name itself to `open`, with these flags,
and has recorded no names for `waa__close`: the file is truncated in place. -/
theorem waa__open_trunc_in_place (env : OpenEnv) (path ext : CStr) (flags : Nat) (d : WaaDir)
    (fh : Nat) (hmask : flags &&& O_WRITE_MASK = 0)
    (hd : waa__get_waa_directory env.dir path (env.waa__get_gwd_flag (some ext)) = Run.ret d)
    (hs : d.status = 0)
    (hopen : env.sys_open (d.erg.take d.eos ++ ext) flags = Except.ok fh) :
    waa__open env path (some ext) flags
      = Run.ret ⟨0, some fh, some (d.erg.take d.eos ++ ext), none⟩ := by
  unfold waa__open
  simp only [hd, hs, hmask, ne_eq, not_true_eq_false, if_false, hopen]

/-- Example for C29: the dir-file of `/wc` opened with `O_TRUNC` only. The
flags include `O_TRUNC`; the name opened is the destination `/W/../dir`, and
no temporary name is kept. -/
theorem waa__open_trunc_in_place_witness :
    O_TRUNC &&& O_TRUNC ≠ 0 ∧
    ∃ d, waa__get_waa_directory demo_open.dir path_wc ⟨true, false, false⟩ = Run.ret d ∧
      waa__open demo_open path_wc (some [100, 105, 114]) O_TRUNC
        = Run.ret ⟨0, some 3, some (d.erg.take d.eos ++ [100, 105, 114]), none⟩ :=
  ⟨by decide, _, rfl, waa__open_trunc_in_place demo_open path_wc [100, 105, 114] O_TRUNC _ 3
    (by decide) rfl rfl rfl⟩

theorem get_waa_directory_ends (env : WaaDirEnv) (path : CStr) (flags : GwdFlags) (d : WaaDir)
    (h : waa__get_waa_directory env path flags = Run.ret d) (hs : d.status = 0) :
    ∃ D, d.erg = D ++ [PATH_SEPARATOR] ∧ d.eos = d.erg.length := by
  unfold waa__get_waa_directory at h
  simp only at h
  generalize (if path.at 0 ≠ PATH_SEPARATOR then
      if env.waa__save_cwd.1 ≠ 0 then (env.waa__save_cwd.1, path)
      else (0, env.hlp__pathcopy env.waa__save_cwd.2 [PATH_SEPARATOR] path)
    else (0, path)) = abs at h
  split at h
  · rename_i ha
    cases h
    exact absurd hs ha
  · split at h
    · cases h
    · split at h
      · rename_i hm
        cases h
        simp only [Bool.and_eq_true, decide_eq_true_eq] at hm
        exact absurd hs hm.2
      · cases h
        exact ⟨_, rfl, by simp only [List.length_append, List.length_singleton]⟩

/-- C27: the second `rmdir` of `waa__delete_byext` is given the directory of
the first. When `waa__get_waa_directory` succeeds, its string ends in a
separator, `D/`. If `unlink` of `D/<extension>` succeeds (or fails with
`ENOENT` that is to be ignored, or leaves `errno` zero), the status is `0` and
`rmdir` is called on `D/`; if that returns `0`, the string is cut at its last
separator, which is the one at its end, and `rmdir` is called on `D`, the
directory just removed, and not on the directory that contains `D`. -/
theorem delete_byext_second_rmdir (env : DeleteEnv) (path ext : CStr) (ign : Bool) (d : WaaDir)
    (hd : waa__get_waa_directory env.dir path (env.waa__get_gwd_flag (some ext)) = Run.ret d)
    (hs : d.status = 0)
    (hu : env.unlink (d.erg ++ ext) = none ∨ env.unlink (d.erg ++ ext) = some 0 ∨
      (env.unlink (d.erg ++ ext) = some ENOENT ∧ ign = true)) :
    ∃ D, d.erg = D ++ [PATH_SEPARATOR] ∧
      waa__delete_byext env path ext ign = Run.ret ⟨0,
        [FsCall.unlink (D ++ [PATH_SEPARATOR] ++ ext), FsCall.rmdir (D ++ [PATH_SEPARATOR])] ++
          (if env.rmdir (D ++ [PATH_SEPARATOR]) = true then [FsCall.rmdir D] else [])⟩ := by
  obtain ⟨D, hD, he⟩ := get_waa_directory_ends env.dir path _ d hd hs
  refine ⟨D, hD, ?_⟩
  have ht : d.erg.take d.eos = D ++ [PATH_SEPARATOR] := by
    rw [he, List.take_length, hD]
  have hst : (match env.unlink (D ++ [PATH_SEPARATOR] ++ ext) with
      | none => (0 : Int)
      | some e => if e = ENOENT ∧ ign = true then 0 else e) = 0 := by
    rw [hD] at hu
    rcases hu with h | h | ⟨h, hi⟩
    · rw [h]
    · rw [h]
      simp
    · rw [h]
      simp [hi]
  have hrr : strrchr (D ++ [PATH_SEPARATOR]) PATH_SEPARATOR = some D.length :=
    strrchr_last D [] PATH_SEPARATOR (by simp)
  unfold waa__delete_byext
  simp only [hd, hs, ne_eq, not_true_eq_false, if_false, ht, hst, hrr]
  by_cases hr : env.rmdir (D ++ [PATH_SEPARATOR]) = true
  · simp only [hr, if_true]
    rw [List.take_left' rfl]
    rfl
  · simp only [hr]
    rfl

/-- Example for C27: deleting the dir-file of `/wc` in the examples. The
third call is `rmdir` on the storage directory, which has 34 bytes more than
the WAA root `/W`; the directory that contains it is not tried. -/
theorem delete_byext_second_rmdir_witness :
    ∃ D, waa__delete_byext demo_delete path_wc [100, 105, 114] false = Run.ret ⟨0,
        [FsCall.unlink (D ++ [PATH_SEPARATOR] ++ [100, 105, 114]),
          FsCall.rmdir (D ++ [PATH_SEPARATOR]), FsCall.rmdir D]⟩ ∧
      D.length = 37 ∧ (dirname D).length = 8 := by
  obtain ⟨D, h1, h2⟩ := delete_byext_second_rmdir demo_delete path_wc [100, 105, 114] false _
    rfl rfl (Or.inl rfl)
  have h3 : erg_of (waa__get_waa_directory demo_waa path_wc ⟨true, false, false⟩)
      = D ++ [PATH_SEPARATOR] := h1
  have hD : D = (erg_of (waa__get_waa_directory demo_waa path_wc ⟨true, false, false⟩)).dropLast := by
    rw [h3, List.dropLast_concat]
  have hr : demo_delete.rmdir (D ++ [PATH_SEPARATOR]) = true := rfl
  rw [if_pos hr] at h2
  refine ⟨D, h2, ?_, ?_⟩
  · rw [hD]
    decide
  · rw [hD]
    decide

theorem Mbin2hex_no_sep (bin : List Nat) : PATH_SEPARATOR ∉ Mbin2hex bin := by
  induction bin with
  | nil =>
    unfold Mbin2hex
    simp
  | cons b bs ih =>
    unfold Mbin2hex
    have h : ∀ n, n < 16 → hex_digit n ≠ PATH_SEPARATOR := by
      intro n hn
      unfold hex_digit PATH_SEPARATOR
      split_ifs <;> omega
    intro hm
    rcases List.mem_cons.mp hm with h1 | h1
    · exact h _ (Nat.mod_lt _ (by norm_num)) h1.symm
    · rcases List.mem_cons.mp h1 with h2 | h2
      · exact h _ (Nat.mod_lt _ (by norm_num)) h2.symm
      · exact ih h2

/-- C28 (amended): `waa__make_info_link(directory, name, dest)` returns; when
`waa__get_waa_directory` (flags `GWD_CONF | GWD_MKDIR`) succeeds, the link is
at `$CONF/<hex32>/<name>`: the configuration root, then all 32 hex digits of
the digest in one directory name (for a digest of 16 bytes) without a
separator among them, a separator and the name. If nothing exists there,
`symlink(dest, path)` is called with this path, and its failure is the
status. -/
theorem make_info_link_conf_flat (env : LinkEnv) (directory name dest : CStr)
    (hmd5 : ∀ data, (env.dir.apr_md5 data).length = APR_MD5_DIGESTSIZE) :
    ∃ r, waa__make_info_link env directory name dest = Run.ret r ∧
      (r.path ≠ none → ∃ hex : CStr,
        r.path = some (env.dir.conf_tmp_path ++ hex ++ [PATH_SEPARATOR] ++ name) ∧
        hex.length = 32 ∧ PATH_SEPARATOR ∉ hex ∧
        (env.access (env.dir.conf_tmp_path ++ hex ++ [PATH_SEPARATOR] ++ name) = false →
          r.made = some (dest, env.dir.conf_tmp_path ++ hex ++ [PATH_SEPARATOR] ++ name) ∧
          r.status = (env.symlink dest
            (env.dir.conf_tmp_path ++ hex ++ [PATH_SEPARATOR] ++ name)).getD 0)) := by
  unfold waa__make_info_link waa__get_waa_directory
  simp only
  generalize (if directory.at 0 ≠ PATH_SEPARATOR then
      if env.dir.waa__save_cwd.1 ≠ 0 then (env.dir.waa__save_cwd.1, directory)
      else (0, env.dir.hlp__pathcopy env.dir.waa__save_cwd.2 [PATH_SEPARATOR] directory)
    else (0, directory)) = abs
  by_cases ha : abs.1 ≠ 0
  · rw [if_pos ha]
    simp only [ha, ne_eq, not_false_eq_true, if_true]
    exact ⟨_, rfl, fun h => absurd rfl h⟩
  · rw [if_neg ha]
    simp only [Bool.false_eq_true, if_false, if_true, Bool.true_and, decide_eq_true_eq,
      List.append_nil]
    have hlen : (Mbin2hex (List.take APR_MD5_DIGESTSIZE
        (env.dir.apr_md5 (hashed_bytes env.dir.softroot abs.2)))).length = 32 := by
      rw [Mbin2hex_length, List.length_take, hmd5]
      rfl
    by_cases hm : env.dir.waa__mkdir (env.dir.conf_tmp_path ++ Mbin2hex
        (List.take APR_MD5_DIGESTSIZE (env.dir.apr_md5 (hashed_bytes env.dir.softroot abs.2))))
        ≠ 0
    · rw [if_pos hm]
      simp only [hm, ne_eq, not_false_eq_true, if_true]
      exact ⟨_, rfl, fun h => absurd rfl h⟩
    · rw [if_neg hm]
      simp only [ne_eq, not_true_eq_false, if_false]
      have ht : ∀ l : CStr, List.take (l.length + 1) (l ++ [PATH_SEPARATOR])
          = l ++ [PATH_SEPARATOR] := by
        intro l
        apply List.take_of_length_le
        simp
      rw [ht]
      by_cases hacc : env.access (env.dir.conf_tmp_path ++ Mbin2hex (List.take APR_MD5_DIGESTSIZE
          (env.dir.apr_md5 (hashed_bytes env.dir.softroot abs.2))) ++ [PATH_SEPARATOR] ++ name)
          = true
      · rw [if_pos hacc]
        refine ⟨_, rfl, fun _ => ⟨_, rfl, hlen, Mbin2hex_no_sep _, fun hf => ?_⟩⟩
        rw [hacc] at hf
        cases hf
      · rw [if_neg hacc]
        cases hsl : env.symlink dest (env.dir.conf_tmp_path ++ Mbin2hex
            (List.take APR_MD5_DIGESTSIZE
              (env.dir.apr_md5 (hashed_bytes env.dir.softroot abs.2))) ++
            [PATH_SEPARATOR] ++ name) with
        | none =>
          refine ⟨_, rfl, fun _ => ⟨_, rfl, hlen, Mbin2hex_no_sep _, fun _ => ⟨rfl, ?_⟩⟩⟩
          rw [hsl]
          rfl
        | some e =>
          refine ⟨_, rfl, fun _ => ⟨_, rfl, hlen, Mbin2hex_no_sep _, fun _ => ⟨rfl, ?_⟩⟩⟩
          rw [hsl]
          rfl

/-- Example for C28: the link `_base` for `/wc` in the examples, with the
configuration root `/C/`. -/
theorem make_info_link_conf_flat_witness :
    ∃ r hex, waa__make_info_link demo_link path_wc str_base path_wc = Run.ret r ∧
      r.status = 0 ∧ r.path = some ([47, 67, 47] ++ hex ++ [PATH_SEPARATOR] ++ str_base) ∧
      hex.length = 32 ∧ PATH_SEPARATOR ∉ hex := by
  obtain ⟨r, hr, h⟩ := make_info_link_conf_flat demo_link path_wc str_base path_wc
    (fun _ => by simp [demo_link, demo_waa, APR_MD5_DIGESTSIZE])
  have hr2 : waa__make_info_link demo_link path_wc str_base path_wc = Run.ret r := hr
  have e : waa__make_info_link demo_link path_wc str_base path_wc = Run.ret ⟨0, some _, _⟩ := rfl
  rw [e] at hr2
  have hrr := Run.ret.inj hr2
  obtain ⟨hex, h1, h2, h3, _⟩ := h (by rw [← hrr]; simp)
  exact ⟨r, hex, hr, by rw [← hrr], h1, h2, h3⟩

/-- C28 (counterexample): for `/wc` in the examples the link `_base` is
directly in the one directory below the configuration root `/C`: behind the
root its path has one separator, and not the three of
`<hex2>/<hex2>/<hex28>/_base`; the directory has the 32 hex digits as name. -/
theorem make_info_link_not_three_levels :
    ((link_path_of (waa__make_info_link demo_link path_wc str_base path_wc)).drop 3).count
      PATH_SEPARATOR = 1 ∧
    (dirname (link_path_of (waa__make_info_link demo_link path_wc str_base path_wc))).length
      = 35 ∧
    dirname (dirname (link_path_of (waa__make_info_link demo_link path_wc str_base path_wc)))
      = [47, 67] := by
  decide

theorem dir_enum_dispatched (x : UpdateExt) (w : Sys) (dir this : Nat) (by_name : Bool) :
    (waa__dir_enum x w dir this by_name).2.dispatched = w.dispatched := by
  unfold waa__dir_enum
  by_cases hw : x.is_waa dir = true
  · rw [if_pos hw]
  · rw [if_neg hw]
    unfold dir__enumerator
    simp only
    by_cases hr : (x.dir__enumerator dir by_name).1 ≠ 0
    · rw [if_pos hr]
    · rw [if_neg hr]

theorem build_tree_descend_disp (x : UpdateExt) (rec : Sys → Nat → Run (Int × Sys))
    (hrec : DispSpec rec) (w : Sys) (sts : Nat) (st : Int) (w1 : Sys)
    (h : build_tree_descend x rec w sts = Run.ret (st, w1)) :
    w.dispatched <+: w1.dispatched := by
  unfold build_tree_descend at h
  simp only at h
  split at h
  · split at h
    · split at h
      · cases h
        exact List.prefix_refl _
      · split at h
        · rename_i st3 w3 hr
          have := hrec _ _ _ _ hr
          split at h
          · cases h
            exact this
          · split at h
            · cases h
              exact this
            · cases h
              exact this
        · cases h
        · cases h
    · cases h
      exact List.prefix_refl _
  · cases h
    exact List.prefix_refl _

theorem build_tree_entry_disp (x : UpdateExt) (rec : Sys → Nat → Run (Int × Sys))
    (hrec : DispSpec rec) (w : Sys) (sts : Nat) (st : Int) (w1 : Sys)
    (h : build_tree_entry x rec w sts = Run.ret (st, w1)) :
    w.dispatched <+: w1.dispatched := by
  unfold build_tree_entry at h
  split at h
  · cases h
  · simp only at h
    split at h
    · rename_i st4 w4 hd
      have h4 := build_tree_descend_disp x rec hrec _ sts st4 w4 hd
      have h5 : w.dispatched <+: w4.dispatched := h4
      split at h
      · cases h
        exact h5
      · cases h
        exact h5.trans (List.prefix_append _ _)
    · cases h
    · cases h

theorem build_tree_loop_disp (x : UpdateExt) (rec : Sys → Nat → Run (Int × Sys))
    (hrec : DispSpec rec) (root : Nat) :
    ∀ (n i : Nat) (w : Sys) (hi : Bool) (hf : Nat) (st : Int) (w1 : Sys) (hi1 : Bool)
      (hf1 : Nat),
      build_tree_loop x rec root n i w hi hf = Run.ret (st, w1, hi1, hf1) →
      w.dispatched <+: w1.dispatched := by
  intro n
  induction n with
  | zero =>
    intro i w hi hf st w1 hi1 hf1 h
    unfold build_tree_loop at h
    cases h
    exact List.prefix_refl _
  | succ n ih =>
    intro i w hi hf st w1 hi1 hf1 h
    unfold build_tree_loop at h
    split at h
    · simp only at h
      split at h
      · cases h
        exact List.prefix_refl _
      · split at h
        · have h2 := ih _ _ _ _ _ _ _ _ h
          exact h2
        · split at h
          · rename_i st2 w2 he
            have h2 := build_tree_entry_disp x rec hrec _ _ _ _ he
            split at h
            · cases h
              exact h2
            · exact h2.trans (ih _ _ _ _ _ _ _ _ h)
          · cases h
          · cases h
    · cases h

theorem build_tree_disp (x : UpdateExt) (fuel : Nat) : DispSpec (waa__build_tree x fuel) := by
  induction fuel with
  | zero =>
    intro w p st w1 h
    unfold waa__build_tree at h
    cases h
  | succ fuel ih =>
    intro w p st w1 h
    unfold waa__build_tree at h
    simp only at h
    have hd := dir_enum_dispatched x w p p false
    split at h
    · have h1 := Run.ret.inj h
      have h2 : w1 = (waa__dir_enum x w p p false).2 := (congrArg Prod.snd h1).symm
      rw [h2, hd]
    · split at h
      · rename_i st2 w2 hi2 hf2 hl
        have h2 := build_tree_loop_disp x _ ih p _ _ _ _ _ _ _ _ _ hl
        rw [hd] at h2
        split at h
        · cases h
          exact h2
        · cases h
          exact h2
      · cases h
      · cases h

theorem update_dir_new_frame (x : UpdateExt) (bt : Sys → Nat → Run (Int × Sys)) (old c : Nat)
    (m : MergeState) (sts : Nat) (hbt : BTSpec x bt) (hdisp : DispSpec bt)
    (hc : c ≠ sts) (hcl : c < m.w.next) (hsl : sts < m.w.next)
    (hleaf : (m.w.heap sts).entry_count = 0) (st : Int) (m1 : MergeState)
    (h : update_dir_new x bt old c m sts = Run.ret (st, m1)) :
    NewRel old c sts m m1 ∧ (m.w.dispatched ++ [sts]) <+: m1.w.dispatched := by
  obtain ⟨k1, k2, k3, k4, k5, kn, k6⟩ := update_dir_mark_spec m.w.heap old c sts m.nr_cur m.i_cur hc
  unfold update_dir_new at h
  generalize update_dir_mark m.w.heap old c sts m.nr_cur m.i_cur = h3 at *
  obtain ⟨j1, j2, j3, jn, j4⟩ := store_to_handle_bits_spec h3 sts (x.ops__set_to_handle_bits h3 (h3 sts))
  simp only at h
  generalize store_to_handle_bits h3 sts (x.ops__set_to_handle_bits h3 (h3 sts)) = h4 at *
  have r1 : ∀ a d, NewRel old c sts m { m with
      w := { m.w with heap := h3, dispatched := d, approx_entry_count := a }
      nr_cur := m.nr_cur + 1 } :=
    fun a d => ⟨rfl, rfl, rfl, le_refl _, k1, k2, k3, Or.inl k4, kn,
      fun q _ hqc hqs => k6 q hqc hqs⟩
  have r3 : ∀ a d, NewRel old c sts m { m with
      w := { m.w with heap := h4, dispatched := d, approx_entry_count := a }
      nr_cur := m.nr_cur + 1 } := by
    intro a d
    refine ⟨rfl, rfl, rfl, le_refl _, ?_, ?_, ?_, ?_, jn.trans kn, ?_⟩
    · show (h4 c).by_name = _
      rw [j4 c hc]
      exact k1
    · show (h4 c).entry_count = _
      rw [j4 c hc]
      exact k2
    · show (h4 sts).parent = _
      rw [j1]
      exact k3
    · show new_status (h4 sts).entry_status
      rw [j2]
      exact Or.inl k4
    · intro q _ hqc hqs
      show h4 q = _
      rw [j4 q hqs]
      exact k6 q hqc hqs
  split at h
  · cases h
    exact ⟨r1 _ _, List.prefix_refl _⟩
  · split at h
    · cases h
      exact ⟨r3 _ _, List.prefix_refl _⟩
    · split at h
      · cases h
        exact ⟨r3 _ _, List.prefix_refl _⟩
      · split at h
        · split at h
          · cases h
            exact ⟨r3 _ _, List.prefix_refl _⟩
          · split at h
            · rename_i st1 w1 hr
              have hf := hbt _ _ _ _ hr hsl (Or.inl (by
                show (h4 sts).entry_count = 0
                rw [j3, k5]
                exact hleaf))
              have hd := hdisp _ _ _ _ hr
              have r4 := newrel_bt old c sts m _ w1 hc hcl (r3 _ _) rfl hf (by
                show (h4 sts).entry_status = FS_NEW
                rw [j2]
                exact k4)
              split at h
              · cases h
                exact ⟨r4, hd⟩
              · split at h
                · cases h
                  exact ⟨r4, hd⟩
                · cases h
                  exact ⟨r4, hd⟩
            · cases h
            · cases h
        · cases h
          exact ⟨r3 _ _, List.prefix_refl _⟩

theorem update_dir_loop_frame (x : UpdateExt) (bt : Sys → Nat → Run (Int × Sys))
    (w0 : Sys) (old c : Nat) (E : List Nat) (hs : UDSetup w0 old c E) (hbt : BTSpec x bt)
    (hdisp : DispSpec bt) :
    ∀ (n : Nat) (m : MergeState), UDInv w0 c E m →
      ∀ (st : Option Int) (m1 : MergeState),
        update_dir_loop x bt old c n m = Run.ret (st, m1) → UDPost w0 c m1 := by
  intro n
  induction n with
  | zero =>
    intro m _ st m1 h
    unfold update_dir_loop at h
    cases h
  | succ n ih =>
    intro m hi st m1 h
    unfold update_dir_loop at h
    by_cases h1 : m.i_cur ≥ (m.w.heap c).entry_count
    · rw [if_pos h1] at h
      cases h
      exact hi.post
    · rw [if_neg h1] at h
      have hlt : m.i_cur < E.length := by
        have := hi.cnt
        omega
      obtain ⟨A, harr, hperm, hdrop⟩ := hi.arr
      have hlen : A.length = E.length := hperm.length_eq
      have hg : E[m.i_cur]? = some E[m.i_cur] := List.getElem?_eq_getElem hlt
      generalize E[m.i_cur] = sts at hg
      have hgA : A[m.i_cur]? = some sts := by
        have h2 : (A.drop m.i_cur)[0]? = (E.drop m.i_cur)[0]? := by rw [hdrop]
        rw [List.getElem?_drop, List.getElem?_drop] at h2
        rw [← hg]
        exact h2
      have hget : (m.w.heap c).by_name.get? m.i_cur = some (some sts) := by
        rw [harr, List.get?_eq_getElem?, List.getElem?_append_left (by simpa using (by omega)),
          List.getElem?_map, hgA]
        rfl
      rw [hget] at h
      simp only at h
      have hsE : sts ∈ E := List.getElem?_mem hg
      have hsd : sts ∈ E.drop m.i_cur := by
        rw [drop_of_get E _ sts hg]
        exact List.mem_cons_self _ _
      have hsub : ∀ e, e ∈ E.drop (m.i_cur + 1) → e ∈ E.drop m.i_cur := by
        intro e he
        rw [drop_of_get E _ sts hg]
        exact List.mem_cons_of_mem _ he
      have hdrop1 : A.drop (m.i_cur + 1) = E.drop (m.i_cur + 1) := by
        have := congrArg (List.drop 1) hdrop
        rw [List.drop_drop, List.drop_drop] at this
        exact this
      -- the state with `i_cur` advanced, nothing else done
      have hskip : ∀ io, UDInv w0 c E { m with i_cur := m.i_cur + 1, i_old := io } :=
        fun io => ⟨⟨A, harr, hperm, hdrop1⟩, hi.cnt, le_trans hi.le_cur (Nat.le_succ _), hlt,
          fun e he => hi.rest e (hsub e he),
          ⟨hi.post.keep, hi.post.next, hi.post.pre, hi.post.none, hi.post.some⟩⟩
      split at h
      · rename_i status hcmp
        split at h
        · exact ih _ (hskip _) st m1 h
        · split at h
          · split at h
            · cases h
              exact hi.post
            · split at h
              · exact ih _ (hskip _) st m1 h
              · split at h
                · rename_i st2 m2 hnew
                  obtain ⟨hfr, hcs⟩ := hs.fresh sts hsE
                  have hnext := hi.post.next
                  obtain ⟨hrel, hd⟩ := update_dir_new_frame x bt old c m sts hbt hdisp
                    (by omega) (by have := hs.c_lt; omega) (by omega)
                    (by rw [hi.rest sts hsd]; exact hs.leaf sts hsE) st2 m2 hnew
                  obtain ⟨a1, a2, a3, a4, a5, a6, a7, a8, an, a9⟩ := hrel
                  have hpost2 : UDPost w0 c m2 := by
                    refine ⟨?_, by omega, hi.post.pre.trans ((List.prefix_append _ _).trans hd),
                      ?_, ?_⟩
                    · intro q hq
                      rw [a9 q (by have := hs.c_lt; omega) (by omega) (by omega)]
                      exact hi.post.keep q hq
                    · intro h0
                      omega
                    · intro _
                      have l1 := hi.post.pre.length_le
                      have l2 := hd.length_le
                      rw [List.length_append, List.length_singleton] at l2
                      omega
                  split at h
                  · cases h
                    exact hpost2
                  · refine ih _ ?_ st m1 h
                    obtain ⟨A1, s1, s2, s3, s4⟩ :=
                      swap_arr A m.nr_cur m.i_cur sts hi.le_cur (by omega) hgA
                    have hns : sts ∉ E.drop (m.i_cur + 1) := by
                      have h2 := hs.nodup
                      rw [list_split_at E _ sts hg, List.nodup_append] at h2
                      exact (List.nodup_cons.mp h2.2.1).1
                    refine ⟨⟨A1, ?_, s2.trans hperm, ?_⟩, ?_, ?_, ?_, ?_,
                      ⟨hpost2.keep, hpost2.next, hpost2.pre, hpost2.none, hpost2.some⟩⟩
                    · show (m2.w.heap c).by_name = _
                      rw [a5, harr]
                      exact s1
                    · show A1.drop (m2.i_cur + 1) = E.drop (m2.i_cur + 1)
                      rw [a1, s3]
                      exact hdrop1
                    · show (m2.w.heap c).entry_count = _
                      rw [a6]
                      exact hi.cnt
                    · show m2.nr_cur ≤ m2.i_cur + 1
                      have := hi.le_cur
                      omega
                    · show m2.i_cur + 1 ≤ E.length
                      omega
                    · intro e he
                      show m2.w.heap e = _
                      have he1 : e ∈ E.drop (m.i_cur + 1) := by
                        rw [← a1]
                        exact he
                      have heE : e ∈ E := List.mem_of_mem_drop he1
                      obtain ⟨f1, f2⟩ := hs.fresh e heE
                      rw [a9 e (by omega) (by omega) (fun hh => hns (hh ▸ he1))]
                      exact hi.rest e (hsub e he1)
                · cases h
                · cases h
          · have hi2 : UDInv w0 c E { m with i_old := m.i_old + 1 } :=
              ⟨⟨A, harr, hperm, hdrop⟩, hi.cnt, hi.le_cur, hi.le_E, hi.rest,
                ⟨hi.post.keep, hi.post.next, hi.post.pre, hi.post.none, hi.post.some⟩⟩
            exact ih _ hi2 st m1 h
      · cases h
      · cases h

theorem update_dir_ex_frame (x : UpdateExt) (w w2 : Sys) (old : Nat) (status : Int)
    (nr_cur : Nat) (dh : Bool)
    (hnext : w.next < w2.next)
    (hothers : ∀ q, q < w.next → q ≠ old → w2.heap q = w.heap q)
    (hfields : w2.heap old = { w.heap old with
      by_name := (w2.heap old).by_name
      by_inode := (w2.heap old).by_inode
      entry_count := (w2.heap old).entry_count
      to_be_sorted := (w2.heap old).to_be_sorted })
    (hpre : w.dispatched <+: w2.dispatched)
    (hnone : nr_cur = 0 → w2.dispatched = w.dispatched)
    (hsome : nr_cur ≠ 0 → w.dispatched.length < w2.dispatched.length) :
    UpdDirFrame w old (update_dir_ex x w2 old status nr_cur dh).2 := by
  have hst : (w2.heap old).entry_status = (w.heap old).entry_status := by
    rw [hfields]
  unfold update_dir_ex
  simp only
  by_cases hn : nr_cur ≠ 0
  · rw [if_pos hn]
    refine ⟨Or.inr ⟨?_, hsome hn⟩, ?_, hnext, ?_, hpre⟩
    · simp only [Heap.set_same, hst]
    · simp only [Heap.set_same]
      clear hothers hst
      generalize w2.heap old = a at hfields ⊢
      generalize w.heap old = b at hfields ⊢
      cases a
      cases b
      simp only [estat.mk.injEq] at hfields ⊢
      simp only [hfields, and_self]
    · intro q hq hne
      show ((w2.heap.set old _).set old _) q = _
      rw [Heap.set_other _ _ _ _ hne, Heap.set_other _ _ _ _ hne]
      exact hothers q hq hne
  · rw [if_neg hn]
    refine ⟨Or.inl ⟨?_, hnone (not_not.mp hn)⟩, ?_, hnext, ?_, hpre⟩
    · simp only [Heap.set_same, hst]
    · simp only [Heap.set_same]
      clear hothers hst
      generalize w2.heap old = a at hfields ⊢
      generalize w.heap old = b at hfields ⊢
      cases a
      cases b
      simp only [estat.mk.injEq] at hfields ⊢
      simp only [hfields, and_self]
    · intro q hq hne
      show (w2.heap.set old _) q = _
      rw [Heap.set_other _ _ _ _ hne]
      exact hothers q hq hne

theorem ret_snd {α β : Type} {p : α × β} {a : α} {b : β}
    (h : Run.ret p = Run.ret (a, b)) : b = p.2 :=
  (congrArg Prod.snd (Run.ret.inj h)).symm

theorem fields_of_eq (a b : estat) (h : a = b) : a = { b with
    by_name := a.by_name
    by_inode := a.by_inode
    entry_count := a.entry_count
    to_be_sorted := a.to_be_sorted } := by
  subst h
  rfl

theorem fields_of_by_name (a b c : estat) (h : a = { b with by_name := a.by_name })
    (h2 : b = c) : a = { c with
    by_name := a.by_name
    by_inode := a.by_inode
    entry_count := a.entry_count
    to_be_sorted := a.to_be_sorted } := by
  subst h2
  cases a
  cases b
  simp only [estat.mk.injEq] at h ⊢
  simp only [h, and_self]

theorem fields_set (a c : estat) (X : List (Option Nat)) (Y : Nat) (Z : Bool)
    (h : a = { c with
      by_name := a.by_name
      by_inode := a.by_inode
      entry_count := a.entry_count
      to_be_sorted := a.to_be_sorted }) :
    { a with by_inode := X, entry_count := Y, to_be_sorted := Z } = { c with
      by_name := a.by_name
      by_inode := X
      entry_count := Y
      to_be_sorted := Z } := by
  cases a
  cases c
  simp only [estat.mk.injEq] at h ⊢
  simp only [h, and_self]

theorem update_dir_frame (x : UpdateExt) (fuel : Nat) (w : Sys) (old : Nat) (has_path : Bool)
    (hold : old < w.next) (hsort : SortNameSpec x) (st : Int) (w1 : Sys)
    (h : waa__update_dir x fuel w old has_path = Run.ret (st, w1)) :
    UpdDirFrame w old w1 := by
  unfold waa__update_dir at h
  simp only at h
  have hne : old ≠ w.next := by omega
  -- the state after `current` has been set up
  have e0 : ∀ q, q ≠ w.next →
      (w.heap.set w.next { w.heap old with by_inode := [], by_name := [], entry_count := 0 }) q
        = w.heap q := fun q hq => Heap.set_other _ _ _ _ hq
  have early : ∀ (status : Int) (dh : Bool),
      UpdDirFrame w old (update_dir_ex x { w with
        heap := (w.heap.set w.next
          { w.heap old with by_inode := [], by_name := [], entry_count := 0 })
        next := w.next + 1 } old status 0 dh).2 := by
    intro status dh
    refine update_dir_ex_frame x w _ old status 0 dh (by simp) ?_ ?_ (List.prefix_refl _)
      (fun _ => rfl) (fun hh => absurd rfl hh)
    · intro q hq _
      exact e0 q (by omega)
    · exact fields_of_eq _ _ (e0 old hne)
  split at h
  · rw [ret_snd h]
    exact early _ _
  · split at h
    · rw [ret_snd h]
      exact early _ _
    · split at h
      · rw [ret_snd h]
        exact early _ _
      · split at h
        · rename_i hen
          rw [ret_snd h, dir_enum_unchanged x _ old w.next true (Or.inl hen)]
          exact early _ _
        · rename_i hen
          have hen0 := not_not.mp hen
          by_cases hw : x.is_waa old = true
          · rw [dir_enum_unchanged x _ old w.next true (Or.inr hw)] at h
            rw [if_pos (by simp [Heap.set_same])] at h
            rw [ret_snd h]
            exact early _ _
          · have hw2 : x.is_waa old = false := by simpa using hw
            obtain ⟨len, l1, l2, l3, l4⟩ := dir_enum_listed x { w with
                heap := (w.heap.set w.next
                  { w.heap old with by_inode := [], by_name := [], entry_count := 0 })
                next := w.next + 1 } old w.next true (by simp) hw2 hen0
            have ld := dir_enum_dispatched x { w with
                heap := (w.heap.set w.next
                  { w.heap old with by_inode := [], by_name := [], entry_count := 0 })
                next := w.next + 1 } old w.next true
            generalize waa__dir_enum x { w with
                heap := (w.heap.set w.next
                  { w.heap old with by_inode := [], by_name := [], entry_count := 0 })
                next := w.next + 1 } old w.next true = en at h l1 l2 l3 l4 ld hen hen0
            simp only at l1 l2 l3 l4 ld
            have enold : en.2.heap old = w.heap old := by
              rw [l2 old (by omega) hne]
              exact e0 old hne
            have enq : ∀ q, q < w.next → q ≠ old → en.2.heap q = w.heap q := by
              intro q hq _
              rw [l2 q (by omega) (by omega)]
              exact e0 q (by omega)
            have enframe : ∀ (status : Int) (dh : Bool),
                UpdDirFrame w old (update_dir_ex x en.2 old status 0 dh).2 := by
              intro status dh
              refine update_dir_ex_frame x w _ old status 0 dh (by omega) enq ?_
                (by rw [ld]) (fun _ => ld) (fun hh => absurd rfl hh)
              exact fields_of_eq _ _ enold
            split at h
            · rw [ret_snd h]
              exact enframe _ _
            · obtain ⟨s1, s2⟩ := hsort en.2.heap old
              have soold : (x.dir__sortbyname en.2.heap old).2 old = { w.heap old with
                  by_name := ((x.dir__sortbyname en.2.heap old).2 old).by_name
                  by_inode := ((x.dir__sortbyname en.2.heap old).2 old).by_inode
                  entry_count := ((x.dir__sortbyname en.2.heap old).2 old).entry_count
                  to_be_sorted := ((x.dir__sortbyname en.2.heap old).2 old).to_be_sorted } :=
                fields_of_by_name _ _ _ s2 enold
              have soq : ∀ q, q < w.next → q ≠ old →
                  (x.dir__sortbyname en.2.heap old).2 q = w.heap q := by
                intro q hq hqo
                rw [s1 q hqo]
                exact enq q hq hqo
              split at h
              · rw [ret_snd h]
                refine update_dir_ex_frame x w _ old _ 0 true ?_ soq soold
                  ?_ (fun _ => ld) (fun hh => absurd rfl hh)
                · show w.next < en.2.next
                  omega
                · show w.dispatched <+: en.2.dispatched
                  rw [ld]
              · -- the merge loop
                have hsetup : UDSetup { en.2 with heap := (x.dir__sortbyname en.2.heap old).2 }
                    old w.next ((List.range len).map (fun j => w.next + 1 + j)) := by
                  refine ⟨?_, ?_, ?_, ?_, by omega, ?_, ?_⟩
                  · show ((x.dir__sortbyname en.2.heap old).2 w.next).by_name = _
                    rw [s1 w.next (by omega), l3]
                    simp only [if_true, List.map_map]
                    rfl
                  · show ((x.dir__sortbyname en.2.heap old).2 w.next).entry_count = _
                    rw [s1 w.next (by omega), l3]
                    simp
                  · exact (List.nodup_range len).map (fun a b hab => by simpa using hab)
                  · show w.next < en.2.next
                    omega
                  · intro e he
                    obtain ⟨j, hj, rfl⟩ := List.mem_map.mp he
                    have := List.mem_range.mp hj
                    refine ⟨by omega, ?_⟩
                    show _ < en.2.next
                    omega
                  · intro e he
                    obtain ⟨j, hj, rfl⟩ := List.mem_map.mp he
                    have hj2 := List.mem_range.mp hj
                    show ((x.dir__sortbyname en.2.heap old).2 (w.next + 1 + j)).entry_count = 0
                    rw [s1 _ (by omega)]
                    exact (l4 j hj2).1
                have hinv : UDInv { en.2 with heap := (x.dir__sortbyname en.2.heap old).2 }
                    w.next ((List.range len).map (fun j => w.next + 1 + j))
                    ⟨{ en.2 with heap := (x.dir__sortbyname en.2.heap old).2 }, 0, 0, 0⟩ :=
                  ⟨⟨_, hsetup.cur_arr, List.Perm.refl _, rfl⟩, hsetup.cur_cnt, le_refl _,
                    Nat.zero_le _, fun _ _ => rfl,
                    ⟨fun _ _ => rfl, le_refl _, List.prefix_refl _, fun _ => rfl,
                      fun hh => absurd rfl hh⟩⟩
                split at h
                · rename_i st2 m hloop
                  rw [ret_snd h]
                  have hp := update_dir_loop_frame x _ _ old w.next _ hsetup
                    (build_tree_frame x fuel) (build_tree_disp x fuel) _ _ hinv _ _ hloop
                  refine update_dir_ex_frame x w _ old _ m.nr_cur true ?_ ?_ ?_ ?_ ?_ ?_
                  · have := hp.next
                    simp only at this
                    omega
                  · intro q hq hqo
                    rw [hp.keep q hq]
                    exact soq q hq hqo
                  · rw [hp.keep old hold]
                    exact soold
                  · have := hp.pre
                    simp only [ld] at this
                    exact this
                  · intro h0
                    rw [hp.none h0]
                    exact ld
                  · intro h0
                    have := hp.some h0
                    simp only [ld] at this
                    exact this
                · rename_i m hloop
                  rw [ret_snd h]
                  have hp := update_dir_loop_frame x _ _ old w.next _ hsetup
                    (build_tree_frame x fuel) (build_tree_disp x fuel) _ _ hinv _ _ hloop
                  have hmq : ∀ q, q < w.next → q ≠ old → m.w.heap q = w.heap q := by
                    intro q hq hqo
                    rw [hp.keep q hq]
                    exact soq q hq hqo
                  have hmold : m.w.heap old = { w.heap old with
                      by_name := (m.w.heap old).by_name
                      by_inode := (m.w.heap old).by_inode
                      entry_count := (m.w.heap old).entry_count
                      to_be_sorted := (m.w.heap old).to_be_sorted } := by
                    rw [hp.keep old hold]
                    exact soold
                  refine update_dir_ex_frame x w _ old _ m.nr_cur true ?_ ?_ ?_ ?_ ?_ ?_
                  · have := hp.next
                    simp only at this
                    show w.next < m.w.next
                    omega
                  · intro q hq hqo
                    show (if m.nr_cur ≠ 0 then _ else _ : Heap) q = _
                    split
                    · unfold ops__new_entries
                      rw [Heap.set_other _ _ _ _ hqo]
                      exact hmq q hq hqo
                    · exact hmq q hq hqo
                  · show (if m.nr_cur ≠ 0 then _ else _ : Heap) old = _
                    split
                    · unfold ops__new_entries
                      simp only [Heap.set_same]
                      exact fields_set _ _ _ _ _ hmold
                    · exact hmold
                  · have := hp.pre
                    simp only [ld] at this
                    exact this
                  · intro h0
                    show m.w.dispatched = _
                    rw [hp.none h0]
                    exact ld
                  · intro h0
                    have := hp.some h0
                    simp only [ld] at this
                    exact this
                · cases h
                · cases h

theorem dir_enum_empty (x : UpdateExt) (w : Sys) (dir this : Nat)
    (he : (x.dir__enumerator dir true).2 = []) :
    (∀ q, q ≠ this → (waa__dir_enum x w dir this true).2.heap q = w.heap q) ∧
    ((w.heap this).entry_count = 0 →
      ((waa__dir_enum x w dir this true).2.heap this).entry_count = 0) := by
  unfold waa__dir_enum
  by_cases hw : x.is_waa dir = true
  · rw [if_pos hw]
    exact ⟨fun _ _ => rfl, fun h => h⟩
  · rw [if_neg hw]
    unfold dir__enumerator
    simp only
    by_cases hr : (x.dir__enumerator dir true).1 ≠ 0
    · rw [if_pos hr]
      exact ⟨fun _ _ => rfl, fun h => h⟩
    · rw [if_neg hr, he]
      simp only [List.map_nil, List.length_nil, if_true, Heap.store]
      refine ⟨fun q hq => Heap.set_other _ _ _ _ hq, fun _ => ?_⟩
      rw [Heap.set_same]

theorem update_dir_ex_old (x : UpdateExt) (w w2 : Sys) (old : Nat) (status : Int) (dh : Bool)
    (hold : w2.heap old = w.heap old) :
    (update_dir_ex x w2 old status 0 dh).2.heap old = { w.heap old with
      entry_status := bit_clear (w.heap old).entry_status FS_LIKELY } := by
  unfold update_dir_ex
  simp only [ne_eq, not_true_eq_false, if_false, Heap.set_same, hold]

theorem update_dir_empty (x : UpdateExt) (fuel : Nat) (w : Sys) (old : Nat) (has_path : Bool)
    (hold : old < w.next) (he : (x.dir__enumerator old true).2 = []) (st : Int) (w1 : Sys)
    (h : waa__update_dir x fuel w old has_path = Run.ret (st, w1)) :
    w1.heap old = { w.heap old with
      entry_status := bit_clear (w.heap old).entry_status FS_LIKELY } := by
  unfold waa__update_dir at h
  simp only at h
  have hne : old ≠ w.next := by omega
  have e0 : (w.heap.set w.next
      { w.heap old with by_inode := [], by_name := [], entry_count := 0 }) old = w.heap old :=
    Heap.set_other _ _ _ _ hne
  obtain ⟨d1, d2⟩ := dir_enum_empty x { w with
      heap := (w.heap.set w.next
        { w.heap old with by_inode := [], by_name := [], entry_count := 0 })
      next := w.next + 1 } old w.next he
  split at h
  · rw [ret_snd h]
    exact update_dir_ex_old x w _ old _ _ e0
  · split at h
    · rw [ret_snd h]
      exact update_dir_ex_old x w _ old _ _ e0
    · split at h
      · rw [ret_snd h]
        exact update_dir_ex_old x w _ old _ _ e0
      · split at h
        · rw [ret_snd h]
          exact update_dir_ex_old x w _ old _ _ ((d1 old hne).trans e0)
        · split at h
          · rw [ret_snd h]
            exact update_dir_ex_old x w _ old _ _ ((d1 old hne).trans e0)
          · rename_i hcnt
            exact absurd (d2 (by simp [Heap.set_same])) hcnt

/-- C22: on every return of `waa__update_dir(old)`, also with an error status,
the status of `old` is its previous value without `FS_LIKELY`, and with
`FS_CHANGED | FS_CHILD_CHANGED` or-ed in exactly when a new entry was found;
a new entry is dispatched as soon as it is counted in `nr_cur`, so that is
when the list of dispatched entries has grown. If the enumeration of the
directory is empty, nothing but this status of `old` changes in `old`, its
child arrays and `entry_count` included. `old` is an entry allocated before
the call, and `dir__sortbyname` only sets the array `by_name` of its
directory. -/
theorem update_dir_exit_status (x : UpdateExt) (fuel : Nat) (w : Sys) (old : Nat)
    (has_path : Bool) (hold : old < w.next) (hsort : SortNameSpec x) (st : Int) (w1 : Sys)
    (h : waa__update_dir x fuel w old has_path = Run.ret (st, w1)) :
    (((w1.heap old).entry_status = bit_clear (w.heap old).entry_status FS_LIKELY ∧
        w1.dispatched = w.dispatched) ∨
      ((w1.heap old).entry_status =
          bit_clear (w.heap old).entry_status FS_LIKELY ||| FS_CHANGED ||| FS_CHILD_CHANGED ∧
        w.dispatched.length < w1.dispatched.length)) ∧
    ((x.dir__enumerator old true).2 = [] →
      w1.heap old = { w.heap old with
        entry_status := bit_clear (w.heap old).entry_status FS_LIKELY }) :=
  ⟨(update_dir_frame x fuel w old has_path hold hsort st w1 h).status,
    fun he => update_dir_empty x fuel w old has_path hold he st w1 h⟩

theorem demo_sort_name_spec : SortNameSpec demo_upd := by
  intro h d
  refine ⟨fun q hq => ?_, ?_⟩
  · show (h.set d _) q = h q
    exact Heap.set_other _ _ _ _ hq
  · have e : (demo_upd.dir__sortbyname h d).2 d = { h d with
        by_name := (((h d).by_inode.reduceOption.insertionSort
          (fun a b => dir___f_sort_by_name (h a) (h b) ≤ 0)).map some ++ [none]) } :=
      Heap.set_same _ _ _
    rw [e]

/-- Witness for C22: in the root without known entries and with the status
`FS_LIKELY | FS_NEW`, `waa__update_dir` finds the directory `a` (pointer `2`),
dispatches it, and leaves the status `FS_NEW | FS_CHANGED | FS_CHILD_CHANGED`
in the root. -/
theorem update_dir_exit_status_witness :
    ∃ st w1, waa__update_dir demo_upd 2 demo_likely_sys 0 true = Run.ret (st, w1) ∧
      st = 0 ∧ (w1.heap 0).entry_status = FS_NEW ||| FS_CHANGED ||| FS_CHILD_CHANGED ∧
      w1.dispatched = [2] ∧
      ((((w1.heap 0).entry_status
            = bit_clear (demo_likely_sys.heap 0).entry_status FS_LIKELY ∧
          w1.dispatched = demo_likely_sys.dispatched) ∨
        ((w1.heap 0).entry_status =
            bit_clear (demo_likely_sys.heap 0).entry_status FS_LIKELY
              ||| FS_CHANGED ||| FS_CHILD_CHANGED ∧
          demo_likely_sys.dispatched.length < w1.dispatched.length)) ∧
      ((demo_upd.dir__enumerator 0 true).2 = [] →
        w1.heap 0 = { demo_likely_sys.heap 0 with
          entry_status := bit_clear (demo_likely_sys.heap 0).entry_status FS_LIKELY })) := by
  have h : status_of 0 (waa__update_dir demo_upd 2 demo_likely_sys 0 true)
      = some (0, 21, [some 2, none], [2]) := by decide!
  rcases hrun : waa__update_dir demo_upd 2 demo_likely_sys 0 true with ⟨st, w⟩ | _ | _
  · rw [hrun] at h
    simp only [status_of, Option.some.injEq, Prod.mk.injEq] at h
    obtain ⟨h1, h2, _, h4⟩ := h
    exact ⟨st, w, rfl, h1, h2, h4,
      update_dir_exit_status demo_upd 2 demo_likely_sys 0 true (by decide)
        demo_sort_name_spec st w hrun⟩
  · rw [hrun] at h
    simp [status_of] at h
  · rw [hrun] at h
    simp [status_of] at h

/-- C21: where the claim fails. The root has `do_full_child` set and a
non-zero `entry_status` (`FS_LIKELY | FS_NEW`), but with `opt_recursive = -1`
the function `waa___check_dir_for_update` does not call `waa__update_dir`: it
only dispatches the root (pointer `0`) and leaves the status and the children
as they were, where `waa__update_dir` on the same state would have cleared
`FS_LIKELY`, found the directory `a` (pointer `2`) and dispatched it. -/
theorem check_dir_nonrecursive_no_update :
    (demo_full_sys.heap 0).do_full_child = true ∧ (demo_full_sys.heap 0).entry_status ≠ 0 ∧
    status_of 0 (waa___check_dir_for_update demo_nonrec 2 demo_full_sys 0 true)
      = some (0, FS_LIKELY ||| FS_NEW, [], [0]) ∧
    status_of 0 (waa__update_dir demo_nonrec 2 demo_full_sys 0 true)
      = some (0, FS_NEW ||| FS_CHANGED ||| FS_CHILD_CHANGED, [some 2, none], [2]) :=
  ⟨by decide, by decide, by decide!, by decide!⟩

/-- C21, amended: `waa___check_dir_for_update(sts)` does nothing and returns
`0` if `sts` has not `do_full_child`. Else, if `opt_recursive >= 0`, one of
`entry_status != 0`, `opt_checksum`, `RF_ADD`, `RF_CHECK` holds and
`only_check_status` is not set, it is `waa__update_dir(sts)`, followed, if
that returned `0`, by the dispatch of `sts`; in every other case it is the
dispatch of `sts` alone, in the unchanged state. -/
theorem check_dir_for_update_calls (x : UpdateExt) (fuel : Nat) (w : Sys) (sts : Nat)
    (has_path : Bool) :
    waa___check_dir_for_update x fuel w sts has_path =
      if (w.heap sts).do_full_child = false then Run.ret (0, w)
      else if check_dir_wants_update x (w.heap sts) then
        match waa__update_dir x fuel w sts has_path with
        | Run.ret (st, w1) =>
          if st ≠ 0 then Run.ret (st, w1) else Run.ret (check_dir_dispatch x w1 sts)
        | Run.bug => Run.bug
        | Run.fuel => Run.fuel
      else Run.ret (check_dir_dispatch x w sts) := by
  unfold waa___check_dir_for_update check_dir_wants_update check_dir_dispatch
  by_cases h1 : (w.heap sts).do_full_child = true <;>
  by_cases hr : x.opt_recursive ≥ 0 <;>
  by_cases hs : ((w.heap sts).entry_status ≠ 0 ∨ x.opt_checksum = true ∨
        (w.heap sts).flags &&& RF_ADD ≠ 0 ∨ (w.heap sts).flags &&& RF_CHECK ≠ 0) <;>
  by_cases h3 : x.only_check_status = true <;>
  simp only [h1, hr, hs, h3, and_self, and_true, and_false, false_and, true_and, if_true,
    if_false, not_true_eq_false, not_false_eq_true, Bool.true_eq_false, Bool.false_eq_true,
    ne_eq]

theorem output_tree_loop_start (k : Consts) (x : OutputExt) (env : OutputEnv) (fuel : Nat)
    (files : Files) (h : Heap) (mpl root : Nat) (hopen : env.open_status = 0)
    (hwp : env.write_placeholder = none) (hsave : env.save_status 0 = 0)
    (hec : (h root).entry_count ≠ 0) :
    waa__output_tree k x env fuel files h mpl root =
      match output_loop x env fuel (output_loop_start x h root) with
      | Run.ret (status, s2) =>
        if status = 0 then output_save_header k env files s2
        else output_ex env files status (header_placeholder k ++ s2.body) s2 []
      | Run.bug => Run.bug
      | Run.fuel => Run.fuel := by
  unfold waa__output_tree output_loop_start
  simp only [hopen, hwp, hsave, ne_eq, not_true_eq_false, if_false]
  rw [if_neg (by simpa [Heap.set_same] using hec)]

/-- C26: where the claim fails. For the tree `/wc/{a, b/c}` the loop of
`waa__output_tree` never has more than one directory cursor (the cursor of
the root is finished when `b` is taken from it, and then `b` is the only
one), but the fourth field of the header line is `1024`, the number of slots
allocated for the array (`alloc_dir`). -/
theorem output_tree_header_alloc_dir :
    header_fields (waa__output_tree demo_consts demo_out demo_out_env 4 demo_files demo_heap 0 0)
      = some (6, [1, 64, 4, 1024, 11, 6]) ∧
    output_max_dir demo_out demo_out_env 4 (output_loop_start demo_out demo_heap 0) = 1 :=
  ⟨by decide!, by decide!⟩

/-- C26, amended: under the conditions of C1, for a tree of at most 1024
entries, `waa__output_tree` returns and the header line it writes has as
fourth field `1024`, the number of slots allocated for the cursor array
(`alloc_dir`, which is only doubled when `max_dir` reaches it), whatever
number of cursors was in use; the fifth field is the total of `strlen(name)+1`
over the entries written, plus `3` (the root is counted without its `+1`, and
`4` is added), and the sixth field is the largest `path_len` of an entry
written, plus `4`; both are taken modulo `2^32`. -/
theorem output_tree_header_fields (k : Consts) (x : OutputExt) (env : OutputEnv) (fuel : Nat)
    (files : Files) (h : Heap) (mpl root : Nat) (nodes : List Nat)
    (wf : WellFormed h root nodes) (hsort : SortSpec x.dir__sortbyinode)
    (hbound : nodes.length ≤ 1024) (hopen : env.open_status = 0)
    (hwp : env.write_placeholder = none) (hsave : ∀ n, env.save_status n = 0)
    (hfuel : nodes.length ≤ fuel + 1)
    (hfit : ∀ c a ss mp : Nat, c < 2 ^ 32 → a < 2 ^ 32 →
      (fmt_header k.WAA_VERSION k.HEADER_LEN c a (u32 ss) (u32 mp)).length
        < k.HEADER_LEN - 1)
    (hsep : PATH_SEPARATOR ∈ env.target.dest_name) :
    ∃ r : OutResult,
      waa__output_tree k x env fuel files h mpl root = Run.ret r ∧
      r.header = header_final k (fmt_header k.WAA_VERSION k.HEADER_LEN r.saved.length 1024
        (u32 (out_strings (h.set root { h root with url := none }) r.saved + 3))
        (u32 (out_max_path r.heap r.saved + 4))) := by
  obtain ⟨r, done, s, hr, inv, hd, r1, r2, _, r4, _, r6, r7, r8⟩ :=
    output_tree_run k x env fuel files h mpl root nodes wf hsort
      (lt_of_le_of_lt hbound (by norm_num)) hopen hwp hsave hfuel hfit hsep
  refine ⟨r, hr, ?_⟩
  have e5 : u32 (s.string_space + 4)
      = u32 (out_strings (h.set root { h root with url := none }) s.saved + 3) := by
    unfold u32 at r6 ⊢
    omega
  rw [r4, r2, r1, r7 hbound, e5, r8]

/-- Example for C26: for the tree `/wc/{a, b/c}` the header line holds the
fields `1 64 4 1024 11 6`: four records, `alloc_dir = 1024`, the names `.`,
`a`, `b`, `c` with `(1+1)*4 + 3 = 11`, and the longest path length `2` plus
`4`. -/
theorem output_tree_header_fields_witness :
    ∃ r : OutResult,
      waa__output_tree demo_consts demo_out demo_out_env 4 demo_files demo_heap 0 0
        = Run.ret r ∧
      r.header = header_final demo_consts (fmt_header 1 64 r.saved.length 1024
        (u32 (out_strings (demo_heap.set 0 { demo_heap 0 with url := none }) r.saved + 3))
        (u32 (out_max_path r.heap r.saved + 4))) ∧
      sscanf_header r.header = (6, [1, 64, 4, 1024, 11, 6]) := by
  obtain ⟨r, hr, h1⟩ := output_tree_header_fields demo_consts demo_out demo_out_env 4
    demo_files demo_heap 0 0 [0, 1, 2, 3] demo_wf sort_id_spec (by decide) rfl rfl
    (fun _ => rfl) (by decide) demo_fit (by decide)
  have hf : header_fields
      (waa__output_tree demo_consts demo_out demo_out_env 4 demo_files demo_heap 0 0)
      = some (6, [1, 64, 4, 1024, 11, 6]) := by decide!
  rw [hr] at hf
  exact ⟨r, hr, h1, Option.some.inj hf⟩

/-- C24: where the claim fails. In the tree `/wc/{a, b/c}` with `a` deleted,
`waa__update_tree` returns `0` and leaves `FS_REMOVED` in `a` (pointer `1`)
and `FS_CHANGED` in the root; `waa__output_tree` on this tree writes four
records, for the root, `a`, `b` and `c`, and the entry count `4` into the
header: it only leaves out entries of type `FT_IGNORE`. -/
theorem output_tree_writes_removed_entry :
    after_run (fun st w => (st, (w.heap 1).entry_status, (w.heap 0).entry_status))
        (waa__update_tree demo_missing 3 8 demo_tree_sys 0 [(0, 4)])
      = some (0, FS_REMOVED, FS_CHANGED) ∧
    after_run (fun _ w => out_summary (waa__output_tree demo_consts demo_out demo_out_env 4
          demo_files w.heap 0 0) [])
        (waa__update_tree demo_missing 3 8 demo_tree_sys 0 [(0, 4)])
      = some (some (0, [(0, 0), (1, 1), (2, 1), (3, 3)], [])) ∧
    after_run (fun _ w => header_fields (waa__output_tree demo_consts demo_out demo_out_env 4
          demo_files w.heap 0 0))
        (waa__update_tree demo_missing 3 8 demo_tree_sys 0 [(0, 4)])
      = some (some (6, [1, 64, 4, 1024, 11, 6])) :=
  ⟨by decide!, by decide!, by decide!⟩

theorem demo_a_removed_wf : WellFormed demo_heap_a_removed 0 [0, 1, 2, 3] := by
  refine ⟨by decide, by decide, rfl, by decide, ?_⟩
  intro d hd hdir
  have hd4 : d = 0 ∨ d = 1 ∨ d = 2 ∨ d = 3 := by simpa using hd
  rcases hd4 with h | h | h | h
  · subst h
    exact ⟨by decide, by decide, by decide, by decide⟩
  · subst h
    exact absurd hdir (by decide)
  · subst h
    exact ⟨by decide, by decide, by decide, by decide⟩
  · subst h
    exact absurd hdir (by decide)

/-- C24, amended: `waa__output_tree` does not look at `entry_status`. Under
the conditions of C1 it returns, and every entry marked `FS_REMOVED` that is
still reachable from the root (through the arrays `by_inode` of directories
with `entry_count > 0`, by entries that are not `FT_IGNORE`) gets its record
and is counted in the entry count of the header, which is the number of
records written. -/
theorem output_tree_keeps_removed (k : Consts) (x : OutputExt) (env : OutputEnv) (fuel : Nat)
    (files : Files) (h : Heap) (mpl root : Nat) (nodes : List Nat)
    (wf : WellFormed h root nodes) (hsort : SortSpec x.dir__sortbyinode)
    (hbound : nodes.length < 2 ^ 30) (hopen : env.open_status = 0)
    (hwp : env.write_placeholder = none) (hsave : ∀ n, env.save_status n = 0)
    (hfuel : nodes.length ≤ fuel + 1)
    (hfit : ∀ c a ss mp : Nat, c < 2 ^ 32 → a < 2 ^ 32 →
      (fmt_header k.WAA_VERSION k.HEADER_LEN c a (u32 ss) (u32 mp)).length
        < k.HEADER_LEN - 1)
    (hsep : PATH_SEPARATOR ∈ env.target.dest_name) :
    ∃ (r : OutResult) (a ss mp : Nat),
      waa__output_tree k x env fuel files h mpl root = Run.ret r ∧
      r.header = header_final k
        (fmt_header k.WAA_VERSION k.HEADER_LEN r.saved.length a ss mp) ∧
      ∀ e, (h e).entry_status &&& FS_REMOVED ≠ 0 → Reach h root e →
        e ∈ r.saved.map Prod.fst := by
  obtain ⟨r, done, s, hr, inv, hd, r1, r2, _, r4, _, _⟩ :=
    output_tree_run k x env fuel files h mpl root nodes wf hsort hbound hopen hwp hsave hfuel
      hfit hsep
  refine ⟨r, s.alloc_dir, u32 (s.string_space + 4), u32 (s.max_path_len + 4), hr, ?_, ?_⟩
  · rw [r4, r2]
  · intro e _ hreach
    rw [r2, inv.saved_eq]
    by_cases he : e = root
    · rw [he]
      exact List.mem_cons_self _ _
    · exact List.mem_cons_of_mem _
        ((saved_reach h root nodes done s inv hd e).mpr ⟨he, hreach⟩)

/-- Example for C24: in the tree `/wc/{a, b/c}` with `a` (pointer `1`) marked
`FS_REMOVED`, `a` is reachable, and `waa__output_tree` writes its record. -/
theorem output_tree_keeps_removed_witness :
    (demo_heap_a_removed 1).entry_status &&& FS_REMOVED ≠ 0 ∧
    Reach demo_heap_a_removed 0 1 ∧
    ∃ r : OutResult,
      waa__output_tree demo_consts demo_out demo_out_env 4 demo_files demo_heap_a_removed 0 0
        = Run.ret r ∧
      1 ∈ r.saved.map Prod.fst := by
  have hreach : Reach demo_heap_a_removed 0 1 :=
    Reach.child 0 1 Reach.root (by decide) (by decide) (by decide)
  obtain ⟨r, _, _, _, hr, _, h3⟩ := output_tree_keeps_removed demo_consts demo_out
    demo_out_env 4 demo_files demo_heap_a_removed 0 0 [0, 1, 2, 3] demo_a_removed_wf
    sort_id_spec (by decide) rfl rfl (fun _ => rfl) (by decide) demo_fit (by decide)
  exact ⟨by decide, hreach, r, hr, h3 1 (by decide) hreach⟩

theorem same_but_revs_more (e e1 : estat) (h : same_but_revs e e1) :
    e1.repos_rev = e.repos_rev ∧ e1.parent = e.parent := by
  have h1 : e1 = { e with other_revs := e1.other_revs } := h
  exact ⟨(congrArg estat.repos_rev h1 : _), (congrArg estat.parent h1 : _)⟩

theorem dir_array_more (env : InputEnv) (e : estat) :
    (dir_array env e).repos_rev = e.repos_rev ∧ (dir_array env e).other_revs = e.other_revs ∧
    (dir_array env e).parent = e.parent := by
  unfold dir_array
  split_ifs <;> exact ⟨rfl, rfl, rfl⟩

theorem mark_other_revs_walk (fuel : Nat) :
    ∀ (h : Heap) (start : Option Nat) (h1 : Heap),
      mark_other_revs fuel h start = Run.ret h1 →
      (∀ q, (h q).other_revs = true → (h1 q).other_revs = true) ∧
      (∀ p, start = some p → (h1 p).other_revs = true) ∧
      (∀ q, (h1 q).other_revs = true → (h q).other_revs = false →
        ∀ p, (h q).parent = some p → (h1 p).other_revs = true) ∧
      (∀ S : Nat → Prop, (∀ q p, S q → (h q).parent = some p → S p) →
        (∀ p, start = some p → S p) →
        ∀ q, (h1 q).other_revs = true → (h q).other_revs = true ∨ S q) := by
  induction fuel with
  | zero =>
    intro h start h1 hr
    cases start with
    | none =>
      unfold mark_other_revs at hr
      cases hr
      refine ⟨fun _ hq => hq, (fun _ hp => by cases hp), ?_, fun _ _ _ _ hq => Or.inl hq⟩
      intro q h1q h0q
      rw [h1q] at h0q
      cases h0q
    | some p =>
      unfold mark_other_revs at hr
      cases hr
  | succ f ih =>
    intro h start h1 hr
    cases start with
    | none =>
      unfold mark_other_revs at hr
      cases hr
      refine ⟨fun _ hq => hq, (fun _ hp => by cases hp), ?_, fun _ _ _ _ hq => Or.inl hq⟩
      intro q h1q h0q
      rw [h1q] at h0q
      cases h0q
    | some p =>
      unfold mark_other_revs at hr
      split at hr
      · rename_i hfl
        cases hr
        refine ⟨fun _ hq => hq, ?_, ?_, fun _ _ _ _ hq => Or.inl hq⟩
        · intro p1 hp1
          cases hp1
          exact hfl
        · intro q h1q h0q
          rw [h1q] at h0q
          cases h0q
      · rename_i hfl
        obtain ⟨m1, m2, m3, m4⟩ := ih _ _ _ hr
        have hset : ∀ q, q ≠ p → (h.set p { h p with other_revs := true }) q = h q :=
          fun q hq => Heap.set_other _ _ _ _ hq
        have hsetp : (h.set p { h p with other_revs := true }) p
            = { h p with other_revs := true } := Heap.set_same _ _ _
        have hpar : ∀ q, ((h.set p { h p with other_revs := true }) q).parent = (h q).parent := by
          intro q
          by_cases hq : q = p
          · rw [hq, hsetp]
          · rw [hset q hq]
        have hp1 : (h1 p).other_revs = true := m1 p (by rw [hsetp])
        refine ⟨?_, ?_, ?_, ?_⟩
        · intro q hq
          apply m1
          by_cases hqp : q = p
          · rw [hqp, hsetp]
          · rw [hset q hqp]
            exact hq
        · intro p1 hp
          cases hp
          exact hp1
        · intro q h1q h0q p1 hp
          by_cases hqp : q = p
          · rw [hqp] at hp
            exact m2 p1 hp
          · refine m3 q h1q ?_ p1 ?_
            · rw [hset q hqp]
              exact h0q
            · rw [hpar]
              exact hp
        · intro S hS hstart q h1q
          have hSp : S p := hstart p rfl
          by_cases hqp : q = p
          · right
            rw [hqp]
            exact hSp
          · have := m4 S (fun q1 p1 hq1 hp1 => hS q1 p1 hq1 (by rw [← hpar]; exact hp1))
              (fun p1 hp1 => hS p p1 hSp hp1) q h1q
            rw [hset q hqp] at this
            exact this

theorem rev_inv_first (x : InputExt) (env : InputEnv) (fuel root ss count : Nat)
    (s s1 : InState) (hcb : x.callback = none) (hload : LoadKeeps x) (hfirst : s.first = true)
    (hc : s.cur = 0) (hf : s.sts_free = 1)
    (hclear : ∀ q, (s.heap q).other_revs = false) (hrp : (s.heap root).parent = none)
    (hstep : input_step x env fuel root ss count s = Run.ret (true, s1)) :
    RevInv env root [0] s1 := by
  obtain ⟨ld, hld, _, _, _, _, _, _, _, ho, hr⟩ :=
    input_step_first x env fuel root ss count s s1 hcb hfirst hc hf hstep
  obtain ⟨d1, d2, d3⟩ := dir_array_more env { ld.2.1 with name := ld.2.2.1 }
  obtain ⟨l1, l2⟩ := hload s.dir_curr (s.heap root)
  rw [← hld] at l1 l2
  have hall : ∀ q, (s1.heap q).other_revs = false := by
    intro q
    by_cases hq : q = root
    · rw [hq, hr, d2]
      show ld.2.1.other_revs = false
      rw [l1]
      exact hclear root
    · rw [ho q hq]
      exact hclear q
  refine ⟨fun q _ => hall q, ?_, ?_, ?_⟩
  · rw [hr, d3]
    show ld.2.1.parent = none
    rw [l2]
    exact hrp
  · intro i h1 h2
    simp only [List.length_singleton] at h2
    omega
  · intro i h1 h2
    simp only [List.length_singleton] at h2
    omega

theorem allocate_flag (h : Heap) (base n q : Nat) (hq : (h q).other_revs = false) :
    (ops__allocate h base n q).other_revs = false := by
  unfold ops__allocate
  split_ifs
  · rfl
  · exact hq

theorem rev_inv_step (x : InputExt) (env : InputEnv) (fuel root ss count : Nat)
    (ps : List Nat) (p : Nat) (s s1 : InState) (hcb : x.callback = none)
    (hload : LoadKeeps x) (hroot : root < env.stat_mem)
    (hinv : LoadInv env root ps count s) (hrev : RevInv env root ps s)
    (hinv1 : LoadInv env root (ps ++ [p]) (count - 1) s1) (hcount : 1 ≤ count)
    (hstep : input_step x env fuel root ss count s = Run.ret (true, s1)) :
    RevInv env root (ps ++ [p]) s1 := by
  have hn1 : 1 ≤ ps.length := List.length_pos.mpr hinv.pos
  have hfree : s.sts_free = 0 ∨ (s.sts_free ≠ 0 ∧ s.stat_mem = env.stat_mem) := by
    rcases hinv.free with ⟨_, h⟩ | ⟨_, h1, h2⟩
    · exact Or.inl h
    · exact Or.inr ⟨by omega, h2⟩
  obtain ⟨p', H0, e0, ld, p1, p2, hH0, hld, l1, l2, l3, c1, c2, c3, c4, c5, f1, f2, f3, g1, g2,
      g3, h4, w1, w2, w3, w4, w5⟩ :=
    input_step_next x env fuel root ss count s s1 hcb hinv.first hroot hfree hstep
  have hcur : s.cur = ps.length - 1 := by
    have := hinv.cur
    omega
  have hsts : env.stat_mem + s.cur = rec_ptr root env.stat_mem ps.length := by
    unfold rec_ptr
    rw [if_neg (by omega), hcur]
  rw [hsts] at f1 f2 g3 hld w1 w2 w3 w4
  have hlen : (ps ++ [p]).length = ps.length + 1 := by simp
  -- the parent index of the record is the one of the invariant
  have hpp : p' = p := by
    have a1 := hinv1.par ps.length hn1 (by omega)
    rw [getD_append_last] at a1
    obtain ⟨_, _, d3⟩ := dir_array_more env e0
    obtain ⟨_, s2⟩ := same_but_revs_more _ _ f3
    rw [f2, d3, s2] at a1
    have a2 : rec_ptr root env.stat_mem (p' - 1) = rec_ptr root env.stat_mem (p - 1) :=
      Option.some.inj a1
    have a3 := rec_ptr_inj root env.stat_mem _ _ hroot a2
    have a4 : 1 ≤ p := by
      rcases hinv1.pidx ps.length (by omega) with ⟨h0, _⟩ | ⟨_, h1, _⟩
      · omega
      · rw [getD_append_last] at h1
        exact h1
    omega
  subst hpp
  have hpj : p' - 1 < ps.length := by omega
  -- the entries read before are not touched by the allocation
  have hold : ∀ j, j < ps.length →
      H0 (rec_ptr root env.stat_mem j) = s.heap (rec_ptr root env.stat_mem j) := by
    intro j hj
    rw [hH0]
    rcases hinv.free with ⟨h1, h2⟩ | ⟨h1, h2, _⟩
    · rw [if_pos h2]
      have : j = 0 := by omega
      rw [this]
      unfold ops__allocate rec_ptr
      simp only [if_true]
      rw [if_neg (by omega)]
    · rw [if_neg (by omega)]
  have hH0f : ∀ q, (s.heap q).other_revs = false → (H0 q).other_revs = false := by
    intro q hq
    rw [hH0]
    split_ifs
    · exact allocate_flag _ _ _ _ hq
    · exact hq
  have hneq : ∀ j, j < ps.length →
      rec_ptr root env.stat_mem j ≠ rec_ptr root env.stat_mem ps.length := by
    intro j hj h
    have := rec_ptr_inj root env.stat_mem _ _ hroot h
    omega
  have hstsout : (s.heap (rec_ptr root env.stat_mem ps.length)).other_revs = false :=
    hrev.out _ (fun i hi h => hneq i hi h.symm)
  -- the flags and the parents in front of the walk
  have h4sts : (h4 (rec_ptr root env.stat_mem ps.length)).other_revs = false := by
    rw [w2, hld, (hload _ _).1]
    exact hH0f _ hstsout
  have h4old : ∀ j, j < ps.length → (h4 (rec_ptr root env.stat_mem j)).other_revs
      = (s.heap (rec_ptr root env.stat_mem j)).other_revs := by
    intro j hj
    rw [w1 _ (hneq j hj), hold j hj]
  have h4out : ∀ q, (∀ i, i < ps.length + 1 → q ≠ rec_ptr root env.stat_mem i) →
      (h4 q).other_revs = false := by
    intro q hq
    rw [w1 q (hq ps.length (by omega))]
    exact hH0f q (hrev.out q (fun i hi => hq i (by omega)))
  have h4par : ∀ j, 1 ≤ j → j < ps.length → (h4 (rec_ptr root env.stat_mem j)).parent
      = some (rec_ptr root env.stat_mem (ps.getD j 0 - 1)) := by
    intro j hj1 hj
    rw [w3 _ (hneq j hj), hold j hj]
    exact hinv.par j hj1 hj
  have h4root : (h4 root).parent = none := by
    have e0 : root = rec_ptr root env.stat_mem 0 := by
      unfold rec_ptr
      rw [if_pos rfl]
    rw [e0, w3 _ (hneq 0 (by omega)), hold 0 (by omega), ← e0]
    exact hrev.rootpar
  have hpidx : ∀ j, 1 ≤ j → j < ps.length → ps.getD j 0 - 1 < j := by
    intro j hj1 hj
    rcases hinv.pidx j hj with ⟨h0, _⟩ | ⟨_, h1, h2⟩
    · omega
    · omega
  -- the revisions after the step
  have hrevold : ∀ j, j < ps.length → (s1.heap (rec_ptr root env.stat_mem j)).repos_rev
      = (s.heap (rec_ptr root env.stat_mem j)).repos_rev := by
    intro j hj
    by_cases hjp : j = p' - 1
    · rw [hjp]
      have := (same_but_revs_more _ _ g3).1
      rw [this, hold _ hpj]
    · have := (same_but_revs_more _ _ (f1 _ (hneq j hj) (fun h =>
        hjp (rec_ptr_inj root env.stat_mem _ _ hroot h)))).1
      rw [this, hold j hj]
  have hrevsts : (s1.heap (rec_ptr root env.stat_mem ps.length)).repos_rev
      = ld.2.1.repos_rev := by
    rw [f2, (dir_array_more env e0).1, (same_but_revs_more _ _ f3).1]
  have hparroot : (s1.heap root).parent = none := by
    have e0 : root = rec_ptr root env.stat_mem 0 := by
      unfold rec_ptr
      rw [if_pos rfl]
    by_cases hjp : 0 = p' - 1
    · have := (same_but_revs_more _ _ g3).2
      rw [← hjp, ← e0] at this
      rw [this]
      have h2 := hold 0 (by omega)
      rw [← e0] at h2
      rw [h2]
      exact hrev.rootpar
    · have := (same_but_revs_more _ _ (f1 root (by rw [e0]; exact hneq 0 (by omega))
        (fun h => hjp (rec_ptr_inj root env.stat_mem _ _ hroot (by rw [← e0]; exact h))))).2
      rw [this]
      have h2 := hold 0 (by omega)
      rw [← e0] at h2
      rw [h2]
      exact hrev.rootpar
  -- what is needed of the flags after the step
  have key : (∀ q, (h4 q).other_revs = true → (s1.heap q).other_revs = true) ∧
      (∀ q, (s1.heap q).other_revs = true → (h4 q).other_revs = false →
        (∃ j, j < ps.length ∧ q = rec_ptr root env.stat_mem j) ∧
        ∀ pp, (h4 q).parent = some pp → (s1.heap pp).other_revs = true) ∧
      (ld.2.1.repos_rev ≠ (s.heap (rec_ptr root env.stat_mem (p' - 1))).repos_rev →
        (s1.heap (rec_ptr root env.stat_mem (p' - 1))).other_revs = true) := by
    rw [hold _ hpj] at w5
    rcases w5 with ⟨hd, h5, hwalk, hfl⟩ | ⟨hd, hfl⟩
    · obtain ⟨m1, m2, m3, m4⟩ := mark_other_revs_walk fuel _ _ _ hwalk
      refine ⟨?_, ?_, ?_⟩
      · intro q hq
        rw [hfl]
        exact m1 q hq
      · intro q hq h0
        rw [hfl] at hq
        refine ⟨?_, ?_⟩
        · have := m4 (fun q => ∃ j, j < ps.length ∧ q = rec_ptr root env.stat_mem j) ?_ ?_ q hq
          · rcases this with h | h
            · rw [h] at h0
              cases h0
            · exact h
          · rintro q1 p1 ⟨j, hj, rfl⟩ hp1
            by_cases hj0 : j = 0
            · have e0 : root = rec_ptr root env.stat_mem 0 := by
                unfold rec_ptr
                rw [if_pos rfl]
              rw [hj0, ← e0, h4root] at hp1
              cases hp1
            · rw [h4par j (by omega) hj] at hp1
              exact ⟨ps.getD j 0 - 1, by have := hpidx j (by omega) hj; omega,
                (Option.some.inj hp1).symm⟩
          · intro p1 hp1
            exact ⟨p' - 1, hpj, (Option.some.inj hp1).symm⟩
        · intro pp hpp
          rw [hfl]
          exact m3 q hq h0 pp hpp
      · intro _
        rw [hfl]
        exact m2 _ rfl
    · refine ⟨?_, ?_, fun hne => absurd hd hne⟩
      · intro q hq
        rw [hfl]
        exact hq
      · intro q hq h0
        rw [hfl, h0] at hq
        cases hq
  obtain ⟨k1, k2, k3⟩ := key
  have hstsflag : (s1.heap (rec_ptr root env.stat_mem ps.length)).other_revs = false := by
    by_contra hc
    have hc1 : (s1.heap (rec_ptr root env.stat_mem ps.length)).other_revs = true := by
      simpa using hc
    obtain ⟨⟨j, hj, he⟩, _⟩ := k2 _ hc1 h4sts
    exact hneq j hj he.symm
  refine ⟨?_, hparroot, ?_, ?_⟩
  · intro q hq
    rw [hlen] at hq
    by_contra hc
    have hc1 : (s1.heap q).other_revs = true := by simpa using hc
    obtain ⟨⟨j, hj, he⟩, _⟩ := k2 q hc1 (h4out q hq)
    exact hq j (by omega) he
  · intro i hi1 hi hfl
    rw [hlen] at hi
    by_cases hin : i = ps.length
    · rw [hin, hstsflag] at hfl
      cases hfl
    · have hil : i < ps.length := by omega
      rw [getD_append_left ps p' i hil]
      have hpi := hpidx i hi1 hil
      by_cases h4f : (h4 (rec_ptr root env.stat_mem i)).other_revs = true
      · apply k1
        rw [h4old _ (by omega)]
        rw [h4old i hil] at h4f
        exact hrev.up i hi1 hil h4f
      · have h4f0 : (h4 (rec_ptr root env.stat_mem i)).other_revs = false := by
          simpa using h4f
        exact (k2 _ hfl h4f0).2 _ (h4par i hi1 hil)
  · intro i hi1 hi hd
    rw [hlen] at hi
    by_cases hin : i = ps.length
    · rw [hin, getD_append_last] at hd ⊢
      rw [hrevsts, hrevold _ hpj] at hd
      exact k3 hd
    · have hil : i < ps.length := by omega
      rw [getD_append_left ps p' i hil] at hd ⊢
      have hpi := hpidx i hi1 hil
      rw [hrevold i hil, hrevold _ (by omega)] at hd
      apply k1
      rw [h4old _ (by omega)]
      exact hrev.diff i hi1 hil hd

theorem rev_inv_iter (x : InputExt) (env : InputEnv) (fuel root ss : Nat)
    (hcb : x.callback = none) (hload : LoadKeeps x) (hroot : root < env.stat_mem) :
    ∀ (n count : Nat) (ps : List Nat) (s s1 : InState), LoadInv env root ps count s →
      RevInv env root ps s → n ≤ count → input_iter x env fuel root ss n count s = some s1 →
      ∃ ps1, ps1.length = n ∧ LoadInv env root (ps ++ ps1) (count - n) s1 ∧
        RevInv env root (ps ++ ps1) s1 := by
  intro n
  induction n with
  | zero =>
    intro count ps s s1 hinv hrev _ hit
    unfold input_iter at hit
    cases hit
    exact ⟨[], rfl, by simpa using hinv, by simpa using hrev⟩
  | succ n ih =>
    intro count ps s s1 hinv hrev hn hit
    unfold input_iter at hit
    split at hit
    · rename_i s2 hstep
      obtain ⟨p, _, _, hinv2, _⟩ := load_inv_step x env fuel root ss count ps s s2 hcb hroot hinv
        (by omega) hstep
      have hrev2 := rev_inv_step x env fuel root ss count ps p s s2 hcb hload hroot hinv hrev
        hinv2 (by omega) hstep
      obtain ⟨ps1, hl, hinv3, hrev3⟩ :=
        ih (count - 1) (ps ++ [p]) s2 s1 hinv2 hrev2 (by omega) hit
      refine ⟨p :: ps1, by simp [hl], ?_, ?_⟩
      · have e : count - 1 - n = count - (n + 1) := by omega
        rw [e] at hinv3
        simpa using hinv3
      · simpa using hrev3
    · cases hit

theorem ancestor_flagged (h : Heap)
    (hclosed : ∀ q p, (h q).other_revs = true → (h q).parent = some p →
      (h p).other_revs = true) (e a : Nat) (hanc : Ancestor h e a) :
    (∀ p, (h e).parent = some p → (h p).other_revs = true) → (h a).other_revs = true := by
  induction hanc with
  | parent e a hp =>
    intro hpar
    exact hpar a hp
  | up e p a hp _ ih =>
    intro hpar
    exact ih (fun p1 hp1 => hclosed p p1 (hpar p hp) hp1)

/-- C30: after `waa__input_tree` has read a dir-file and returned `0`, the
entries with `other_revs` set are closed under taking the parent; every entry
read but the root has the root among its ancestors; and if the `repos_rev` of
such an entry differs from that of its parent, every proper ancestor of the
entry has `other_revs` set. The flags are clear and the root has no parent
before the call, there is no callback, and `ops__load_1entry` leaves `parent`
and `other_revs` of the entry alone. -/
theorem input_tree_other_revs (k : Consts) (x : InputExt) (env : InputEnv) (fuel : Nat)
    (dir : List Nat) (h : Heap) (approx mpl root : Nat) (r : InResult)
    (hcb : x.callback = none) (hload : LoadKeeps x) (hroot : root < env.stat_mem)
    (hl : env.lseek_ret = none) (hm : env.mmap_ret = none) (hc : env.close_ret = none)
    (hclear : ∀ q, (h q).other_revs = false) (hrp : (h root).parent = none)
    (hrun : waa__input_tree k x env fuel dir h approx mpl root = Run.ret r)
    (hacc : r.status = 0) :
    (∀ q p, (r.heap q).other_revs = true → (r.heap q).parent = some p →
      (r.heap p).other_revs = true) ∧
    (∀ i, 1 ≤ i → i < r.nloaded →
      Ancestor r.heap (rec_ptr root env.stat_mem i) root ∧
      ∀ p, (r.heap (rec_ptr root env.stat_mem i)).parent = some p →
        (r.heap (rec_ptr root env.stat_mem i)).repos_rev ≠ (r.heap p).repos_rev →
        ∀ a, Ancestor r.heap (rec_ptr root env.stat_mem i) a →
          (r.heap a).other_revs = true) := by
  obtain ⟨s, h6, hloop, hs0, eh, en, _⟩ :=
    input_tree_accepted k x env fuel dir h approx mpl root r hl hm hc hrun hacc
  generalize input_header k dir approx mpl = hd at *
  have hcnt : 1 ≤ hd.count := by
    by_contra hz
    have h0 : hd.count = 0 := by omega
    rw [h0] at hloop
    unfold input_loop at hloop
    cases hloop
    unfold input_init at hs0
    simp only at hs0
    rw [h6] at hs0
    cases hs0
  have hit := input_loop_accepted x env fuel root hd.string_space hd.count _ s hcnt hloop hs0
  obtain ⟨c, hcc⟩ : ∃ c, hd.count = c + 1 := ⟨hd.count - 1, by omega⟩
  rw [hcc] at hit
  unfold input_iter at hit
  split at hit
  · rename_i s2 hstep
    obtain ⟨_, hinv, _⟩ := load_inv_first x env fuel root hd.string_space (c + 1) _ s2 hcb
      rfl rfl rfl rfl hstep
    have hrev := rev_inv_first x env fuel root hd.string_space (c + 1) _ s2 hcb hload
      rfl rfl rfl hclear hrp hstep
    simp only [Nat.add_sub_cancel] at hinv hit
    obtain ⟨ps1, hlen, hfin, hrfin⟩ := rev_inv_iter x env fuel root hd.string_space hcb hload
      hroot c c [0] s2 s hinv hrev (le_refl _) hit
    rw [eh, en, hfin.nl]
    generalize [0] ++ ps1 = ps at *
    have e0 : root = rec_ptr root env.stat_mem 0 := by
      unfold rec_ptr
      rw [if_pos rfl]
    have hpidx : ∀ j, 1 ≤ j → j < ps.length → ps.getD j 0 - 1 < j := by
      intro j hj1 hj
      rcases hfin.pidx j hj with ⟨h0, _⟩ | ⟨_, h1, h2⟩
      · omega
      · omega
    have hclosed : ∀ q p, (s.heap q).other_revs = true → (s.heap q).parent = some p →
        (s.heap p).other_revs = true := by
      intro q p hq hp
      by_cases hin : ∃ j, j < ps.length ∧ q = rec_ptr root env.stat_mem j
      · obtain ⟨j, hj, rfl⟩ := hin
        by_cases hj0 : j = 0
        · rw [hj0, ← e0, hrfin.rootpar] at hp
          cases hp
        · rw [hfin.par j (by omega) hj] at hp
          rw [← Option.some.inj hp]
          exact hrfin.up j (by omega) hj hq
      · have := hrfin.out q (fun i hi he => hin ⟨i, hi, he⟩)
        rw [this] at hq
        cases hq
    have hanc : ∀ n i, i < n → 1 ≤ i → i < ps.length →
        Ancestor s.heap (rec_ptr root env.stat_mem i) root := by
      intro n
      induction n with
      | zero =>
        intro i hi
        omega
      | succ n ih =>
        intro i hi hi1 hil
        have hp := hfin.par i hi1 hil
        have hlt := hpidx i hi1 hil
        by_cases hz : ps.getD i 0 - 1 = 0
        · rw [hz, ← e0] at hp
          exact Ancestor.parent _ _ hp
        · exact Ancestor.up _ _ _ hp (ih _ (by omega) (by omega) (by omega))
    refine ⟨hclosed, ?_⟩
    intro i hi1 hil
    refine ⟨hanc (i + 1) i (by omega) hi1 hil, ?_⟩
    intro p hp hd2 a ha
    refine ancestor_flagged s.heap hclosed _ a ha ?_
    intro p1 hp1
    rw [hp] at hp1
    rw [← Option.some.inj hp1]
    have hp2 := hfin.par i hi1 hil
    rw [hp] at hp2
    rw [Option.some.inj hp2] at hd2 ⊢
    exact hrfin.diff i hi1 hil hd2
  · cases hit

theorem demo_load_keeps (s : List Nat) (old : estat) :
    (demo_load s old).2.1.other_revs = old.other_revs ∧
    (demo_load s old).2.1.parent = old.parent := by
  unfold demo_load
  repeat' split
  all_goals exact ⟨rfl, rfl⟩

theorem demo_in_rev_keeps : LoadKeeps demo_in_rev := by
  intro s old
  exact demo_load_keeps s old

/-- Example for C30: in the dir-file of the examples, read with the inode
number as `repos_rev`, every entry differs from its parent; `waa__input_tree`
returns `0` after four records and has set `other_revs` in the root (pointer
`500`) and in `b` (pointer `1001`), the parents, and not in `a` and `c`. -/
theorem input_tree_other_revs_witness :
    ∃ r : InResult,
      waa__input_tree demo_consts demo_in_rev demo_in_env 4 demo_dir_file
        (fun _ => default) 0 0 500 = Run.ret r ∧
      r.status = 0 ∧ r.nloaded = 4 ∧
      [500, 1000, 1001, 1002].map (fun p => ((r.heap p).repos_rev, (r.heap p).other_revs))
        = [(100, true), (101, false), (102, true), (103, false)] ∧
      (∀ q p, (r.heap q).other_revs = true → (r.heap q).parent = some p →
        (r.heap p).other_revs = true) ∧
      (∀ i, 1 ≤ i → i < r.nloaded →
        Ancestor r.heap (rec_ptr 500 demo_in_env.stat_mem i) 500 ∧
        ∀ p, (r.heap (rec_ptr 500 demo_in_env.stat_mem i)).parent = some p →
          (r.heap (rec_ptr 500 demo_in_env.stat_mem i)).repos_rev ≠ (r.heap p).repos_rev →
          ∀ a, Ancestor r.heap (rec_ptr 500 demo_in_env.stat_mem i) a →
            (r.heap a).other_revs = true) := by
  have hs : revs_summary [500, 1000, 1001, 1002]
      (waa__input_tree demo_consts demo_in_rev demo_in_env 4 demo_dir_file
        (fun _ => default) 0 0 500)
      = some (0, 4, [(100, true), (101, false), (102, true), (103, false)]) := by decide!
  rcases hrun : waa__input_tree demo_consts demo_in_rev demo_in_env 4 demo_dir_file
      (fun _ => default) 0 0 500 with r | _ | _
  · rw [hrun] at hs
    simp only [revs_summary, Option.some.injEq, Prod.mk.injEq] at hs
    obtain ⟨h1, h2, h3⟩ := hs
    obtain ⟨t1, t2⟩ := input_tree_other_revs demo_consts demo_in_rev demo_in_env 4
      demo_dir_file (fun _ => default) 0 0 500 r rfl demo_in_rev_keeps (by decide) rfl rfl rfl
      (fun _ => rfl) rfl hrun h1
    exact ⟨r, rfl, h1, h2, h3, t1, t2⟩
  · rw [hrun] at hs
    simp [revs_summary] at hs
  · rw [hrun] at hs
    simp [revs_summary] at hs

theorem disjoint_bits (a b : Nat) (h : a &&& b = 0) (i : Nat) :
    ¬ (a.testBit i = true ∧ b.testBit i = true) := by
  intro ⟨h1, h2⟩
  have := congrArg (fun n => n.testBit i) h
  simp only [Nat.testBit_land, h1, h2, Nat.zero_testBit, Bool.and_self] at this
  cases this

theorem removed_bit_clear_likely (s : Nat) :
    removed_bit (bit_clear s FS_LIKELY) = removed_bit s := by
  unfold removed_bit bit_clear
  apply Nat.eq_of_testBit_eq
  intro i
  have hd := disjoint_bits FS_LIKELY FS_REMOVED (by decide) i
  simp only [Nat.testBit_land, Nat.testBit_xor]
  cases h1 : s.testBit i <;> cases h2 : FS_LIKELY.testBit i <;>
    cases h3 : FS_REMOVED.testBit i <;> simp_all

theorem removed_bit_or (s m : Nat) (h : m &&& FS_REMOVED = 0) :
    removed_bit (s ||| m) = removed_bit s := by
  unfold removed_bit
  apply Nat.eq_of_testBit_eq
  intro i
  have hd := disjoint_bits m FS_REMOVED h i
  simp only [Nat.testBit_land, Nat.testBit_lor]
  cases h1 : s.testBit i <;> cases h2 : m.testBit i <;>
    cases h3 : FS_REMOVED.testBit i <;> simp_all

theorem removed_bit_changed (s : Nat) :
    removed_bit (FS_CHANGED ||| bit_clear s FS_LIKELY) = removed_bit s := by
  rw [Nat.lor_comm, removed_bit_or _ _ (by decide), removed_bit_clear_likely]

theorem removed_bit_child_changed (s : Nat) :
    removed_bit (bit_clear s FS_LIKELY ||| FS_CHANGED ||| FS_CHILD_CHANGED) = removed_bit s := by
  rw [removed_bit_or _ _ (by decide), removed_bit_or _ _ (by decide), removed_bit_clear_likely]

theorem fr_refl (t : Nat) (q : Option Nat) (w : Sys) : Fr t q w w :=
  ⟨le_refl _, fun _ _ _ _ => rfl, fun _ _ => ⟨rfl, rfl⟩, rfl⟩

theorem fr_trans (t : Nat) (q : Option Nat) (w w1 w2 : Sys)
    (h1 : Fr t q w w1) (h2 : Fr t q w1 w2) : Fr t q w w2 := by
  refine ⟨le_trans h1.next h2.next, ?_, ?_, ?_⟩
  · intro e he het heq
    rw [h2.others e (lt_of_lt_of_le he h1.next) het heq, h1.others e he het heq]
  · intro p hp
    obtain ⟨a1, a2⟩ := h1.par p hp
    obtain ⟨b1, b2⟩ := h2.par p hp
    exact ⟨b1.trans a1, b2.trans a2⟩
  · rw [h2.self, h1.self]

theorem check_dir_frame (x : UpdateExt) (fuel : Nat) (w : Sys) (d : Nat) (has_path : Bool)
    (st : Int) (w1 : Sys) (hd : d < w.next) (hsort : SortNameSpec x)
    (h : waa___check_dir_for_update x fuel w d has_path = Run.ret (st, w1)) :
    w.next ≤ w1.next ∧ (∀ e, e < w.next → e ≠ d → w1.heap e = w.heap e) ∧
    removed_bit (w1.heap d).entry_status = removed_bit (w.heap d).entry_status ∧
    (w1.heap d).parent = (w.heap d).parent := by
  have hsame : ∀ (st2 : Int) (w2 : Sys), w2.heap = w.heap → w2.next = w.next →
      w.next ≤ w2.next ∧ (∀ e, e < w.next → e ≠ d → w2.heap e = w.heap e) ∧
      removed_bit (w2.heap d).entry_status = removed_bit (w.heap d).entry_status ∧
      (w2.heap d).parent = (w.heap d).parent := by
    intro _ w2 e1 e2
    rw [e1, e2]
    exact ⟨le_refl _, fun _ _ _ => rfl, rfl, rfl⟩
  have hupd : ∀ (st2 : Int) (w2 : Sys),
      waa__update_dir x fuel w d has_path = Run.ret (st2, w2) →
      w.next ≤ w2.next ∧ (∀ e, e < w.next → e ≠ d → w2.heap e = w.heap e) ∧
      removed_bit (w2.heap d).entry_status = removed_bit (w.heap d).entry_status ∧
      (w2.heap d).parent = (w.heap d).parent := by
    intro st2 w2 hu
    have fr := update_dir_frame x fuel w d has_path hd hsort st2 w2 hu
    refine ⟨le_of_lt fr.next, fr.others, ?_, ?_⟩
    · rcases fr.status with ⟨h1, _⟩ | ⟨h1, _⟩
      · rw [h1, removed_bit_clear_likely]
      · rw [h1, removed_bit_child_changed]
    · rw [fr.fields]
  unfold waa___check_dir_for_update at h
  simp only at h
  split at h
  · cases h
    exact hsame 0 _ rfl rfl
  · split at h
    · rename_i st2 w2 hu
      have key : w.next ≤ w2.next ∧ (∀ e, e < w.next → e ≠ d → w2.heap e = w.heap e) ∧
          removed_bit (w2.heap d).entry_status = removed_bit (w.heap d).entry_status ∧
          (w2.heap d).parent = (w.heap d).parent := by
        split at hu
        · split at hu
          · cases hu
            exact hsame 0 _ rfl rfl
          · exact hupd _ _ hu
        · cases hu
          exact hsame 0 _ rfl rfl
      split at h
      · cases h
        exact key
      · cases h
        exact key
    · cases h
    · cases h

theorem noparent_frame (x : UpdateExt) (w : Sys) (t : Nat) :
    (update_tree_noparent x w t).2.heap = w.heap ∧
    (update_tree_noparent x w t).2.next = w.next := by
  unfold update_tree_noparent
  simp only
  split_ifs <;> exact ⟨rfl, rfl⟩

theorem next_frame (x : UpdateExt) (fuel : Nat) (w : Sys) (t : Nat) (st : Int) (w1 : Sys)
    (hsort : SortNameSpec x) (ht : t < w.next)
    (hq : ∀ q, (w.heap t).parent = some q → q < w.next ∧ q ≠ t)
    (h : update_tree_next x fuel w t = Run.ret (st, w1)) :
    Fr t (w.heap t).parent w w1 ∧ w1.heap t = w.heap t := by
  unfold update_tree_next at h
  split at h
  · rename_i par hpar
    rw [hpar]
    obtain ⟨hpl, hpt⟩ := hq par hpar
    have htp : t ≠ par := Ne.symm hpt
    simp only at h
    have key : ∀ w2 : Sys, w.next ≤ w2.next →
        (∀ e, e < w.next → e ≠ par → w2.heap e = w.heap e) →
        removed_bit (w2.heap par).entry_status = removed_bit (w.heap par).entry_status →
        (w2.heap par).parent = (w.heap par).parent →
        Fr t (some par) w w2 ∧ w2.heap t = w.heap t := by
      intro w2 k1 k2 k3 k4
      refine ⟨⟨k1, ?_, ?_, ?_⟩, k2 t ht htp⟩
      · intro e he _ hne
        exact k2 e he (fun h => hne (by rw [h]))
      · intro p hp
        cases hp
        exact ⟨k3, k4⟩
      · rw [k2 t ht htp]
    -- the state with `child_index` advanced
    obtain ⟨ea, hea⟩ : ∃ ea : estat,
        ea = { w.heap par with child_index := (w.heap par).child_index + 1 } := ⟨_, rfl⟩
    obtain ⟨wa, hwa⟩ : ∃ wa : Sys, wa = { w with heap := w.heap.set par ea } := ⟨_, rfl⟩
    rw [← hea] at h
    have a1 : wa.next = w.next := by rw [hwa]
    have a2 : ∀ e, e ≠ par → wa.heap e = w.heap e := by
      intro e he
      rw [hwa]
      exact Heap.set_other _ _ _ _ he
    have a3 : wa.heap par = { w.heap par with child_index := (w.heap par).child_index + 1 } := by
      rw [hwa, ← hea]
      exact Heap.set_same _ _ _
    have ka : Fr t (some par) w wa ∧ wa.heap t = w.heap t :=
      key wa (by rw [a1]) (fun e _ he => a2 e he) (by rw [a3]) (by rw [a3])
    have kn : ∀ w2 : Sys, (Fr t (some par) w w2 ∧ w2.heap t = w.heap t) →
        Fr t (some par) w (update_tree_noparent x w2 t).2 ∧
        (update_tree_noparent x w2 t).2.heap t = w.heap t := by
      intro w2 ⟨f, ft⟩
      obtain ⟨n1, n2⟩ := noparent_frame x w2 t
      refine ⟨⟨by rw [n2]; exact f.next, ?_, ?_, ?_⟩, by rw [n1]; exact ft⟩
      · intro e he het hne
        rw [n1]
        exact f.others e he het hne
      · intro p hp
        rw [n1]
        exact f.par p hp
      · rw [n1]
        exact f.self
    split at h
    · split at h
      · rename_i st2 w2 hc
        rw [← hwa] at hc
        obtain ⟨c1, c2, c3, c4⟩ := check_dir_frame x fuel wa par false st2 w2
          (by rw [a1]; exact hpl) hsort hc
        have k2 : Fr t (some par) w w2 ∧ w2.heap t = w.heap t := by
          refine key w2 (by rw [← a1]; exact c1) ?_ ?_ ?_
          · intro e he hne
            rw [c2 e (by rw [a1]; exact he) hne, a2 e hne]
          · rw [c3, a3]
          · rw [c4, a3]
        split at h
        · cases h
          exact k2
        · rw [ret_snd h]
          exact kn w2 k2
      · cases h
      · cases h
    · rw [ret_snd h, ← hwa]
      exact kn wa ka
  · rename_i hpar
    rw [ret_snd h]
    obtain ⟨n1, n2⟩ := noparent_frame x w t
    rw [hpar]
    refine ⟨⟨by rw [n2], ?_, ?_, ?_⟩, by rw [n1]⟩
    · intro e _ _ _
      rw [n1]
    · intro p hp
      cases hp
    · rw [n1]

theorem hf_refl (t : Nat) (q : Option Nat) (h0 : Heap) : HF t q h0 h0 :=
  ⟨fun _ _ _ => rfl, fun _ _ => ⟨rfl, rfl⟩, rfl⟩

theorem hf_set_t (t : Nat) (q : Option Nat) (h0 H : Heap) (e1 : estat) (hq : q ≠ some t)
    (hf : HF t q h0 H) (hp : e1.parent = (H t).parent) : HF t q h0 (H.set t e1) := by
  obtain ⟨f1, f2, f3⟩ := hf
  refine ⟨?_, ?_, ?_⟩
  · intro e he hne
    rw [Heap.set_other _ _ _ _ he]
    exact f1 e he hne
  · intro p hp1
    have hpt : p ≠ t := fun h => hq (by rw [hp1, h])
    rw [Heap.set_other _ _ _ _ hpt]
    exact f2 p hp1
  · rw [Heap.set_same, hp]
    exact f3

theorem hf_set_q (t : Nat) (q : Option Nat) (h0 H : Heap) (p : Nat) (e1 : estat)
    (hq : q = some p) (hpt : p ≠ t) (hf : HF t q h0 H)
    (hb : removed_bit e1.entry_status = removed_bit (H p).entry_status)
    (hp : e1.parent = (H p).parent) : HF t q h0 (H.set p e1) := by
  obtain ⟨f1, f2, f3⟩ := hf
  refine ⟨?_, ?_, ?_⟩
  · intro e he hne
    have hep : e ≠ p := fun h => hne (by rw [hq, h])
    rw [Heap.set_other _ _ _ _ hep]
    exact f1 e he hne
  · intro p1 hp1
    rw [hq] at hp1
    cases hp1
    rw [Heap.set_same, hb, hp]
    exact f2 p hq
  · rw [Heap.set_other _ _ _ _ (Ne.symm hpt)]
    exact f3

theorem fr_of_hf (t : Nat) (q : Option Nat) (w w1 : Sys) (hn : w.next ≤ w1.next)
    (hf : HF t q w.heap w1.heap) : Fr t q w w1 :=
  ⟨hn, fun e _ he hne => hf.1 e he hne, hf.2.1, hf.2.2⟩

theorem update_tree_entry_stages (x : UpdateExt) (fuel : Nat) (w : Sys) (sts : Nat) :
    update_tree_entry x fuel w sts =
      if x.ops__build_path w.heap sts ≠ 0 then Run.ret (x.ops__build_path w.heap sts, w)
      else if (w.heap sts).do_full_child ∧ (x.ops__update_single_entry w.heap sts).1 ≠ 0 then
        Run.ret ((x.ops__update_single_entry w.heap sts).1, update_tree_restat x w sts)
      else if ((update_tree_drop_children x
            (update_tree_mark_parent (update_tree_restat x w sts).heap sts) sts) sts).entry_status
          &&& FS_REPLACED = FS_REMOVED then
        update_tree_next x fuel { update_tree_restat x w sts with
          heap := update_tree_drop_children x
            (update_tree_mark_parent (update_tree_restat x w sts).heap sts) sts } sts
      else if S_ISDIR ((update_tree_reset_replaced (update_tree_drop_children x
            (update_tree_mark_parent (update_tree_restat x w sts).heap sts) sts) sts)
              sts).st.mode ∧
          ((update_tree_reset_replaced (update_tree_drop_children x
            (update_tree_mark_parent (update_tree_restat x w sts).heap sts) sts) sts)
              sts).entry_count = 0 then
        match waa___check_dir_for_update x fuel { update_tree_restat x w sts with
            heap := update_tree_reset_replaced (update_tree_drop_children x
              (update_tree_mark_parent (update_tree_restat x w sts).heap sts) sts) sts }
            sts true with
        | Run.ret (st, w5) =>
          if st ≠ 0 then Run.ret (st, w5) else update_tree_next x fuel w5 sts
        | Run.bug => Run.bug
        | Run.fuel => Run.fuel
      else
        update_tree_next x fuel { update_tree_restat x w sts with
          heap := update_tree_reset_replaced (update_tree_drop_children x
            (update_tree_mark_parent (update_tree_restat x w sts).heap sts) sts) sts } sts := by
  rfl

theorem restat_frame (x : UpdateExt) (w : Sys) (t : Nat)
    (hkeep : ∀ h p, ((x.ops__update_single_entry h p).2).parent = (h p).parent)
    (hqt : (w.heap t).parent ≠ some t) :
    (update_tree_restat x w t).next = w.next ∧
    HF t (w.heap t).parent w.heap (update_tree_restat x w t).heap := by
  unfold update_tree_restat
  split_ifs
  · exact ⟨rfl, hf_set_t _ _ _ _ _ hqt (hf_refl _ _ _) (hkeep _ _)⟩
  · exact ⟨rfl, hf_refl _ _ _⟩

theorem mark_parent_frame (h0 H : Heap) (t : Nat) (hqt : (h0 t).parent ≠ some t)
    (hf : HF t (h0 t).parent h0 H) :
    HF t (h0 t).parent h0 (update_tree_mark_parent H t) := by
  unfold update_tree_mark_parent
  split
  · rename_i par hpar
    rw [hf.2.2] at hpar
    split_ifs
    · refine hf_set_q _ _ _ _ par _ hpar (fun h => hqt (by rw [hpar, h])) hf ?_ rfl
      exact removed_bit_changed _
    · exact hf
  · exact hf

theorem drop_children_frame (x : UpdateExt) (h0 H : Heap) (t : Nat)
    (hqt : (h0 t).parent ≠ some t) (hf : HF t (h0 t).parent h0 H) :
    HF t (h0 t).parent h0 (update_tree_drop_children x H t) := by
  unfold update_tree_drop_children
  split_ifs
  · exact hf_set_t _ _ _ _ _ hqt hf rfl
  · exact hf

theorem reset_replaced_frame (h0 H : Heap) (t : Nat)
    (hqt : (h0 t).parent ≠ some t) (hf : HF t (h0 t).parent h0 H) :
    HF t (h0 t).parent h0 (update_tree_reset_replaced H t) := by
  unfold update_tree_reset_replaced
  split_ifs
  · exact hf_set_t _ _ _ _ _ hqt hf rfl
  · exact hf

theorem entry_frame (x : UpdateExt) (fuel : Nat) (w : Sys) (t : Nat) (st : Int) (w1 : Sys)
    (hsort : SortNameSpec x)
    (hkeep : ∀ h p, ((x.ops__update_single_entry h p).2).parent = (h p).parent)
    (ht : t < w.next) (hq : ∀ q, (w.heap t).parent = some q → q < w.next ∧ q ≠ t)
    (h : update_tree_entry x fuel w t = Run.ret (st, w1)) :
    Fr t (w.heap t).parent w w1 := by
  have hqt : (w.heap t).parent ≠ some t := fun h => (hq t h).2 rfl
  rw [update_tree_entry_stages] at h
  obtain ⟨r1, r2⟩ := restat_frame x w t hkeep hqt
  have m2 := mark_parent_frame w.heap _ t hqt r2
  have d2 := drop_children_frame x w.heap _ t hqt m2
  have e2 := reset_replaced_frame w.heap _ t hqt d2
  -- the frame of `update_tree_next` after a state with one of these heaps
  have knext : ∀ (H : Heap), HF t (w.heap t).parent w.heap H →
      update_tree_next x fuel { update_tree_restat x w t with heap := H } t
        = Run.ret (st, w1) → Fr t (w.heap t).parent w w1 := by
    intro H hH hn
    have f0 : Fr t (w.heap t).parent w { update_tree_restat x w t with heap := H } :=
      fr_of_hf _ _ _ _ (by rw [← r1]) hH
    have hpar : (H t).parent = (w.heap t).parent := hH.2.2
    obtain ⟨f1, _⟩ := next_frame x fuel _ t st w1 hsort (by rw [← r1] at ht; exact ht)
      (by
        intro q hq1
        have hq2 : (w.heap t).parent = some q := by
          rw [← hpar]
          exact hq1
        obtain ⟨a, b⟩ := hq q hq2
        exact ⟨by rw [← r1] at a; exact a, b⟩) hn
    have f2 : Fr t (w.heap t).parent { update_tree_restat x w t with heap := H } w1 := by
      have : ({ update_tree_restat x w t with heap := H } : Sys).heap t = H t := rfl
      rw [this, hpar] at f1
      exact f1
    exact fr_trans _ _ _ _ _ f0 f2
  split at h
  · cases h
    exact fr_refl _ _ _
  · split at h
    · rw [ret_snd h]
      exact fr_of_hf _ _ _ _ (by rw [r1]) r2
    · split at h
      · exact knext _ d2 h
      · split at h
        · split at h
          · rename_i st5 w5 hc
            have f0 : Fr t (w.heap t).parent w { update_tree_restat x w t with
                heap := update_tree_reset_replaced (update_tree_drop_children x
                  (update_tree_mark_parent (update_tree_restat x w t).heap t) t) t } :=
              fr_of_hf _ _ _ _ (by rw [← r1]) e2
            obtain ⟨c1, c2, c3, c4⟩ := check_dir_frame x fuel _ t true st5 w5
              (by rw [← r1] at ht; exact ht) hsort hc
            have f5 : Fr t (w.heap t).parent w w5 := by
              refine ⟨le_trans f0.next c1, ?_, ?_, ?_⟩
              · intro e he het hne
                rw [c2 e (lt_of_lt_of_le he f0.next) het]
                exact f0.others e he het hne
              · intro p hp
                have hpt : p ≠ t := fun h => hqt (by rw [hp, h])
                obtain ⟨a, b⟩ := hq p hp
                rw [c2 p (lt_of_lt_of_le a f0.next) hpt]
                exact f0.par p hp
              · rw [c4]
                exact f0.self
            split at h
            · cases h
              exact f5
            · obtain ⟨f6, _⟩ := next_frame x fuel w5 t st w1 hsort
                (lt_of_lt_of_le ht f5.next) (by
                  intro q hq1
                  rw [f5.self] at hq1
                  obtain ⟨a, b⟩ := hq q hq1
                  exact ⟨lt_of_lt_of_le a f5.next, b⟩) h
              rw [f5.self] at f6
              exact fr_trans _ _ _ _ _ f5 f6
          · cases h
          · cases h
        · exact knext _ e2 h

theorem update_tree_step_stages (x : UpdateExt) (fuel : Nat) (w : Sys) (sts : Nat) :
    update_tree_step x fuel w sts =
      match ((update_tree_init w sts).heap sts).parent with
      | some par =>
        if (x.ops__set_to_handle_bits (update_tree_init w sts).heap
            ((update_tree_init w sts).heap sts)).1 ≠ 0 then
          Run.ret ((x.ops__set_to_handle_bits (update_tree_init w sts).heap
            ((update_tree_init w sts).heap sts)).1,
            update_tree_bits x (update_tree_init w sts) sts)
        else if ((update_tree_bits x (update_tree_init w sts) sts).heap par).entry_status
            &&& FS_REMOVED ≠ 0 then
          Run.ret (update_tree_noparent x
            (update_tree_set_removed (update_tree_bits x (update_tree_init w sts) sts) sts) sts)
        else if ¬ (((update_tree_bits x (update_tree_init w sts) sts).heap sts).do_full_child ∨
            ((update_tree_bits x (update_tree_init w sts) sts).heap sts).do_a_child) then
          update_tree_next x fuel (update_tree_bits x (update_tree_init w sts) sts) sts
        else update_tree_entry x fuel (update_tree_bits x (update_tree_init w sts) sts) sts
      | none =>
        if ¬ (((update_tree_init w sts).heap sts).do_full_child ∨
            ((update_tree_init w sts).heap sts).do_a_child) then
          update_tree_next x fuel (update_tree_init w sts) sts
        else update_tree_entry x fuel (update_tree_init w sts) sts := by
  rfl

theorem init_frame (w : Sys) (t : Nat) :
    (update_tree_init w t).next = w.next ∧
    (update_tree_init w t).dispatched = w.dispatched ∧
    (∀ e, e ≠ t → (update_tree_init w t).heap e = w.heap e) ∧
    ((update_tree_init w t).heap t).parent = (w.heap t).parent ∧
    ((update_tree_init w t).heap t).entry_status = (w.heap t).entry_status := by
  unfold update_tree_init
  split_ifs
  · refine ⟨rfl, rfl, fun e he => Heap.set_other _ _ _ _ he, ?_, ?_⟩
    · show ((w.heap.set t _) t).parent = _
      rw [Heap.set_same]
    · show ((w.heap.set t _) t).entry_status = _
      rw [Heap.set_same]
  · exact ⟨rfl, rfl, fun _ _ => rfl, rfl, rfl⟩

theorem bits_frame (x : UpdateExt) (w : Sys) (t : Nat) :
    (update_tree_bits x w t).next = w.next ∧
    (update_tree_bits x w t).dispatched = w.dispatched ∧
    (∀ e, e ≠ t → (update_tree_bits x w t).heap e = w.heap e) ∧
    ((update_tree_bits x w t).heap t).parent = (w.heap t).parent ∧
    ((update_tree_bits x w t).heap t).entry_status = (w.heap t).entry_status := by
  unfold update_tree_bits
  refine ⟨rfl, rfl, fun e he => Heap.set_other _ _ _ _ he, ?_, ?_⟩
  · show ((w.heap.set t _) t).parent = _
    rw [Heap.set_same]
  · show ((w.heap.set t _) t).entry_status = _
    rw [Heap.set_same]

theorem set_removed_frame (w : Sys) (t : Nat) :
    (update_tree_set_removed w t).next = w.next ∧
    (update_tree_set_removed w t).dispatched = w.dispatched ∧
    (∀ e, e ≠ t → (update_tree_set_removed w t).heap e = w.heap e) ∧
    ((update_tree_set_removed w t).heap t).parent = (w.heap t).parent ∧
    ((update_tree_set_removed w t).heap t).entry_status = FS_REMOVED := by
  unfold update_tree_set_removed
  refine ⟨rfl, rfl, fun e he => Heap.set_other _ _ _ _ he, ?_, ?_⟩
  · show ((w.heap.set t _) t).parent = _
    rw [Heap.set_same]
  · show ((w.heap.set t _) t).entry_status = _
    rw [Heap.set_same]

theorem fr_of_same (t : Nat) (q : Option Nat) (w w1 : Sys) (hn : w1.next = w.next)
    (ho : ∀ e, e ≠ t → w1.heap e = w.heap e) (hp : (w1.heap t).parent = (w.heap t).parent)
    (hqt : q ≠ some t) : Fr t q w w1 := by
  refine ⟨by rw [hn], fun e _ he _ => ho e he, ?_, hp⟩
  intro p hp1
  have hpt : p ≠ t := fun h => hqt (by rw [hp1, h])
  rw [ho p hpt]
  exact ⟨rfl, rfl⟩

theorem step_frame (x : UpdateExt) (fuel : Nat) (w : Sys) (t : Nat) (st : Int) (w1 : Sys)
    (hsort : SortNameSpec x)
    (hkeep : ∀ h p, ((x.ops__update_single_entry h p).2).parent = (h p).parent)
    (ht : t < w.next) (hq : ∀ q, (w.heap t).parent = some q → q < w.next ∧ q ≠ t)
    (h : update_tree_step x fuel w t = Run.ret (st, w1)) :
    Fr t (w.heap t).parent w w1 ∧
    (∀ q, (w.heap t).parent = some q → removed_bit (w.heap q).entry_status ≠ 0 →
      (st = 0 → (w1.heap t).entry_status = FS_REMOVED) ∧
      ∀ e, e ≠ t → w1.heap e = w.heap e) := by
  have hqt : (w.heap t).parent ≠ some t := fun h => (hq t h).2 rfl
  rw [update_tree_step_stages] at h
  obtain ⟨i1, i2, i3, i4, i5⟩ := init_frame w t
  obtain ⟨b1, b2, b3, b4, b5⟩ := bits_frame x (update_tree_init w t) t
  obtain ⟨s1, s2, s3, s4, s5⟩ :=
    set_removed_frame (update_tree_bits x (update_tree_init w t) t) t
  have fi : Fr t (w.heap t).parent w (update_tree_init w t) :=
    fr_of_same _ _ _ _ i1 i3 i4 hqt
  have fb : Fr t (w.heap t).parent w (update_tree_bits x (update_tree_init w t) t) :=
    fr_of_same _ _ _ _ (by rw [b1, i1]) (fun e he => by rw [b3 e he, i3 e he])
      (by rw [b4, i4]) hqt
  have hqi : ∀ q, ((update_tree_init w t).heap t).parent = some q →
      q < (update_tree_init w t).next ∧ q ≠ t := by
    intro q hq1
    rw [i4] at hq1
    rw [i1]
    exact hq q hq1
  have hqb : ∀ q, ((update_tree_bits x (update_tree_init w t) t).heap t).parent = some q →
      q < (update_tree_bits x (update_tree_init w t) t).next ∧ q ≠ t := by
    intro q hq1
    rw [b4, i4] at hq1
    rw [b1, i1]
    exact hq q hq1
  split at h
  · rename_i par hpar
    rw [i4] at hpar
    obtain ⟨hpl, hpt⟩ := hq par hpar
    have hbpar : ((update_tree_bits x (update_tree_init w t) t).heap par)
        = w.heap par := by
      rw [b3 par hpt, i3 par hpt]
    split at h
    · rename_i hb
      rw [ret_snd h]
      refine ⟨fb, ?_⟩
      intro _ _ _
      refine ⟨?_, fun e he => by rw [b3 e he, i3 e he]⟩
      intro h0
      have hst := (congrArg Prod.fst (Run.ret.inj h)).symm
      rw [h0] at hst
      exact absurd hst.symm hb
    · split at h
      · rw [ret_snd h]
        obtain ⟨n1, n2⟩ := noparent_frame x
          (update_tree_set_removed (update_tree_bits x (update_tree_init w t) t) t) t
        refine ⟨fr_of_same _ _ _ _ (by rw [n2, s1, b1, i1]) ?_ ?_ hqt, ?_⟩
        · intro e he
          rw [n1, s3 e he, b3 e he, i3 e he]
        · rw [n1, s4, b4, i4]
        · intro _ _ _
          refine ⟨fun _ => by rw [n1, s5], ?_⟩
          intro e he
          rw [n1, s3 e he, b3 e he, i3 e he]
      · rename_i hnr
        rw [hbpar] at hnr
        have hcontra : ∀ q, (w.heap t).parent = some q →
            removed_bit (w.heap q).entry_status ≠ 0 →
            (st = 0 → (w1.heap t).entry_status = FS_REMOVED) ∧
            ∀ e, e ≠ t → w1.heap e = w.heap e := by
          intro q hq1 hr
          rw [hpar] at hq1
          cases hq1
          exact absurd hr (by unfold removed_bit; exact hnr)
        split at h
        · obtain ⟨f1, _⟩ := next_frame x fuel _ t st w1 hsort (by rw [b1, i1]; exact ht) hqb h
          rw [b4, i4] at f1
          exact ⟨fr_trans _ _ _ _ _ fb f1, hcontra⟩
        · have f1 := entry_frame x fuel _ t st w1 hsort hkeep (by rw [b1, i1]; exact ht) hqb h
          rw [b4, i4] at f1
          exact ⟨fr_trans _ _ _ _ _ fb f1, hcontra⟩
  · rename_i hpar
    rw [i4] at hpar
    have hcontra : ∀ q, (w.heap t).parent = some q →
        removed_bit (w.heap q).entry_status ≠ 0 →
        (st = 0 → (w1.heap t).entry_status = FS_REMOVED) ∧
        ∀ e, e ≠ t → w1.heap e = w.heap e := by
      intro q hq1
      rw [hpar] at hq1
      cases hq1
    split at h
    · obtain ⟨f1, _⟩ := next_frame x fuel _ t st w1 hsort (by rw [i1]; exact ht) hqi h
      rw [i4] at f1
      exact ⟨fr_trans _ _ _ _ _ fi f1, hcontra⟩
    · have f1 := entry_frame x fuel _ t st w1 hsort hkeep (by rw [i1]; exact ht) hqi h
      rw [i4] at f1
      exact ⟨fr_trans _ _ _ _ _ fi f1, hcontra⟩

theorem block_entries_cons (first count : Nat) (rest : Blocks) :
    block_entries ((first, count) :: rest)
      = first :: block_entries (if count ≤ 1 then rest else (first + 1, count - 1) :: rest) := by
  by_cases hc : count ≤ 1
  · rw [if_pos hc]
    show List.range' first (max count 1) ++ block_entries rest = _
    rw [max_eq_right hc]
    rfl
  · rw [if_neg hc]
    show List.range' first (max count 1) ++ block_entries rest
      = first :: (List.range' (first + 1) (max (count - 1) 1) ++ block_entries rest)
    have e1 : max count 1 = (count - 1) + 1 := by
      rw [max_eq_left (by omega)]
      omega
    have e2 : max (count - 1) 1 = count - 1 := max_eq_left (by omega)
    rw [e1, e2, List.range'_succ]
    rfl

theorem parent_first_split (h0 : Heap) (next : Nat) (V : List Nat)
    (hpf : ParentFirst h0 next V) (P R : List Nat) (e : Nat) (hV : V = P ++ e :: R) :
    ∀ p, (h0 e).parent = some p → p ∈ P := by
  intro p hp
  have h1 := hpf.first P.length (by rw [hV]; simp) p
  rw [hV] at h1
  have e1 : (P ++ e :: R).getD P.length 0 = e := by
    rw [List.getD_eq_getElem?_getD, List.getElem?_append_right (le_refl _)]
    simp
  have e2 : (P ++ e :: R).take P.length = P := by
    rw [List.take_append_eq_append_take]
    simp
  rw [e1, e2] at h1
  exact h1 (by rw [hp]; rfl)

theorem rem_inv_step (x : UpdateExt) (fuel : Nat) (w0 w w1 : Sys) (P R : List Nat) (t : Nat)
    (hsort : SortNameSpec x)
    (hkeep : ∀ h p, ((x.ops__update_single_entry h p).2).parent = (h p).parent)
    (hpf : ParentFirst w0.heap w0.next (P ++ t :: R)) (hinv : RemInv w0 P w)
    (h : update_tree_step x fuel w t = Run.ret (0, w1)) : RemInv w0 (P ++ [t]) w1 := by
  have htV : t ∈ P ++ t :: R := List.mem_append_right _ (List.mem_cons_self _ _)
  have ht0 : t < w0.next := hpf.alloc t htV
  have ht : t < w.next := lt_of_lt_of_le ht0 hinv.next
  have htP : t ∉ P := by
    intro hin
    have := hpf.nodup
    rw [List.nodup_append] at this
    exact this.2.2 hin (List.mem_cons_self _ _)
  have hPV : ∀ e, e ∈ P → e ∈ P ++ t :: R := fun e he => List.mem_append_left _ he
  have hpt : (w.heap t).parent = (w0.heap t).parent := hinv.parents t ht0
  have hq : ∀ q, (w.heap t).parent = some q → q < w.next ∧ q ≠ t := by
    intro q hq1
    rw [hpt] at hq1
    have hqP := parent_first_split _ _ _ hpf P R t rfl q hq1
    exact ⟨lt_of_lt_of_le (hpf.alloc q (hPV q hqP)) hinv.next, fun h => htP (h ▸ hqP)⟩
  obtain ⟨fr, hrem⟩ := step_frame x fuel w t 0 w1 hsort hkeep ht hq h
  -- an entry that is neither `t` nor its parent
  have hothers : ∀ e, e < w0.next → e ≠ t → (w.heap t).parent ≠ some e →
      w1.heap e = w.heap e :=
    fun e he => fr.others e (lt_of_lt_of_le he hinv.next)
  refine ⟨le_trans hinv.next fr.next, ?_, ?_⟩
  · intro e he
    by_cases het : e = t
    · rw [het, fr.self]
      exact hpt
    · by_cases heq : (w.heap t).parent = some e
      · rw [(fr.par e heq).2]
        exact hinv.parents e he
      · rw [hothers e he het heq]
        exact hinv.parents e he
  · intro e heP p hp hbit
    rcases List.mem_append.mp heP with heP1 | heP1
    · -- an entry visited before
      have het : e ≠ t := fun h => htP (h ▸ heP1)
      have he0 : e < w0.next := hpf.alloc e (hPV e heP1)
      obtain ⟨P1, R1, hsplit⟩ := List.append_of_mem heP1
      have hpP1 : p ∈ P1 :=
        parent_first_split _ _ _ hpf P1 (R1 ++ t :: R) e (by rw [hsplit]; simp) p hp
      have hpP : p ∈ P := by
        rw [hsplit]
        exact List.mem_append_left _ hpP1
      have hpe : p ≠ e := by
        intro hh
        have hnd : P.Nodup := (List.nodup_append.mp hpf.nodup).1
        rw [hsplit, List.nodup_append] at hnd
        exact hnd.2.2 hpP1 (hh ▸ List.mem_cons_self _ _)
      have hp0 : p < w0.next := hpf.alloc p (hPV p hpP)
      have hpt2 : p ≠ t := fun h => htP (h ▸ hpP)
      by_cases hpq : (w.heap t).parent = some p
      · -- the parent of `e` is the parent of `t`
        rw [(fr.par p hpq).1] at hbit
        have hst := hinv.closed e heP1 p hp hbit
        have heq : (w.heap t).parent ≠ some e := by
          rw [hpq]
          intro hh
          exact hpe (Option.some.inj hh)
        rw [hothers e he0 het heq]
        exact hst
      · rw [hothers p hp0 hpt2 hpq] at hbit
        have hst := hinv.closed e heP1 p hp hbit
        by_cases heq : (w.heap t).parent = some e
        · -- `e` is the parent of `t`, and is removed
          have hb : removed_bit (w.heap e).entry_status ≠ 0 := by
            rw [hst]
            unfold removed_bit
            decide
          rw [(hrem e heq hb).2 e het]
          exact hst
        · rw [hothers e he0 het heq]
          exact hst
    · -- the entry of this iteration
      have het : e = t := by simpa using heP1
      rw [het] at hp ⊢
      have hpq : (w.heap t).parent = some p := by
        rw [hpt]
        exact hp
      rw [(fr.par p hpq).1] at hbit
      exact (hrem p hpq hbit).1 rfl

theorem update_tree_loop_inv (x : UpdateExt) (fuel : Nat) (w0 : Sys) (hsort : SortNameSpec x)
    (hkeep : ∀ h p, ((x.ops__update_single_entry h p).2).parent = (h p).parent) :
    ∀ (n : Nat) (w : Sys) (blocks : Blocks) (P : List Nat) (w1 : Sys),
      ParentFirst w0.heap w0.next (P ++ block_entries blocks) → RemInv w0 P w →
      update_tree_loop x fuel n w blocks = Run.ret (0, w1) →
      RemInv w0 (P ++ block_entries blocks) w1 := by
  intro n
  induction n with
  | zero =>
    intro w blocks P w1 _ hinv h
    unfold update_tree_loop at h
    split_ifs at h with hb
    rw [ret_snd h, hb]
    simpa [block_entries] using hinv
  | succ n ih =>
    intro w blocks P w1 hpf hinv h
    unfold update_tree_loop at h
    split at h
    · rw [ret_snd h]
      simpa [block_entries] using hinv
    · rename_i first count rest
      rw [block_entries_cons] at hpf ⊢
      split at h
      · rename_i st w2 hstep
        split at h
        · rename_i hst
          have := (congrArg Prod.fst (Run.ret.inj h))
          exact absurd this hst
        · rename_i hst
          have hst0 : st = 0 := not_not.mp hst
          rw [hst0] at hstep
          have hinv2 := rem_inv_step x fuel w0 w w2 P _ first hsort hkeep hpf hinv hstep
          have happ : P ++ first :: block_entries
              (if count ≤ 1 then rest else (first + 1, count - 1) :: rest)
              = (P ++ [first]) ++ block_entries
                (if count ≤ 1 then rest else (first + 1, count - 1) :: rest) := by simp
          rw [happ] at hpf ⊢
          by_cases hc : count ≤ 1
          · rw [if_pos hc] at h hpf ⊢
            exact ih w2 rest (P ++ [first]) w1 hpf hinv2 h
          · rw [if_neg hc] at h hpf ⊢
            exact ih w2 _ (P ++ [first]) w1 hpf hinv2 h
      · cases h
      · cases h

theorem step_removed_eq (x : UpdateExt) (fuel : Nat) (v : Sys) (t q : Nat)
    (hpar : (v.heap t).parent = some q) (hqt : q ≠ t)
    (hrem : (v.heap q).entry_status &&& FS_REMOVED ≠ 0)
    (hbits : (x.ops__set_to_handle_bits (update_tree_init v t).heap
      ((update_tree_init v t).heap t)).1 = 0) :
    update_tree_step x fuel v t = Run.ret (update_tree_noparent x
      (update_tree_set_removed (update_tree_bits x (update_tree_init v t) t) t) t) := by
  rw [update_tree_step_stages]
  obtain ⟨_, _, i3, i4, _⟩ := init_frame v t
  obtain ⟨_, _, b3, _, _⟩ := bits_frame x (update_tree_init v t) t
  rw [hpar] at i4
  rw [i4]
  simp only
  rw [if_neg (not_not.mpr hbits), if_pos (by rw [b3 q hqt, i3 q hqt]; exact hrem)]

theorem under_removed (h0 : Heap) (next : Nat) (V : List Nat) (w1 : Sys)
    (hpf : ParentFirst h0 next V)
    (hclosed : ∀ e ∈ V, ∀ p, (h0 e).parent = some p →
      removed_bit (w1.heap p).entry_status ≠ 0 → (w1.heap e).entry_status = FS_REMOVED)
    (d e : Nat) (hu : Under h0 d e) :
    e ∈ V → e ≠ d → removed_bit (w1.heap d).entry_status ≠ 0 →
      (w1.heap e).entry_status = FS_REMOVED := by
  induction hu with
  | self =>
    intro _ hne
    exact absurd rfl hne
  | child c p _ hp ih =>
    intro hc _ hbit
    by_cases hpd : p = d
    · rw [hpd] at hp
      exact hclosed c hc d hp hbit
    · obtain ⟨P, R, hsplit⟩ := List.append_of_mem hc
      have hpV : p ∈ V := by
        rw [hsplit]
        exact List.mem_append_left _ (parent_first_split _ _ _ hpf P R c hsplit p hp)
      have hps := ih hpV hpd hbit
      refine hclosed c hc p hp ?_
      rw [hps]
      unfold removed_bit
      decide

/-- C23: an iteration of the loop of `waa__update_tree` for an entry `t`
whose parent `q` has the bit `FS_REMOVED` (and for which
`ops__set_to_handle_bits` succeeds) returns with `entry_status = FS_REMOVED`
in `t` and `t` dispatched, leaves every other entry as it was (so
`child_index` of the parent is not advanced), and is the same whatever
`ops__update_single_entry` is (it is not called). For a run that returns `0`
over a block list in parent-first order, every entry of the list whose parent
has the bit `FS_REMOVED` at the end has the status `FS_REMOVED`, and so has
every entry of the list below an entry with this bit. `dir__sortbyname` only
sets the array `by_name` of its directory, and `ops__update_single_entry`
leaves `parent` alone. -/
theorem update_tree_removed_parent (x : UpdateExt) (fuel n : Nat) (w : Sys) (root : Nat)
    (blocks : Blocks) (w1 : Sys) (hsort : SortNameSpec x)
    (hkeep : ∀ h p, ((x.ops__update_single_entry h p).2).parent = (h p).parent)
    (hpf : ParentFirst w.heap w.next (block_entries blocks))
    (hrun : waa__update_tree x fuel n w root blocks = Run.ret (0, w1)) :
    (∀ (v : Sys) (t q : Nat) (up : Heap → Nat → Int × estat),
      (v.heap t).parent = some q → q ≠ t → (v.heap q).entry_status &&& FS_REMOVED ≠ 0 →
      (x.ops__set_to_handle_bits (update_tree_init v t).heap
        ((update_tree_init v t).heap t)).1 = 0 →
      ∃ st v1, update_tree_step x fuel v t = Run.ret (st, v1) ∧
        update_tree_step { x with ops__update_single_entry := up } fuel v t
          = Run.ret (st, v1) ∧
        (v1.heap t).entry_status = FS_REMOVED ∧ (∀ e, e ≠ t → v1.heap e = v.heap e) ∧
        v1.dispatched = v.dispatched ++ [t]) ∧
    (∀ e ∈ block_entries blocks, ∀ p, (w.heap e).parent = some p →
      (w1.heap p).entry_status &&& FS_REMOVED ≠ 0 → (w1.heap e).entry_status = FS_REMOVED) ∧
    (∀ d e, e ∈ block_entries blocks → Under w.heap d e → e ≠ d →
      (w1.heap d).entry_status &&& FS_REMOVED ≠ 0 → (w1.heap e).entry_status = FS_REMOVED) := by
  -- the run
  have hclosed : ∀ e ∈ block_entries blocks, ∀ p, (w.heap e).parent = some p →
      removed_bit (w1.heap p).entry_status ≠ 0 → (w1.heap e).entry_status = FS_REMOVED := by
    unfold waa__update_tree at hrun
    simp only at hrun
    have hstart : ∀ v : Sys, v.next = w.next → (∀ e, (v.heap e).parent = (w.heap e).parent) →
        update_tree_loop x fuel n v blocks = Run.ret (0, w1) →
        ∀ e ∈ block_entries blocks, ∀ p, (w.heap e).parent = some p →
          removed_bit (w1.heap p).entry_status ≠ 0 →
          (w1.heap e).entry_status = FS_REMOVED := by
      intro v hn hp hl
      have hinv0 : RemInv w [] v :=
        ⟨by rw [hn], fun e _ => hp e, fun e he => by cases he⟩
      have := update_tree_loop_inv x fuel w hsort hkeep n v blocks [] w1
        (by simpa using hpf) hinv0 hl
      intro e he
      exact this.closed e (by simpa using he)
    by_cases hfull : ¬ ((w.heap root).do_full = true ∨ (w.heap root).do_a_child = true)
    · rw [if_pos hfull] at hrun
      refine hstart _ ?_ ?_ hrun
      · rfl
      intro e
      by_cases her : e = root
      · rw [her]
        show ((w.heap.set root _) root).parent = _
        rw [Heap.set_same]
      · show ((w.heap.set root _) e).parent = _
        rw [Heap.set_other _ _ _ _ her]
    · rw [if_neg hfull] at hrun
      exact hstart w rfl (fun _ => rfl) hrun
  refine ⟨?_, hclosed, ?_⟩
  · intro v t q up hpar hqt hrem hbits
    have e1 := step_removed_eq x fuel v t q hpar hqt hrem hbits
    have e2 := step_removed_eq { x with ops__update_single_entry := up } fuel v t q hpar hqt
      hrem hbits
    obtain ⟨_, i2, i3, _, _⟩ := init_frame v t
    obtain ⟨_, b2, b3, _, _⟩ := bits_frame x (update_tree_init v t) t
    obtain ⟨_, s2, s3, _, s5⟩ :=
      set_removed_frame (update_tree_bits x (update_tree_init v t) t) t
    have hnp : update_tree_noparent x
        (update_tree_set_removed (update_tree_bits x (update_tree_init v t) t) t) t
        = (x.ac__dispatch
            (update_tree_set_removed (update_tree_bits x (update_tree_init v t) t) t).heap t,
          { update_tree_set_removed (update_tree_bits x (update_tree_init v t) t) t with
            dispatched :=
              (update_tree_set_removed (update_tree_bits x (update_tree_init v t) t)
                t).dispatched ++ [t] }) := by
      unfold update_tree_noparent
      simp only
      rw [if_pos (Or.inl (by rw [s5]; decide))]
    refine ⟨_, _, e1.trans (congrArg Run.ret hnp), e2.trans (congrArg Run.ret hnp), s5, ?_, ?_⟩
    · intro e he
      show (update_tree_set_removed (update_tree_bits x (update_tree_init v t) t) t).heap e = _
      rw [s3 e he, b3 e he, i3 e he]
    · show (update_tree_set_removed (update_tree_bits x (update_tree_init v t) t)
        t).dispatched ++ [t] = _
      rw [s2, b2, i2]
  · intro d e he hu hne hbit
    exact under_removed w.heap w.next _ w1 hpf hclosed d e hu he hne hbit

theorem demo_parent_first :
    ParentFirst demo_tree_sys.heap demo_tree_sys.next (block_entries [(0, 4)]) := by
  refine ⟨by decide, by decide, ?_⟩
  intro i hi p hp
  have hi4 : i < 4 := hi
  have hcases : i = 0 ∨ i = 1 ∨ i = 2 ∨ i = 3 := by omega
  rcases hcases with h | h | h | h
  · subst h
    cases hp
  · subst h
    cases hp
    decide
  · subst h
    cases hp
    decide
  · subst h
    cases hp
    decide

theorem demo_b_missing_keeps (h : Heap) (p : Nat) :
    ((demo_b_missing.ops__update_single_entry h p).2).parent = (h p).parent := by
  show ((if p = 2 then ((0 : Int), { h p with entry_status := FS_REMOVED })
    else ((0 : Int), h p)).2).parent = _
  split_ifs <;> rfl

/-- Example for C23: in the tree `/wc/{a, b/c}` with the directory `b`
(pointer `2`) deleted, `waa__update_tree` returns `0`; `b` is found removed,
and `c` (pointer `3`), which is reached with a removed parent, ends with
`entry_status = FS_REMOVED`; the root only gets `FS_CHANGED`. -/
theorem update_tree_removed_parent_witness :
    ∃ w1, waa__update_tree demo_b_missing 3 8 demo_tree_sys 0 [(0, 4)] = Run.ret (0, w1) ∧
      [0, 1, 2, 3].map (fun p => (w1.heap p).entry_status)
        = [FS_CHANGED, 0, FS_REMOVED, FS_REMOVED] ∧
      (∀ e ∈ block_entries [(0, 4)], ∀ p, (demo_tree_sys.heap e).parent = some p →
        (w1.heap p).entry_status &&& FS_REMOVED ≠ 0 →
        (w1.heap e).entry_status = FS_REMOVED) := by
  have hs : after_run (fun st w => (st, [0, 1, 2, 3].map (fun p => (w.heap p).entry_status)))
      (waa__update_tree demo_b_missing 3 8 demo_tree_sys 0 [(0, 4)])
      = some (0, [FS_CHANGED, 0, FS_REMOVED, FS_REMOVED]) := by decide!
  rcases hrun : waa__update_tree demo_b_missing 3 8 demo_tree_sys 0 [(0, 4)]
    with ⟨st, w1⟩ | _ | _
  · rw [hrun] at hs
    simp only [after_run, Option.some.injEq, Prod.mk.injEq] at hs
    obtain ⟨h1, h2⟩ := hs
    subst h1
    exact ⟨w1, rfl, h2,
      (update_tree_removed_parent demo_b_missing 3 8 demo_tree_sys 0 [(0, 4)] w1
        demo_sort_name_spec demo_b_missing_keeps demo_parent_first hrun).2.1⟩
  · rw [hrun] at hs
    simp [after_run] at hs
  · rw [hrun] at hs
    simp [after_run] at hs

theorem find_position_loop_checked_eq (cmpAt : Nat → Int) (count : Nat) :
    ∀ (fuel smaller bigger_eq : Nat), smaller ≤ bigger_eq → bigger_eq < count →
      find_position_loop_checked (fun i => if i < count then some (cmpAt i) else none)
        fuel smaller bigger_eq = waa___find_position_loop cmpAt fuel smaller bigger_eq := by
  intro fuel
  induction fuel with
  | zero =>
    intro s b _ _
    rfl
  | succ f ih =>
    intro s b hsb hb
    unfold find_position_loop_checked waa___find_position_loop
    have hm1 : s ≤ (b + s) / 2 := by omega
    have hm2 : (b + s) / 2 ≤ b := by omega
    have hm3 : (b + s) / 2 < count := by omega
    simp only [if_pos hm3]
    split_ifs with h1 h2 h3 h4
    · rfl
    · exact ih _ _ (by omega) hb
    · rfl
    · exact ih _ _ (by omega) (by omega)
    · rfl

theorem find_position_checked_eq (cmpAt : Nat → Int) (count : Nat) :
    find_position_checked (fun i => if i < count then some (cmpAt i) else none) count
      = waa___find_position cmpAt count := by
  unfold find_position_checked waa___find_position
  by_cases h0 : count = 0
  · simp only [if_pos h0]
  · simp only [if_neg h0]
    have hc : 0 < count := by omega
    simp only [if_pos hc]
    by_cases h1 : cmpAt 0 < 0
    · simp only [if_pos h1]
    · simp only [if_neg h1]
      by_cases h2 : count = 1
      · simp only [if_pos h2]
      · simp only [if_neg h2]
        have hc1 : count - 1 < count := by omega
        simp only [if_pos hc1]
        by_cases h3 : cmpAt (count - 1) ≥ 0
        · simp only [if_pos h3]
        · simp only [if_neg h3]
          exact find_position_loop_checked_eq cmpAt count count 1 (count - 1) (by omega) hc1

/-- One iteration of the loop, entered with `smaller ≤ bigger_eq`: the index
read lies between them, and the iteration either leaves the loop or goes on
with a strictly smaller distance `bigger_eq - smaller`. -/
theorem find_position_loop_step (cmpAt : Nat → Int) (fuel smaller bigger_eq : Nat)
    (h : smaller ≤ bigger_eq) :
    smaller ≤ (bigger_eq + smaller) / 2 ∧ (bigger_eq + smaller) / 2 ≤ bigger_eq ∧
    ((∃ r, waa___find_position_loop cmpAt (fuel + 1) smaller bigger_eq = Run.ret r ∧
        smaller ≤ r ∧ r ≤ bigger_eq) ∨
     (∃ s1 b1, waa___find_position_loop cmpAt (fuel + 1) smaller bigger_eq
          = waa___find_position_loop cmpAt fuel s1 b1 ∧
        smaller ≤ s1 ∧ s1 < b1 ∧ b1 ≤ bigger_eq ∧ b1 - s1 < bigger_eq - smaller)) := by
  have hm1 : smaller ≤ (bigger_eq + smaller) / 2 := by omega
  have hm2 : (bigger_eq + smaller) / 2 ≤ bigger_eq := by omega
  refine ⟨hm1, hm2, ?_⟩
  rw [waa___find_position_loop]
  split_ifs with h1 h2 h3 h4
  · exact Or.inl ⟨_, rfl, h, le_refl _⟩
  · exact Or.inr ⟨_, _, rfl, by omega, by omega, le_refl _, by omega⟩
  · exact Or.inl ⟨_, rfl, hm1, hm2⟩
  · exact Or.inr ⟨_, _, rfl, le_refl _, by omega, hm2, by omega⟩
  · exact Or.inl ⟨_, rfl, hm1, hm2⟩

/-- C37: `waa___find_position` returns an index in `[0, count]` for every
comparison and every `count`, sorted or not, and it reads the array only at
indices inside `[0, count-1]`: the run with every read checked is the same
run. An iteration of the binary search that is entered with
`smaller ≤ bigger_eq` reads an index between them, and either leaves the loop
or goes on with `smaller < bigger_eq` and a strictly smaller distance
`bigger_eq - smaller`. -/
theorem find_position_terminates (cmpAt : Nat → Int) (count : Nat) :
    (∃ r, waa___find_position cmpAt count = Run.ret r ∧ r ≤ count ∧
      find_position_checked (fun i => if i < count then some (cmpAt i) else none) count
        = Run.ret r) ∧
    (∀ fuel smaller bigger_eq, smaller ≤ bigger_eq →
      smaller ≤ (bigger_eq + smaller) / 2 ∧ (bigger_eq + smaller) / 2 ≤ bigger_eq ∧
      ((∃ r, waa___find_position_loop cmpAt (fuel + 1) smaller bigger_eq = Run.ret r ∧
          smaller ≤ r ∧ r ≤ bigger_eq) ∨
       (∃ s1 b1, waa___find_position_loop cmpAt (fuel + 1) smaller bigger_eq
            = waa___find_position_loop cmpAt fuel s1 b1 ∧
          smaller ≤ s1 ∧ s1 < b1 ∧ b1 ≤ bigger_eq ∧ b1 - s1 < bigger_eq - smaller))) := by
  constructor
  · obtain ⟨r, hr, hle⟩ := find_position_total cmpAt count
    exact ⟨r, hr, hle, by rw [find_position_checked_eq, hr]⟩
  · intro fuel s b hsb
    exact find_position_loop_step cmpAt fuel s b hsb

theorem sign_sorted_of_sorted (cmp : estat → estat → Int) (h : Heap) (new : Cursor)
    (array : List Cursor) (hcmp : TotalPreorderCmp cmp) (hs : SortedCursors cmp h array) :
    SignSorted (fun i => cmp (new.head h) ((array.getD i default).head h)) array.length := by
  intro i j hij hj
  have hi : i < array.length := by omega
  have hle : cmp ((array.getD i default).head h) ((array.getD j default).head h) ≤ 0 := by
    rcases Nat.eq_or_lt_of_le hij with e | hlt
    · subst e
      by_contra hc
      have h1 := (hcmp.swap ((array.getD i default).head h) ((array.getD i default).head h)).2
        (by omega)
      omega
    · have := List.pairwise_iff_getElem.1 hs i j hi hj hlt
      rw [List.getD_eq_getElem _ _ hi, List.getD_eq_getElem _ _ hj]
      exact this
  simp only
  constructor
  · intro hneg
    by_contra hc
    have h1 : cmp ((array.getD j default).head h) (new.head h) ≤ 0 := by
      by_contra hc2
      exact hc ((hcmp.swap _ _).2 (by omega))
    have h2 := hcmp.trans _ _ _ hle h1
    have h3 := (hcmp.swap _ _).1 hneg
    omega
  · intro hpos
    by_contra hc
    have h2 := hcmp.trans _ _ _ (by omega : cmp (new.head h) ((array.getD i default).head h) ≤ 0) hle
    omega

/-- The binary search on the comparisons of a sorted array: the index it
returns has no smaller comparison in front and no bigger one from it on; and
either it is the index of an equal element, or a bigger element stands there
and all elements in front of it, but for the first, are smaller. -/
theorem find_position_loop_sorted (cmpAt : Nat → Int) (count : Nat)
    (hs : SignSorted cmpAt count) :
    ∀ (fuel smaller bigger_eq r : Nat), smaller ≤ bigger_eq → bigger_eq < count →
      (∀ j, 1 ≤ j → j < smaller → 0 < cmpAt j) → cmpAt bigger_eq < 0 →
      waa___find_position_loop cmpAt fuel smaller bigger_eq = Run.ret r →
      smaller ≤ r ∧ r ≤ bigger_eq ∧
        (cmpAt r = 0 ∨ (cmpAt r < 0 ∧ ∀ j, 1 ≤ j → j < r → 0 < cmpAt j)) := by
  intro fuel
  induction fuel with
  | zero =>
    intro s b r _ _ _ _ h
    simp [waa___find_position_loop] at h
  | succ f ih =>
    intro s b r hsb hb hlow hhigh h
    rw [waa___find_position_loop] at h
    have hm1 : s ≤ (b + s) / 2 := by omega
    have hm2 : (b + s) / 2 ≤ b := by omega
    split_ifs at h with h1 h2 h3 h4
    · cases h
      refine ⟨hsb, le_refl _, Or.inr ⟨hhigh, ?_⟩⟩
      intro j _ hj
      exact (hs j ((b + s) / 2) (by omega) (by omega)).2 h1
    · obtain ⟨a1, a2, a3⟩ := ih _ _ r (by omega) hb (by
        intro j hj1 hj2
        exact (hs j ((b + s) / 2) (by omega) (by omega)).2 h1) hhigh h
      exact ⟨by omega, a2, a3⟩
    · cases h
      refine ⟨hm1, hm2, Or.inr ⟨h3, ?_⟩⟩
      intro j hj1 hj2
      exact hlow j hj1 (by omega)
    · obtain ⟨a1, a2, a3⟩ := ih _ _ r (by omega) (by omega) hlow h3 h
      exact ⟨a1, by omega, a3⟩
    · cases h
      exact ⟨hm1, hm2, Or.inl (by omega)⟩

/-- What `waa___find_position` returns on the comparisons of a sorted array. -/
theorem find_position_sign_sorted (cmpAt : Nat → Int) (count : Nat)
    (hs : SignSorted cmpAt count) :
    ∃ r, waa___find_position cmpAt count = Run.ret r ∧ r ≤ count ∧
      (∀ j, j < r → 0 ≤ cmpAt j) ∧ (∀ j, r ≤ j → j < count → cmpAt j ≤ 0) ∧
      ((r < count ∧ cmpAt r = 0) ∨ (r = count ∧ ∀ j, j < count → 0 ≤ cmpAt j) ∨
        ((r = count ∨ cmpAt r < 0) ∧ (∀ j, 1 ≤ j → j < r → 0 < cmpAt j) ∧
          (r ≤ 1 ∨ 0 < cmpAt 0))) := by
  obtain ⟨r, hr, hle⟩ := find_position_total cmpAt count
  refine ⟨r, hr, hle, ?_⟩
  unfold waa___find_position at hr
  split_ifs at hr with h0 h1 h2 h3
  · cases hr
    subst h0
    refine ⟨fun j hj => by omega, fun j _ hj => by omega, Or.inr (Or.inl ⟨rfl, fun j hj => by omega⟩)⟩
  · cases hr
    have hall : ∀ j, j < count → cmpAt j < 0 := fun j hj => (hs 0 j (Nat.zero_le _) hj).1 h1
    refine ⟨fun j hj => by omega, fun j _ hj => le_of_lt (hall j hj), Or.inr (Or.inr
      ⟨Or.inr (hall 0 (by omega)), fun j _ hj => by omega, Or.inl (by omega)⟩)⟩
  · cases hr
    subst h2
    have h00 : ∀ j, j < 1 → 0 ≤ cmpAt j := by
      intro j hj
      have : j = 0 := by omega
      subst this
      omega
    exact ⟨h00, fun j hj1 hj2 => by omega, Or.inr (Or.inl ⟨rfl, h00⟩)⟩
  · cases hr
    have hall : ∀ j, j < count → 0 ≤ cmpAt j := by
      intro j hj
      by_contra hc
      have := (hs j (count - 1) (by omega) (by omega)).1 (by omega)
      omega
    exact ⟨hall, fun j hj1 hj2 => by omega, Or.inr (Or.inl ⟨rfl, hall⟩)⟩
  · obtain ⟨a1, a2, a3⟩ := find_position_loop_sorted cmpAt count hs count 1 (count - 1) r
      (by omega) (by omega) (fun j hj1 hj2 => by omega) (by omega) hr
    have hr1 : r < count := by omega
    have hge : ∀ j, j < r → 0 ≤ cmpAt j := by
      intro j hj
      rcases a3 with e | ⟨_, hlow⟩
      · by_contra hc
        have := (hs j r (by omega) hr1).1 (by omega)
        omega
      · rcases Nat.eq_zero_or_pos j with e | hp
        · subst e
          omega
        · exact le_of_lt (hlow j hp hj)
    have hlt : ∀ j, r ≤ j → j < count → cmpAt j ≤ 0 := by
      intro j hj1 hj2
      by_contra hc
      have := (hs r j hj1 hj2).2 (by omega)
      rcases a3 with e | ⟨e, _⟩ <;> omega
    refine ⟨hge, hlt, ?_⟩
    rcases a3 with e | ⟨e, hlow⟩
    · exact Or.inl ⟨hr1, e⟩
    · by_cases hz : 0 < cmpAt 0
      · exact Or.inr (Or.inr ⟨Or.inr e, hlow, Or.inr hz⟩)
      · have h0z : cmpAt 0 = 0 := by omega
        refine Or.inr (Or.inr ⟨Or.inr e, hlow, Or.inl ?_⟩)
        by_contra hc
        have h1p := hlow 1 (le_refl _) (by omega)
        have := (hs 0 1 (by omega) (by omega)).2 h1p
        omega

theorem find_position_debug_eq (cmpAt : Nat → Int) (count : Nat)
    (hs : SignSorted cmpAt count) :
    waa___find_position_debug cmpAt count = waa___find_position cmpAt count := by
  obtain ⟨r, hr, hle, hge, hlt, _⟩ := find_position_sign_sorted cmpAt count hs
  unfold waa___find_position_debug
  unfold waa___find_position at hr ⊢
  split_ifs at hr ⊢ with h0 h1 h2 h3
  · rfl
  · rfl
  · rfl
  · rfl
  · rw [hr]
    have hb : find_position_bug_on cmpAt count r = false := by
      unfold find_position_bug_on
      rw [Bool.or_eq_false_iff]
      constructor
      · by_cases hc : r + 1 < count
        · have := hlt r (le_refl _) (by omega)
          simp only [Bool.and_eq_false_imp, decide_eq_true_eq, decide_eq_false_iff_not]
          intro _
          omega
        · simp [hc]
      · by_cases hc : r > 0
        · have := hge (r - 1) (by omega)
          simp only [Bool.and_eq_false_imp, decide_eq_true_eq, decide_eq_false_iff_not]
          intro _
          omega
        · simp [hc]
    simp only [hb]
    rfl

theorem insert_cursor_sorted (cmp : estat → estat → Int) (h : Heap) (new : Cursor)
    (array : List Cursor) (r : Nat) (hcmp : TotalPreorderCmp cmp)
    (hs : SortedCursors cmp h array) (hr : r ≤ array.length)
    (hge : ∀ j, j < r → 0 ≤ cmp (new.head h) ((array.getD j default).head h))
    (hlt : ∀ j, r ≤ j → j < array.length →
      cmp (new.head h) ((array.getD j default).head h) ≤ 0) :
    SortedCursors cmp h (insert_cursor array r new) := by
  unfold SortedCursors insert_cursor
  have hsplit : (array.take r ++ array.drop r).Pairwise
      (fun a b => cmp (a.head h) (b.head h) ≤ 0) := by
    rw [List.take_append_drop]
    exact hs
  rw [List.pairwise_append] at hsplit ⊢
  obtain ⟨p1, p2, p3⟩ := hsplit
  refine ⟨p1, List.pairwise_cons.2 ⟨?_, p2⟩, ?_⟩
  · intro b hb
    obtain ⟨n, hn, e⟩ := List.mem_iff_getElem.1 hb
    rw [List.getElem_drop] at e
    rw [List.length_drop] at hn
    have := hlt (r + n) (by omega) (by omega)
    rw [List.getD_eq_getElem _ _ (by omega)] at this
    rw [← e]
    exact this
  · intro a ha b hb
    rcases List.mem_cons.1 hb with e | hb
    · subst e
      obtain ⟨n, hn, e⟩ := List.mem_iff_getElem.1 ha
      rw [List.length_take] at hn
      rw [List.getElem_take] at e
      have := hge n (by omega)
      rw [List.getD_eq_getElem _ _ (by omega)] at this
      rw [← e]
      by_contra hc
      have := (hcmp.swap _ _).2 (by omega : 0 < cmp (array[n].head h) (b.head h))
      omega
    · exact p3 a ha b hb

/-- C34: for an array of cursors that is sorted non-decreasingly under a
comparison that is a total preorder, and every new element,
`waa___find_position` returns an index `r` with `0 ≤ r ≤ count`; every
element in front of `r` compares `≤ new`, every element from `r` on compares
`≥ new`, the array with the new element inserted at `r` is sorted, and the
function compiled with `DEBUG` returns the same index: its `BUG_ON` does not
fire. -/
theorem find_position_sorted (cmp : estat → estat → Int) (h : Heap) (new : Cursor)
    (array : List Cursor) (hcmp : TotalPreorderCmp cmp) (hs : SortedCursors cmp h array) :
    ∃ r, find_position_cursors cmp h new array = Run.ret r ∧ r ≤ array.length ∧
      (∀ j, j < r → cmp ((array.getD j default).head h) (new.head h) ≤ 0) ∧
      (∀ j, r ≤ j → j < array.length →
        cmp (new.head h) ((array.getD j default).head h) ≤ 0) ∧
      SortedCursors cmp h (insert_cursor array r new) ∧
      waa___find_position_debug
        (fun i => cmp (new.head h) ((array.getD i default).head h)) array.length
        = Run.ret r := by
  have hss := sign_sorted_of_sorted cmp h new array hcmp hs
  obtain ⟨r, hr, hle, hge, hlt, _⟩ := find_position_sign_sorted _ _ hss
  refine ⟨r, hr, hle, ?_, hlt, insert_cursor_sorted cmp h new array r hcmp hs hle hge hlt, ?_⟩
  · intro j hj
    have := hge j hj
    by_contra hc
    have := (hcmp.swap _ _).2 (by omega :
      0 < cmp ((array.getD j default).head h) (new.head h))
    omega
  · rw [find_position_debug_eq _ _ hss]
    exact hr

theorem sort_by_inode_preorder : TotalPreorderCmp dir___f_sort_by_inode := by
  constructor
  · intro a b
    unfold dir___f_sort_by_inode
    split_ifs <;> omega
  · intro a b c
    unfold dir___f_sort_by_inode
    split_ifs <;> omega

theorem find_position_sorted_witness :
    SortedCursors dir___f_sort_by_inode demo_links_heap [⟨0, 0⟩, ⟨0, 1⟩] ∧
    ∃ r, find_position_cursors dir___f_sort_by_inode demo_links_heap ⟨3, 0⟩ [⟨0, 0⟩, ⟨0, 1⟩]
        = Run.ret r ∧ r ≤ 2 ∧
      SortedCursors dir___f_sort_by_inode demo_links_heap
        (insert_cursor [⟨0, 0⟩, ⟨0, 1⟩] r ⟨3, 0⟩) := by
  have hs : SortedCursors dir___f_sort_by_inode demo_links_heap [⟨0, 0⟩, ⟨0, 1⟩] := by
    unfold SortedCursors
    decide
  obtain ⟨r, h1, h2, _, _, h5, _⟩ := find_position_sorted dir___f_sort_by_inode demo_links_heap
    ⟨3, 0⟩ [⟨0, 0⟩, ⟨0, 1⟩] sort_by_inode_preorder hs
  exact ⟨hs, r, h1, h2, h5⟩

/-- C36: an equal element whose index is not returned. In the sorted array
with the inodes 5 and 7 the new element with inode 5 (a hard link) compares
equal to the element at index 0, and `waa___find_position` returns 1, the
index of the bigger element; in the array with the inode 5 alone it returns
1 as well, which is the index of no element. -/
theorem find_position_equal_not_returned :
    SortedCursors dir___f_sort_by_inode demo_links_heap [⟨0, 0⟩, ⟨0, 1⟩] ∧
    dir___f_sort_by_inode (Cursor.head demo_links_heap ⟨3, 0⟩)
      (Cursor.head demo_links_heap ⟨0, 0⟩) = 0 ∧
    dir___f_sort_by_inode (Cursor.head demo_links_heap ⟨3, 0⟩)
      (Cursor.head demo_links_heap ⟨0, 1⟩) < 0 ∧
    find_position_cursors dir___f_sort_by_inode demo_links_heap ⟨3, 0⟩ [⟨0, 0⟩, ⟨0, 1⟩]
      = Run.ret 1 ∧
    find_position_cursors dir___f_sort_by_inode demo_links_heap ⟨3, 0⟩ [⟨0, 0⟩]
      = Run.ret 1 := by
  refine ⟨?_, by decide, by decide, by decide, by decide⟩
  unfold SortedCursors
  decide

/-- C36 as amended: on a sorted array `waa___find_position` returns an index
`r ≤ count` such that, if no element compares equal to the new one, `r` is
the index of the first bigger element (`count` if there is none); and if an
element compares equal, then the element at `r` compares equal, or `r` is
`count` and the last element compares equal, or `r` is 1, only the first
element compares equal and the element at 1 is bigger. -/
theorem find_position_ties (cmp : estat → estat → Int) (h : Heap) (new : Cursor)
    (array : List Cursor) (hcmp : TotalPreorderCmp cmp) (hs : SortedCursors cmp h array) :
    ∃ r, find_position_cursors cmp h new array = Run.ret r ∧ r ≤ array.length ∧
      ((∀ j, j < array.length → cmp (new.head h) ((array.getD j default).head h) ≠ 0) →
        (∀ j, j < r → 0 < cmp (new.head h) ((array.getD j default).head h)) ∧
        (∀ j, r ≤ j → j < array.length →
          cmp (new.head h) ((array.getD j default).head h) < 0)) ∧
      ((∃ j, j < array.length ∧ cmp (new.head h) ((array.getD j default).head h) = 0) →
        (r < array.length ∧ cmp (new.head h) ((array.getD r default).head h) = 0) ∨
        (r = array.length ∧
          cmp (new.head h) ((array.getD (array.length - 1) default).head h) = 0) ∨
        (r = 1 ∧ 1 < array.length ∧ cmp (new.head h) ((array.getD 0 default).head h) = 0 ∧
          cmp (new.head h) ((array.getD 1 default).head h) < 0)) := by
  have hss := sign_sorted_of_sorted cmp h new array hcmp hs
  obtain ⟨r, hr, hle, hge, hlt, hc⟩ := find_position_sign_sorted _ _ hss
  refine ⟨r, hr, hle, ?_, ?_⟩
  · intro hne
    constructor
    · intro j hj
      have h1 := hge j hj
      have h2 := hne j (by omega)
      simp only at h1
      omega
    · intro j hj1 hj2
      have h1 := hlt j hj1 hj2
      have h2 := hne j hj2
      simp only at h1
      omega
  · rintro ⟨e, he, hz⟩
    rcases hc with ⟨c1, c2⟩ | ⟨c1, c2⟩ | ⟨c1, c2, c3⟩
    · exact Or.inl ⟨c1, c2⟩
    · refine Or.inr (Or.inl ⟨c1, ?_⟩)
      have h1 := c2 (array.length - 1) (by omega)
      have h2 := (hss e (array.length - 1) (by omega) (by omega)).2
      simp only at h1 h2
      by_contra hx
      have := h2 (by omega)
      omega
    · have her : e < r := by
        by_contra hx
        have hrc : r ≠ array.length := by omega
        have hneg : cmp (new.head h) ((array.getD r default).head h) < 0 := by
          rcases c1 with c | c
          · exact absurd c hrc
          · exact c
        have := (hss r e (by omega) he).1 hneg
        simp only at this
        omega
      have he0 : e = 0 := by
        by_contra hx
        have := c2 e (by omega) her
        simp only at this
        omega
      subst he0
      have hr1 : r = 1 := by
        rcases c3 with c | c
        · omega
        · omega
      subst hr1
      by_cases hl : 1 = array.length
      · refine Or.inr (Or.inl ⟨hl, ?_⟩)
        rw [← hl]
        exact hz
      · rcases c1 with c | c
        · exact absurd c hl
        · exact Or.inr (Or.inr ⟨rfl, by omega, hz, c⟩)

theorem find_position_ties_witness :
    SortedCursors dir___f_sort_by_inode demo_links_heap [⟨0, 0⟩, ⟨0, 1⟩] ∧
    ∃ r, find_position_cursors dir___f_sort_by_inode demo_links_heap ⟨3, 0⟩ [⟨0, 0⟩, ⟨0, 1⟩]
        = Run.ret r ∧ r ≤ 2 := by
  have hs : SortedCursors dir___f_sort_by_inode demo_links_heap [⟨0, 0⟩, ⟨0, 1⟩] := by
    unfold SortedCursors
    decide
  obtain ⟨r, h1, h2, _⟩ := find_position_ties dir___f_sort_by_inode demo_links_heap
    ⟨3, 0⟩ [⟨0, 0⟩, ⟨0, 1⟩] sort_by_inode_preorder hs
  exact ⟨hs, r, h1, h2⟩

theorem new_entry_block_fields (bh : BlockHeap) (eblock entry count previous : Nat)
    (hne : eblock ≠ previous) (hfresh : (bh previous).next ≠ some eblock) :
    (waa__new_entry_block_links bh (some eblock) entry count previous).1 = 0 ∧
    (waa__new_entry_block_links bh (some eblock) entry count previous).2 eblock
      = ⟨entry, count, (bh previous).next, some previous⟩ ∧
    (∀ q, q ≠ eblock →
      ((waa__new_entry_block_links bh (some eblock) entry count previous).2 q).first
        = (bh q).first ∧
      ((waa__new_entry_block_links bh (some eblock) entry count previous).2 q).count
        = (bh q).count ∧
      ((waa__new_entry_block_links bh (some eblock) entry count previous).2 q).next
        = (if q = previous then some eblock else (bh q).next) ∧
      ((waa__new_entry_block_links bh (some eblock) entry count previous).2 q).prev
        = (if (bh previous).next = some q then some eblock else (bh q).prev)) := by
  unfold waa__new_entry_block_links
  have hne2 : previous ≠ eblock := fun e => hne e.symm
  rcases hn : (bh previous).next with _ | n
  · simp [Function.update, hne, hne2, hn]
    intro q hq
    by_cases hqp : q = previous
    · subst hqp
      simp [hn]
    · simp [hqp, hq]
  · have hn2 : n ≠ eblock := by
      intro e
      apply hfresh
      rw [hn, e]
    have hn3 : eblock ≠ n := fun e => hn2 e.symm
    simp [Function.update, hne, hne2, hn, hn2]
    refine ⟨hn3, ?_⟩
    intro q hq
    by_cases hqn : q = n
    · subst hqn
      by_cases hqp : q = previous
      · subst hqp
        simp [hn]
      · simp [hqp]
    · have hnq : ¬ n = q := fun e => hqn e.symm
      by_cases hqp : q = previous
      · subst hqp
        simp [hqn, hnq]
      · simp [hqn, hqp, hq, hnq]

theorem is_chain_congr (bh bh1 : BlockHeap) :
    ∀ L : List Nat, (∀ q ∈ L, (bh1 q).next = (bh q).next) → is_chain bh L → is_chain bh1 L := by
  intro L
  induction L with
  | nil => intro _ _; trivial
  | cons a L ih =>
    intro hq hc
    cases L with
    | nil =>
      simp only [is_chain] at hc ⊢
      rw [hq a (List.mem_cons_self _ _)]
      exact hc
    | cons b L =>
      simp only [is_chain] at hc ⊢
      refine ⟨?_, ih (fun q hm => hq q (List.mem_cons_of_mem _ hm)) hc.2⟩
      rw [hq a (List.mem_cons_self _ _)]
      exact hc.1

theorem is_chain_suffix (bh : BlockHeap) :
    ∀ X L : List Nat, is_chain bh (X ++ L) → is_chain bh L := by
  intro X
  induction X with
  | nil => intro L h; exact h
  | cons a X ih =>
    intro L h
    cases hx : X ++ L with
    | nil =>
      have : L = [] := (List.append_eq_nil.1 hx).2
      subst this
      trivial
    | cons b Y =>
      rw [List.cons_append, hx] at h
      simp only [is_chain] at h
      apply ih
      rw [hx]
      exact h.2

theorem is_chain_det (bh : BlockHeap) :
    ∀ (L L1 : List Nat) (a : Nat), is_chain bh (a :: L) → is_chain bh (a :: L1) → L = L1 := by
  intro L
  induction L with
  | nil =>
    intro L1 a h h1
    cases L1 with
    | nil => rfl
    | cons b L1 =>
      simp only [is_chain] at h h1
      rw [h] at h1
      exact absurd h1.1 (by simp)
  | cons c L ih =>
    intro L1 a h h1
    cases L1 with
    | nil =>
      simp only [is_chain] at h h1
      rw [h1] at h
      exact absurd h.1 (by simp)
    | cons b L1 =>
      simp only [is_chain] at h h1
      have e : c = b := by
        have := h.1
        rw [h1.1] at this
        exact (Option.some.inj this).symm
      subst e
      rw [ih L1 c h.2 h1.2]

theorem is_chain_head_notin (bh : BlockHeap) (a : Nat) (L : List Nat)
    (h : is_chain bh (a :: L)) : a ∉ L := by
  intro hm
  obtain ⟨X, Y, e⟩ := List.append_of_mem hm
  have h1 : is_chain bh (a :: Y) := by
    apply is_chain_suffix bh (a :: X)
    rw [List.cons_append, ← e]
    exact h
  have := is_chain_det bh L Y a h h1
  rw [this] at e
  have hl := congrArg List.length e
  simp at hl
  omega

theorem is_chain_nodup (bh : BlockHeap) : ∀ L : List Nat, is_chain bh L → L.Nodup := by
  intro L
  induction L with
  | nil => intro _; exact List.nodup_nil
  | cons a L ih =>
    intro h
    exact List.nodup_cons.2 ⟨is_chain_head_notin bh a L h, ih (is_chain_suffix bh [a] L h)⟩

theorem is_chain_insert (bh bh1 : BlockHeap) (previous eblock : Nat) (L2 : List Nat) :
    ∀ L1 : List Nat, is_chain bh (L1 ++ previous :: L2) →
      (∀ q ∈ L1, (bh1 q).next = (bh q).next) → (∀ q ∈ L2, (bh1 q).next = (bh q).next) →
      (bh1 previous).next = some eblock → (bh1 eblock).next = (bh previous).next →
      is_chain bh1 (L1 ++ previous :: eblock :: L2) := by
  intro L1
  induction L1 with
  | nil =>
    intro hc _ h2 hp he
    cases L2 with
    | nil =>
      simp only [List.nil_append, is_chain] at hc ⊢
      exact ⟨hp, by rw [he, hc]⟩
    | cons b L =>
      simp only [List.nil_append, is_chain] at hc ⊢
      exact ⟨hp, by rw [he, hc.1], is_chain_congr bh bh1 _ h2 hc.2⟩
  | cons a L1 ih =>
    intro hc h1 h2 hp he
    have hrec := ih (is_chain_suffix bh [a] _ hc) (fun q hm => h1 q (List.mem_cons_of_mem _ hm))
      h2 hp he
    cases L1 with
    | nil =>
      simp only [List.cons_append, List.nil_append, is_chain] at hc hrec ⊢
      exact ⟨by rw [h1 a (List.mem_cons_self _ _)]; exact hc.1, hrec⟩
    | cons c L1 =>
      simp only [List.cons_append, is_chain] at hc hrec ⊢
      exact ⟨by rw [h1 a (List.mem_cons_self _ _)]; exact hc.1, hrec⟩

theorem new_entry_block_linked (bh : BlockHeap) (S : List Nat)
    (eblock entry count previous : Nat) (hS : DoublyLinked bh S) (hp : previous ∈ S)
    (hfresh : eblock ∉ S) :
    DoublyLinked (waa__new_entry_block_links bh (some eblock) entry count previous).2
      (eblock :: S) := by
  have hne : eblock ≠ previous := fun e => hfresh (e ▸ hp)
  have hnx : (bh previous).next ≠ some eblock := fun e => hfresh (hS.fwd previous hp eblock e).1
  obtain ⟨_, f2, f3⟩ := new_entry_block_fields bh eblock entry count previous hne hnx
  have hin : ∀ q, q ∈ S → q ≠ eblock := fun q hq e => hfresh (e ▸ hq)
  constructor
  · intro a ha b hab
    rcases List.mem_cons.1 ha with e | ha
    · subst e
      rw [f2] at hab
      simp only at hab
      have hb := hS.fwd previous hp b hab
      refine ⟨List.mem_cons_of_mem _ hb.1, ?_⟩
      rw [(f3 b (hin b hb.1)).2.2.2, if_pos hab]
    · rw [(f3 a (hin a ha)).2.2.1] at hab
      by_cases hap : a = previous
      · subst hap
        rw [if_pos rfl] at hab
        cases hab
        refine ⟨List.mem_cons_self _ _, ?_⟩
        rw [f2]
      · rw [if_neg hap] at hab
        have hb := hS.fwd a ha b hab
        refine ⟨List.mem_cons_of_mem _ hb.1, ?_⟩
        rw [(f3 b (hin b hb.1)).2.2.2]
        have hnb : ¬ (bh previous).next = some b := by
          intro e
          have := (hS.fwd previous hp b e).2
          rw [hb.2] at this
          exact hap (Option.some.inj this)
        rw [if_neg hnb]
        exact hb.2
  · intro b hb a hba
    rcases List.mem_cons.1 hb with e | hb
    · subst e
      rw [f2] at hba
      simp only at hba
      cases hba
      refine ⟨List.mem_cons_of_mem _ hp, ?_⟩
      rw [(f3 previous (hin previous hp)).2.2.1, if_pos rfl]
    · rw [(f3 b (hin b hb)).2.2.2] at hba
      by_cases hpb : (bh previous).next = some b
      · rw [if_pos hpb] at hba
        cases hba
        refine ⟨List.mem_cons_self _ _, ?_⟩
        rw [f2]
        exact hpb
      · rw [if_neg hpb] at hba
        have ha := hS.bwd b hb a hba
        refine ⟨List.mem_cons_of_mem _ ha.1, ?_⟩
        rw [(f3 a (hin a ha.1)).2.2.1]
        have hap : a ≠ previous := by
          intro e
          apply hpb
          rw [← e]
          exact ha.2
        rw [if_neg hap]
        exact ha.2

/-- C33: `waa__new_entry_block(entry, count, previous)` with a fresh block
from `malloc`, on blocks that are doubly linked, returns 0 and links the new
block directly behind `previous`: `previous.next` is the new block, the new
block holds `entry`, `count`, the former successor of `previous` as `next` and
`previous` as `prev`, and that successor, if there is one, has the new block
as `prev`. No other field changes, the blocks are doubly linked again, a
block without predecessor stays without one, and the list read from the head
is the old list with the new block behind `previous`; without memory the
status is `ENOMEM` and nothing changes. -/
theorem new_entry_block_links (bh : BlockHeap) (S : List Nat)
    (eblock entry count previous : Nat) (hS : DoublyLinked bh S) (hp : previous ∈ S)
    (hfresh : eblock ∉ S) :
    (waa__new_entry_block_links bh (some eblock) entry count previous).1 = 0 ∧
    ((waa__new_entry_block_links bh (some eblock) entry count previous).2 previous).next
      = some eblock ∧
    (waa__new_entry_block_links bh (some eblock) entry count previous).2 eblock
      = ⟨entry, count, (bh previous).next, some previous⟩ ∧
    (∀ n, (bh previous).next = some n →
      ((waa__new_entry_block_links bh (some eblock) entry count previous).2 n).prev
        = some eblock) ∧
    (∀ q, q ≠ eblock →
      ((waa__new_entry_block_links bh (some eblock) entry count previous).2 q).first
        = (bh q).first ∧
      ((waa__new_entry_block_links bh (some eblock) entry count previous).2 q).count
        = (bh q).count ∧
      (q ≠ previous →
        ((waa__new_entry_block_links bh (some eblock) entry count previous).2 q).next
          = (bh q).next) ∧
      ((bh previous).next ≠ some q →
        ((waa__new_entry_block_links bh (some eblock) entry count previous).2 q).prev
          = (bh q).prev)) ∧
    DoublyLinked (waa__new_entry_block_links bh (some eblock) entry count previous).2
      (eblock :: S) ∧
    (∀ hd, hd ∈ S → (bh hd).prev = none →
      ((waa__new_entry_block_links bh (some eblock) entry count previous).2 hd).prev = none) ∧
    (∀ L1 L2, is_chain bh (L1 ++ previous :: L2) → (∀ q ∈ L1 ++ previous :: L2, q ∈ S) →
      is_chain (waa__new_entry_block_links bh (some eblock) entry count previous).2
        (L1 ++ previous :: eblock :: L2) ∧
      blocks_of (waa__new_entry_block_links bh (some eblock) entry count previous).2
        (L1 ++ previous :: eblock :: L2)
        = waa__new_entry_block (blocks_of bh (L1 ++ previous :: L2)) entry count L1.length) ∧
    waa__new_entry_block_links bh none entry count previous = (ENOMEM, bh) := by
  have hne : eblock ≠ previous := fun e => hfresh (e ▸ hp)
  have hnx : (bh previous).next ≠ some eblock := fun e => hfresh (hS.fwd previous hp eblock e).1
  obtain ⟨f1, f2, f3⟩ := new_entry_block_fields bh eblock entry count previous hne hnx
  have hin : ∀ q, q ∈ S → q ≠ eblock := fun q hq e => hfresh (e ▸ hq)
  refine ⟨f1, ?_, f2, ?_, ?_, new_entry_block_linked bh S eblock entry count previous hS hp hfresh,
    ?_, ?_, rfl⟩
  · rw [(f3 previous (hin previous hp)).2.2.1, if_pos rfl]
  · intro n hn
    rw [(f3 n (hin n (hS.fwd previous hp n hn).1)).2.2.2, if_pos hn]
  · intro q hq
    refine ⟨(f3 q hq).1, (f3 q hq).2.1, ?_, ?_⟩
    · intro hqp
      rw [(f3 q hq).2.2.1, if_neg hqp]
    · intro hqn
      rw [(f3 q hq).2.2.2, if_neg hqn]
  · intro hd hhd hnone
    rw [(f3 hd (hin hd hhd)).2.2.2]
    have : ¬ (bh previous).next = some hd := by
      intro e
      have := (hS.fwd previous hp hd e).2
      rw [hnone] at this
      exact absurd this (by simp)
    rw [if_neg this]
    exact hnone
  · intro L1 L2 hc hL
    have hnd := is_chain_nodup bh _ hc
    have hp1 : previous ∉ L1 := by
      intro hm
      have := (List.nodup_append.1 hnd).2.2
      exact this hm (List.mem_cons_self _ _)
    have hp2 : previous ∉ L2 := by
      have := (List.nodup_append.1 hnd).2.1
      exact (List.nodup_cons.1 this).1
    have hnext : ∀ q, q ∈ L1 ++ previous :: L2 → q ≠ previous →
        ((waa__new_entry_block_links bh (some eblock) entry count previous).2 q).next
          = (bh q).next := by
      intro q hq hqp
      rw [(f3 q (hin q (hL q hq))).2.2.1, if_neg hqp]
    constructor
    · apply is_chain_insert bh _ previous eblock L2 L1 hc
      · intro q hq
        exact hnext q (List.mem_append_left _ hq) (fun e => hp1 (e ▸ hq))
      · intro q hq
        exact hnext q (List.mem_append_right _ (List.mem_cons_of_mem _ hq))
          (fun e => hp2 (e ▸ hq))
      · rw [(f3 previous (hin previous hp)).2.2.1, if_pos rfl]
      · rw [f2]
    · have hsame : ∀ q, q ∈ L1 ++ previous :: L2 →
          (((waa__new_entry_block_links bh (some eblock) entry count previous).2 q).first,
            ((waa__new_entry_block_links bh (some eblock) entry count previous).2 q).count)
          = ((bh q).first, (bh q).count) := by
        intro q hq
        rw [(f3 q (hin q (hL q hq))).1, (f3 q (hin q (hL q hq))).2.1]
      unfold blocks_of waa__new_entry_block
      rw [List.map_append, List.map_cons, List.map_cons, f2]
      rw [List.map_append, List.map_cons]
      have e1 : List.take (L1.length + 1)
          (List.map (fun p => ((bh p).first, (bh p).count)) L1 ++
            ((bh previous).first, (bh previous).count) ::
              List.map (fun p => ((bh p).first, (bh p).count)) L2)
          = List.map (fun p => ((bh p).first, (bh p).count)) L1 ++
            [((bh previous).first, (bh previous).count)] := by
        rw [List.take_append_eq_append_take]
        simp
      have e2 : List.drop (L1.length + 1)
          (List.map (fun p => ((bh p).first, (bh p).count)) L1 ++
            ((bh previous).first, (bh previous).count) ::
              List.map (fun p => ((bh p).first, (bh p).count)) L2)
          = List.map (fun p => ((bh p).first, (bh p).count)) L2 := by
        rw [List.drop_append_eq_append_drop]
        simp
      rw [e1, e2]
      have m1 : List.map (fun p =>
          (((waa__new_entry_block_links bh (some eblock) entry count previous).2 p).first,
            ((waa__new_entry_block_links bh (some eblock) entry count previous).2 p).count)) L1
          = List.map (fun p => ((bh p).first, (bh p).count)) L1 :=
        List.map_congr_left (fun q hq => hsame q (List.mem_append_left _ hq))
      have m2 : List.map (fun p =>
          (((waa__new_entry_block_links bh (some eblock) entry count previous).2 p).first,
            ((waa__new_entry_block_links bh (some eblock) entry count previous).2 p).count)) L2
          = List.map (fun p => ((bh p).first, (bh p).count)) L2 :=
        List.map_congr_left (fun q hq => hsame q (List.mem_append_right _
          (List.mem_cons_of_mem _ hq)))
      rw [m1, m2, hsame previous (List.mem_append_right _ (List.mem_cons_self _ _))]
      simp

theorem demo_blocks_linked : DoublyLinked demo_blocks [10, 11, 12] := by
  constructor
  · intro a ha b hab
    simp only [List.mem_cons, List.mem_singleton, List.not_mem_nil, or_false] at ha
    rcases ha with e | e | e <;> subst e <;> simp [demo_blocks] at hab <;> subst hab <;>
      simp [demo_blocks]
  · intro b hb a hba
    simp only [List.mem_cons, List.mem_singleton, List.not_mem_nil, or_false] at hb
    rcases hb with e | e | e <;> subst e <;> simp [demo_blocks] at hba <;> subst hba <;>
      simp [demo_blocks]

theorem new_entry_block_links_witness :
    DoublyLinked demo_blocks [10, 11, 12] ∧
    links_of (waa__new_entry_block_links demo_blocks (some 13) 300 5 11) [10, 11, 13, 12]
      = (0, [(10, some 11, none), (11, some 13, some 10), (13, some 12, some 11),
          (12, none, some 13)]) ∧
    DoublyLinked (waa__new_entry_block_links demo_blocks (some 13) 300 5 11).2
      [13, 10, 11, 12] :=
  ⟨demo_blocks_linked, by decide,
    (new_entry_block_links demo_blocks [10, 11, 12] 13 300 5 11 demo_blocks_linked
      (by decide) (by decide)).2.2.2.2.2.1⟩

theorem strrchr_lt (s : CStr) (c : Nat) : ∀ i, strrchr s c = some i → i < s.length := by
  induction s with
  | nil =>
    intro i h
    simp [strrchr] at h
  | cons x xs ih =>
    intro i h
    unfold strrchr at h
    rcases hx : strrchr xs c with _ | j
    · rw [hx] at h
      simp only at h
      split_ifs at h
      cases h
      simp
    · rw [hx] at h
      simp only at h
      cases h
      have := ih j hx
      simp only [List.length_cons]
      omega

theorem common_len_le (p0 : CStr) (len : Nat) (p : CStr) : common_len p0 len p ≤ len := by
  unfold common_len
  rcases hf : (List.range len).find? (fun j => p.at j ≠ p0.at j) with _ | j
  · exact le_refl _
  · have := List.mem_of_find?_eq_some hf
    rw [List.mem_range] at this
    exact le_of_lt this

theorem foldl_common_len_le (p0 : CStr) :
    ∀ (ps : List CStr) (len : Nat), List.foldl (common_len p0) len ps ≤ len := by
  intro ps
  induction ps with
  | nil => intro len; exact le_refl _
  | cons p ps ih =>
    intro len
    exact le_trans (ih _) (common_len_le p0 len p)

theorem back_to_sep_le (p0 : CStr) : ∀ n, back_to_sep p0 n ≤ n := by
  intro n
  induction n with
  | zero => exact le_refl _
  | succ n ih =>
    unfold back_to_sep
    split_ifs
    · exact le_trans ih (Nat.le_succ _)
    · exact le_refl _

theorem find_base_loop_len (x : BaseExt) :
    ∀ (fuel : Nat) (base : CStr) (len : Nat) (log : List CStr) (st : Int) (b : CStr) (l : Nat)
      (lg : List CStr),
      (base.length = len ∨ (len = 0 ∧ base.length = 1)) →
      find_base_loop x fuel base len log = Run.ret (st, b, l, lg) →
      (l = b.length ∨ (l = 0 ∧ b.length = 1)) ∧ b <+: base := by
  intro fuel
  induction fuel with
  | zero =>
    intro base len log st b l lg _ h
    simp [find_base_loop] at h
  | succ f ih =>
    intro base len log st b l lg hpre h
    unfold find_base_loop at h
    have hfin : ∀ (s : Int) (lg1 : List CStr), Run.ret (s, base, len, lg1) = Run.ret (st, b, l, lg) →
        (l = b.length ∨ (l = 0 ∧ b.length = 1)) ∧ b <+: base := by
      intro s lg1 e
      cases e
      refine ⟨?_, List.prefix_refl _⟩
      rcases hpre with e | ⟨e1, e2⟩
      · exact Or.inl e.symm
      · exact Or.inr ⟨e1, e2⟩
    split_ifs at h with h1 h2
    · exact hfin _ _ h
    · exact hfin _ _ h
    · have hlen : base.length = len := by
        rcases hpre with e | ⟨e1, _⟩
        · exact e
        · omega
      rw [← hlen, List.take_length] at h
      split at h
      · rename_i cp hcp
        have hlt := strrchr_lt _ _ _ hcp
        split_ifs at h with h3
        · obtain ⟨a1, a2⟩ := ih _ _ _ _ _ _ _ (Or.inr ⟨rfl, by
            rw [List.length_take]
            omega⟩) h
          exact ⟨a1, a2.trans (List.take_prefix _ _)⟩
        · obtain ⟨a1, a2⟩ := ih _ _ _ _ _ _ _ (Or.inl (by
            rw [List.length_take]
            omega)) h
          exact ⟨a1, a2.trans (List.take_prefix _ _)⟩
      · cases h

/-- C39: what `waa__find_common_base` leaves in `wc_path_len` when it finds
a working copy, for arguments whose full path is not empty: the length of
`wc_path`, or 0 with a `wc_path` of length 1. The second case is the run in
which the upward walk of step 4 reaches `/`: there the code stores
`len = cp - base_copy`, which is 0. -/
theorem find_common_base_wc_path_len (x : BaseExt) (args : List CStr) (r : BaseResult)
    (hne : ∀ a ∈ (if args = [] then [x.start_path] else args), full_path x a ≠ [])
    (h : waa__find_common_base x args = Run.ret r) (hst : r.status = 0) :
    ∃ b, r.wc_path = some b ∧
      (r.wc_path_len = b.length ∨ (r.wc_path_len = 0 ∧ b.length = 1)) := by
  unfold waa__find_common_base at h
  simp only at h
  split at h
  · rename_i len1 hcut
    split at h
    · rename_i status base len3 lg hl
      have hp0 : ((List.map (full_path x) (if args = [] then [x.start_path] else args)).headD [])
          ≠ [] := by
        by_cases ha : args = []
        · rw [if_pos ha] at hne ⊢
          exact hne _ (List.mem_cons_self _ _)
        · rw [if_neg ha] at hne ⊢
          cases args with
          | nil => exact absurd rfl ha
          | cons a as => exact hne _ (List.mem_cons_self _ _)
      generalize ((List.map (full_path x) (if args = [] then [x.start_path] else args)).headD [])
        = p0 at hcut hl hp0
      generalize (List.map (full_path x) (if args = [] then [x.start_path] else args)).tail
        = ps at hcut
      have hfold := foldl_common_len_le p0 ps p0.length
      have hpos : 1 ≤ p0.length := by
        cases p0 with
        | nil => exact absurd rfl hp0
        | cons a as => simp
      have hlen1 : len1 ≤ p0.length := by
        split_ifs at hcut with c1 c2
        · cases hcut
          exact hfold
        · cases hcut
          have := back_to_sep_le p0 (List.foldl (common_len p0) p0.length ps - 1)
          omega
      obtain ⟨hres, _⟩ := find_base_loop_len x _ _ _ _ _ _ _ _ (Or.inl (by
        rw [List.length_take]
        split_ifs <;> omega)) hl
      by_cases hs : status ≠ 0
      · rw [if_pos hs] at h
        cases h
        exact absurd hst hs
      · rw [if_neg hs] at h
        split at h
        · cases h
          exact ⟨base, rfl, hres⟩
        · split_ifs at h <;> (cases h; exact ⟨base, rfl, hres⟩)
    · cases h
    · cases h
  · cases h
  · cases h

theorem find_common_base_wc_path_len_witness :
    ∃ r, waa__find_common_base demo_root_base [[47, 97]] = Run.ret r ∧ r.status = 0 ∧
      r.wc_path = some [47] ∧ r.wc_path_len = 0 ∧
      ∃ b, r.wc_path = some b ∧
        (r.wc_path_len = b.length ∨ (r.wc_path_len = 0 ∧ b.length = 1)) :=
  ⟨⟨0, some [47], 0, some [[97]]⟩, by decide, rfl, rfl, rfl,
    find_common_base_wc_path_len demo_root_base [[47, 97]] _ (by
      intro a ha
      rw [if_neg (by decide)] at ha
      rw [List.mem_singleton.1 ha]
      decide) (by decide) rfl⟩

theorem flatten_seps_append (a b : CStr) :
    flatten_seps (a ++ b) = flatten_seps a ++ flatten_seps b := by
  induction a with
  | nil => rfl
  | cons c cs ih =>
    show flatten_seps (c :: (cs ++ b)) = flatten_seps (c :: cs) ++ flatten_seps b
    simp only [flatten_seps, ih, List.cons_append]

theorem flatten_seps_length (a : CStr) : (flatten_seps a).length = a.length := by
  induction a with
  | nil => rfl
  | cons c cs ih => simp only [flatten_seps, List.length_cons, ih]

theorem flatten_seps_id (a : CStr) (h : PATH_SEPARATOR ∉ a) : flatten_seps a = a := by
  induction a with
  | nil => rfl
  | cons c cs ih =>
    have hc : c ≠ PATH_SEPARATOR := fun e => h (e ▸ List.mem_cons_self _ _)
    simp only [flatten_seps, if_neg hc, ih (fun hh => h (List.mem_cons_of_mem _ hh))]

theorem flatten_seps_inj (a : CStr) :
    ∀ b : CStr, 95 ∉ a → 95 ∉ b → flatten_seps a = flatten_seps b → a = b := by
  induction a with
  | nil =>
    intro b _ _ h
    cases b with
    | nil => rfl
    | cons d ds => simp [flatten_seps] at h
  | cons c cs ih =>
    intro b ha hb h
    cases b with
    | nil => simp [flatten_seps] at h
    | cons d ds =>
      simp only [flatten_seps, List.cons.injEq] at h
      have hc : c ≠ 95 := fun e => ha (e ▸ List.mem_cons_self _ _)
      have hd : d ≠ 95 := fun e => hb (e ▸ List.mem_cons_self _ _)
      have e1 : c = d := by
        have := h.1
        split_ifs at this with h1 h2 h2
        · rw [h1, h2]
        · exact absurd this.symm hd
        · exact absurd this hc
        · exact this
      rw [e1, ih ds (fun hh => ha (List.mem_cons_of_mem _ hh))
        (fun hh => hb (List.mem_cons_of_mem _ hh)) h.2]

theorem flatten_seps_at (a : CStr) (h95 : 95 ∉ a) :
    ∀ i, i < a.length → ((flatten_seps a).at i = 95 ↔ a.at i = PATH_SEPARATOR) := by
  induction a with
  | nil =>
    intro i hi
    simp at hi
  | cons c cs ih =>
    intro i hi
    have hc : c ≠ 95 := fun e => h95 (e ▸ List.mem_cons_self _ _)
    cases i with
    | zero =>
      simp only [flatten_seps, CStr.at, List.getD_cons_zero]
      split_ifs with h1
      · simp [h1]
      · constructor
        · intro e
          exact absurd e hc
        · intro e
          exact absurd e h1
    | succ j =>
      simp only [flatten_seps, CStr.at, List.getD_cons_succ]
      exact ih (fun hh => h95 (List.mem_cons_of_mem _ hh)) j (by
        simp only [List.length_cons] at hi
        omega)

/-- Two strings that end in a separator, each followed by a string without
separator: when the results are equal, the parts are. -/
theorem split_at_last_sep (r1 r2 f1 f2 : CStr)
    (h1 : ∃ pre, r1 = pre ++ [PATH_SEPARATOR]) (h2 : ∃ pre, r2 = pre ++ [PATH_SEPARATOR])
    (n1 : PATH_SEPARATOR ∉ f1) (n2 : PATH_SEPARATOR ∉ f2) (h : r1 ++ f1 = r2 ++ f2) :
    r1 = r2 ∧ f1 = f2 := by
  obtain ⟨p1, rfl⟩ := h1
  obtain ⟨p2, rfl⟩ := h2
  rcases List.append_eq_append_iff.1 h with ⟨a, e1, e2⟩ | ⟨a, e1, e2⟩
  · -- r2 = r1 ++ a, f1 = a ++ f2
    rcases List.eq_nil_or_concat a with ha | ⟨b, c, hb⟩
    · subst ha
      simp at e1 e2
      exact ⟨by rw [e1], e2⟩
    · exfalso
      rw [hb] at e1
      have hc : c = PATH_SEPARATOR := by
        rw [List.concat_eq_append, ← List.append_assoc] at e1
        have := List.append_inj_right' e1 rfl
        exact (List.singleton_inj.1 this).symm
      apply n1
      rw [e2, hb, hc]
      simp
  · rcases List.eq_nil_or_concat a with ha | ⟨b, c, hb⟩
    · subst ha
      simp at e1 e2
      exact ⟨by rw [e1], e2.symm⟩
    · exfalso
      rw [hb] at e1
      have hc : c = PATH_SEPARATOR := by
        rw [List.concat_eq_append, ← List.append_assoc] at e1
        have := List.append_inj_right' e1 rfl
        exact (List.singleton_inj.1 this).symm
      apply n2
      rw [e2, hb, hc]
      simp

theorem hex_digit_plain (n : Nat) (hn : n < 16) :
    hex_digit n ≠ PATH_SEPARATOR ∧ hex_digit n ≠ 95 := by
  unfold hex_digit PATH_SEPARATOR
  split_ifs <;> omega

theorem Mbin2hex_no_underscore (bin : List Nat) : 95 ∉ Mbin2hex bin := by
  induction bin with
  | nil =>
    unfold Mbin2hex
    simp
  | cons b bs ih =>
    unfold Mbin2hex
    intro hm
    rcases List.mem_cons.mp hm with h1 | h1
    · exact (hex_digit_plain _ (Nat.mod_lt _ (by norm_num))).2 h1.symm
    · rcases List.mem_cons.mp h1 with h2 | h2
      · exact (hex_digit_plain _ (Nat.mod_lt _ (by norm_num))).2 h2.symm
      · exact ih h2

theorem get_waa_directory_spec (env : WaaDirEnv) (path : CStr) (flags : GwdFlags)
    (hf : flags.waa = true ∨ flags.conf = true)
    (hmd5 : ∀ data, (env.apr_md5 data).length = APR_MD5_DIGESTSIZE) :
    ∃ d, waa__get_waa_directory env path flags = Run.ret d ∧
      (d.status = 0 → ∃ spec,
        d.erg = (if flags.waa = true then env.waa_tmp_path else env.conf_tmp_path) ++ spec ∧
        d.start_of_spec
          = (if flags.waa = true then env.waa_tmp_path else env.conf_tmp_path).length ∧
        d.eos = d.erg.length ∧ SpecShape spec flags.waa) := by
  have hdig : ∀ data, ∃ d0 d1 rest, env.apr_md5 data = d0 :: d1 :: rest ∧ rest.length = 14 := by
    intro data
    have h := hmd5 data
    unfold APR_MD5_DIGESTSIZE at h
    match hm : env.apr_md5 data, h with
    | d0 :: d1 :: rest, h =>
      refine ⟨d0, d1, rest, rfl, ?_⟩
      simp only [List.length_cons] at h
      omega
  unfold waa__get_waa_directory
  simp only
  generalize (if path.at 0 ≠ PATH_SEPARATOR then
      if env.waa__save_cwd.1 ≠ 0 then (env.waa__save_cwd.1, path)
      else (0, env.hlp__pathcopy env.waa__save_cwd.2 [PATH_SEPARATOR] path)
    else (0, path)) = abs
  by_cases hs : abs.1 ≠ 0
  · rw [if_pos hs]
    exact ⟨_, rfl, fun h => absurd h hs⟩
  · rw [if_neg hs]
    obtain ⟨d0, d1, rest, hd, hrest⟩ := hdig (hashed_bytes env.softroot abs.2)
    rw [hd]
    cases hw : flags.waa
    · have hc : flags.conf = true := by
        rcases hf with h | h
        · rw [hw] at h
          cases h
        · exact h
      simp only [hc, if_true, Bool.false_eq_true, if_false]
      split_ifs with hm
      · refine ⟨_, rfl, fun h0 => ?_⟩
        simp only [Bool.and_eq_true, decide_eq_true_eq] at hm
        exact absurd h0 hm.2
      · refine ⟨_, rfl, fun _ => ⟨Mbin2hex (List.take APR_MD5_DIGESTSIZE (d0 :: d1 :: rest)) ++
          [PATH_SEPARATOR], by simp only [List.append_assoc, List.nil_append], rfl, by
            simp only [List.length_append, List.length_cons, List.length_nil], ?_⟩⟩
        have ht : List.take APR_MD5_DIGESTSIZE (d0 :: d1 :: rest) = d0 :: d1 :: rest := by
          apply List.take_of_length_le
          simp only [List.length_cons, APR_MD5_DIGESTSIZE]
          omega
        rw [ht]
        refine ⟨?_, ?_, ?_⟩
        · intro hm2
          rcases List.mem_append.1 hm2 with h1 | h1
          · exact Mbin2hex_no_underscore _ h1
          · simp [PATH_SEPARATOR] at h1
        · simp only [List.length_append, Mbin2hex_length, List.length_cons, List.length_nil,
            hrest]
          rfl
        · simp only [Mbin2hex, CStr.at, List.cons_append, List.getD_cons_succ,
            List.getD_cons_zero]
          constructor
          · intro e
            exact absurd e (hex_digit_plain _ (Nat.mod_lt _ (by norm_num))).1
          · intro e
            cases e
    · simp only [if_true]
      split_ifs with hm
      · refine ⟨_, rfl, fun h0 => ?_⟩
        simp only [Bool.and_eq_true, decide_eq_true_eq] at hm
        exact absurd h0 hm.2
      · refine ⟨_, rfl, fun _ => ⟨Mbin2hex (List.take 1 (d0 :: d1 :: rest)) ++
            [PATH_SEPARATOR] ++
            Mbin2hex (List.take 1 (List.drop 1 (d0 :: d1 :: rest))) ++ [PATH_SEPARATOR] ++
            Mbin2hex (List.take (APR_MD5_DIGESTSIZE - 2) (List.drop 2 (d0 :: d1 :: rest))) ++
            [PATH_SEPARATOR], by simp only [List.append_assoc], rfl, by
            simp only [List.length_append, List.length_cons, List.length_nil], ?_⟩⟩
        have ht : List.take (APR_MD5_DIGESTSIZE - 2) (List.drop 2 (d0 :: d1 :: rest)) = rest := by
          apply List.take_of_length_le
          simp only [List.drop_succ_cons, List.drop_zero, APR_MD5_DIGESTSIZE]
          omega
        rw [ht]
        refine ⟨?_, ?_, ?_⟩
        · intro hm2
          simp only [List.mem_append, List.mem_singleton] at hm2
          rcases hm2 with ((((h1 | h1) | h1) | h1) | h1) | h1
          · exact Mbin2hex_no_underscore _ h1
          · simp [PATH_SEPARATOR] at h1
          · exact Mbin2hex_no_underscore _ h1
          · simp [PATH_SEPARATOR] at h1
          · exact Mbin2hex_no_underscore _ h1
          · simp [PATH_SEPARATOR] at h1
        · simp only [List.length_append, Mbin2hex_length, List.length_cons, List.length_nil,
            hrest, List.take_succ_cons, List.take_zero, List.drop_succ_cons, List.drop_zero]
          rfl
        · simp [Mbin2hex, CStr.at]

theorem waa__open_names (env : OpenEnv) (path ext : CStr) (flags : Nat)
    (hw : flags &&& O_WRITE_MASK ≠ 0)
    (hf : (env.waa__get_gwd_flag (some ext)).waa = true ∨
      (env.waa__get_gwd_flag (some ext)).conf = true)
    (hmd5 : ∀ data, (env.dir.apr_md5 data).length = APR_MD5_DIGESTSIZE)
    (r : OpenResult) (hrun : waa__open env path (some ext) flags = Run.ret r)
    (h0 : r.status = 0) :
    ∃ spec t, r.target = some t ∧
      t.dest_name = (if (env.waa__get_gwd_flag (some ext)).waa = true then env.dir.waa_tmp_path
        else env.dir.conf_tmp_path) ++ spec ++ ext ∧
      t.temp_name = (if (env.waa__get_gwd_flag (some ext)).waa = true then env.dir.waa_tmp_path
        else env.dir.conf_tmp_path) ++ flatten_seps (spec ++ ext ++ ext_tmp) ∧
      SpecShape spec (env.waa__get_gwd_flag (some ext)).waa := by
  obtain ⟨d, hd, hshape⟩ := get_waa_directory_spec env.dir path _ hf hmd5
  unfold waa__open at hrun
  rw [hd] at hrun
  simp only at hrun
  by_cases hs : d.status ≠ 0
  · rw [if_pos hs] at hrun
    cases hrun
    exact absurd h0 hs
  · rw [if_neg hs] at hrun
    obtain ⟨spec, he, hss, heos, hsp⟩ := hshape (not_not.mp hs)
    rw [if_pos hw, if_pos hw] at hrun
    generalize (if (env.waa__get_gwd_flag (some ext)).waa = true then env.dir.waa_tmp_path
        else env.dir.conf_tmp_path) = root at he hss ⊢
    have hdest : (List.take d.eos d.erg ++ ext ++ ext_tmp).take d.start_of_spec ++
        flatten_seps ((List.take d.eos d.erg ++ ext ++ ext_tmp).drop d.start_of_spec)
        = root ++ flatten_seps (spec ++ ext ++ ext_tmp) := by
      rw [heos, List.take_length, he, hss]
      simp only [List.append_assoc, List.take_left', List.drop_left']
    rw [hdest] at hrun
    cases ho : env.sys_open (root ++ flatten_seps (spec ++ ext ++ ext_tmp)) flags with
    | error e =>
      rw [ho] at hrun
      simp only at hrun
      split_ifs at hrun with h1
      cases hrun
      exact absurd h0 h1
    | ok fh =>
      rw [ho] at hrun
      simp only at hrun
      cases hrun
      refine ⟨spec, _, rfl, ?_, rfl, hsp⟩
      show List.take d.eos d.erg ++ ext = root ++ spec ++ ext
      rw [heos, List.take_length, he]

/-- C32 (counterexample): two write-opens for the same path with the
extensions `a/b` and `a_b` succeed, their destination names differ, and they
get the same temporary name. -/
theorem waa__open_temp_names_collide :
    ∃ r1 r2 t1 t2, waa__open demo_open path_wc (some [97, 47, 98]) 65 = Run.ret r1 ∧
      waa__open demo_open path_wc (some [97, 95, 98]) 65 = Run.ret r2 ∧
      r1.status = 0 ∧ r2.status = 0 ∧ r1.target = some t1 ∧ r2.target = some t2 ∧
      t1.dest_name ≠ t2.dest_name ∧ t1.temp_name = t2.temp_name := by
  exact ⟨_, _, _, _, rfl, rfl, rfl, rfl, rfl, rfl, by decide, by decide⟩

/-- C32 as amended: two write-opens through `waa__open` that succeed, with
extensions that contain no separator, and whose destination names differ
(another hashed path, another area or another extension), get different
temporary names. The digest has 16 bytes and the roots of both areas end in a
separator, as `waa___init_path` leaves them. -/
theorem waa__open_temp_names_differ (env : OpenEnv) (path1 path2 ext1 ext2 : CStr)
    (flags1 flags2 : Nat) (r1 r2 : OpenResult) (t1 t2 : waa___temp_names_t)
    (hw1 : flags1 &&& O_WRITE_MASK ≠ 0) (hw2 : flags2 &&& O_WRITE_MASK ≠ 0)
    (hf1 : (env.waa__get_gwd_flag (some ext1)).waa = true ∨
      (env.waa__get_gwd_flag (some ext1)).conf = true)
    (hf2 : (env.waa__get_gwd_flag (some ext2)).waa = true ∨
      (env.waa__get_gwd_flag (some ext2)).conf = true)
    (hmd5 : ∀ data, (env.dir.apr_md5 data).length = APR_MD5_DIGESTSIZE)
    (hwaa : ∃ pre, env.dir.waa_tmp_path = pre ++ [PATH_SEPARATOR])
    (hconf : ∃ pre, env.dir.conf_tmp_path = pre ++ [PATH_SEPARATOR])
    (hs1 : PATH_SEPARATOR ∉ ext1) (hs2 : PATH_SEPARATOR ∉ ext2)
    (hrun1 : waa__open env path1 (some ext1) flags1 = Run.ret r1)
    (hrun2 : waa__open env path2 (some ext2) flags2 = Run.ret r2)
    (h1 : r1.status = 0) (h2 : r2.status = 0)
    (ht1 : r1.target = some t1) (ht2 : r2.target = some t2)
    (hne : t1.dest_name ≠ t2.dest_name) :
    t1.temp_name ≠ t2.temp_name := by
  obtain ⟨spec1, u1, hu1, hd1, htmp1, sh1⟩ :=
    waa__open_names env path1 ext1 flags1 hw1 hf1 hmd5 r1 hrun1 h1
  obtain ⟨spec2, u2, hu2, hd2, htmp2, sh2⟩ :=
    waa__open_names env path2 ext2 flags2 hw2 hf2 hmd5 r2 hrun2 h2
  rw [ht1] at hu1
  rw [ht2] at hu2
  cases hu1
  cases hu2
  intro heq
  apply hne
  rw [htmp1, htmp2] at heq
  have hr1 : ∃ pre, (if (env.waa__get_gwd_flag (some ext1)).waa = true
      then env.dir.waa_tmp_path else env.dir.conf_tmp_path) = pre ++ [PATH_SEPARATOR] := by
    split_ifs
    · exact hwaa
    · exact hconf
  have hr2 : ∃ pre, (if (env.waa__get_gwd_flag (some ext2)).waa = true
      then env.dir.waa_tmp_path else env.dir.conf_tmp_path) = pre ++ [PATH_SEPARATOR] := by
    split_ifs
    · exact hwaa
    · exact hconf
  obtain ⟨eroot, eflat⟩ := split_at_last_sep _ _ _ _ hr1 hr2 (flatten_seps_no_sep _)
    (flatten_seps_no_sep _) heq
  rw [hd1, hd2, eroot]
  simp only [flatten_seps_append, flatten_seps_id ext1 hs1, flatten_seps_id ext2 hs2] at eflat
  have eX : flatten_seps spec1 ++ ext1 = flatten_seps spec2 ++ ext2 :=
    List.append_cancel_right eflat
  obtain ⟨n1, l1, a1⟩ := sh1
  obtain ⟨n2, l2, a2⟩ := sh2
  have hwe : (env.waa__get_gwd_flag (some ext1)).waa = (env.waa__get_gwd_flag (some ext2)).waa := by
    have hl1 : 2 < spec1.length := by
      rw [l1]
      split_ifs <;> omega
    have hl2 : 2 < spec2.length := by
      rw [l2]
      split_ifs <;> omega
    have g1 : (flatten_seps spec1 ++ ext1).at 2 = (flatten_seps spec1).at 2 := by
      unfold CStr.at
      rw [List.getD_append _ _ _ _ (by rw [flatten_seps_length]; exact hl1)]
    have g2 : (flatten_seps spec2 ++ ext2).at 2 = (flatten_seps spec2).at 2 := by
      unfold CStr.at
      rw [List.getD_append _ _ _ _ (by rw [flatten_seps_length]; exact hl2)]
    have f1 := flatten_seps_at spec1 n1 2 hl1
    have f2 := flatten_seps_at spec2 n2 2 hl2
    rw [← g1, eX, g2] at f1
    have : (env.waa__get_gwd_flag (some ext1)).waa = true ↔
        (env.waa__get_gwd_flag (some ext2)).waa = true := by
      rw [← a1, ← a2, ← f1, ← f2]
    cases hb1 : (env.waa__get_gwd_flag (some ext1)).waa <;>
      cases hb2 : (env.waa__get_gwd_flag (some ext2)).waa <;> simp [hb1, hb2] at this <;> rfl
  have hlen : (flatten_seps spec1).length = (flatten_seps spec2).length := by
    rw [flatten_seps_length, flatten_seps_length, l1, l2, hwe]
  have e1 := List.append_inj_left eX hlen
  have e2 := List.append_inj_right eX hlen
  rw [flatten_seps_inj spec1 spec2 n1 n2 e1, e2]

theorem waa__open_temp_names_differ_witness :
    ∃ r1 r2 t1 t2, waa__open demo_open path_wc (some [100, 105, 114]) 65 = Run.ret r1 ∧
      waa__open demo_open path_wc (some [85, 114, 108, 115]) 65 = Run.ret r2 ∧
      r1.target = some t1 ∧ r2.target = some t2 ∧ t1.dest_name ≠ t2.dest_name ∧
      t1.temp_name ≠ t2.temp_name := by
  refine ⟨_, _, _, _, rfl, rfl, rfl, rfl, by decide, ?_⟩
  exact waa__open_temp_names_differ demo_open path_wc path_wc [100, 105, 114] [85, 114, 108, 115]
    65 65 _ _ _ _ (by decide) (by decide) (Or.inl rfl) (Or.inl rfl)
    (fun data => by simp [demo_open, demo_waa, APR_MD5_DIGESTSIZE])
    ⟨[47, 87], rfl⟩ ⟨[47, 67], rfl⟩ (by decide) (by decide) rfl rfl rfl rfl rfl rfl (by decide)

/-- C40: `waa__input_tree` does not reject a record whose parent has no
array `by_inode`. When the parent index names an entry whose `child_index` is
not inside its array (for an entry that is no directory, or a directory with
`entry_count = 0`, `by_inode` is `NULL`), the store
`sts->parent->by_inode[sts->parent->child_index++] = sts` is done all the same:
no status is returned. For the dir-file with the records `/wc`, `a` (a file
below it) and `c` with the parent index 2, the header is accepted, two
records are loaded, the parent index of the third passes the check, its
parent `a` at `1000` has no array, and the run does not return. -/
theorem input_tree_store_unallocated :
    (∀ (fuel root : Nat) (s : InState) (h1 : Heap) (cur sts parent par : Nat),
      resolve_parent root s.stat_mem parent cur = Run.ret par → par ≠ sts →
      (h1 par).by_inode.length ≤ (h1 par).child_index →
      input_attach fuel root s h1 cur sts parent = Run.bug) ∧
    (input_header demo_consts demo_dir_file_parent 0 0).status ≠ EINVAL ∧
    loaded_summary 1000 (input_iter demo_in demo_in_env 4 500 11 2 3
      (input_init demo_consts 6 demo_dir_file_parent (fun _ => default) 500))
      = some (1, 33188, 0, 0, []) ∧
    parent_invalid 2 false 1 = false ∧
    resolve_parent 500 1000 2 2 = Run.ret 1000 ∧
    (waa__input_tree demo_consts demo_in demo_in_env 4 demo_dir_file_parent
      (fun _ => default) 0 0 500).isBug = true := by
  refine ⟨?_, by decide!, by decide!, by decide, by decide, by decide!⟩
  intro fuel root s h1 cur sts parent par hres hne hlen
  unfold input_attach
  rw [hres]
  simp only
  have e : ∀ (e1 e2 : estat), ((h1.set sts e1).set sts e2) par = h1 par := by
    intro e1 e2
    rw [Heap.set_other _ _ _ _ hne, Heap.set_other _ _ _ _ hne]
  rw [e]
  rw [if_pos hlen]

theorem cmp_self_le (cmp : estat → estat → Int) (hcmp : TotalPreorderCmp cmp) (a : estat) :
    cmp a a ≤ 0 := by
  by_contra hc
  have := (hcmp.swap a a).2 (by omega)
  omega

theorem sorted_head_le (cmp : estat → estat → Int) (hcmp : TotalPreorderCmp cmp) (h : Heap)
    (c : Cursor) (rest : List Cursor) (hs : SortedCursors cmp h (c :: rest)) :
    ∀ c1 ∈ c :: rest, cmp (c.head h) (c1.head h) ≤ 0 := by
  intro c1 hc1
  rcases List.mem_cons.1 hc1 with e | hm
  · rw [e]
    exact cmp_self_le cmp hcmp _
  · exact (List.pairwise_cons.1 hs).1 c1 hm

theorem sorted_bug_on (cmp : estat → estat → Int) (h : Heap) (dir : List Cursor)
    (hs : SortedCursors cmp h dir) : output_bug_on cmp h dir = false := by
  unfold output_bug_on
  rw [List.any_eq_false]
  intro i hi
  rw [List.mem_range] at hi
  have h1 : i < dir.length := by omega
  have h2 : i + 1 < dir.length := by omega
  have := List.pairwise_iff_getElem.1 hs i (i + 1) h1 h2 (by omega)
  rw [List.getD_eq_getElem _ _ h1, List.getD_eq_getElem _ _ h2]
  simp only [gt_iff_lt, decide_eq_true_eq]
  omega

theorem find_position_insert_sorted (cmp : estat → estat → Int) (h : Heap) (new : Cursor)
    (array : List Cursor) (i : Nat) (hcmp : TotalPreorderCmp cmp)
    (hs : SortedCursors cmp h array)
    (hf : find_position_cursors cmp h new array = Run.ret i) :
    SortedCursors cmp h (insert_cursor array i new) := by
  have hss := sign_sorted_of_sorted cmp h new array hcmp hs
  obtain ⟨r, hr, hle, hge, hlt, _⟩ := find_position_sign_sorted _ _ hss
  unfold find_position_cursors at hf
  rw [hr] at hf
  rw [← Run.ret.inj hf]
  exact insert_cursor_sorted cmp h new array r hcmp hs hle hge hlt

theorem insert_cursor_zero (dir : List Cursor) (c : Cursor) :
    insert_cursor dir 0 c = c :: dir := rfl

theorem output_advance_sorted (x : OutputExt) (h : Heap) (c : Cursor) (rest : List Cursor)
    (sts : Nat) (dir1 : List Cursor) (hcmp : TotalPreorderCmp x.dir___f_sort_by_inode)
    (hs : SortedCursors x.dir___f_sort_by_inode h rest)
    (ha : output_advance x h c rest = Run.ret (sts, dir1)) :
    SortedCursors x.dir___f_sort_by_inode h dir1 := by
  unfold output_advance at ha
  split at ha
  · simp only at ha
    split at ha
    · cases ha
    · cases ha
      exact hs
    · split_ifs at ha with hl
      · split at ha
        · rename_i i hi
          split_ifs at ha with h0
          · cases ha
            exact find_position_insert_sorted _ h _ rest i hcmp hs hi
          · cases ha
            have h00 : i = 0 := by omega
            rw [h00] at hi
            exact find_position_insert_sorted _ h _ rest 0 hcmp hs hi
        · cases ha
        · cases ha
      · cases ha
        have : rest = [] := by
          cases rest with
          | nil => rfl
          | cons a l => simp at hl
        rw [this]
        exact List.pairwise_singleton _ _
  · cases ha

theorem head_st_congr (h1 h2 : Heap) (sts : Nat) (c : Cursor) (hc : c.dir ≠ sts)
    (ho : ∀ q, q ≠ sts → h2 q = h1 q) (hst : (h2 sts).st = (h1 sts).st) :
    (c.head h2).st = (c.head h1).st := by
  unfold Cursor.head Cursor.deref
  rw [ho c.dir hc]
  cases (h1 c.dir).by_inode.get? c.pos with
  | none => rfl
  | some o =>
    cases o with
    | none => rfl
    | some p =>
      simp only
      by_cases hp : p = sts
      · rw [hp, hst]
      · rw [ho p hp]

theorem sorted_heap_congr (cmp : estat → estat → Int) (h1 h2 : Heap) (dir : List Cursor)
    (hst : CmpOfStat cmp) (hh : ∀ c ∈ dir, (c.head h2).st = (c.head h1).st)
    (hs : SortedCursors cmp h1 dir) : SortedCursors cmp h2 dir := by
  unfold SortedCursors at hs ⊢
  refine List.Pairwise.imp_of_mem ?_ hs
  intro a b ha hb hab
  rw [hst _ _ _ _ (hh a ha) (hh b hb)]
  exact hab

theorem output_count_dir (x : OutputExt) (s s2 : OutState) (sts : Nat) (dir1 : List Cursor)
    (pidx : Nat) (hc : output_count x s sts dir1 pidx = Run.ret s2) :
    s2.directory = dir1 ∨
      ∃ i, find_position_cursors x.dir___f_sort_by_inode s2.heap ⟨sts, 0⟩ dir1 = Run.ret i ∧
        s2.directory = insert_cursor dir1 i ⟨sts, 0⟩ := by
  unfold output_count at hc
  simp only at hc
  split_ifs at hc
  all_goals first
    | (cases hc; exact Or.inl rfl)
    | (split at hc
       · rename_i i hi
         cases hc
         exact Or.inr ⟨i, hi, rfl⟩
       · cases hc
       · cases hc)

theorem output_step_sorted (x : OutputExt) (env : OutputEnv) (h0 : Heap) (root : Nat)
    (nodes done : List Nat) (s : OutState) (c : Cursor) (rest : List Cursor)
    (inv : OutInv h0 root nodes done s) (hdirs : s.directory = c :: rest)
    (hsort : SortSpec x.dir__sortbyinode) (hcmp : TotalPreorderCmp x.dir___f_sort_by_inode)
    (hst : CmpOfStat x.dir___f_sort_by_inode)
    (hs : SortedCursors x.dir___f_sort_by_inode s.heap s.directory) (s2 : OutState)
    (he : output_step x env s c rest = Run.ret (0, s2)) :
    SortedCursors x.dir___f_sort_by_inode s2.heap s2.directory := by
  obtain ⟨p1, p2, p3, p4, p5, p6, p7, p8, p9, p10, p11, p12, p13, p14⟩ :=
    pop_facts h0 root nodes done s c rest inv hdirs
  obtain ⟨dir1, ha, hperm⟩ := output_advance_spec x s.heap c.dir c.pos rest p4 p5
  have hrest : SortedCursors x.dir___f_sort_by_inode s.heap rest := by
    rw [hdirs] at hs
    exact (List.pairwise_cons.1 hs).2
  have hs1 := output_advance_sorted x s.heap ⟨c.dir, c.pos⟩ rest _ dir1 hcmp hrest ha
  obtain ⟨_, k2, _⟩ := cursor_step h0 root nodes done s c rest dir1 inv hdirs hperm
  unfold output_step at he
  have hc : c = ⟨c.dir, c.pos⟩ := rfl
  rw [hc, ha] at he
  simp only [] at he
  by_cases hign : (s.heap ((kids s.heap c.dir).getD c.pos 0)).entry_type
      = entry_type_t.FT_IGNORE
  · rw [if_pos hign] at he
    cases he
    exact hs1
  · rw [if_neg hign, p9] at he
    simp only [] at he
    by_cases hsv : env.save_status s.saved.length ≠ 0
    · rw [if_pos hsv] at he
      have := (Prod.mk.inj (Run.ret.inj he)).1
      exact absurd this hsv
    · rw [if_neg hsv] at he
      obtain ⟨s3, e0, f1, f2, f3, f4, f5, f6, _⟩ :=
        output_count_spec x s ((kids s.heap c.dir).getD c.pos 0) dir1 (s.heap c.dir).file_index
          hsort (fun hd => (inv.wf.arr _ p8 hd).1)
      rw [e0] at he
      simp only [] at he
      have e32 : s3 = s2 := (Prod.mk.inj (Run.ret.inj he)).2
      rw [e32] at e0 f5 f6
      have hs2 : SortedCursors x.dir___f_sort_by_inode s2.heap dir1 := by
        refine sorted_heap_congr _ s.heap s2.heap dir1 hst ?_ hs1
        intro c1 hc1
        refine head_st_congr s.heap s2.heap ((kids s.heap c.dir).getD c.pos 0) c1 ?_ f5 f6.1
        intro e
        rw [← e] at p12
        exact p12 (k2 c1 hc1).1
      rcases output_count_dir x s s2 _ dir1 _ e0 with hd | ⟨i, hi, hd⟩
      · rw [hd]
        exact hs2
      · rw [hd]
        exact find_position_insert_sorted _ s2.heap _ dir1 i hcmp hs2 hi

theorem output_step_env (x : OutputExt) (env : OutputEnv) (s s2 : OutState) (c : Cursor)
    (rest : List Cursor) (he : output_step x env s c rest = Run.ret (0, s2)) :
    output_step x { env with save_status := fun _ => 0 } s c rest = Run.ret (0, s2) := by
  unfold output_step at he ⊢
  cases ha : output_advance x s.heap c rest with
  | bug =>
    rw [ha] at he
    cases he
  | fuel =>
    rw [ha] at he
    cases he
  | ret p =>
    obtain ⟨sts, dir1⟩ := p
    rw [ha] at he
    simp only [] at he ⊢
    by_cases hign : (s.heap sts).entry_type = entry_type_t.FT_IGNORE
    · rw [if_pos hign] at he ⊢
      exact he
    · rw [if_neg hign] at he ⊢
      cases hp : (s.heap sts).parent with
      | none =>
        rw [hp] at he
        cases he
      | some par =>
        rw [hp] at he
        simp only [] at he ⊢
        by_cases hsv : env.save_status s.saved.length ≠ 0
        · rw [if_pos hsv] at he
          have := (Prod.mk.inj (Run.ret.inj he)).1
          exact absurd this hsv
        · rw [if_neg hsv] at he
          simp only [ne_eq, not_true_eq_false, if_false]
          exact he

theorem output_step_debug_eq (x : OutputExt) (env : OutputEnv) (s : OutState) (c : Cursor)
    (rest : List Cursor)
    (hb : ∀ s2, output_step x env s c rest = Run.ret (0, s2) →
      output_bug_on x.dir___f_sort_by_inode s2.heap s2.directory = false) :
    output_step_debug x env s c rest = output_step x env s c rest := by
  unfold output_step at hb ⊢
  unfold output_step_debug
  cases ha : output_advance x s.heap c rest with
  | bug => rfl
  | fuel => rfl
  | ret p =>
    obtain ⟨sts, dir1⟩ := p
    rw [ha] at hb
    simp only [] at hb ⊢
    by_cases hign : (s.heap sts).entry_type = entry_type_t.FT_IGNORE
    · rw [if_pos hign, if_pos hign]
    · rw [if_neg hign, if_neg hign]
      rw [if_neg hign] at hb
      cases hp : (s.heap sts).parent with
      | none => rfl
      | some par =>
        rw [hp] at hb
        simp only [] at hb ⊢
        by_cases hsv : env.save_status s.saved.length ≠ 0
        · rw [if_pos hsv, if_pos hsv]
        · rw [if_neg hsv, if_neg hsv]
          rw [if_neg hsv] at hb
          cases hc : output_count x s sts dir1 (s.heap par).file_index with
          | bug => rfl
          | fuel => rfl
          | ret s2 =>
            rw [hc] at hb
            simp only [] at hb ⊢
            rw [hb s2 rfl]
            rfl

theorem output_loop_sorted (x : OutputExt) (env : OutputEnv) (h0 : Heap) (root : Nat)
    (nodes : List Nat) (hsort : SortSpec x.dir__sortbyinode) (hbound : nodes.length < 2 ^ 32)
    (hcmp : TotalPreorderCmp x.dir___f_sort_by_inode)
    (hst : CmpOfStat x.dir___f_sort_by_inode) :
    ∀ (fuel : Nat) (done : List Nat) (s : OutState), OutInv h0 root nodes done s →
      SortedCursors x.dir___f_sort_by_inode s.heap s.directory →
      output_loop_debug x env fuel s = output_loop x env fuel s ∧
      ∀ s1 ∈ output_states x env fuel s,
        SortedCursors x.dir___f_sort_by_inode s1.heap s1.directory := by
  intro fuel
  induction fuel with
  | zero =>
    intro done s inv hs
    cases hd : s.directory with
    | nil =>
      unfold output_loop_debug output_loop output_states
      rw [hd]
      refine ⟨rfl, ?_⟩
      intro s1 h1
      rw [List.mem_singleton] at h1
      rw [h1]
      exact hs
    | cons c rest =>
      unfold output_loop_debug output_loop output_states
      rw [hd]
      refine ⟨rfl, ?_⟩
      intro s1 h1
      rw [List.mem_singleton] at h1
      rw [h1]
      exact hs
  | succ fuel ih =>
    intro done s inv hs
    cases hd : s.directory with
    | nil =>
      unfold output_loop_debug output_loop output_states
      rw [hd]
      refine ⟨rfl, ?_⟩
      intro s1 h1
      rw [List.mem_singleton] at h1
      rw [h1]
      exact hs
    | cons c rest =>
      have hdbg : output_step_debug x env s c rest = output_step x env s c rest :=
        output_step_debug_eq x env s c rest (fun s2 he => sorted_bug_on _ _ _
          (output_step_sorted x env h0 root nodes done s c rest inv hd hsort hcmp hst hs s2 he))
      rw [output_loop_debug, output_loop, output_states, hd]
      simp only []
      rw [hdbg]
      cases hstep : output_step x env s c rest with
      | bug =>
        refine ⟨rfl, ?_⟩
        intro s1 h1
        rw [List.mem_singleton] at h1
        rw [h1]
        exact hs
      | fuel =>
        refine ⟨rfl, ?_⟩
        intro s1 h1
        rw [List.mem_singleton] at h1
        rw [h1]
        exact hs
      | ret p =>
        obtain ⟨st, s2⟩ := p
        simp only []
        by_cases h0s : st = 0
        · rw [if_pos h0s, if_pos h0s, if_pos h0s]
          rw [h0s] at hstep
          have hs2 := output_step_sorted x env h0 root nodes done s c rest inv hd hsort hcmp
            hst hs s2 hstep
          obtain ⟨sts, s3, e3, inv3, _⟩ := output_step_inv x
            { env with save_status := fun _ => 0 } h0 root nodes done s c rest inv hd hsort
            hbound (fun _ => rfl)
          rw [output_step_env x env s s2 c rest hstep] at e3
          have e23 : s2 = s3 := (Prod.mk.inj (Run.ret.inj e3)).2
          rw [← e23] at inv3
          obtain ⟨i1, i2⟩ := ih (done ++ [sts]) s2 inv3 hs2
          refine ⟨i1, ?_⟩
          intro s1 h1
          rcases List.mem_cons.1 h1 with e | hm
          · rw [e]
            exact hs
          · exact i2 s1 hm
        · rw [if_neg h0s, if_neg h0s, if_neg h0s]
          refine ⟨rfl, ?_⟩
          intro s1 h1
          rw [List.mem_singleton] at h1
          rw [h1]
          exact hs

theorem output_loop_start_inv (x : OutputExt) (h : Heap) (root : Nat) (nodes : List Nat)
    (wf : WellFormed h root nodes) (hsort : SortSpec x.dir__sortbyinode)
    (hec : (h root).entry_count ≠ 0) :
    OutInv h root nodes [] (output_loop_start x h root) := by
  obtain ⟨h3, hh3, e3, o3⟩ : ∃ h3 : Heap,
      h3 = (((h.set root { h root with url := none }).set root
          { (h.set root { h root with url := none }) root with file_index := 1 }).set root
          { ((h.set root { h root with url := none }).set root
              { (h.set root { h root with url := none }) root with file_index := 1 }) root with
            path_len := u32 (((h.set root { h root with url := none }).set root
              { (h.set root { h root with url := none }) root with
                file_index := 1 }) root).name.length }) ∧
      h3 root = { h root with url := none, file_index := 1, path_len := (h3 root).path_len } ∧
      ∀ q, q ≠ root → h3 q = h q := by
    refine ⟨_, rfl, ?_, ?_⟩
    · rw [Heap.set_same, Heap.set_same, Heap.set_same]
    · intro q hq
      rw [Heap.set_other _ _ _ _ hq, Heap.set_other _ _ _ _ hq, Heap.set_other _ _ _ _ hq]
  have hst3 : StaticEq (h root) (h3 root) := by
    rw [e3]
    exact ⟨rfl, rfl, rfl, rfl, rfl⟩
  have hk3 : kids h3 root = kids h root := by
    unfold kids
    rw [e3]
  have hfi3 : (h3 root).file_index = 1 := by
    rw [e3]
  have hby3 : (h3 root).by_inode = (h root).by_inode := by
    rw [e3]
  have hdr : is_dir h root = true := by
    unfold is_dir
    rw [wf.root_dir]
    simp
    omega
  have harr := (wf.arr root wf.root_mem hdr).1
  obtain ⟨h4, hh4, e4, o4, k4, a4, f4⟩ : ∃ h4 : Heap,
      h4 = (if (h3 root).to_be_sorted = true then x.dir__sortbyinode h3 root else h3) ∧
      StaticEq (h3 root) (h4 root) ∧ (∀ q, q ≠ root → h4 q = h3 q) ∧
      (kids h4 root).Perm (kids h3 root) ∧
      (h4 root).by_inode = (kids h4 root).map some ++ [none] ∧
      (h4 root).file_index = (h3 root).file_index ∧
      (h4 root).path_len = (h3 root).path_len := by
    have harr3 : (h3 root).by_inode = (kids h3 root).map some ++ [none] := by
      rw [hby3, hk3]
      exact harr
    by_cases hts : (h3 root).to_be_sorted = true
    · rw [if_pos hts]
      obtain ⟨g1, g2⟩ := hsort h3 root
      obtain ⟨ks, hp, hs⟩ := g2 harr3
      have hks : kids (x.dir__sortbyinode h3 root) root = ks :=
        kids_of_array _ _ _ (by rw [hs])
      refine ⟨_, rfl, ?_, g1, ?_, ?_, ?_, ?_⟩
      · rw [hs]
        exact ⟨rfl, rfl, rfl, rfl, rfl⟩
      · rw [hks]
        exact hp
      · rw [hks, hs]
      · rw [hs]
      · rw [hs]
    · rw [if_neg hts]
      exact ⟨_, rfl, ⟨rfl, rfl, rfl, rfl, rfl⟩, fun _ _ => rfl, List.Perm.refl _, harr3, rfl,
        rfl⟩
  have inv := inv_init h h4 root nodes
    ⟨h4, [⟨root, 0⟩], 1024, 1, u32 (((h.set root { h root with url := none }).set root
        { (h.set root { h root with url := none }) root with
          file_index := 1 }) root).name.length, (h3 root).path_len,
      x.ops__save_1entry ((h.set root { h root with url := none }) root) 0, [(root, 0)]⟩
    wf (fun q hq => (o4 q hq).trans (o3 q hq)) (static_trans _ _ _ hst3 e4)
    (by rw [← hk3]; exact k4) (fun _ => a4) (by rw [f4.1, hfi3])
    (by
      intro hts
      have hts3 : ¬ ((h3 root).to_be_sorted = true) := by
        rw [e3]
        simp [hts]
      rw [hh4, if_neg hts3]
      exact hby3) rfl rfl rfl
    (by rw [if_pos hdr])
  unfold output_loop_start
  simp only []
  rw [← hh3, ← hh4]
  exact inv

theorem output_tree_debug_loop_start (k : Consts) (x : OutputExt) (env : OutputEnv)
    (fuel : Nat) (files : Files) (h : Heap) (mpl root : Nat) (hopen : env.open_status = 0)
    (hwp : env.write_placeholder = none) (hsave : env.save_status 0 = 0)
    (hec : (h root).entry_count ≠ 0) :
    waa__output_tree_debug k x env fuel files h mpl root =
      match output_loop_debug x env fuel (output_loop_start x h root) with
      | Run.ret (status, s2) =>
        if status = 0 then output_save_header k env files s2
        else output_ex env files status (header_placeholder k ++ s2.body) s2 []
      | Run.bug => Run.bug
      | Run.fuel => Run.fuel := by
  unfold waa__output_tree_debug output_loop_start
  simp only [hopen, hwp, hsave, ne_eq, not_true_eq_false, if_false]
  rw [if_neg (by simpa [Heap.set_same] using hec)]

theorem output_tree_debug_eq (k : Consts) (x : OutputExt) (env : OutputEnv) (fuel : Nat)
    (files : Files) (h : Heap) (mpl root : Nat)
    (hl : (h root).entry_count ≠ 0 →
      output_loop_debug x env fuel (output_loop_start x h root)
        = output_loop x env fuel (output_loop_start x h root)) :
    waa__output_tree_debug k x env fuel files h mpl root
      = waa__output_tree k x env fuel files h mpl root := by
  by_cases hopen : env.open_status = 0
  · cases hwp : env.write_placeholder with
    | some e =>
      unfold waa__output_tree_debug waa__output_tree
      simp only [hopen, hwp, ne_eq, not_true_eq_false, if_false]
    | none =>
      by_cases hsv : env.save_status 0 = 0
      · by_cases hec : (h root).entry_count = 0
        · unfold waa__output_tree_debug waa__output_tree
          simp only [hopen, hwp, hsv, ne_eq, not_true_eq_false, if_false]
          rw [if_pos (by simpa [Heap.set_same] using hec),
            if_pos (by simpa [Heap.set_same] using hec)]
        · rw [output_tree_debug_loop_start k x env fuel files h mpl root hopen hwp hsv hec,
            output_tree_loop_start k x env fuel files h mpl root hopen hwp hsv hec, hl hec]
      · unfold waa__output_tree_debug waa__output_tree
        simp only [hopen, hwp, ne_eq, not_true_eq_false, if_false]
        rw [if_pos hsv, if_pos hsv]
  · unfold waa__output_tree_debug waa__output_tree
    simp only []
    rw [if_pos hopen, if_pos hopen]

theorem sort_by_inode_of_stat : CmpOfStat dir___f_sort_by_inode := by
  intro a b a1 b1 ha hb
  unfold dir___f_sort_by_inode
  rw [ha, hb]

theorem demo_two_dirs_wf : WellFormed demo_two_dirs 0 [0, 1, 2, 3] := by
  refine ⟨by decide, by decide, rfl, by decide, ?_⟩
  intro d hd hdir
  have hd4 : d = 0 ∨ d = 1 ∨ d = 2 ∨ d = 3 := by simpa using hd
  rcases hd4 with h | h | h | h
  · subst h
    exact ⟨by decide, by decide, by decide, by decide⟩
  · subst h
    exact ⟨by decide, by decide, by decide, by decide⟩
  · subst h
    exact absurd hdir (by decide)
  · subst h
    exact absurd hdir (by decide)

/-- C35: for every well-formed tree of fewer than `2^32` entries, with
`dir___f_sort_by_inode` a total preorder that reads only the `struct stat` of
the entries and `dir__sortbyinode` only reordering the array of the directory
it is given: `waa__output_tree` compiled with `DEBUG` does what
`waa__output_tree` does, that is, the `BUG_ON` at the end of the loop body
never fires (whatever the writes return); and when the loop is entered, at
its start and at the end of every iteration the cursor array `directory` is
sorted non-decreasingly by the entries at the cursors, so that the entry at
`directory[0]`, which the next iteration takes, is not bigger than the entry
at any other open cursor. -/
theorem output_tree_cursors_sorted (k : Consts) (x : OutputExt) (env : OutputEnv)
    (fuel : Nat) (files : Files) (h : Heap) (mpl root : Nat) (nodes : List Nat)
    (wf : WellFormed h root nodes) (hsort : SortSpec x.dir__sortbyinode)
    (hbound : nodes.length < 2 ^ 32) (hcmp : TotalPreorderCmp x.dir___f_sort_by_inode)
    (hst : CmpOfStat x.dir___f_sort_by_inode) :
    waa__output_tree_debug k x env fuel files h mpl root
      = waa__output_tree k x env fuel files h mpl root ∧
    ((h root).entry_count ≠ 0 →
      ∀ s ∈ output_states x env fuel (output_loop_start x h root),
        SortedCursors x.dir___f_sort_by_inode s.heap s.directory ∧
        ∀ c rest, s.directory = c :: rest → ∀ c1 ∈ s.directory,
          x.dir___f_sort_by_inode (c.head s.heap) (c1.head s.heap) ≤ 0) := by
  have hstart : (h root).entry_count ≠ 0 →
      SortedCursors x.dir___f_sort_by_inode (output_loop_start x h root).heap
        (output_loop_start x h root).directory := by
    intro _
    exact List.pairwise_singleton _ _
  constructor
  · apply output_tree_debug_eq
    intro hec
    exact (output_loop_sorted x env h root nodes hsort hbound hcmp hst fuel [] _
      (output_loop_start_inv x h root nodes wf hsort hec) (hstart hec)).1
  · intro hec s hs
    have hsorted := (output_loop_sorted x env h root nodes hsort hbound hcmp hst fuel [] _
      (output_loop_start_inv x h root nodes wf hsort hec) (hstart hec)).2 s hs
    refine ⟨hsorted, ?_⟩
    intro c rest hd c1 hc1
    rw [hd] at hsorted hc1
    exact sorted_head_le _ hcmp s.heap c rest hsorted c1 hc1

theorem output_tree_cursors_sorted_witness :
    waa__output_tree_debug demo_consts demo_out demo_out_env 4 demo_files demo_two_dirs 0 0
      = waa__output_tree demo_consts demo_out demo_out_env 4 demo_files demo_two_dirs 0 0 ∧
    ((demo_two_dirs 0).entry_count ≠ 0 →
      ∀ s ∈ output_states demo_out demo_out_env 4 (output_loop_start demo_out demo_two_dirs 0),
        SortedCursors demo_out.dir___f_sort_by_inode s.heap s.directory ∧
        ∀ c rest, s.directory = c :: rest → ∀ c1 ∈ s.directory,
          demo_out.dir___f_sort_by_inode (c.head s.heap) (c1.head s.heap) ≤ 0) ∧
    (output_states demo_out demo_out_env 4 (output_loop_start demo_out demo_two_dirs 0)).map
        (fun s => s.directory)
      = [[⟨0, 0⟩], [⟨1, 0⟩, ⟨0, 1⟩], [⟨0, 1⟩], []] :=
  ⟨(output_tree_cursors_sorted demo_consts demo_out demo_out_env 4 demo_files demo_two_dirs 0 0
      [0, 1, 2, 3] demo_two_dirs_wf sort_id_spec (by decide) sort_by_inode_preorder
      sort_by_inode_of_stat).1,
   (output_tree_cursors_sorted demo_consts demo_out demo_out_env 4 demo_files demo_two_dirs 0 0
      [0, 1, 2, 3] demo_two_dirs_wf sort_id_spec (by decide) sort_by_inode_preorder
      sort_by_inode_of_stat).2, by decide!⟩

theorem find_base_loop_probe (x x2 : BaseExt) (hprobe : x2.probe = x.probe) :
    ∀ (fuel : Nat) (base : CStr) (len : Nat) (log : List CStr),
      find_base_loop x2 fuel base len log = find_base_loop x fuel base len log := by
  intro fuel
  induction fuel with
  | zero =>
    intro base len log
    rfl
  | succ f ih =>
    intro base len log
    rw [find_base_loop, find_base_loop, hprobe]
    split_ifs
    · rfl
    · rfl
    · cases strrchr (List.take len base) PATH_SEPARATOR with
      | none => rfl
      | some cp =>
        simp only []
        rw [ih, ih]

theorem find_common_base_rerun_same (x x2 : BaseExt) (args N : List CStr) (r : BaseResult)
    (h : waa__find_common_base x args = Run.ret r)
    (hprobe : x2.probe = x.probe) (hchdir : x2.chdir = x.chdir)
    (hconf : x2.load_conf = x.load_conf)
    (hpaths : N.map (full_path x2)
      = (if args = [] then [x.start_path] else args).map (full_path x)) :
    waa__find_common_base x2 N = Run.ret r := by
  have hne : N ≠ [] := by
    intro e
    rw [e] at hpaths
    split_ifs at hpaths with ha
    · cases hpaths
    · cases args with
      | nil => exact ha rfl
      | cons a l => cases hpaths
  unfold waa__find_common_base at h ⊢
  simp only [] at h ⊢
  rw [if_neg hne, hpaths]
  simp only [find_base_loop_probe x x2 hprobe, hchdir, hconf]
  exact h

/-- C31: where the idempotence fails. With `/wc/a` the only registered working
copy and the current directory `/`, `waa__find_common_base` succeeds on the
arguments `/wc/a` and `/wc/ab` with the base `/wc/a` and the normalized paths
`.` and the empty string; run again on these two paths with the current
directory `/wc/a`, it succeeds with the same base, but the normalized paths
are `.` and `.`. -/
theorem find_common_base_not_idempotent :
    waa__find_common_base (demo_base_cwd [47]) [path_wc_a, path_wc_ab]
      = Run.ret ⟨0, some path_wc_a, 5, some [[46], []]⟩ ∧
    waa__find_common_base (demo_base_cwd path_wc_a) [[46], []]
      = Run.ret ⟨0, some path_wc_a, 5, some [[46], [46]]⟩ := by
  constructor
  · decide
  · decide

theorem find_common_base_rerun_demo :
    waa__find_common_base (demo_wc_cwd [47])
        [[47, 119, 99, 47, 98, 47, 99], [47, 119, 99, 47, 97]]
      = Run.ret ⟨0, some [47, 119, 99], 3, some [[98, 47, 99], [97]]⟩ ∧
    waa__find_common_base (demo_wc_cwd [47, 119, 99]) [[98, 47, 99], [97]]
      = Run.ret ⟨0, some [47, 119, 99], 3, some [[98, 47, 99], [97]]⟩ := by
  have h1 : waa__find_common_base (demo_wc_cwd [47])
        [[47, 119, 99, 47, 98, 47, 99], [47, 119, 99, 47, 97]]
      = Run.ret ⟨0, some [47, 119, 99], 3, some [[98, 47, 99], [97]]⟩ := by decide
  exact ⟨h1, find_common_base_rerun_same (demo_wc_cwd [47]) (demo_wc_cwd [47, 119, 99]) _ _ _ h1
    rfl rfl rfl (by decide)⟩

/-- Example for C9: an empty dir-file is reported as damaged, and so is the
dir-file of the examples with the version `2^64+1` in its header, which
`sscanf` converts to `ULONG_MAX`; with the version `2^32+1`, which is stored
in the `int` as `1`, the header is taken. -/
theorem input_tree_header_damaged_witness :
    (∃ r, waa__input_tree demo_consts demo_in demo_in_env 4 [] demo_heap 0 0 0 = Run.ret r ∧
      r.status = EINVAL ∧ r.nloaded = 0) ∧
    (∃ r, waa__input_tree demo_consts demo_in demo_in_env 4
        (demo_dir_file_version 18446744073709551617) (fun _ => default) 0 0 500 = Run.ret r ∧
      r.status = EINVAL ∧ r.nloaded = 0) ∧
    ¬ (∃ r, waa__input_tree demo_consts demo_in demo_in_env 4
        (demo_dir_file_version 4294967297) (fun _ => default) 0 0 500 = Run.ret r ∧
      r.status = EINVAL ∧ r.nloaded = 0) :=
  ⟨(input_tree_header_damaged demo_consts demo_in demo_in_env 4 [] demo_heap 0 0 0
      rfl rfl rfl rfl).mpr (Or.inl (by decide)),
   (input_tree_header_damaged demo_consts demo_in demo_in_env 4
      (demo_dir_file_version 18446744073709551617) (fun _ => default) 0 0 500
      rfl rfl rfl rfl).mpr (by decide!),
   fun h => absurd ((input_tree_header_damaged demo_consts demo_in demo_in_env 4
      (demo_dir_file_version 4294967297) (fun _ => default) 0 0 500
      rfl rfl rfl rfl).mp h) (by decide!)⟩

theorem input_step_counters (x : InputExt) (env : InputEnv) (fuel root ss count : Nat)
    (s s1 : InState) (hinv : CounterInv s)
    (h : input_step x env fuel root ss count s = Run.ret (true, s1)) :
    CounterInv s1 ∧ s1.nloaded = s.nloaded + 1 := by
  obtain ⟨ha1, ha2, ha3, _⟩ := input_alloc_counters env count s
  unfold input_step at h
  split at h
  · cases h
  · simp only at h
    split at h
    · cases h
    · split at h
      · cases h
      · split at h
        · rename_i s4 hl
          obtain ⟨hf, hc, hn⟩ := input_link_counters _ _ _ _ _ _ _ _ _ _ hl
          simp only [ha1, ha2, ha3] at hc hn
          have e4 : s4 = s1 := (Prod.mk.inj (Run.ret.inj h)).2
          rw [e4] at hf hc hn
          refine ⟨Or.inr ⟨hf, ?_⟩, hn⟩
          rw [hn, hc]
          rcases hinv with ⟨hf0, hc0, hn0⟩ | ⟨hf0, hn0⟩
          · simp [hf0, hc0, hn0]
          · simp [hf0, hn0]
        · cases h
        · cases h

theorem input_iter_counters (x : InputExt) (env : InputEnv) (fuel root ss : Nat) :
    ∀ (n count : Nat) (s s1 : InState), CounterInv s →
      input_iter x env fuel root ss n count s = some s1 →
      CounterInv s1 ∧ s1.nloaded = s.nloaded + n := by
  intro n
  induction n with
  | zero =>
    intro count s s1 hinv hit
    unfold input_iter at hit
    cases hit
    exact ⟨hinv, rfl⟩
  | succ n ih =>
    intro count s s1 hinv hit
    unfold input_iter at hit
    split at hit
    · rename_i s2 hs
      obtain ⟨h1, h2⟩ := input_step_counters x env fuel root ss count s s2 hinv hs
      obtain ⟨h3, h4⟩ := ih (count - 1) s2 s1 h1 hit
      exact ⟨h3, by omega⟩
    · cases hit

theorem input_loop_exit (x : InputExt) (env : InputEnv) (fuel root ss : Nat) :
    ∀ (n count : Nat) (s s1 s2 : InState),
      input_iter x env fuel root ss n count s = some s1 → n < count →
      input_step x env fuel root ss (count - n) s1 = Run.ret (false, s2) →
      input_loop x env fuel root ss count s = Run.ret s2 := by
  intro n
  induction n with
  | zero =>
    intro count s s1 s2 hit hn hs
    unfold input_iter at hit
    cases hit
    obtain ⟨c, rfl⟩ : ∃ c, count = c + 1 := ⟨count - 1, by omega⟩
    rw [Nat.sub_zero] at hs
    unfold input_loop
    rw [hs]
  | succ n ih =>
    intro count s s1 s2 hit hn hs
    obtain ⟨c, rfl⟩ : ∃ c, count = c + 1 := ⟨count - 1, by omega⟩
    unfold input_iter at hit
    split at hit
    · rename_i s3 hs3
      rw [Nat.add_sub_cancel] at hit
      have e : c + 1 - (n + 1) = c - n := by omega
      rw [e] at hs
      have := ih c s3 s1 s2 hit (by omega) hs
      unfold input_loop
      rw [hs3]
      exact this
    · cases hit

theorem input_tree_of_loop (k : Consts) (x : InputExt) (env : InputEnv) (fuel : Nat)
    (dir : List Nat) (h : Heap) (approx mpl root : Nat) (s : InState)
    (ho : env.open_status = 0) (hl : env.lseek_ret = none) (hm : env.mmap_ret = none)
    (hc : env.close_ret = none)
    (hhd : (input_header k dir approx mpl).status ≠ EINVAL)
    (hloop : input_loop x env fuel root (input_header k dir approx mpl).string_space
      (input_header k dir approx mpl).count
      (input_init k (input_header k dir approx mpl).status dir h root) = Run.ret s) :
    ∃ r, waa__input_tree k x env fuel dir h approx mpl root = Run.ret r ∧
      (s.status ≠ 0 → r.status = s.status) ∧ r.nloaded = s.nloaded := by
  unfold waa__input_tree
  have hne : ((0 : Int) = ENOENT) = False := by simp [ENOENT]
  simp only [ho, hl, hm, hc, hne, if_false, ne_eq, not_true_eq_false, hhd, hloop]
  refine ⟨_, rfl, ?_, rfl⟩
  intro hs
  simp only [hs, if_false]

theorem resolve_parent_checked (root stat_mem p cur : Nat) (h : p = 1 ∨ p - 2 < cur) :
    resolve_parent root stat_mem p cur
      = Run.ret (resolve_parent_unchecked root stat_mem p) := by
  unfold resolve_parent resolve_parent_unchecked
  by_cases hp : p = 1
  · rw [if_pos hp, if_pos hp]
  · rw [if_neg hp, if_neg hp, if_neg (by omega)]

theorem input_attach_unchecked_eq (fuel root : Nat) (s : InState) (h1 : Heap)
    (cur sts p : Nat) (h : p = 1 ∨ p - 2 < cur) :
    input_attach_unchecked fuel root s h1 sts p = input_attach fuel root s h1 cur sts p := by
  unfold input_attach_unchecked input_attach
  rw [resolve_parent_checked root s.stat_mem p cur h]

theorem input_link_unchecked_eq (x : InputExt) (env : InputEnv) (fuel root ss : Nat)
    (s : InState) (sts : Nat) (fn : CStr) (p : Nat)
    (hv : parent_invalid p s.first s.cur = false) :
    input_link_unchecked x env fuel root ss s sts fn p
      = input_link x env fuel root ss s sts fn p := by
  unfold input_link_unchecked input_link
  by_cases hp : p ≠ 0
  · have hcur : p = 1 ∨ p - 2 < (if s.first = true then s.cur else s.cur + 1) := by
      unfold parent_invalid at hv
      simp only [Bool.or_eq_false_iff, Bool.and_eq_false_iff, bne_eq_false_iff_eq,
        beq_eq_false_iff_ne, decide_eq_false_iff_not, Bool.not_eq_false', ne_eq] at hv
      obtain ⟨⟨h1, _⟩, h3⟩ := hv
      have hf : s.first = false := by
        rcases h1 with h1 | h1
        · exact absurd h1 hp
        · exact h1
      rw [hf]
      simp only [Bool.false_eq_true, if_false]
      rcases h3 with h3 | h3
      · exact absurd h3 hp
      · omega
    simp only [if_pos hp]
    rw [input_attach_unchecked_eq fuel root s _ _ sts p hcur]
  · simp only [if_neg hp]

theorem input_step_unchecked_eq (x : InputExt) (env : InputEnv) (fuel root ss count : Nat)
    (s : InState) :
    input_step_unchecked x env fuel root ss count s = input_step x env fuel root ss count s := by
  unfold input_step_unchecked input_step
  cases s.dir_curr with
  | nil => rfl
  | cons c cs =>
    simp only []
    split_ifs with h1 h2
    · rfl
    · rfl
    · rw [input_link_unchecked_eq x env fuel root ss _ _ _ _ (by simpa using h2)]

theorem input_loop_unchecked_eq (x : InputExt) (env : InputEnv) (fuel root ss : Nat) :
    ∀ (count : Nat) (s : InState),
      input_loop_unchecked x env fuel root ss count s = input_loop x env fuel root ss count s := by
  intro count
  induction count with
  | zero =>
    intro s
    rfl
  | succ c ih =>
    intro s
    rw [input_loop_unchecked, input_loop, input_step_unchecked_eq]
    cases input_step x env fuel root ss (c + 1) s with
    | bug => rfl
    | fuel => rfl
    | ret p =>
      obtain ⟨b, s1⟩ := p
      cases b with
      | true => exact ih s1
      | false => rfl

theorem input_tree_unchecked_eq (k : Consts) (x : InputExt) (env : InputEnv) (fuel : Nat)
    (dir : List Nat) (h : Heap) (approx mpl root : Nat) :
    waa__input_tree_unchecked k x env fuel dir h approx mpl root
      = waa__input_tree k x env fuel dir h approx mpl root := by
  unfold waa__input_tree_unchecked waa__input_tree
  simp only [input_loop_unchecked_eq]

/-- C8: the parent index check of `waa__input_tree`, for a dir-file that was
opened and mapped and has a sound header. When the first `n` records were read
and taken, the header announces more, and `ops__load_1entry` succeeds on the
record number `k = n+1` with the parent index `p`: if `p` is not allowed for
`k` (allowed are `p = 0` for `k = 1` and `1 <= p < k` for `k >= 2`),
`waa__input_tree` returns the tree-damaged error `EINVAL`, after `k` calls of
`ops__load_1entry`; if it is allowed, the check passes, the iteration goes on
with the linking, and there the `BUG_ON(i >= cur)` does not fire: the parent
pointer is `root` for `p = 1` and `stat_mem + (p-2)` otherwise. So a run that
returns `0` has found `p` allowed. And for every dir-file and system,
`waa__input_tree` without the `BUG_ON(i >= cur)` does the same as
`waa__input_tree`: this `BUG_ON` never fires. -/
theorem input_tree_parent_check (k : Consts) (x : InputExt) (env : InputEnv)
    (fuel : Nat) (dir : List Nat) (h : Heap) (approx mpl root n : Nat) (s : InState)
    (e : estat) (fn : CStr) (p : Nat) (rest : List Nat)
    (ho : env.open_status = 0) (hl : env.lseek_ret = none) (hm : env.mmap_ret = none)
    (hc : env.close_ret = none)
    (hhd : (input_header k dir approx mpl).status ≠ EINVAL)
    (hn : n < (input_header k dir approx mpl).count)
    (hit : input_iter x env fuel root (input_header k dir approx mpl).string_space
        n (input_header k dir approx mpl).count
        (input_init k (input_header k dir approx mpl).status dir h root) = some s)
    (hcur : s.dir_curr ≠ [])
    (hload : x.ops__load_1entry
        (input_alloc env ((input_header k dir approx mpl).count - n) s).dir_curr
        ((input_alloc env ((input_header k dir approx mpl).count - n) s).heap
          (input_sts root (input_alloc env ((input_header k dir approx mpl).count - n) s)))
      = (0, e, fn, p, rest)) :
    s.nloaded = n ∧
    (¬ ParentOK (n + 1) p →
      ∃ r, waa__input_tree k x env fuel dir h approx mpl root = Run.ret r ∧
        r.status = EINVAL ∧ r.nloaded = n + 1) ∧
    (ParentOK (n + 1) p →
      (p ≠ 0 → ∀ stat_mem,
        resolve_parent root stat_mem p (if s.first then s.cur else s.cur + 1)
          = Run.ret (if p = 1 then root else stat_mem + (p - 2))) ∧
      input_step x env fuel root (input_header k dir approx mpl).string_space
          ((input_header k dir approx mpl).count - n) s =
        (match input_link x env fuel root (input_header k dir approx mpl).string_space
            { input_alloc env ((input_header k dir approx mpl).count - n) s with
              status := 0
              heap := (input_alloc env ((input_header k dir approx mpl).count - n) s).heap.set
                (input_sts root (input_alloc env ((input_header k dir approx mpl).count - n) s)) e
              dir_curr := rest
              nloaded := s.nloaded + 1 }
            (input_sts root (input_alloc env ((input_header k dir approx mpl).count - n) s))
            fn p with
          | Run.ret s4 => Run.ret (decide (s4.status = 0), s4)
          | Run.bug => Run.bug
          | Run.fuel => Run.fuel)) ∧
    (∀ r, waa__input_tree k x env fuel dir h approx mpl root = Run.ret r → r.status = 0 →
      ParentOK (n + 1) p) ∧
    (∀ (k1 : Consts) (x1 : InputExt) (env1 : InputEnv) (fuel1 : Nat) (dir1 : List Nat)
      (h1 : Heap) (a1 m1 root1 : Nat),
      waa__input_tree_unchecked k1 x1 env1 fuel1 dir1 h1 a1 m1 root1
        = waa__input_tree k1 x1 env1 fuel1 dir1 h1 a1 m1 root1) := by
  generalize hhdr : input_header k dir approx mpl = hd at *
  have hinv0 : CounterInv (input_init k hd.status dir h root) := Or.inl ⟨rfl, rfl, rfl⟩
  obtain ⟨hinv, hnl⟩ := input_iter_counters x env fuel root hd.string_space n hd.count _ s
    hinv0 hit
  have hnl0 : s.nloaded = n := by
    rw [hnl]
    simp [input_init]
  obtain ⟨_, hbad, hok⟩ := input_step_parent_check k x env fuel root hd.string_space
    (hd.count - n) s e fn p rest hinv hcur hload
  rw [hnl0] at hbad
  have hreject : ¬ ParentOK (n + 1) p →
      ∃ r, waa__input_tree k x env fuel dir h approx mpl root = Run.ret r ∧
        r.status = EINVAL ∧ r.nloaded = n + 1 := by
    intro hb
    obtain ⟨s1, hs1, hst, hn1⟩ := hbad hb
    have hloop := input_loop_exit x env fuel root hd.string_space n hd.count _ s s1 hit hn hs1
    rw [← hhdr] at hloop hhd
    obtain ⟨r, hr, hrs, hrn⟩ := input_tree_of_loop k x env fuel dir h approx mpl root s1
      ho hl hm hc hhd hloop
    refine ⟨r, hr, ?_, by rw [hrn, hn1]⟩
    rw [hrs (by rw [hst]; decide), hst]
  refine ⟨hnl0, hreject, ?_, ?_, ?_⟩
  · intro hp
    obtain ⟨h1, h2, _⟩ := hok (by rw [hnl0]; exact hp)
    exact ⟨h1, h2⟩
  · intro r hr hr0
    by_contra hb
    obtain ⟨r1, hr1, hst, _⟩ := hreject hb
    rw [hr] at hr1
    have := Run.ret.inj hr1
    rw [this, hst] at hr0
    exact absurd hr0 (by decide)
  · intro k1 x1 env1 fuel1 dir1 h1 a1 m1 root1
    exact input_tree_unchecked_eq k1 x1 env1 fuel1 dir1 h1 a1 m1 root1

theorem eq_some_getD {α : Type} (o : Option α) (d : α) (h : o.isSome = true) :
    o = some (o.getD d) := by
  cases o with
  | none => cases h
  | some a => rfl

/-- Example for C8: the dir-file whose second record names itself as parent
(`p = 2` for `k = 2`) is refused with `EINVAL` after two calls of
`ops__load_1entry`. -/
theorem input_tree_parent_check_witness :
    ¬ ParentOK 2 2 ∧
    ∃ r, waa__input_tree demo_consts demo_in demo_in_env 4 demo_dir_file_selfref
        (fun _ => default) 0 0 500 = Run.ret r ∧
      r.status = EINVAL ∧ r.nloaded = 2 := by
  have hsome : (input_iter demo_in demo_in_env 4 500 (input_header demo_consts demo_dir_file_selfref 0 0).string_space 1
      (input_header demo_consts demo_dir_file_selfref 0 0).count
      (input_init demo_consts (input_header demo_consts demo_dir_file_selfref 0 0).status
        demo_dir_file_selfref (fun _ => default) 500)).isSome = true := by decide!
  have hbad : ¬ ParentOK (1 + 1) 2 := by
    unfold ParentOK
    omega
  have hl1 : (demo_in.ops__load_1entry (input_alloc demo_in_env ((input_header demo_consts demo_dir_file_selfref 0 0).count - 1)
      (Option.getD (input_iter demo_in demo_in_env 4 500 (input_header demo_consts demo_dir_file_selfref 0 0).string_space 1
      (input_header demo_consts demo_dir_file_selfref 0 0).count
      (input_init demo_consts (input_header demo_consts demo_dir_file_selfref 0 0).status
        demo_dir_file_selfref (fun _ => default) 500)) demo_in_state)).dir_curr
      ((input_alloc demo_in_env ((input_header demo_consts demo_dir_file_selfref 0 0).count - 1)
      (Option.getD (input_iter demo_in demo_in_env 4 500 (input_header demo_consts demo_dir_file_selfref 0 0).string_space 1
      (input_header demo_consts demo_dir_file_selfref 0 0).count
      (input_init demo_consts (input_header demo_consts demo_dir_file_selfref 0 0).status
        demo_dir_file_selfref (fun _ => default) 500)) demo_in_state)).heap (input_sts 500 (input_alloc demo_in_env ((input_header demo_consts demo_dir_file_selfref 0 0).count - 1)
      (Option.getD (input_iter demo_in demo_in_env 4 500 (input_header demo_consts demo_dir_file_selfref 0 0).string_space 1
      (input_header demo_consts demo_dir_file_selfref 0 0).count
      (input_init demo_consts (input_header demo_consts demo_dir_file_selfref 0 0).status
        demo_dir_file_selfref (fun _ => default) 500)) demo_in_state))))).1 = 0 := by decide!
  have hl2 : (demo_in.ops__load_1entry (input_alloc demo_in_env ((input_header demo_consts demo_dir_file_selfref 0 0).count - 1)
      (Option.getD (input_iter demo_in demo_in_env 4 500 (input_header demo_consts demo_dir_file_selfref 0 0).string_space 1
      (input_header demo_consts demo_dir_file_selfref 0 0).count
      (input_init demo_consts (input_header demo_consts demo_dir_file_selfref 0 0).status
        demo_dir_file_selfref (fun _ => default) 500)) demo_in_state)).dir_curr
      ((input_alloc demo_in_env ((input_header demo_consts demo_dir_file_selfref 0 0).count - 1)
      (Option.getD (input_iter demo_in demo_in_env 4 500 (input_header demo_consts demo_dir_file_selfref 0 0).string_space 1
      (input_header demo_consts demo_dir_file_selfref 0 0).count
      (input_init demo_consts (input_header demo_consts demo_dir_file_selfref 0 0).status
        demo_dir_file_selfref (fun _ => default) 500)) demo_in_state)).heap (input_sts 500 (input_alloc demo_in_env ((input_header demo_consts demo_dir_file_selfref 0 0).count - 1)
      (Option.getD (input_iter demo_in demo_in_env 4 500 (input_header demo_consts demo_dir_file_selfref 0 0).string_space 1
      (input_header demo_consts demo_dir_file_selfref 0 0).count
      (input_init demo_consts (input_header demo_consts demo_dir_file_selfref 0 0).status
        demo_dir_file_selfref (fun _ => default) 500)) demo_in_state))))).2.2.2.1 = 2 := by decide!
  have hcur : (Option.getD (input_iter demo_in demo_in_env 4 500 (input_header demo_consts demo_dir_file_selfref 0 0).string_space 1
      (input_header demo_consts demo_dir_file_selfref 0 0).count
      (input_init demo_consts (input_header demo_consts demo_dir_file_selfref 0 0).status
        demo_dir_file_selfref (fun _ => default) 500)) demo_in_state).dir_curr ≠ [] := by decide!
  have hhd : (input_header demo_consts demo_dir_file_selfref 0 0).status ≠ EINVAL := by decide!
  have hn : 1 < (input_header demo_consts demo_dir_file_selfref 0 0).count := by decide!
  exact ⟨hbad, (input_tree_parent_check demo_consts demo_in demo_in_env 4
    demo_dir_file_selfref (fun _ => default) 0 0 500 1
    (Option.getD (input_iter demo_in demo_in_env 4 500 (input_header demo_consts demo_dir_file_selfref 0 0).string_space 1
      (input_header demo_consts demo_dir_file_selfref 0 0).count
      (input_init demo_consts (input_header demo_consts demo_dir_file_selfref 0 0).status
        demo_dir_file_selfref (fun _ => default) 500)) demo_in_state)
    (demo_in.ops__load_1entry (input_alloc demo_in_env ((input_header demo_consts demo_dir_file_selfref 0 0).count - 1)
      (Option.getD (input_iter demo_in demo_in_env 4 500 (input_header demo_consts demo_dir_file_selfref 0 0).string_space 1
      (input_header demo_consts demo_dir_file_selfref 0 0).count
      (input_init demo_consts (input_header demo_consts demo_dir_file_selfref 0 0).status
        demo_dir_file_selfref (fun _ => default) 500)) demo_in_state)).dir_curr
      ((input_alloc demo_in_env ((input_header demo_consts demo_dir_file_selfref 0 0).count - 1)
      (Option.getD (input_iter demo_in demo_in_env 4 500 (input_header demo_consts demo_dir_file_selfref 0 0).string_space 1
      (input_header demo_consts demo_dir_file_selfref 0 0).count
      (input_init demo_consts (input_header demo_consts demo_dir_file_selfref 0 0).status
        demo_dir_file_selfref (fun _ => default) 500)) demo_in_state)).heap (input_sts 500 (input_alloc demo_in_env ((input_header demo_consts demo_dir_file_selfref 0 0).count - 1)
      (Option.getD (input_iter demo_in demo_in_env 4 500 (input_header demo_consts demo_dir_file_selfref 0 0).string_space 1
      (input_header demo_consts demo_dir_file_selfref 0 0).count
      (input_init demo_consts (input_header demo_consts demo_dir_file_selfref 0 0).status
        demo_dir_file_selfref (fun _ => default) 500)) demo_in_state))))).2.1
    (demo_in.ops__load_1entry (input_alloc demo_in_env ((input_header demo_consts demo_dir_file_selfref 0 0).count - 1)
      (Option.getD (input_iter demo_in demo_in_env 4 500 (input_header demo_consts demo_dir_file_selfref 0 0).string_space 1
      (input_header demo_consts demo_dir_file_selfref 0 0).count
      (input_init demo_consts (input_header demo_consts demo_dir_file_selfref 0 0).status
        demo_dir_file_selfref (fun _ => default) 500)) demo_in_state)).dir_curr
      ((input_alloc demo_in_env ((input_header demo_consts demo_dir_file_selfref 0 0).count - 1)
      (Option.getD (input_iter demo_in demo_in_env 4 500 (input_header demo_consts demo_dir_file_selfref 0 0).string_space 1
      (input_header demo_consts demo_dir_file_selfref 0 0).count
      (input_init demo_consts (input_header demo_consts demo_dir_file_selfref 0 0).status
        demo_dir_file_selfref (fun _ => default) 500)) demo_in_state)).heap (input_sts 500 (input_alloc demo_in_env ((input_header demo_consts demo_dir_file_selfref 0 0).count - 1)
      (Option.getD (input_iter demo_in demo_in_env 4 500 (input_header demo_consts demo_dir_file_selfref 0 0).string_space 1
      (input_header demo_consts demo_dir_file_selfref 0 0).count
      (input_init demo_consts (input_header demo_consts demo_dir_file_selfref 0 0).status
        demo_dir_file_selfref (fun _ => default) 500)) demo_in_state))))).2.2.1
    2
    (demo_in.ops__load_1entry (input_alloc demo_in_env ((input_header demo_consts demo_dir_file_selfref 0 0).count - 1)
      (Option.getD (input_iter demo_in demo_in_env 4 500 (input_header demo_consts demo_dir_file_selfref 0 0).string_space 1
      (input_header demo_consts demo_dir_file_selfref 0 0).count
      (input_init demo_consts (input_header demo_consts demo_dir_file_selfref 0 0).status
        demo_dir_file_selfref (fun _ => default) 500)) demo_in_state)).dir_curr
      ((input_alloc demo_in_env ((input_header demo_consts demo_dir_file_selfref 0 0).count - 1)
      (Option.getD (input_iter demo_in demo_in_env 4 500 (input_header demo_consts demo_dir_file_selfref 0 0).string_space 1
      (input_header demo_consts demo_dir_file_selfref 0 0).count
      (input_init demo_consts (input_header demo_consts demo_dir_file_selfref 0 0).status
        demo_dir_file_selfref (fun _ => default) 500)) demo_in_state)).heap (input_sts 500 (input_alloc demo_in_env ((input_header demo_consts demo_dir_file_selfref 0 0).count - 1)
      (Option.getD (input_iter demo_in demo_in_env 4 500 (input_header demo_consts demo_dir_file_selfref 0 0).string_space 1
      (input_header demo_consts demo_dir_file_selfref 0 0).count
      (input_init demo_consts (input_header demo_consts demo_dir_file_selfref 0 0).status
        demo_dir_file_selfref (fun _ => default) 500)) demo_in_state))))).2.2.2.2
    rfl rfl rfl rfl hhd hn (eq_some_getD _ _ hsome) hcur
    (Prod.ext hl1 (Prod.ext rfl (Prod.ext rfl (Prod.ext hl2 rfl))))).2.1 hbad⟩

theorem strip_trailing_seps_concat_sep (p : CStr) (hp : p ≠ []) :
    strip_trailing_seps (p ++ [PATH_SEPARATOR]) = strip_trailing_seps p := by
  cases p with
  | nil => exact absurd rfl hp
  | cons c cs =>
    show c :: ((cs ++ [PATH_SEPARATOR]).reverse.dropWhile _).reverse = _
    rw [List.reverse_append]
    simp only [List.reverse_cons, List.reverse_nil, List.nil_append, List.singleton_append,
      List.dropWhile_cons, beq_self_eq_true, if_true]
    rfl

theorem strip_trailing_seps_keep (p : CStr)
    (h : p.length ≤ 1 ∨ p.at (p.length - 1) ≠ PATH_SEPARATOR) :
    strip_trailing_seps p = p := by
  cases p with
  | nil => rfl
  | cons c cs =>
    rcases List.eq_nil_or_concat cs with h0 | ⟨pre, b, hb⟩
    · rw [h0]
      rfl
    · rw [List.concat_eq_append] at hb
      rw [hb] at h ⊢
      have hb2 : b ≠ PATH_SEPARATOR := by
        rcases h with h | h
        · simp at h
        · unfold CStr.at at h
          simpa using h
      show c :: ((pre ++ [b]).reverse.dropWhile _).reverse = _
      rw [List.reverse_append]
      simp only [List.reverse_cons, List.reverse_nil, List.nil_append, List.singleton_append,
        List.dropWhile_cons]
      rw [if_neg (by simpa using hb2)]
      simp

theorem strip_plen_take (path : CStr) :
    ∀ n, n ≤ path.length →
      path.take (strip_plen path n) = strip_trailing_seps (path.take n) := by
  intro n
  induction n with
  | zero =>
    intro _
    rfl
  | succ n ih =>
    intro hn
    have hget : path.take (n + 1) = path.take n ++ [path.at n] := by
      unfold CStr.at
      rw [List.take_succ, List.getD_eq_getElem?_getD, List.getElem?_eq_getElem (by omega)]
      rfl
    unfold strip_plen
    by_cases hc : n + 1 > 1 ∧ path.at n = PATH_SEPARATOR
    · rw [if_pos hc, ih (by omega), hget, hc.2]
      symm
      apply strip_trailing_seps_concat_sep
      intro he
      have := congrArg List.length he
      rw [List.length_take, List.length_nil] at this
      omega
    · rw [if_neg hc]
      symm
      apply strip_trailing_seps_keep
      rw [List.length_take, Nat.min_eq_left hn]
      by_cases h1 : n + 1 ≤ 1
      · exact Or.inl h1
      · right
        have hne : path.at n ≠ PATH_SEPARATOR := fun h => hc ⟨by omega, h⟩
        have hl : (List.take n path).length = n := by
          rw [List.length_take]
          omega
        rw [hget, Nat.add_sub_cancel]
        unfold CStr.at at hne ⊢
        have := getD_append_last (List.take n path) (path.getD n 0)
        rw [hl] at this
        rw [this]
        exact hne

theorem hashed_bytes_eq (sr : SoftRoot) (path : CStr) :
    hashed_bytes sr path = match sr.str with
      | none => strip_trailing_seps path
      | some R => if strncmp_eq R path sr.int then path.drop sr.int else path := by
  unfold hashed_bytes
  cases sr.str with
  | none =>
    simp only []
    rw [strip_plen_take path path.length (le_refl _), List.take_length]
  | some R =>
    simp only [List.take_length]

theorem strncmp_eq_take (R path : CStr) :
    strncmp_eq R path R.length = R.isPrefixOf path := by
  unfold strncmp_eq
  rw [List.take_length]
  by_cases h : R <+: path
  · rw [List.isPrefixOf_iff_prefix.mpr h]
    rw [decide_eq_true_eq]
    exact (List.prefix_iff_eq_take.mp h)
  · have h2 : R.isPrefixOf path = false := by
      cases hh : R.isPrefixOf path with
      | false => rfl
      | true => exact absurd (List.isPrefixOf_iff_prefix.mp hh) h
    rw [h2, decide_eq_false_iff_not]
    intro he
    apply h
    rw [he]
    exact List.take_prefix _ _

theorem get_waa_directory_hashed (env : WaaDirEnv) (path : CStr) (flags : GwdFlags)
    (r : WaaDir) (h : waa__get_waa_directory env path flags = Run.ret r)
    (hs : r.status = 0) :
    r.hashed = hashed_bytes env.softroot (absolute_path env path) := by
  unfold waa__get_waa_directory at h
  unfold absolute_path
  by_cases ha : path.at 0 ≠ PATH_SEPARATOR
  · rw [if_pos ha] at h ⊢
    by_cases hc : env.waa__save_cwd.1 ≠ 0
    · rw [if_pos hc] at h
      simp only [] at h
      rw [if_pos hc] at h
      cases h
      exact absurd hs hc
    · rw [if_neg hc] at h
      simp only [ne_eq, not_true_eq_false, if_false] at h
      split at h
      · cases h
      · split_ifs at h <;> (cases h; rfl)
  · rw [if_neg ha] at h ⊢
    simp only [ne_eq, not_true_eq_false, if_false] at h
    split at h
    · cases h
    · split_ifs at h <;> (cases h; rfl)

/-- C13: for the flag `GWD_WAA` and every path, `waa__get_waa_directory`
returns; when its status is zero, `*erg` is the WAA root (which
`waa___init_path` ends in a separator), two hex digits of `d[0]`, a separator,
two hex digits of `d[1]`, a separator, the 28 hex digits of `d[2..15]` and a
separator, with `d` the digest of the hashed bytes; `*start_of_spec` is the
offset of the first hex digit and `*eos` the end of the string. For an
absolute path without `GWD_MKDIR` the status is zero. The hashed bytes are:
without a soft-root, the absolute path with the separators at its end
dropped, which is the normalized path; with a soft-root, the absolute path
without the soft-root if it starts with it, and with the separators at its
end kept, so that the normalized path is the hashed bytes only after the
separators at their end are dropped. -/
theorem get_waa_directory_layout (env : WaaDirEnv) (src path : CStr) (flags : GwdFlags)
    (hroot : env.waa_tmp_path = waa___init_path env.softroot src)
    (hmd5 : ∀ data, (env.apr_md5 data).length = APR_MD5_DIGESTSIZE)
    (hw : flags.waa = true) :
    ∃ r, waa__get_waa_directory env path flags = Run.ret r ∧
      (∃ pre, env.waa_tmp_path = pre ++ [PATH_SEPARATOR]) ∧
      (path.at 0 = PATH_SEPARATOR → flags.mkdir = false → r.status = 0) ∧
      (r.status = 0 → ∃ d0 d1 rest,
        env.apr_md5 r.hashed = d0 :: d1 :: rest ∧
        r.erg = env.waa_tmp_path ++ Mbin2hex [d0] ++ [PATH_SEPARATOR] ++ Mbin2hex [d1] ++
          [PATH_SEPARATOR] ++ Mbin2hex rest ++ [PATH_SEPARATOR] ∧
        (Mbin2hex [d0]).length = 2 ∧ (Mbin2hex [d1]).length = 2 ∧
        (Mbin2hex rest).length = 28 ∧
        r.start_of_spec = env.waa_tmp_path.length ∧ r.eos = r.erg.length) ∧
      (r.status = 0 →
        r.hashed = (match env.softroot.str with
          | none => strip_trailing_seps (absolute_path env path)
          | some R =>
            if strncmp_eq R (absolute_path env path) env.softroot.int
            then (absolute_path env path).drop env.softroot.int
            else absolute_path env path) ∧
        (env.softroot.str = none →
          r.hashed = normalized_path env.softroot (absolute_path env path)) ∧
        (∀ R, env.softroot = ⟨some R, R.length⟩ →
          normalized_path env.softroot (absolute_path env path)
            = strip_trailing_seps r.hashed)) := by
  obtain ⟨r, hr, h1, h2, h3⟩ := get_waa_directory_erg env src path flags hroot hmd5 hw
  refine ⟨r, hr, h1, h2, h3, ?_⟩
  intro hs
  have hh := get_waa_directory_hashed env path flags r hr hs
  rw [hashed_bytes_eq] at hh
  refine ⟨hh, ?_, ?_⟩
  · intro hn
    rw [hh]
    unfold normalized_path
    rw [hn]
  · intro R hR
    rw [hh]
    unfold normalized_path
    rw [hR]
    simp only []
    rw [strncmp_eq_take]

/-- Example for C13: with the soft-root `/mnt` and the WAA `/mnt/W`, the path
`/mnt/wc/` gets a directory of 2, 2 and 28 hex digits below the WAA, but the
bytes hashed are `/wc/`, while the normalized path is `/wc`. -/
theorem get_waa_directory_layout_witness :
    ∃ r, waa__get_waa_directory demo_waa_mnt [47, 109, 110, 116, 47, 119, 99, 47]
        ⟨true, false, false⟩ = Run.ret r ∧
      r.status = 0 ∧ r.start_of_spec = 7 ∧ r.eos = 42 ∧ r.erg.length = 42 ∧
      r.hashed = [47, 119, 99, 47] ∧
      normalized_path demo_waa_mnt.softroot
        (absolute_path demo_waa_mnt [47, 109, 110, 116, 47, 119, 99, 47]) = [47, 119, 99] := by
  obtain ⟨r, h, _, hs, hl, hh⟩ := get_waa_directory_layout demo_waa_mnt
    [47, 109, 110, 116, 47, 87] [47, 109, 110, 116, 47, 119, 99, 47]
    ⟨true, false, false⟩ (by decide)
    (fun data => by simp [demo_waa_mnt, demo_waa, APR_MD5_DIGESTSIZE]) rfl
  have h0 := hs (by decide) rfl
  obtain ⟨d0, d1, rest, _, he, l0, l1, l2, hss, heos⟩ := hl h0
  have hlen : r.erg.length = 42 := by
    rw [he]
    simp only [List.length_append, l0, l1, l2, List.length_cons, List.length_nil]
    rfl
  exact ⟨r, h, h0, hss, heos.trans hlen, hlen, (hh h0).1.trans (by decide), by decide⟩

theorem find_common_base_of_start (x : BaseExt) (args : List CStr) (b : CStr) (len2 : Nat)
    (status : Int) (base : CStr) (len3 : Nat) (log : List CStr)
    (hs : find_base_start x args = Run.ret (b, len2))
    (hl : find_base_loop x (len2 + 1) b len2 [] = Run.ret (status, base, len3, log)) :
    ∃ r, waa__find_common_base x args = Run.ret r ∧
      (status ≠ 0 → r.status = status ∧ r.wc_path = none ∧ r.normalized = none) ∧
      (status = 0 → r.wc_path = some base ∧
        r.status = (match x.chdir base with
          | some e => e
          | none => x.load_conf base)) := by
  unfold find_base_start at hs
  unfold waa__find_common_base
  simp only [] at hs ⊢
  split at hs
  · rename_i len1 hcut
    try rw [hcut]
    try simp only []
    have e := Prod.mk.inj (Run.ret.inj hs)
    rw [e.1, e.2, hl]
    simp only []
    by_cases h0 : status ≠ 0
    · rw [if_pos h0]
      exact ⟨_, rfl, fun _ => ⟨rfl, rfl, rfl⟩, fun h => absurd h h0⟩
    · rw [if_neg h0]
      cases hc : x.chdir base with
      | some e1 =>
        exact ⟨_, rfl, fun h => absurd h h0, fun _ => ⟨rfl, rfl⟩⟩
      | none =>
        simp only []
        by_cases hcf : x.load_conf base ≠ 0
        · rw [if_pos hcf]
          exact ⟨_, rfl, fun h => absurd h h0, fun _ => ⟨rfl, rfl⟩⟩
        · rw [if_neg hcf]
          exact ⟨_, rfl, fun h => absurd h h0, fun _ => ⟨rfl, (not_not.mp hcf).symm⟩⟩
  · cases hs
  · cases hs

/-- C17: where the claim fails. `/wc/a` is registered and is the only
argument, so the search of step 4 stops at once with the base `/wc/a`; but
`chdir` fails with `EACCES`, and `waa__find_common_base` returns `EACCES`. -/
theorem find_common_base_chdir_status :
    demo_base.probe path_wc_a = 0 ∧
    waa__find_common_base { demo_base with chdir := fun _ => some EACCES } [path_wc_a]
      = Run.ret ⟨EACCES, some path_wc_a, 5, none⟩ ∧ EACCES ≠ 0 := by
  refine ⟨by decide, by decide, by decide⟩

/-- C17, amended: when steps 1 to 3 of `waa__find_common_base` yield the
common base with the components `cs` (a normalized absolute path), the search
of step 4 returns; it has given to `waa__open`, in this order, the common base
and its parent directories towards `/` (no directory twice), up to the first
for which `waa__open` returned `0`, or all of them including `/`. The base
left is the last directory probed, so when the search ends with `0` no deeper
directory is registered, and it ends with another status only if `/` was
probed as well and none is registered. `waa__find_common_base` returns: after
a search that ended with a non-zero status this status, with `wc_path` not
set; else, with `wc_path` the base found, the `errno` of a failed `chdir`, or
else the status of loading the configuration of the working copy. So a
non-zero status means that no candidate is registered, or that `chdir` failed,
or that the configuration could not be loaded. -/
theorem find_common_base_search (x : BaseExt) (args : List CStr) (cs : List CStr)
    (hok : components_ok cs)
    (hstart : find_base_start x args = Run.ret (path_of cs, (path_of cs).length)) :
    ∃ status base len log r,
      find_base_loop x ((path_of cs).length + 1) (path_of cs) (path_of cs).length []
        = Run.ret (status, base, len, log) ∧
      SearchSpec x.probe (ancestors cs) status base log ∧ (ancestors cs).Nodup ∧
      waa__find_common_base x args = Run.ret r ∧
      (status ≠ 0 → r.status = status ∧ r.wc_path = none ∧
        ∀ p ∈ ancestors cs, x.probe p ≠ 0) ∧
      (status = 0 → r.wc_path = some base ∧
        r.status = (match x.chdir base with
          | some e => e
          | none => x.load_conf base)) ∧
      (r.status ≠ 0 → (∀ p ∈ ancestors cs, x.probe p ≠ 0) ∨ x.chdir base ≠ none ∨
        x.load_conf base ≠ 0) := by
  obtain ⟨status, base, len, log, hl, hs, hnd⟩ := find_base_loop_search x cs hok
  obtain ⟨r, hr, h1, h2⟩ := find_common_base_of_start x args _ _ status base len log hstart hl
  have hnone : status ≠ 0 → ∀ p ∈ ancestors cs, x.probe p ≠ 0 := by
    intro h0 p hp
    obtain ⟨k, hk, _, hget, hst, hbefore, hlast⟩ := hs
    have hk1 := hlast h0
    obtain ⟨i, hi, e⟩ := List.mem_iff_getElem.1 hp
    by_cases hik : i < k
    · apply hbefore
      rw [← e]
      exact List.mem_iff_getElem.2 ⟨i, by rw [List.length_take]; omega, by
        rw [List.getElem_take]⟩
    · have : i = k := by omega
      subst this
      rw [List.get?_eq_getElem?, List.getElem?_eq_getElem hi] at hget
      have hb : (ancestors cs)[i] = base := Option.some.inj hget
      rw [← e, hb, ← hst]
      exact h0
  refine ⟨status, base, len, log, r, hl, hs, hnd, hr, ?_, h2, ?_⟩
  · intro h0
    exact ⟨(h1 h0).1, (h1 h0).2.1, hnone h0⟩
  · intro hr0
    by_cases h0 : status = 0
    · right
      obtain ⟨_, hrs⟩ := h2 h0
      cases hc : x.chdir base with
      | some e => exact Or.inl (by simp)
      | none =>
        right
        rw [hc] at hrs
        simp only [] at hrs
        rw [← hrs]
        exact hr0
    · exact Or.inl (hnone h0)

/-- Example for C17: for the argument `/wc/a/b` with `/wc/a` registered, the
candidates are probed in order and `waa__find_common_base` returns `0` with
the base `/wc/a`. -/
theorem find_common_base_search_witness :
    ∃ status base len log r,
      find_base_loop demo_base ((path_of [[119, 99], [97], [98]]).length + 1)
        (path_of [[119, 99], [97], [98]]) (path_of [[119, 99], [97], [98]]).length []
        = Run.ret (status, base, len, log) ∧
      SearchSpec demo_base.probe (ancestors [[119, 99], [97], [98]]) status base log ∧
      waa__find_common_base demo_base [[47, 119, 99, 47, 97, 47, 98]] = Run.ret r ∧
      status = 0 ∧ r.status = 0 ∧ r.wc_path = some path_wc_a ∧
      log = [[47, 119, 99, 47, 97, 47, 98], path_wc_a] := by
  obtain ⟨status, base, len, log, r, h1, h2, _, h4, _, h6, _⟩ :=
    find_common_base_search demo_base [[47, 119, 99, 47, 97, 47, 98]] [[119, 99], [97], [98]]
      (by
        unfold components_ok
        decide)
      (by decide)
  have hrun : find_base_loop demo_base ((path_of [[119, 99], [97], [98]]).length + 1)
      (path_of [[119, 99], [97], [98]]) (path_of [[119, 99], [97], [98]]).length []
      = Run.ret (0, path_wc_a, 5, [[47, 119, 99, 47, 97, 47, 98], path_wc_a]) := by decide
  rw [hrun] at h1
  cases h1
  obtain ⟨hw, hrs⟩ := h6 rfl
  exact ⟨_, _, _, _, r, hrun, h2, h4, rfl, hrs.trans rfl, hw, rfl⟩

end Fsvs
